import Mathlib

/-!
# Dense matrix kernel of opm-porsol: solve, invert, determinant

Shallow embedding of `dune/porsol/blackoil/co2fluid/opm/common/densematrix.hh`
and `precision.hh`.  The scalar type `K` of the C++ templates is instantiated
with the exact field `ℚ`; a matrix is its row count, its column count and its
entries, a vector is its entries.  Methods that mutate `*this` or an output
argument return the final state of that object together with the error that
was thrown, if any.

The repository instantiates `K` with `double`.  Where the behaviour depends on
rounding, infinities or NaN, the same methods are taken over a model of
`double` (section "The kernel over the scalar type double"); the loops with
their counters and a bound on the iterations are in section "The kernel with
explicit loop counters".
-/

namespace Opm

/-! ## Data model -/

/-- The exception class `FMatrixError`; the constructors stand for the
messages the kernel throws it with: "Can't solve for a / Can't invert a /
There is no determinant for a r x c matrix!", "matrix is singular", and
"Index out of range" (the size check of the linear maps). -/
inductive FMatrixError where
  | notSquare
  | singular
  | outOfRange
  deriving DecidableEq, Repr

/-- The class-static state of `FMatrixPrecision` (precision.hh): the three
thresholds `_pivoting`, `_singular`, `_absolute`. -/
structure FMatrixPrecision where
  _pivoting : ℚ
  _singular : ℚ
  _absolute : ℚ

namespace FMatrixPrecision

/-- The values the three static members are initialised with:
`1E-8`, `1E-14`, `1E-80`. -/
def initial : FMatrixPrecision :=
  { _pivoting := 1 / 10 ^ 8, _singular := 1 / 10 ^ 14, _absolute := 1 / 10 ^ 80 }

/-- Threshold to do pivoting. -/
def pivoting_limit (p : FMatrixPrecision) : ℚ := p._pivoting

/-- Threshold to declare a matrix singular. -/
def singular_limit (p : FMatrixPrecision) : ℚ := p._singular

/-- Absolute threshold. -/
def absolute_limit (p : FMatrixPrecision) : ℚ := p._absolute

end FMatrixPrecision

/-- A vector `V` (the `x`, `b` of `solve`): its entries by index. -/
abbrev Vec := Nat → ℚ

/-- Assignment `v[i] = a`. -/
def Vec.set (v : Vec) (i : Nat) (a : ℚ) : Vec :=
  fun k => if k = i then a else v k

/-- A dense matrix: `mat_rows()`, `mat_cols()` and `mat_access(i)[j]`. -/
structure DenseMatrix where
  mat_rows : Nat
  mat_cols : Nat
  mat_access : Nat → Nat → ℚ

namespace DenseMatrix

/-- Number of rows, `rows()`. -/
def rows (A : DenseMatrix) : Nat := A.mat_rows

/-- Number of columns, `cols()`. -/
def cols (A : DenseMatrix) : Nat := A.mat_cols

/-- Read access `A[i][j]`. -/
def get (A : DenseMatrix) (i j : Nat) : ℚ := A.mat_access i j

/-- Write access `A[i][j] = a`. -/
def set (A : DenseMatrix) (i j : Nat) (a : ℚ) : DenseMatrix :=
  { A with mat_access := fun r c => if r = i ∧ c = j then a else A.mat_access r c }

end DenseMatrix

/-! ## Loops -/

/-- The loop `for (i = lo; i < lo + cnt; i++) s = body i s`. -/
def forUp {σ : Type} (lo : Nat) : Nat → (Nat → σ → σ) → σ → σ
  | 0, _, s => s
  | cnt + 1, body, s => body (lo + cnt) (forUp lo cnt body s)

/-- The loop `for (i = n; i > 0; ) { --i; s = body i s }`, which is also
`for (int i = n - 1; i >= 0; i--) s = body i s`. -/
def forDown {σ : Type} : Nat → (Nat → σ → σ) → σ → σ
  | 0, _, s => s
  | n + 1, body, s => forDown n body (body n s)

/-! ## Norms -/

/-- Modelled from the spec: `fvmeta::absreal` of fvector.hh, the real-valued
magnitude of a scalar; for a real scalar it is the absolute value. -/
def absreal (a : ℚ) : ℚ := |a|

/-- Modelled from the spec: `one_norm_real()` of a row (fvector.hh), the sum
of the magnitudes of the entries of row `i`. -/
def one_norm_real (A : DenseMatrix) (i : Nat) : ℚ :=
  forUp 0 A.cols (fun j s => s + absreal (A.get i j)) 0

/-- Simplified infinity norm: the maximum of the rows' `one_norm_real`. -/
def infinity_norm_real (A : DenseMatrix) : ℚ :=
  forUp 0 A.rows (fun i m => max m (one_norm_real A i)) 0

/-! ## Elimination observers -/

/-- The template parameter `Func` of `luDecomposition`: `swap(i, j)` and
`operator()(factor, k, i)`, acting on the object the observer refers to. -/
structure Func (σ : Type) where
  swap : Nat → Nat → σ → σ
  call : ℚ → Nat → Nat → σ → σ

/-- Observer `ElimPivot`: `swap` records `pivot_[i] = j`, `operator()` does
nothing. -/
def ElimPivot : Func (Nat → Nat) :=
  { swap := fun i j pivot_ => fun k => if k = i then j else pivot_ k
    call := fun _ _ _ pivot_ => pivot_ }

/-- Constructor of `ElimPivot` on a vector of `size` entries:
`for (i = 0; i < pivot_.size(); ++i) pivot_[i] = i`. -/
def ElimPivot.init (size : Nat) (pivot : Nat → Nat) : Nat → Nat :=
  forUp 0 size (fun i pivot_ => fun k => if k = i then i else pivot_ k) pivot

/-- Observer `Elim<V>`: `swap` exchanges `rhs[i]` and `rhs[j]`, `operator()`
performs `rhs[k] -= factor * rhs[i]`. -/
def Elim : Func Vec :=
  { swap := fun i j rhs => (rhs.set i (rhs j)).set j (rhs i)
    call := fun factor k i rhs => rhs.set k (rhs k - factor * rhs i) }

/-- Observer `ElimDet`: `swap` performs `sign_ *= -1`, `operator()` does
nothing. -/
def ElimDet : Func ℚ :=
  { swap := fun _ _ sign_ => sign_ * (-1)
    call := fun _ _ _ sign_ => sign_ }

/-- Constructor of `ElimDet`: `sign_ = 1`. -/
def ElimDet.init (_sign : ℚ) : ℚ := 1

/-! ## LU decomposition -/

/-- The pivot search of step `i`:
`for (k = i+1; k < rows; k++) if ((abs = absreal(A[k][i])) > pivmax) { pivmax = abs; imax = k; }`
started from `(pivmax, imax = i)`. -/
def pivotSearch (rows : Nat) (A : DenseMatrix) (i : Nat) (pivmax : ℚ) : ℚ × Nat :=
  forUp (i + 1) (rows - (i + 1))
    (fun k s => if absreal (A.get k i) > s.1 then (absreal (A.get k i), k) else s)
    (pivmax, i)

/-- The row exchange `for (j = 0; j < rows; j++) std::swap(A[i][j], A[imax][j])`. -/
def swapRows (rows : Nat) (A : DenseMatrix) (i imax : Nat) : DenseMatrix :=
  forUp 0 rows (fun j B => (B.set i j (B.get imax j)).set imax j (B.get i j)) A

/-- The body of the elimination loop for row `k` at step `i`. -/
def eliminateRow {σ : Type} (rows : Nat) (F : Func σ) (i k : Nat)
    (s : DenseMatrix × σ) : DenseMatrix × σ :=
  let factor := s.1.get k i / s.1.get i i
  let A1 := s.1.set k i factor
  let A2 := forUp (i + 1) (rows - (i + 1))
    (fun j B => B.set k j (B.get k j - factor * B.get i j)) A1
  (A2, F.call factor k i s.2)

/-- The body of the loop over all rows of `luDecomposition`, for row `i`:
pivot search and row exchange, singularity test, elimination.  The first
component of the result is the exception thrown, if any. -/
def luBody {σ : Type} (rows : Nat) (pivthres singthres : ℚ) (F : Func σ) (i : Nat)
    (s : DenseMatrix × σ) : Option FMatrixError × (DenseMatrix × σ) :=
  let pivmax := absreal (s.1.get i i)
  let t : ℚ × (DenseMatrix × σ) :=
    if pivmax < pivthres then
      let r := pivotSearch rows s.1 i pivmax
      if r.2 ≠ i then (r.1, (swapRows rows s.1 i r.2, F.swap i r.2 s.2))
      else (r.1, s)
    else (pivmax, s)
  if t.1 < singthres then (some FMatrixError.singular, t.2)
  else
    (none, forUp (i + 1) (rows - (i + 1)) (fun k u => eliminateRow rows F i k u) t.2)

/-- The method `luDecomposition(A, func)` of a matrix with `rows` rows: LU
decomposition of `A` in `A`.  Once an exception is thrown the remaining
iterations are not run. -/
def luDecomposition {σ : Type} (p : FMatrixPrecision) (rows : Nat) (A : DenseMatrix)
    (F : Func σ) (func : σ) : Option FMatrixError × (DenseMatrix × σ) :=
  let norm := infinity_norm_real A
  let pivthres := max p.absolute_limit (norm * p.pivoting_limit)
  let singthres := max p.absolute_limit (norm * p.singular_limit)
  forUp 0 rows
    (fun i r => match r.1 with
      | some _ => r
      | none => luBody rows pivthres singthres F i r.2)
    (none, (A, func))

/-! ## determinant -/

/-- The method `determinant()`.  An `FMatrixError` thrown by the dimension
check leaves the method; one thrown by `luDecomposition` is caught and
turned into the result 0. -/
def determinant (p : FMatrixPrecision) (self : DenseMatrix) : Except FMatrixError ℚ :=
  if self.rows ≠ self.cols then Except.error FMatrixError.notSquare
  else if self.rows = 1 then Except.ok (self.get 0 0)
  else if self.rows = 2 then
    Except.ok (self.get 0 0 * self.get 1 1 - self.get 0 1 * self.get 1 0)
  else if self.rows = 3 then
    let t4 := self.get 0 0 * self.get 1 1
    let t6 := self.get 0 0 * self.get 1 2
    let t8 := self.get 0 1 * self.get 1 0
    let t10 := self.get 0 2 * self.get 1 0
    let t12 := self.get 0 1 * self.get 2 0
    let t14 := self.get 0 2 * self.get 2 0
    Except.ok (t4 * self.get 2 2 - t6 * self.get 2 1 - t8 * self.get 2 2
      + t10 * self.get 2 1 + t12 * self.get 1 2 - t14 * self.get 1 1)
  else
    let r := luDecomposition p self.rows self ElimDet (ElimDet.init 0)
    match r.1 with
    | some _ => Except.ok 0
    | none => Except.ok (forUp 0 self.rows (fun i det => det * r.2.1.get i i) r.2.2)

/-! ## solve -/

/-- The back substitution of `solve`:
`for (int i = rows-1; i >= 0; i--) { for (j = i+1; j < rows; j++) rhs[i] -= A[i][j]*x[j]; x[i] = rhs[i]/A[i][i]; }`
where `rhs` and `x` are the same object. -/
def backsolve (rows : Nat) (A : DenseMatrix) (x : Vec) : Vec :=
  forDown rows
    (fun i x =>
      let x1 := forUp (i + 1) (rows - (i + 1)) (fun j x => x.set i (x i - A.get i j * x j)) x
      x1.set i (x1 i / A.get i i))
    x

/-- The method `solve(x, b)`; `checking` tells whether
`OPM_FMatrix_WITH_CHECKING` is defined.  The result is the exception thrown,
if any, and the final content of `x`; `x` and `b` are distinct objects. -/
def solve (checking : Bool) (p : FMatrixPrecision) (self : DenseMatrix) (x b : Vec) :
    Option FMatrixError × Vec :=
  if self.rows ≠ self.cols then (some FMatrixError.notSquare, x)
  else if self.rows = 1 then
    if checking = true ∧ absreal (self.get 0 0) < p.absolute_limit then
      (some FMatrixError.singular, x)
    else (none, x.set 0 (b 0 / self.get 0 0))
  else if self.rows = 2 then
    let detinv := self.get 0 0 * self.get 1 1 - self.get 0 1 * self.get 1 0
    if checking = true ∧ absreal detinv < p.absolute_limit then
      (some FMatrixError.singular, x)
    else
      let detinv := 1 / detinv
      let x := x.set 0 (detinv * (self.get 1 1 * b 0 - self.get 0 1 * b 1))
      let x := x.set 1 (detinv * (self.get 0 0 * b 1 - self.get 1 0 * b 0))
      (none, x)
  else if self.rows = 3 then
    match determinant p self with
    | Except.error e => (some e, x)
    | Except.ok d =>
      if checking = true ∧ absreal d < p.absolute_limit then
        (some FMatrixError.singular, x)
      else
        let x := x.set 0
          ((b 0 * self.get 1 1 * self.get 2 2 - b 0 * self.get 2 1 * self.get 1 2
            - b 1 * self.get 0 1 * self.get 2 2 + b 1 * self.get 2 1 * self.get 0 2
            + b 2 * self.get 0 1 * self.get 1 2 - b 2 * self.get 1 1 * self.get 0 2) / d)
        let x := x.set 1
          ((self.get 0 0 * b 1 * self.get 2 2 - self.get 0 0 * b 2 * self.get 1 2
            - self.get 1 0 * b 0 * self.get 2 2 + self.get 1 0 * b 2 * self.get 0 2
            + self.get 2 0 * b 0 * self.get 1 2 - self.get 2 0 * b 1 * self.get 0 2) / d)
        let x := x.set 2
          ((self.get 0 0 * self.get 1 1 * b 2 - self.get 0 0 * self.get 2 1 * b 1
            - self.get 1 0 * self.get 0 1 * b 2 + self.get 1 0 * self.get 2 1 * b 0
            + self.get 2 0 * self.get 0 1 * b 1 - self.get 2 0 * self.get 1 1 * b 0) / d)
        (none, x)
  else
    let r := luDecomposition p self.rows self Elim b
    match r.1 with
    | some e => (some e, r.2.2)
    | none => (none, backsolve self.rows r.2.1 r.2.2)

/-! ## invert -/

/-- Modelled from the spec: assignment of a scalar to row `i` (the row type
of fvector.hh), which sets every element of the row to the scalar. -/
def assignRow (A : DenseMatrix) (i : Nat) (f : ℚ) : DenseMatrix :=
  { A with mat_access := fun r c => if r = i ∧ c < A.cols then f else A.mat_access r c }

/-- Assignment from scalar, `operator= (const field_type& f)`:
`for (i = 0; i < rows(); i++) (*this)[i] = f`. -/
def assignScalar (A : DenseMatrix) (f : ℚ) : DenseMatrix :=
  forUp 0 A.rows (fun i B => assignRow B i f) A

/-- Forward substitution of `invert`, `L Y = I` with multiple right hand sides:
`for i < rows, for j < i, for k < rows: (*this)[i][k] -= L[i][j]*(*this)[j][k]`. -/
def invertForward (rows : Nat) (L : DenseMatrix) (M : DenseMatrix) : DenseMatrix :=
  forUp 0 rows (fun i M =>
    forUp 0 i (fun j M =>
      forUp 0 rows (fun k M => M.set i k (M.get i k - L.get i j * M.get j k)) M) M) M

/-- Back substitution of `invert`, `U A^{-1} = Y`: for `i` from `rows-1` down
to 0 and every `k < rows`, subtract `U[i][j]*(*this)[j][k]` for `j > i` from
`(*this)[i][k]`, then divide it by `U[i][i]`. -/
def invertBackward (rows : Nat) (U : DenseMatrix) (M : DenseMatrix) : DenseMatrix :=
  forDown rows (fun i M =>
    forUp 0 rows (fun k M =>
      let M1 := forUp (i + 1) (rows - (i + 1))
        (fun j M => M.set i k (M.get i k - U.get i j * M.get j k)) M
      M1.set i k (M1.get i k / U.get i i)) M) M

/-- The column exchanges at the end of `invert`: for `i` from `rows-1` down to
0, if `i != pivot[i]`, `std::swap((*this)[j][pivot[i]], (*this)[j][i])` for
every `j < rows`. -/
def invertUnpivot (rows : Nat) (pivot : Nat → Nat) (M : DenseMatrix) : DenseMatrix :=
  forDown rows (fun i M =>
    if i ≠ pivot i then
      forUp 0 rows (fun j M =>
        (M.set j (pivot i) (M.get j i)).set j i (M.get j (pivot i))) M
    else M) M

/-- The method `invert()`; `checking` tells whether
`OPM_FMatrix_WITH_CHECKING` is defined.  The result is the exception thrown,
if any, and the final content of `*this`. -/
def invert (checking : Bool) (p : FMatrixPrecision) (self : DenseMatrix) :
    Option FMatrixError × DenseMatrix :=
  if self.rows ≠ self.cols then (some FMatrixError.notSquare, self)
  else if self.rows = 1 then
    if checking = true ∧ absreal (self.get 0 0) < p.absolute_limit then
      (some FMatrixError.singular, self)
    else (none, self.set 0 0 (1 / self.get 0 0))
  else if self.rows = 2 then
    let detinv := self.get 0 0 * self.get 1 1 - self.get 0 1 * self.get 1 0
    if checking = true ∧ absreal detinv < p.absolute_limit then
      (some FMatrixError.singular, self)
    else
      let detinv := 1 / detinv
      let temp := self.get 0 0
      let M := self.set 0 0 (self.get 1 1 * detinv)
      let M := M.set 0 1 (-M.get 0 1 * detinv)
      let M := M.set 1 0 (-M.get 1 0 * detinv)
      let M := M.set 1 1 (temp * detinv)
      (none, M)
  else
    let r := luDecomposition p self.rows self ElimPivot
      (ElimPivot.init self.rows (fun _ => 0))
    match r.1 with
    | some e => (some e, self)
    | none =>
      let A := r.2.1
      let pivot := r.2.2
      let M := assignScalar self 0
      let M := forUp 0 self.rows (fun i M => M.set i i 1) M
      let M := invertForward self.rows A M
      let M := invertBackward self.rows A M
      (none, invertUnpivot self.rows pivot M)

/-! ## Definitions used in the verification

Closed forms of the loops, the matrices the factors stand for, and the
concrete inputs of the examples. -/

/-- Closed form of the matrix after the elimination loop of step `i`. -/
def elimStep (rows i : Nat) (A : DenseMatrix) : DenseMatrix :=
  { A with mat_access := fun r c =>
      if i < r ∧ r < rows then
        (if c = i then A.get r i / A.get i i
         else if i < c ∧ c < rows then A.get r c - A.get r i / A.get i i * A.get i c
         else A.get r c)
      else A.get r c }

/-- The observer calls of the elimination loop of step `i`. -/
def elimCalls {σ : Type} (rows : Nat) (F : Func σ) (i : Nat) (A : DenseMatrix) (st : σ) : σ :=
  forUp (i + 1) (rows - (i + 1)) (fun k st => F.call (A.get k i / A.get i i) k i st) st

/-- Closed form of the matrix after the exchange of rows `i` and `m`. -/
def swapStep (rows i m : Nat) (A : DenseMatrix) : DenseMatrix :=
  { A with mat_access := fun r c =>
      if c < rows then (if r = i then A.get m c else if r = m then A.get i c else A.get r c)
      else A.get r c }

/-- The row that step `i` takes its pivot from. -/
def pivotRow (rows : Nat) (pivthres : ℚ) (A : DenseMatrix) (i : Nat) : Nat :=
  if absreal (A.get i i) < pivthres then (pivotSearch rows A i (absreal (A.get i i))).2 else i

/-- The threshold `pivthres` that `luDecomposition` derives for `A`. -/
def pivThreshold (p : FMatrixPrecision) (A : DenseMatrix) : ℚ :=
  max p.absolute_limit (infinity_norm_real A * p.pivoting_limit)

/-- The threshold `singthres` that `luDecomposition` derives for `A`. -/
def singThreshold (p : FMatrixPrecision) (A : DenseMatrix) : ℚ :=
  max p.absolute_limit (infinity_norm_real A * p.singular_limit)

/-- The first `cnt` iterations of the loop of `luDecomposition`. -/
def luLoop {σ : Type} (p : FMatrixPrecision) (rows : Nat) (A : DenseMatrix)
    (F : Func σ) (func : σ) (cnt : Nat) : Option FMatrixError × (DenseMatrix × σ) :=
  forUp 0 cnt
    (fun i r => match r.1 with
      | some _ => r
      | none => luBody rows (pivThreshold p A) (singThreshold p A) F i r.2)
    (none, (A, func))

/-- The matrix that the working matrix `W` stands for after `i` elimination
steps: the stored factors (columns before `i`, below the diagonal) count as 0. -/
def eff (i : Nat) (W : DenseMatrix) (k j : Nat) : ℚ :=
  if j < i ∧ j < k then 0 else W.get k j

/-- The leading `n x n` entries as a matrix of Mathlib. -/
def toMatrix (n : Nat) (f : Nat → Nat → ℚ) : Matrix (Fin n) (Fin n) ℚ :=
  Matrix.of fun k j => f k j

/-- Exchange of the indices `i` and `m`. -/
def swapIdx (i m k : Nat) : Nat := if k = i then m else if k = m then i else k

/-- The vector `x` solves the `n x n` system with coefficients `f` and right
hand side `rhs`. -/
def Solves (n : Nat) (f : Nat → Nat → ℚ) (rhs x : Vec) : Prop :=
  ∀ k, k < n → ∑ j in Finset.range n, f k j * x j = rhs k

/-- The rows of `f` after the first `i` row exchanges recorded in `pivot`
(exchange of rows `k` and `pivot k` for `k = 0, ..., i-1`, in this order). -/
def permRows (pivot : Nat → Nat) : Nat → (Nat → Nat → ℚ) → Nat → Nat → ℚ
  | 0, f => f
  | i + 1, f => fun k j => permRows pivot i f (swapIdx i (pivot i) k) j

/-- Entry `(k, j)` of the product of the unit lower triangular factor stored in
the first `i` columns of `W` with the matrix `eff i W`. -/
def luSum (n i : Nat) (W : DenseMatrix) (k j : Nat) : ℚ :=
  eff i W k j +
    ∑ m in Finset.range n, (if m < i ∧ m < k then W.get k m * eff i W m j else 0)

/-- The unit lower triangular factor stored below the diagonal of `W`. -/
def lowerU (W : DenseMatrix) (k m : Nat) : ℚ :=
  if m < k then W.get k m else if m = k then 1 else 0

/-- The value of the closed form of `determinant` for a 3 x 3 matrix. -/
def det3 (a : Nat → Nat → ℚ) : ℚ :=
  a 0 0 * a 1 1 * a 2 2 - a 0 0 * a 1 2 * a 2 1 - a 0 1 * a 1 0 * a 2 2
    + a 0 2 * a 1 0 * a 2 1 + a 0 1 * a 2 0 * a 1 2 - a 0 2 * a 2 0 * a 1 1

/-- A regular 4 x 4 matrix whose entry `(0, 0)` is zero, so that the first
step has to exchange rows. -/
def sampleRegular : DenseMatrix :=
  { mat_rows := 4
    mat_cols := 4
    mat_access := fun i j =>
      match i, j with
      | 0, 0 => 0 | 0, 1 => 2 | 0, 2 => 1 | 0, 3 => 3
      | 1, 0 => 1 | 1, 1 => 1 | 1, 2 => 0 | 1, 3 => 1
      | 2, 0 => 4 | 2, 1 => 0 | 2, 2 => 1 | 2, 3 => 2
      | 3, 0 => 1 | 3, 1 => 5 | 3, 2 => 1 | 3, 3 => 0
      | _, _ => 0 }

/-- The right hand side `(1, 2, 3, 4)`. -/
def sampleRhs : Vec := fun i => (i : ℚ) + 1

/-- The regular diagonal matrix `diag(1, 1, 1, 1e-15)`. -/
def sampleTinyPivot : DenseMatrix :=
  { mat_rows := 4
    mat_cols := 4
    mat_access := fun i j => if i = j then (if i = 3 then 1 / 10 ^ 15 else 1) else 0 }

/-- The 4 x 4 matrix with leading block `[[1, 1], [1e-3, 1e-3 + 1e-14]]`
and the identity in the rest of the diagonal. -/
def sampleRowOrder : DenseMatrix :=
  { mat_rows := 4
    mat_cols := 4
    mat_access := fun i j =>
      match i, j with
      | 0, 0 => 1 | 0, 1 => 1
      | 1, 0 => 1 / 1000 | 1, 1 => 1 / 1000 + 1 / 10 ^ 14
      | 2, 2 => 1 | 3, 3 => 1
      | _, _ => 0 }

/-- The 2 x 2 matrix `[[2, 1], [1, 1]]`. -/
def sampleTwo : Nat → Nat → ℚ := fun i j =>
  match i, j with
  | 0, 0 => 2 | 0, 1 => 1
  | 1, 0 => 1 | 1, 1 => 1
  | _, _ => 0

/-- The right hand side `(3, 2)`. -/
def sampleRhsTwo : Vec := fun i => if i = 0 then 3 else 2

/-- A 2 x 3 matrix. -/
def sampleWide : DenseMatrix :=
  { mat_rows := 2
    mat_cols := 3
    mat_access := fun i j => (i : ℚ) + 2 * (j : ℚ) + 1 }

/-- Decidable equality of the results of `determinant`. -/
instance instDecidableEqResult : DecidableEq (Except FMatrixError ℚ) := fun r s =>
  match r, s with
  | Except.ok v, Except.ok w =>
    if h : v = w then isTrue (congrArg Except.ok h) else isFalse fun h2 => h (Except.ok.inj h2)
  | Except.error e, Except.error f =>
    if h : e = f then isTrue (congrArg Except.error h)
    else isFalse fun h2 => h (Except.error.inj h2)
  | Except.ok _, Except.error _ => isFalse fun h => Except.noConfusion h
  | Except.error _, Except.ok _ => isFalse fun h => Except.noConfusion h

/-! ## Linear maps -/

/-- Modelled from the spec: the vector type of fvector.hh that `mv`, `umv`, ...
take for `x` and `y`, with its size `N()` and its entries `operator[]`. -/
structure DenseVector where
  N : Nat
  v : Vec

/-- The method `mv(x, y)`, `y = A x`; `checking` tells whether
`OPM_FMatrix_WITH_CHECKING` is defined.  The result is the exception thrown,
if any, and the final content of `y`; `x` and `y` are distinct objects. -/
def mv (checking : Bool) (self : DenseMatrix) (x y : DenseVector) :
    Option FMatrixError × DenseVector :=
  if checking = true ∧ x.N ≠ self.cols then (some FMatrixError.outOfRange, y)
  else if checking = true ∧ y.N ≠ self.rows then (some FMatrixError.outOfRange, y)
  else
    (none, { y with v := forUp 0 self.rows (fun i v =>
      forUp 0 self.cols (fun j v => v.set i (v i + self.get i j * x.v j)) (v.set i 0)) y.v })

/-- The method `mtv(x, y)`, `y = A^T x`. -/
def mtv (checking : Bool) (self : DenseMatrix) (x y : DenseVector) :
    Option FMatrixError × DenseVector :=
  if checking = true ∧ x.N ≠ self.rows then (some FMatrixError.outOfRange, y)
  else if checking = true ∧ y.N ≠ self.cols then (some FMatrixError.outOfRange, y)
  else
    (none, { y with v := forUp 0 self.cols (fun i v =>
      forUp 0 self.rows (fun j v => v.set i (v i + self.get j i * x.v j)) (v.set i 0)) y.v })

/-- The method `umv(x, y)`, `y += A x`. -/
def umv (checking : Bool) (self : DenseMatrix) (x y : DenseVector) :
    Option FMatrixError × DenseVector :=
  if checking = true ∧ x.N ≠ self.cols then (some FMatrixError.outOfRange, y)
  else if checking = true ∧ y.N ≠ self.rows then (some FMatrixError.outOfRange, y)
  else
    (none, { y with v := forUp 0 self.rows (fun i v =>
      forUp 0 self.cols (fun j v => v.set i (v i + self.get i j * x.v j)) v) y.v })

/-- The method `umtv(x, y)`, `y += A^T x`. -/
def umtv (checking : Bool) (self : DenseMatrix) (x y : DenseVector) :
    Option FMatrixError × DenseVector :=
  if checking = true ∧ x.N ≠ self.rows then (some FMatrixError.outOfRange, y)
  else if checking = true ∧ y.N ≠ self.cols then (some FMatrixError.outOfRange, y)
  else
    (none, { y with v := forUp 0 self.rows (fun i v =>
      forUp 0 self.cols (fun j v => v.set j (v j + self.get i j * x.v i)) v) y.v })

/-- The method `umhv(x, y)`, `y += A^H x`; `conjugateComplex` (fvector.hh) is
not among the sources and is a parameter. -/
def umhv (conjugateComplex : ℚ → ℚ) (checking : Bool) (self : DenseMatrix)
    (x y : DenseVector) : Option FMatrixError × DenseVector :=
  if checking = true ∧ x.N ≠ self.rows then (some FMatrixError.outOfRange, y)
  else if checking = true ∧ y.N ≠ self.cols then (some FMatrixError.outOfRange, y)
  else
    (none, { y with v := forUp 0 self.rows (fun i v =>
      forUp 0 self.cols
        (fun j v => v.set j (v j + conjugateComplex (self.get i j) * x.v i)) v) y.v })

/-- The method `mmv(x, y)`, `y -= A x`. -/
def mmv (checking : Bool) (self : DenseMatrix) (x y : DenseVector) :
    Option FMatrixError × DenseVector :=
  if checking = true ∧ x.N ≠ self.cols then (some FMatrixError.outOfRange, y)
  else if checking = true ∧ y.N ≠ self.rows then (some FMatrixError.outOfRange, y)
  else
    (none, { y with v := forUp 0 self.rows (fun i v =>
      forUp 0 self.cols (fun j v => v.set i (v i - self.get i j * x.v j)) v) y.v })

/-- The method `mmtv(x, y)`, `y -= A^T x`. -/
def mmtv (checking : Bool) (self : DenseMatrix) (x y : DenseVector) :
    Option FMatrixError × DenseVector :=
  if checking = true ∧ x.N ≠ self.rows then (some FMatrixError.outOfRange, y)
  else if checking = true ∧ y.N ≠ self.cols then (some FMatrixError.outOfRange, y)
  else
    (none, { y with v := forUp 0 self.rows (fun i v =>
      forUp 0 self.cols (fun j v => v.set j (v j - self.get i j * x.v i)) v) y.v })

/-- The method `mmhv(x, y)`, `y -= A^H x`. -/
def mmhv (conjugateComplex : ℚ → ℚ) (checking : Bool) (self : DenseMatrix)
    (x y : DenseVector) : Option FMatrixError × DenseVector :=
  if checking = true ∧ x.N ≠ self.rows then (some FMatrixError.outOfRange, y)
  else if checking = true ∧ y.N ≠ self.cols then (some FMatrixError.outOfRange, y)
  else
    (none, { y with v := forUp 0 self.rows (fun i v =>
      forUp 0 self.cols
        (fun j v => v.set j (v j - conjugateComplex (self.get i j) * x.v i)) v) y.v })

/-- The method `usmv(alpha, x, y)`, `y += alpha A x`. -/
def usmv (checking : Bool) (self : DenseMatrix) (alpha : ℚ) (x y : DenseVector) :
    Option FMatrixError × DenseVector :=
  if checking = true ∧ x.N ≠ self.cols then (some FMatrixError.outOfRange, y)
  else if checking = true ∧ y.N ≠ self.rows then (some FMatrixError.outOfRange, y)
  else
    (none, { y with v := forUp 0 self.rows (fun i v =>
      forUp 0 self.cols (fun j v => v.set i (v i + alpha * self.get i j * x.v j)) v) y.v })

/-- The method `usmtv(alpha, x, y)`, `y += alpha A^T x`. -/
def usmtv (checking : Bool) (self : DenseMatrix) (alpha : ℚ) (x y : DenseVector) :
    Option FMatrixError × DenseVector :=
  if checking = true ∧ x.N ≠ self.rows then (some FMatrixError.outOfRange, y)
  else if checking = true ∧ y.N ≠ self.cols then (some FMatrixError.outOfRange, y)
  else
    (none, { y with v := forUp 0 self.rows (fun i v =>
      forUp 0 self.cols (fun j v => v.set j (v j + alpha * self.get i j * x.v i)) v) y.v })

/-- The method `usmhv(alpha, x, y)`, `y += alpha A^H x`. -/
def usmhv (conjugateComplex : ℚ → ℚ) (checking : Bool) (self : DenseMatrix) (alpha : ℚ)
    (x y : DenseVector) : Option FMatrixError × DenseVector :=
  if checking = true ∧ x.N ≠ self.rows then (some FMatrixError.outOfRange, y)
  else if checking = true ∧ y.N ≠ self.cols then (some FMatrixError.outOfRange, y)
  else
    (none, { y with v := forUp 0 self.rows (fun i v =>
      forUp 0 self.cols
        (fun j v => v.set j (v j + alpha * conjugateComplex (self.get i j) * x.v i)) v) y.v })

/-! ## Further definitions used in the verification -/

/-- The `N x N` identity matrix. -/
def identity (N : Nat) : DenseMatrix :=
  { mat_rows := N
    mat_cols := N
    mat_access := fun i j => if i = j then 1 else 0 }

/-- The 4 x 4 block embedding `[[A, 0], [0, 1]]` of a 3 x 3 matrix `A`. -/
def embed4 (a : Nat → Nat → ℚ) : DenseMatrix :=
  { mat_rows := 4
    mat_cols := 4
    mat_access := fun i j =>
      if i < 3 ∧ j < 3 then a i j else if i = 3 ∧ j = 3 then 1 else 0 }

/-- The 2 x 2 matrix `[[1, 1], [1, 1]]`, whose rows are equal. -/
def sampleDependent : Nat → Nat → ℚ := fun _ _ => 1

/-- A 3 x 3 matrix. -/
def sampleThree : Nat → Nat → ℚ := fun i j =>
  match i, j with
  | 0, 0 => 2 | 0, 1 => 1 | 0, 2 => 0
  | 1, 0 => 1 | 1, 1 => 3 | 1, 2 => 1
  | 2, 0 => 0 | 2, 1 => 1 | 2, 2 => 4
  | _, _ => 0

/-- The regular 4 x 4 sample matrix with its row 2 replaced by zeros. -/
def sampleZeroRow : DenseMatrix :=
  { mat_rows := 4
    mat_cols := 4
    mat_access := fun i j => if i = 2 then 0 else sampleRegular.get i j }

/-- The result `r` of a linear map called on `y` respects the size requirements
`xok` (on `x`) and `yok` (on `y`): it throws "Index out of range" exactly when
one of them fails, throws nothing exactly when both hold, and leaves `y` as it
was whenever it throws. -/
def SizeChecked (xok yok : Prop) (y : DenseVector)
    (r : Option FMatrixError × DenseVector) : Prop :=
  (r.1 = some FMatrixError.outOfRange ↔ ¬ xok ∨ ¬ yok) ∧ (r.1 = none ↔ xok ∧ yok) ∧
    (r.1 ≠ none → r.2 = y)

/-- A vector of size 3. -/
def sampleVecThree : DenseVector :=
  { N := 3
    v := fun j => (j : ℚ) + 1 }

/-- A vector of size 2. -/
def sampleVecTwo : DenseVector :=
  { N := 2
    v := fun _ => 7 }

/-! ## Storage arithmetic, comparison, thresholds, iterators, products, periodic partners

Further operations of the sources, with the definitions used in their
verification. -/

/-- Modelled from the spec: an element-wise operation on row `i` (the row type
of fvector.hh, whose `operator+=`, `operator-=`, `operator*=`, `operator/=` and
`axpy` are not among the sources): every element `(*this)[i][j]`, `j < cols()`,
becomes `g j` of its previous value. -/
def rowMap (A : DenseMatrix) (i : Nat) (g : Nat → ℚ → ℚ) : DenseMatrix :=
  { A with mat_access := fun r c =>
      if r = i ∧ c < A.cols then g c (A.mat_access r c) else A.mat_access r c }

/-- Vector space addition, `operator+= (const DenseMatrix& y)`:
`for (i = 0; i < rows(); i++) (*this)[i] += y[i]`. -/
def addAssign (self y : DenseMatrix) : DenseMatrix :=
  forUp 0 self.rows (fun i B => rowMap B i (fun j a => a + y.get i j)) self

/-- Vector space subtraction, `operator-= (const DenseMatrix& y)`:
`for (i = 0; i < rows(); i++) (*this)[i] -= y[i]`. -/
def subAssign (self y : DenseMatrix) : DenseMatrix :=
  forUp 0 self.rows (fun i B => rowMap B i (fun j a => a - y.get i j)) self

/-- Vector space multiplication with a scalar, `operator*= (const field_type& k)`:
`for (i = 0; i < rows(); i++) (*this)[i] *= k`. -/
def mulAssign (self : DenseMatrix) (k : ℚ) : DenseMatrix :=
  forUp 0 self.rows (fun i B => rowMap B i (fun _ a => a * k)) self

/-- Vector space division by a scalar, `operator/= (const field_type& k)`:
`for (i = 0; i < rows(); i++) (*this)[i] /= k`. -/
def divAssign (self : DenseMatrix) (k : ℚ) : DenseMatrix :=
  forUp 0 self.rows (fun i B => rowMap B i (fun _ a => a / k)) self

/-- Vector space axpy operation (`*this += k y`), `axpy(k, y)`:
`for (i = 0; i < rows(); ++i) (*this)[i].axpy(k, y[i])`. -/
def axpy (self : DenseMatrix) (k : ℚ) (y : DenseMatrix) : DenseMatrix :=
  forUp 0 self.rows (fun i B => rowMap B i (fun j a => a + k * y.get i j)) self

/-- The loop `for (i = lo; i < lo + cnt; i++) if (p i) return ...;`: whether the
loop is left through its `return`. -/
def anyUp (lo : Nat) : Nat → (Nat → Bool) → Bool
  | 0, _ => false
  | cnt + 1, p => if p lo then true else anyUp (lo + 1) cnt p

/-- Modelled from the spec: the comparison `!=` of row `i` of two matrices (the
row type of fvector.hh): true when the rows differ in some element `j < cols()`,
compared exactly. -/
def rowNe (A y : DenseMatrix) (i : Nat) : Bool :=
  anyUp 0 A.cols (fun j => decide (A.get i j ≠ y.get i j))

/-- Binary matrix comparison, `operator== (const DenseMatrix& y)`:
`for (i = 0; i < rows(); i++) if ((*this)[i] != y[i]) return false; return true`. -/
def operator_eq (self y : DenseMatrix) : Bool :=
  if anyUp 0 self.rows (fun i => rowNe self y i) then false else true

/-- Binary matrix incomparison, `operator!= (const DenseMatrix& y)`:
`return !operator==(y)`. -/
def operator_ne (self y : DenseMatrix) : Bool := !(operator_eq self y)

/-- Set pivoting threshold: `_pivoting = pivthres`. -/
def FMatrixPrecision.set_pivoting_limit (p : FMatrixPrecision) (pivthres : ℚ) :
    FMatrixPrecision :=
  { p with _pivoting := pivthres }

/-- Set singular threshold: `_singular = singthres`. -/
def FMatrixPrecision.set_singular_limit (p : FMatrixPrecision) (singthres : ℚ) :
    FMatrixPrecision :=
  { p with _singular := singthres }

/-- Set absolute threshold: `_absolute = absthres`. -/
def FMatrixPrecision.set_absolute_limit (p : FMatrixPrecision) (absthres : ℚ) :
    FMatrixPrecision :=
  { p with _absolute := absthres }

/-- A call that a program makes on the kernel: one of the three setters of
`FMatrixPrecision`, or `solve`, `invert`, `determinant`, `luDecomposition` on
some matrix (the latter with the observer `Elim` on a right hand side). -/
inductive Call where
  | set_pivoting_limit (pivthres : ℚ)
  | set_singular_limit (singthres : ℚ)
  | set_absolute_limit (absthres : ℚ)
  | solve (checking : Bool) (A : DenseMatrix) (x b : Vec)
  | invert (checking : Bool) (A : DenseMatrix)
  | determinant (A : DenseMatrix)
  | luDecomposition (A : DenseMatrix) (rhs : Vec)

/-- The class-static thresholds after a call made in the state `p`: a setter
assigns its static member; `solve`, `invert`, `determinant` and
`luDecomposition` read the thresholds through the getters and assign to no
static member. -/
def Call.exec (p : FMatrixPrecision) : Call → FMatrixPrecision
  | Call.set_pivoting_limit pivthres => p.set_pivoting_limit pivthres
  | Call.set_singular_limit singthres => p.set_singular_limit singthres
  | Call.set_absolute_limit absthres => p.set_absolute_limit absthres
  | Call.solve _ _ _ _ => p
  | Call.invert _ _ => p
  | Call.determinant _ => p
  | Call.luDecomposition _ _ => p

/-- The thresholds after a sequence of calls, made one after the other. -/
def run (p : FMatrixPrecision) (calls : List Call) : FMatrixPrecision :=
  calls.foldl Call.exec p

/-- Whether the call is `set_pivoting_limit`. -/
def Call.setsPivoting : Call → Bool
  | Call.set_pivoting_limit _ => true
  | _ => false

/-- Whether the call is `set_singular_limit`. -/
def Call.setsSingular : Call → Bool
  | Call.set_singular_limit _ => true
  | _ => false

/-- Whether the call is `set_absolute_limit`. -/
def Call.setsAbsolute : Call → Bool
  | Call.set_absolute_limit _ => true
  | _ => false

/-- Modelled from the spec: the row iterator `DenseIterator` (densevector.hh is
not among the sources), given by the container it refers to and its position;
two iterators are equal when both agree. -/
structure DenseIterator where
  container : DenseMatrix
  position : Int

/-- Returns an iterator that is positioned before the first entry,
`beforeBegin ()`: `Iterator(*this, -1)`. -/
def DenseMatrix.beforeBegin (A : DenseMatrix) : DenseIterator :=
  { container := A, position := -1 }

/-- Returns an iterator that is positioned before the end iterator, i.e. at the
last entry, `beforeEnd ()`: `Iterator(*this, rows()-1)`. -/
def DenseMatrix.beforeEnd (A : DenseMatrix) : DenseIterator :=
  { container := A, position := (A.rows : Int) - 1 }

/-- Deprecated `rbegin()` of a mutable matrix ("use the new method beforeEnd
instead"): `return beforeBegin();`. -/
def DenseMatrix.rbegin (A : DenseMatrix) : DenseIterator := A.beforeBegin

/-- Deprecated `rend()` of a mutable matrix ("use the new method beforeBegin
instead"): `return beforeBegin();`. -/
def DenseMatrix.rend (A : DenseMatrix) : DenseIterator := A.beforeBegin

/-- The method `beforeBegin () const`: `ConstIterator(*this, -1)`. -/
def DenseMatrix.beforeBegin_const (A : DenseMatrix) : DenseIterator :=
  { container := A, position := -1 }

/-- The method `beforeEnd () const`: `ConstIterator(*this, rows()-1)`. -/
def DenseMatrix.beforeEnd_const (A : DenseMatrix) : DenseIterator :=
  { container := A, position := (A.rows : Int) - 1 }

/-- Deprecated `rbegin() const`: `return beforeEnd();`. -/
def DenseMatrix.rbegin_const (A : DenseMatrix) : DenseIterator := A.beforeEnd_const

/-- Deprecated `rend() const`: `return beforeBegin();`. -/
def DenseMatrix.rend_const (A : DenseMatrix) : DenseIterator := A.beforeBegin_const

/-- Multiplies `M` from the left to this matrix, `leftmultiply(M)`.  The result
is `none` when the `assert` on the shapes fails, else the final content of
`*this`; `C` is the copy of `*this` taken before the loops. -/
def leftmultiply (self M : DenseMatrix) : Option DenseMatrix :=
  if ¬ (M.rows = M.cols ∧ M.rows = self.rows) then none
  else
    let C := self
    some (forUp 0 self.rows (fun i A =>
      forUp 0 self.cols (fun j A =>
        forUp 0 self.rows (fun k A => A.set i j (A.get i j + M.get i k * C.get k j))
          (A.set i j 0)) A) self)

/-- The struct `BoundaryFaceInfo` (BoundaryPeriodicity.hpp, PeriodicHelpers.hpp):
face index, boundary id, canonical position, face index and boundary id of the
periodic partner (-1 and 0 if no partner), face area and face centroid. -/
structure BoundaryFaceInfo where
  face_index : Int
  bid : Int
  canon_pos : Int
  partner_face_index : Int
  partner_bid : Int
  area : ℚ
  centroid : Fin 3 → ℚ

/-- Modelled from the spec: the test `d.two_norm() <= tol` on a `FieldVector`
of three coordinates (fvector.hh is not among the sources), the Euclidean norm
being compared on the squares. -/
def two_norm_le (d : Fin 3 → ℚ) (tol : ℚ) : Bool :=
  decide (d 0 ^ 2 + d 1 ^ 2 + d 2 ^ 2 ≤ tol ^ 2)

/-- Assignment `bfaces[i] = a` of an entry of the vector. -/
def setFace (bfaces : Nat → BoundaryFaceInfo) (i : Nat) (a : BoundaryFaceInfo) :
    Nat → BoundaryFaceInfo :=
  fun k => if k = i then a else bfaces k

/-- The body of the loop of `match` for the index `j`; the first component of
the state tells whether the loop has been left by `break`. -/
def matchBody (face : Nat) (target_cp : Int) (cent_this : Fin 3 → ℚ) (j : Nat)
    (s : Bool × (Nat → BoundaryFaceInfo)) : Bool × (Nat → BoundaryFaceInfo) :=
  let area_tol : ℚ := 1 / 10 ^ 6
  let centroid_tol : ℚ := 1 / 10 ^ 6
  if s.1 = true then s
  else if (s.2 j).canon_pos = target_cp then
    if |(s.2 face).area - (s.2 j).area| ≤ area_tol then
      let cent_other : Fin 3 → ℚ := fun d => (s.2 j).centroid d - cent_this d
      if two_norm_le cent_other centroid_tol = true then
        let b := setFace s.2 face
          { s.2 face with partner_face_index := (s.2 j).face_index, partner_bid := (s.2 j).bid }
        let b := setFace b j
          { b j with partner_face_index := (b face).face_index, partner_bid := (b face).bid }
        (true, b)
      else s
    else s
  else s

/-- The function `match(bfaces, face, lower, upper)` (the same in namespace
`Opm` and in namespace `Dune`): the value returned and the final content of
`bfaces`.  The test `cp%2 == 0` is the same for the truncating remainder of C++
and the remainder of `Int`. -/
def matchFace (bfaces : Nat → BoundaryFaceInfo) (face lower upper : Nat) :
    Bool × (Nat → BoundaryFaceInfo) :=
  let cp := (bfaces face).canon_pos
  let target_cp := if cp % 2 = 0 then cp + 1 else cp - 1
  let cent_this := (bfaces face).centroid
  let r := forUp lower (upper - lower) (fun j s => matchBody face target_cp cent_this j s)
    (false, bfaces)
  (decide ((r.2 face).partner_face_index ≠ -1), r.2)

/-- A match for `face` in the words of the claim: the entry `j` has the opposite
canonical position (`cp+1` for even `cp`, `cp-1` for odd `cp`), the areas differ
by at most 1e-6 and the centroids are at most 1e-6 apart. -/
def IsMatch (bfaces : Nat → BoundaryFaceInfo) (face j : Nat) : Prop :=
  (bfaces j).canon_pos =
    (if (bfaces face).canon_pos % 2 = 0 then (bfaces face).canon_pos + 1
     else (bfaces face).canon_pos - 1) ∧
  |(bfaces face).area - (bfaces j).area| ≤ 1 / 10 ^ 6 ∧
  ((bfaces j).centroid 0 - (bfaces face).centroid 0) ^ 2 +
    ((bfaces j).centroid 1 - (bfaces face).centroid 1) ^ 2 +
    ((bfaces j).centroid 2 - (bfaces face).centroid 2) ^ 2 ≤ (1 / 10 ^ 6 : ℚ) ^ 2

/-- The vector in which `face` and `j` are linked: each one's
`partner_face_index` and `partner_bid` are the other's `face_index` and `bid`. -/
def linked (bfaces : Nat → BoundaryFaceInfo) (face j : Nat) : Nat → BoundaryFaceInfo :=
  fun k =>
    if k = j then
      { bfaces j with partner_face_index := (bfaces face).face_index,
                      partner_bid := (bfaces face).bid }
    else if k = face then
      { bfaces face with partner_face_index := (bfaces j).face_index,
                         partner_bid := (bfaces j).bid }
    else bfaces k

/-- Three boundary faces at the origin with area 1 and canonical positions 0, 2
and 1, none of them linked; every further entry is like the second. -/
def sampleFaces : Nat → BoundaryFaceInfo := fun k =>
  { face_index := k
    bid := k + 1
    canon_pos := if k = 0 then 0 else if k = 2 then 1 else 2
    partner_face_index := -1
    partner_bid := 0
    area := 1
    centroid := fun _ => 0 }

/-- The pivot magnitude `pivmax` of step `i` on the working matrix `W` when the
singularity test is made: `absreal(W[i][i])`, replaced by the result of the
pivot search when that one ran. -/
def pivmax (rows : Nat) (pivthres : ℚ) (W : DenseMatrix) (i : Nat) : ℚ :=
  if absreal (W.get i i) < pivthres then (pivotSearch rows W i (absreal (W.get i i))).1
  else absreal (W.get i i)

/-! ## Observers and matrices used in the verification of the engine -/

/-- An observer that counts the `swap` notifications and ignores the
eliminations. -/
def SwapCount : Func Nat :=
  { swap := fun _ _ n => n + 1
    call := fun _ _ _ n => n }

/-- The observer `F` together with a record of the `swap` notifications, in
the order in which they arrive. -/
def withLog {σ : Type} (F : Func σ) : Func (σ × List (Nat × Nat)) :=
  { swap := fun i j s => (F.swap i j s.1, s.2 ++ [(i, j)])
    call := fun factor k i s => (F.call factor k i s.1, s.2) }

/-- The 2 x 2 matrix `[[eps, 1], [1, 1]]`. -/
def sampleEps (eps : ℚ) : Nat → Nat → ℚ := fun i j =>
  match i, j with
  | 0, 0 => eps | 0, 1 => 1
  | 1, 0 => 1 | 1, 1 => 1
  | _, _ => 0

/-- The working matrices `W` of `A` and `V` of `c * A` before step `i`, on the
leading `n x n` entries: the stored factors (columns before `i`, below the
diagonal) agree, every other entry of `V` is `c` times that of `W`. -/
def Scaled (c : ℚ) (n i : Nat) (W V : DenseMatrix) : Prop :=
  ∀ k j, k < n → j < n → V.get k j = if j < i ∧ j < k then W.get k j else c * W.get k j

/-- The 4 x 4 diagonal matrix `diag(1e-81, 1e-81, 1e-81, 1e-81)`. -/
def sampleTiny : DenseMatrix :=
  { mat_rows := 4
    mat_cols := 4
    mat_access := fun i j => if i = j then 1 / 10 ^ 81 else 0 }

/-! ## The kernel over the scalar type `double`

The templates of densematrix.hh leave the scalar type `K` open; the repository
instantiates it with `double`.  This section gives the values and the arithmetic
of `double` (IEEE 754 binary64, round to nearest, ties to even) and the same
methods over it. -/

namespace Ieee

/-- A value of the C++ type `double`: a finite number given by sign and
magnitude (so that zero has a sign), an infinity, or a NaN. -/
inductive Double where
  | fin (negative : Bool) (mag : ℚ)
  | inf (negative : Bool)
  | nan
  deriving DecidableEq

/-- The power `2^z` of an integer exponent. -/
def pow2 (z : Int) : ℚ :=
  if 0 ≤ z then (2 : ℚ) ^ z.toNat else 1 / (2 : ℚ) ^ (-z).toNat

/-- The number of times `n` can be halved before it falls below 2, counted in
at most `fuel` steps; with `fuel = n` this is the integer part of the binary
logarithm of `n ≥ 1`. -/
def halvings : Nat → Nat → Nat
  | 0, _ => 0
  | fuel + 1, n => if n < 2 then 0 else halvings fuel (n / 2) + 1

/-- The exponent of a positive number `m`: the integer `e` with
`2^e ≤ m < 2^(e+1)`. -/
def exponent (m : ℚ) : Int :=
  let e : Int := (halvings m.num.natAbs m.num.natAbs : Int) - (halvings m.den m.den : Int)
  if pow2 e ≤ m then e else e - 1

/-- The integer nearest to `s ≥ 0`, the even one of the two when `s` lies
halfway. -/
def nearestEven (s : ℚ) : Nat :=
  let f := s.num.natAbs / s.den
  let r := s.num.natAbs % s.den
  if 2 * r < s.den then f
  else if s.den < 2 * r then f + 1
  else if f % 2 = 0 then f else f + 1

/-- Rounding of a magnitude `m ≥ 0` to binary64: the nearest multiple of
`2^(e-52)`, where `e` is the exponent of `m`, at least -1022 (below that the
numbers are subnormal); `none` when the result is not below `2^1024`
(overflow). -/
def roundMag (m : ℚ) : Option ℚ :=
  if m = 0 then some 0
  else
    let e := max (exponent m) (-1022)
    let r := (nearestEven (m / pow2 (e - 52)) : ℚ) * pow2 (e - 52)
    if r < pow2 1024 then some r else none

namespace Double

/-- The `double` a result of sign `negative` and exact magnitude `m` is rounded
to. -/
def round (negative : Bool) (m : ℚ) : Double :=
  match roundMag m with
  | some r => fin negative r
  | none => inf negative

/-- The `double` nearest to a rational number; this is what a decimal literal
such as `1E-8` denotes. -/
def ofRat (q : ℚ) : Double := round (decide (q < 0)) |q|

/-- The number a finite value of sign `negative` and magnitude `m` stands for. -/
def signed (negative : Bool) (m : ℚ) : ℚ := if negative = true then -m else m

/-- Unary minus. -/
def neg : Double → Double
  | fin s m => fin (!s) m
  | inf s => inf (!s)
  | nan => nan

/-- Addition: the exact sum, rounded; an exact zero sum is `+0` unless both
operands are negative; `inf + (-inf)` is NaN. -/
def add : Double → Double → Double
  | nan, _ => nan
  | _, nan => nan
  | inf s, inf t => if s = t then inf s else nan
  | inf s, fin _ _ => inf s
  | fin _ _, inf t => inf t
  | fin s m, fin t n =>
    let r := signed s m + signed t n
    if r = 0 then fin (s && t) 0 else round (decide (r < 0)) |r|

/-- Multiplication: the exact product, rounded; `0 * inf` is NaN. -/
def mul : Double → Double → Double
  | nan, _ => nan
  | _, nan => nan
  | inf s, inf t => inf (xor s t)
  | inf s, fin t n => if n = 0 then nan else inf (xor s t)
  | fin s m, inf t => if m = 0 then nan else inf (xor s t)
  | fin s m, fin t n => round (xor s t) (m * n)

/-- Division: the exact quotient, rounded; a nonzero number divided by zero is
an infinity, `0 / 0` and `inf / inf` are NaN. -/
def div : Double → Double → Double
  | nan, _ => nan
  | _, nan => nan
  | inf _, inf _ => nan
  | inf s, fin t _ => inf (xor s t)
  | fin s _, inf t => fin (xor s t) 0
  | fin s m, fin t n =>
    if n = 0 then (if m = 0 then nan else inf (xor s t))
    else round (xor s t) (m / n)

/-- The comparison `<`; false when an operand is NaN. -/
def lt : Double → Double → Bool
  | nan, _ => false
  | _, nan => false
  | inf s, inf t => s && !t
  | inf s, fin _ _ => s
  | fin _ _, inf t => !t
  | fin s m, fin t n => decide (signed s m < signed t n)

/-- The comparison `==`; false when an operand is NaN, true for `+0` and `-0`. -/
def eq : Double → Double → Bool
  | nan, _ => false
  | _, nan => false
  | inf s, inf t => s == t
  | inf _, fin _ _ => false
  | fin _ _, inf _ => false
  | fin s m, fin t n => decide (signed s m = signed t n)

/-- The comparison `!=`, the negation of `==`. -/
def ne (a b : Double) : Bool := !(eq a b)

/-- The magnitude, `std::abs`. -/
def abs : Double → Double
  | fin _ m => fin false m
  | inf _ => inf false
  | nan => nan

/-- Whether the value is a NaN. -/
def isNaN : Double → Bool
  | nan => true
  | _ => false

instance instAdd : Add Double := ⟨add⟩

instance instSub : Sub Double := ⟨fun a b => add a (neg b)⟩

instance instMul : Mul Double := ⟨mul⟩

instance instDiv : Div Double := ⟨div⟩

instance instNeg : Neg Double := ⟨neg⟩

instance instLT : LT Double := ⟨fun a b => lt a b = true⟩

instance instDecidableLT (a b : Double) : Decidable (a < b) :=
  inferInstanceAs (Decidable (lt a b = true))

instance instOfNat (n : Nat) : OfNat Double n := ⟨ofRat n⟩

/-- The function `std::max(a, b)`: `(a < b) ? b : a`. -/
instance instMax : Max Double := ⟨fun a b => if a < b then b else a⟩

end Double

/-- The class-static state of `FMatrixPrecision<double>` (precision.hh). -/
structure FMatrixPrecision where
  _pivoting : Double
  _singular : Double
  _absolute : Double

namespace FMatrixPrecision

/-- The values the three static members are initialised with: the doubles the
literals `1E-8`, `1E-14`, `1E-80` denote. -/
def initial : FMatrixPrecision :=
  { _pivoting := Double.ofRat (1 / 10 ^ 8)
    _singular := Double.ofRat (1 / 10 ^ 14)
    _absolute := Double.ofRat (1 / 10 ^ 80) }

/-- Threshold to do pivoting. -/
def pivoting_limit (p : FMatrixPrecision) : Double := p._pivoting

/-- Threshold to declare a matrix singular. -/
def singular_limit (p : FMatrixPrecision) : Double := p._singular

/-- Absolute threshold. -/
def absolute_limit (p : FMatrixPrecision) : Double := p._absolute

end FMatrixPrecision

/-- A vector of doubles: its entries by index. -/
abbrev Vec := Nat → Double

/-- Assignment `v[i] = a`. -/
def Vec.set (v : Vec) (i : Nat) (a : Double) : Vec :=
  fun k => if k = i then a else v k

/-- A dense matrix of doubles: `mat_rows()`, `mat_cols()` and `mat_access(i)[j]`. -/
structure DenseMatrix where
  mat_rows : Nat
  mat_cols : Nat
  mat_access : Nat → Nat → Double

namespace DenseMatrix

/-- Number of rows, `rows()`. -/
def rows (A : DenseMatrix) : Nat := A.mat_rows

/-- Number of columns, `cols()`. -/
def cols (A : DenseMatrix) : Nat := A.mat_cols

/-- Read access `A[i][j]`. -/
def get (A : DenseMatrix) (i j : Nat) : Double := A.mat_access i j

/-- Write access `A[i][j] = a`. -/
def set (A : DenseMatrix) (i j : Nat) (a : Double) : DenseMatrix :=
  { A with mat_access := fun r c => if r = i ∧ c = j then a else A.mat_access r c }

end DenseMatrix

/-- Modelled from the spec: `fvmeta::absreal` of fvector.hh; for the scalar type
`double` it is `std::abs`. -/
def absreal (a : Double) : Double := Double.abs a

/-- Modelled from the spec: `one_norm_real()` of a row (fvector.hh), the sum
of the magnitudes of the entries of row `i`. -/
def one_norm_real (A : DenseMatrix) (i : Nat) : Double :=
  forUp 0 A.cols (fun j s => s + absreal (A.get i j)) 0

/-- Simplified infinity norm: the maximum of the rows' `one_norm_real`. -/
def infinity_norm_real (A : DenseMatrix) : Double :=
  forUp 0 A.rows (fun i m => max m (one_norm_real A i)) 0

/-- The template parameter `Func` of `luDecomposition`: `swap(i, j)` and
`operator()(factor, k, i)`, acting on the object the observer refers to. -/
structure Func (σ : Type) where
  swap : Nat → Nat → σ → σ
  call : Double → Nat → Nat → σ → σ

/-- Observer `ElimPivot`: `swap` records `pivot_[i] = j`, `operator()` does
nothing. -/
def ElimPivot : Func (Nat → Nat) :=
  { swap := fun i j pivot_ => fun k => if k = i then j else pivot_ k
    call := fun _ _ _ pivot_ => pivot_ }

/-- Constructor of `ElimPivot` on a vector of `size` entries:
`for (i = 0; i < pivot_.size(); ++i) pivot_[i] = i`. -/
def ElimPivot.init (size : Nat) (pivot : Nat → Nat) : Nat → Nat :=
  forUp 0 size (fun i pivot_ => fun k => if k = i then i else pivot_ k) pivot

/-- Observer `Elim<V>`: `swap` exchanges `rhs[i]` and `rhs[j]`, `operator()`
performs `rhs[k] -= factor * rhs[i]`. -/
def Elim : Func Vec :=
  { swap := fun i j rhs => (rhs.set i (rhs j)).set j (rhs i)
    call := fun factor k i rhs => rhs.set k (rhs k - factor * rhs i) }

/-- Observer `ElimDet`: `swap` performs `sign_ *= -1`, `operator()` does
nothing. -/
def ElimDet : Func Double :=
  { swap := fun _ _ sign_ => sign_ * (-1)
    call := fun _ _ _ sign_ => sign_ }

/-- Constructor of `ElimDet`: `sign_ = 1`. -/
def ElimDet.init (_sign : Double) : Double := 1

/-- The pivot search of step `i`:
`for (k = i+1; k < rows; k++) if ((abs = absreal(A[k][i])) > pivmax) { pivmax = abs; imax = k; }`
started from `(pivmax, imax = i)`. -/
def pivotSearch (rows : Nat) (A : DenseMatrix) (i : Nat) (pivmax : Double) : Double × Nat :=
  forUp (i + 1) (rows - (i + 1))
    (fun k s => if absreal (A.get k i) > s.1 then (absreal (A.get k i), k) else s)
    (pivmax, i)

/-- The row exchange `for (j = 0; j < rows; j++) std::swap(A[i][j], A[imax][j])`. -/
def swapRows (rows : Nat) (A : DenseMatrix) (i imax : Nat) : DenseMatrix :=
  forUp 0 rows (fun j B => (B.set i j (B.get imax j)).set imax j (B.get i j)) A

/-- The body of the elimination loop for row `k` at step `i`. -/
def eliminateRow {σ : Type} (rows : Nat) (F : Func σ) (i k : Nat)
    (s : DenseMatrix × σ) : DenseMatrix × σ :=
  let factor := s.1.get k i / s.1.get i i
  let A1 := s.1.set k i factor
  let A2 := forUp (i + 1) (rows - (i + 1))
    (fun j B => B.set k j (B.get k j - factor * B.get i j)) A1
  (A2, F.call factor k i s.2)

/-- The body of the loop over all rows of `luDecomposition`, for row `i`:
pivot search and row exchange, singularity test, elimination.  The first
component of the result is the exception thrown, if any. -/
def luBody {σ : Type} (rows : Nat) (pivthres singthres : Double) (F : Func σ) (i : Nat)
    (s : DenseMatrix × σ) : Option FMatrixError × (DenseMatrix × σ) :=
  let pivmax := absreal (s.1.get i i)
  let t : Double × (DenseMatrix × σ) :=
    if pivmax < pivthres then
      let r := pivotSearch rows s.1 i pivmax
      if r.2 ≠ i then (r.1, (swapRows rows s.1 i r.2, F.swap i r.2 s.2))
      else (r.1, s)
    else (pivmax, s)
  if t.1 < singthres then (some FMatrixError.singular, t.2)
  else
    (none, forUp (i + 1) (rows - (i + 1)) (fun k u => eliminateRow rows F i k u) t.2)

/-- The method `luDecomposition(A, func)` of a matrix with `rows` rows: LU
decomposition of `A` in `A`.  Once an exception is thrown the remaining
iterations are not run. -/
def luDecomposition {σ : Type} (p : FMatrixPrecision) (rows : Nat) (A : DenseMatrix)
    (F : Func σ) (func : σ) : Option FMatrixError × (DenseMatrix × σ) :=
  let norm := infinity_norm_real A
  let pivthres := max p.absolute_limit (norm * p.pivoting_limit)
  let singthres := max p.absolute_limit (norm * p.singular_limit)
  forUp 0 rows
    (fun i r => match r.1 with
      | some _ => r
      | none => luBody rows pivthres singthres F i r.2)
    (none, (A, func))

/-- The method `determinant()`.  An `FMatrixError` thrown by the dimension
check leaves the method; one thrown by `luDecomposition` is caught and
turned into the result 0. -/
def determinant (p : FMatrixPrecision) (self : DenseMatrix) : Except FMatrixError Double :=
  if self.rows ≠ self.cols then Except.error FMatrixError.notSquare
  else if self.rows = 1 then Except.ok (self.get 0 0)
  else if self.rows = 2 then
    Except.ok (self.get 0 0 * self.get 1 1 - self.get 0 1 * self.get 1 0)
  else if self.rows = 3 then
    let t4 := self.get 0 0 * self.get 1 1
    let t6 := self.get 0 0 * self.get 1 2
    let t8 := self.get 0 1 * self.get 1 0
    let t10 := self.get 0 2 * self.get 1 0
    let t12 := self.get 0 1 * self.get 2 0
    let t14 := self.get 0 2 * self.get 2 0
    Except.ok (t4 * self.get 2 2 - t6 * self.get 2 1 - t8 * self.get 2 2
      + t10 * self.get 2 1 + t12 * self.get 1 2 - t14 * self.get 1 1)
  else
    let r := luDecomposition p self.rows self ElimDet (ElimDet.init 0)
    match r.1 with
    | some _ => Except.ok 0
    | none => Except.ok (forUp 0 self.rows (fun i det => det * r.2.1.get i i) r.2.2)

/-- The back substitution of `solve`:
`for (int i = rows-1; i >= 0; i--) { for (j = i+1; j < rows; j++) rhs[i] -= A[i][j]*x[j]; x[i] = rhs[i]/A[i][i]; }`
where `rhs` and `x` are the same object. -/
def backsolve (rows : Nat) (A : DenseMatrix) (x : Vec) : Vec :=
  forDown rows
    (fun i x =>
      let x1 := forUp (i + 1) (rows - (i + 1)) (fun j x => x.set i (x i - A.get i j * x j)) x
      x1.set i (x1 i / A.get i i))
    x

/-- The method `solve(x, b)`; `checking` tells whether
`OPM_FMatrix_WITH_CHECKING` is defined.  The result is the exception thrown,
if any, and the final content of `x`; `x` and `b` are distinct objects. -/
def solve (checking : Bool) (p : FMatrixPrecision) (self : DenseMatrix) (x b : Vec) :
    Option FMatrixError × Vec :=
  if self.rows ≠ self.cols then (some FMatrixError.notSquare, x)
  else if self.rows = 1 then
    if checking = true ∧ absreal (self.get 0 0) < p.absolute_limit then
      (some FMatrixError.singular, x)
    else (none, x.set 0 (b 0 / self.get 0 0))
  else if self.rows = 2 then
    let detinv := self.get 0 0 * self.get 1 1 - self.get 0 1 * self.get 1 0
    if checking = true ∧ absreal detinv < p.absolute_limit then
      (some FMatrixError.singular, x)
    else
      let detinv := 1 / detinv
      let x := x.set 0 (detinv * (self.get 1 1 * b 0 - self.get 0 1 * b 1))
      let x := x.set 1 (detinv * (self.get 0 0 * b 1 - self.get 1 0 * b 0))
      (none, x)
  else if self.rows = 3 then
    match determinant p self with
    | Except.error e => (some e, x)
    | Except.ok d =>
      if checking = true ∧ absreal d < p.absolute_limit then
        (some FMatrixError.singular, x)
      else
        let x := x.set 0
          ((b 0 * self.get 1 1 * self.get 2 2 - b 0 * self.get 2 1 * self.get 1 2
            - b 1 * self.get 0 1 * self.get 2 2 + b 1 * self.get 2 1 * self.get 0 2
            + b 2 * self.get 0 1 * self.get 1 2 - b 2 * self.get 1 1 * self.get 0 2) / d)
        let x := x.set 1
          ((self.get 0 0 * b 1 * self.get 2 2 - self.get 0 0 * b 2 * self.get 1 2
            - self.get 1 0 * b 0 * self.get 2 2 + self.get 1 0 * b 2 * self.get 0 2
            + self.get 2 0 * b 0 * self.get 1 2 - self.get 2 0 * b 1 * self.get 0 2) / d)
        let x := x.set 2
          ((self.get 0 0 * self.get 1 1 * b 2 - self.get 0 0 * self.get 2 1 * b 1
            - self.get 1 0 * self.get 0 1 * b 2 + self.get 1 0 * self.get 2 1 * b 0
            + self.get 2 0 * self.get 0 1 * b 1 - self.get 2 0 * self.get 1 1 * b 0) / d)
        (none, x)
  else
    let r := luDecomposition p self.rows self Elim b
    match r.1 with
    | some e => (some e, r.2.2)
    | none => (none, backsolve self.rows r.2.1 r.2.2)

/-- Modelled from the spec: assignment of a scalar to row `i` (the row type
of fvector.hh), which sets every element of the row to the scalar. -/
def assignRow (A : DenseMatrix) (i : Nat) (f : Double) : DenseMatrix :=
  { A with mat_access := fun r c => if r = i ∧ c < A.cols then f else A.mat_access r c }

/-- Assignment from scalar, `operator= (const field_type& f)`:
`for (i = 0; i < rows(); i++) (*this)[i] = f`. -/
def assignScalar (A : DenseMatrix) (f : Double) : DenseMatrix :=
  forUp 0 A.rows (fun i B => assignRow B i f) A

/-- Forward substitution of `invert`, `L Y = I` with multiple right hand sides:
`for i < rows, for j < i, for k < rows: (*this)[i][k] -= L[i][j]*(*this)[j][k]`. -/
def invertForward (rows : Nat) (L : DenseMatrix) (M : DenseMatrix) : DenseMatrix :=
  forUp 0 rows (fun i M =>
    forUp 0 i (fun j M =>
      forUp 0 rows (fun k M => M.set i k (M.get i k - L.get i j * M.get j k)) M) M) M

/-- Back substitution of `invert`, `U A^{-1} = Y`: for `i` from `rows-1` down
to 0 and every `k < rows`, subtract `U[i][j]*(*this)[j][k]` for `j > i` from
`(*this)[i][k]`, then divide it by `U[i][i]`. -/
def invertBackward (rows : Nat) (U : DenseMatrix) (M : DenseMatrix) : DenseMatrix :=
  forDown rows (fun i M =>
    forUp 0 rows (fun k M =>
      let M1 := forUp (i + 1) (rows - (i + 1))
        (fun j M => M.set i k (M.get i k - U.get i j * M.get j k)) M
      M1.set i k (M1.get i k / U.get i i)) M) M

/-- The column exchanges at the end of `invert`: for `i` from `rows-1` down to
0, if `i != pivot[i]`, `std::swap((*this)[j][pivot[i]], (*this)[j][i])` for
every `j < rows`. -/
def invertUnpivot (rows : Nat) (pivot : Nat → Nat) (M : DenseMatrix) : DenseMatrix :=
  forDown rows (fun i M =>
    if i ≠ pivot i then
      forUp 0 rows (fun j M =>
        (M.set j (pivot i) (M.get j i)).set j i (M.get j (pivot i))) M
    else M) M

/-- The method `invert()`; `checking` tells whether
`OPM_FMatrix_WITH_CHECKING` is defined.  The result is the exception thrown,
if any, and the final content of `*this`. -/
def invert (checking : Bool) (p : FMatrixPrecision) (self : DenseMatrix) :
    Option FMatrixError × DenseMatrix :=
  if self.rows ≠ self.cols then (some FMatrixError.notSquare, self)
  else if self.rows = 1 then
    if checking = true ∧ absreal (self.get 0 0) < p.absolute_limit then
      (some FMatrixError.singular, self)
    else (none, self.set 0 0 (1 / self.get 0 0))
  else if self.rows = 2 then
    let detinv := self.get 0 0 * self.get 1 1 - self.get 0 1 * self.get 1 0
    if checking = true ∧ absreal detinv < p.absolute_limit then
      (some FMatrixError.singular, self)
    else
      let detinv := 1 / detinv
      let temp := self.get 0 0
      let M := self.set 0 0 (self.get 1 1 * detinv)
      let M := M.set 0 1 (-M.get 0 1 * detinv)
      let M := M.set 1 0 (-M.get 1 0 * detinv)
      let M := M.set 1 1 (temp * detinv)
      (none, M)
  else
    let r := luDecomposition p self.rows self ElimPivot
      (ElimPivot.init self.rows (fun _ => 0))
    match r.1 with
    | some e => (some e, self)
    | none =>
      let A := r.2.1
      let pivot := r.2.2
      let M := assignScalar self 0
      let M := forUp 0 self.rows (fun i M => M.set i i 1) M
      let M := invertForward self.rows A M
      let M := invertBackward self.rows A M
      (none, invertUnpivot self.rows pivot M)

/-- Modelled from the spec: the vector type of fvector.hh that `mv` takes for
`x` and `y`, with its size `N()` and its entries `operator[]`. -/
structure DenseVector where
  N : Nat
  v : Vec

/-- The method `mv(x, y)`, `y = A x`; `checking` tells whether
`OPM_FMatrix_WITH_CHECKING` is defined.  The result is the exception thrown,
if any, and the final content of `y`; `x` and `y` are distinct objects. -/
def mv (checking : Bool) (self : DenseMatrix) (x y : DenseVector) :
    Option FMatrixError × DenseVector :=
  if checking = true ∧ x.N ≠ self.cols then (some FMatrixError.outOfRange, y)
  else if checking = true ∧ y.N ≠ self.rows then (some FMatrixError.outOfRange, y)
  else
    (none, { y with v := forUp 0 self.rows (fun i v =>
      forUp 0 self.cols (fun j v => v.set i (v i + self.get i j * x.v j)) (v.set i 0)) y.v })

/-- Modelled from the spec: the comparison `!=` of row `i` of two matrices (the
row type of fvector.hh): true when the rows differ in some element `j < cols()`
under the comparison `!=` of `double`. -/
def rowNe (A y : DenseMatrix) (i : Nat) : Bool :=
  anyUp 0 A.cols (fun j => Double.ne (A.get i j) (y.get i j))

/-- Binary matrix comparison, `operator== (const DenseMatrix& y)`:
`for (i = 0; i < rows(); i++) if ((*this)[i] != y[i]) return false; return true`. -/
def operator_eq (self y : DenseMatrix) : Bool :=
  if anyUp 0 self.rows (fun i => rowNe self y i) then false else true

/-- Binary matrix incomparison, `operator!= (const DenseMatrix& y)`:
`return !operator==(y)`. -/
def operator_ne (self y : DenseMatrix) : Bool := !(operator_eq self y)

/-- Multiplies `M` from the left to this matrix, `leftmultiply(M)`.  The result
is `none` when the `assert` on the shapes fails, else the final content of
`*this`; `C` is the copy of `*this` taken before the loops. -/
def leftmultiply (self M : DenseMatrix) : Option DenseMatrix :=
  if ¬ (M.rows = M.cols ∧ M.rows = self.rows) then none
  else
    let C := self
    some (forUp 0 self.rows (fun i A =>
      forUp 0 self.cols (fun j A =>
        forUp 0 self.rows (fun k A => A.set i j (A.get i j + M.get i k * C.get k j))
          (A.set i j 0)) A) self)

/-- The 3 x 3 matrix `[[1, 1, 0], [0, 3, 1+e], [1, 4, 1+e]]` with `e = 2^-52`;
its last row is the sum of the other two, every entry being a double. -/
def sampleRounding : DenseMatrix :=
  { mat_rows := 3
    mat_cols := 3
    mat_access := fun i j =>
      match i, j with
      | 0, 0 => 1 | 0, 1 => 1 | 0, 2 => 0
      | 1, 0 => 0 | 1, 1 => 3 | 1, 2 => Double.fin false (1 + 1 / 2 ^ 52)
      | 2, 0 => 1 | 2, 1 => 4 | 2, 2 => Double.fin false (1 + 1 / 2 ^ 52)
      | _, _ => 0 }

/-- The 4 x 4 matrix `[[3, 1, 0, 0], [d, 0, 0, 1], [0, 0, 1, 0], [3+d, 1, 0, 1]]`
with `d = 2^-20`; its last row is the sum of the first two, every entry being a
double. -/
def sampleGrowth : DenseMatrix :=
  { mat_rows := 4
    mat_cols := 4
    mat_access := fun i j =>
      match i, j with
      | 0, 0 => 3 | 0, 1 => 1
      | 1, 0 => Double.fin false (1 / 2 ^ 20) | 1, 3 => 1
      | 2, 2 => 1
      | 3, 0 => Double.fin false (3 + 1 / 2 ^ 20) | 3, 1 => 1 | 3, 3 => 1
      | _, _ => 0 }

/-- The 2 x 2 matrix `[[1, 1], [1, 1]]` of doubles. -/
def sampleOnes : DenseMatrix :=
  { mat_rows := 2
    mat_cols := 2
    mat_access := fun _ _ => 1 }

/-- The 1 x 1 matrix `[[0]]` of doubles. -/
def sampleNull : DenseMatrix :=
  { mat_rows := 1
    mat_cols := 1
    mat_access := fun _ _ => 0 }

/-- The right-hand side `(3, 2, 2, ...)` of doubles. -/
def sampleRhs : Vec := fun i => if i = 0 then 3 else 2

/-- The number a double stands for; 0 for an infinity or a NaN. -/
def Double.toRat : Double → ℚ
  | Double.fin s m => Double.signed s m
  | _ => 0

instance instDecidableEqResult : DecidableEq (Except FMatrixError Double) := fun r s =>
  match r, s with
  | Except.ok a, Except.ok b =>
    if h : a = b then isTrue (by rw [h]) else isFalse (fun e => h (Except.ok.inj e))
  | Except.error a, Except.error b =>
    if h : a = b then isTrue (by rw [h]) else isFalse (fun e => h (Except.error.inj e))
  | Except.ok _, Except.error _ => isFalse (fun e => Except.noConfusion e)
  | Except.error _, Except.ok _ => isFalse (fun e => Except.noConfusion e)

end Ieee

/-! ## The kernel with explicit loop counters

The loops of `luDecomposition`, `solve`, `invert` and `determinant` as `while`
loops on a state that holds the counter, run with a bound on the number of
iterations: a loop whose condition does not fail within the bound has no
result. -/

/-- The loop `while (cond(s)) s = body(s)`, run for at most `fuel` iterations.
The result is `none` when the condition still holds after `fuel` iterations, or
when the body has no result. -/
def whileLoop {σ : Type} (cond : σ → Bool) (body : σ → Option σ) : Nat → σ → Option σ
  | 0, s => if cond s = true then none else some s
  | fuel + 1, s => if cond s = true then (body s).bind (whileLoop cond body fuel) else some s

namespace Stepwise

/-- The loop `for (size_type i = lo; i < n; i++) s = body(i, s)`: the state of
the `while` loop is the counter `i` together with `s`. -/
def forUpTo {σ : Type} (fuel lo n : Nat) (body : Nat → σ → Option σ) (s : σ) : Option σ :=
  (whileLoop (fun st : Nat × σ => decide (st.1 < n))
    (fun st => (body st.1 st.2).map (fun t => (st.1 + 1, t))) fuel (lo, s)).map Prod.snd

/-- The loop `for (size_type i = n; i > 0; ) { --i; s = body(i, s); }`. -/
def forDownFrom {σ : Type} (fuel n : Nat) (body : Nat → σ → Option σ) (s : σ) : Option σ :=
  (whileLoop (fun st : Nat × σ => decide (0 < st.1))
    (fun st => (body (st.1 - 1) st.2).map (fun t => (st.1 - 1, t))) fuel (n, s)).map Prod.snd

/-- The loop `for (int i = n - 1; i >= 0; i--) s = body(i, s)` with a signed
counter. -/
def forDownInt {σ : Type} (fuel n : Nat) (body : Int → σ → Option σ) (s : σ) : Option σ :=
  (whileLoop (fun st : Int × σ => decide (0 ≤ st.1))
    (fun st => (body st.1 st.2).map (fun t => (st.1 - 1, t))) fuel ((n : Int) - 1, s)).map
    Prod.snd

/-- Simplified infinity norm:
`for (i = 0; i < rows(); ++i) max = std::max(max, (*this)[i].one_norm_real())`;
the norm of a row is a method of the row type (fvector.hh). -/
def infinity_norm_real (fuel : Nat) (A : DenseMatrix) : Option ℚ :=
  forUpTo fuel 0 A.rows (fun i m => some (max m (one_norm_real A i))) 0

/-- Constructor of `ElimPivot`:
`for (i = 0; i < pivot_.size(); ++i) pivot_[i] = i`. -/
def ElimPivot.init (fuel size : Nat) (pivot : Nat → Nat) : Option (Nat → Nat) :=
  forUpTo fuel 0 size (fun i pivot_ => some (fun k => if k = i then i else pivot_ k)) pivot

/-- The pivot search of step `i`:
`for (k = i+1; k < rows; k++) if ((abs = absreal(A[k][i])) > pivmax) { pivmax = abs; imax = k; }`. -/
def pivotSearch (fuel rows : Nat) (A : DenseMatrix) (i : Nat) (pivmax : ℚ) :
    Option (ℚ × Nat) :=
  forUpTo fuel (i + 1) rows
    (fun k s => some (if absreal (A.get k i) > s.1 then (absreal (A.get k i), k) else s))
    (pivmax, i)

/-- The row exchange `for (j = 0; j < rows; j++) std::swap(A[i][j], A[imax][j])`. -/
def swapRows (fuel rows : Nat) (A : DenseMatrix) (i imax : Nat) : Option DenseMatrix :=
  forUpTo fuel 0 rows
    (fun j B => some ((B.set i j (B.get imax j)).set imax j (B.get i j))) A

/-- The body of the elimination loop for row `k` at step `i`:
`factor = A[k][i]/A[i][i]; A[k][i] = factor; for (j = i+1; j < rows; j++) A[k][j] -= factor*A[i][j]; func(factor, k, i);`. -/
def eliminateRow {σ : Type} (fuel rows : Nat) (F : Func σ) (i k : Nat)
    (s : DenseMatrix × σ) : Option (DenseMatrix × σ) :=
  let factor := s.1.get k i / s.1.get i i
  let A1 := s.1.set k i factor
  (forUpTo fuel (i + 1) rows
    (fun j B => some (B.set k j (B.get k j - factor * B.get i j))) A1).map
    (fun A2 => (A2, F.call factor k i s.2))

/-- The body of the loop over all rows of `luDecomposition`, for row `i`.  The
first component of the result is the exception thrown, if any. -/
def luBody {σ : Type} (fuel rows : Nat) (pivthres singthres : ℚ) (F : Func σ) (i : Nat)
    (s : DenseMatrix × σ) : Option (Option FMatrixError × (DenseMatrix × σ)) :=
  let pivmax := absreal (s.1.get i i)
  let searched : Option (ℚ × (DenseMatrix × σ)) :=
    if pivmax < pivthres then
      (pivotSearch fuel rows s.1 i pivmax).bind (fun r =>
        if r.2 ≠ i then
          (swapRows fuel rows s.1 i r.2).map (fun B => (r.1, (B, F.swap i r.2 s.2)))
        else some (r.1, s))
    else some (pivmax, s)
  searched.bind (fun t =>
    if t.1 < singthres then some (some FMatrixError.singular, t.2)
    else
      (forUpTo fuel (i + 1) rows (fun k u => eliminateRow fuel rows F i k u) t.2).map
        (fun u => (none, u)))

/-- The method `luDecomposition(A, func)`: the loop
`for (size_type i = 0; i < rows(); i++)` is left when its condition fails or
when its body has thrown. -/
def luDecomposition {σ : Type} (fuel : Nat) (p : FMatrixPrecision) (rows : Nat)
    (A : DenseMatrix) (F : Func σ) (func : σ) :
    Option (Option FMatrixError × (DenseMatrix × σ)) :=
  (infinity_norm_real fuel A).bind (fun norm =>
    let pivthres := max p.absolute_limit (norm * p.pivoting_limit)
    let singthres := max p.absolute_limit (norm * p.singular_limit)
    (whileLoop
      (fun st : Nat × (Option FMatrixError × (DenseMatrix × σ)) =>
        st.2.1.isNone && decide (st.1 < rows))
      (fun st => (luBody fuel rows pivthres singthres F st.1 st.2.2).map
        (fun r => (st.1 + 1, r)))
      fuel (0, (none, (A, func)))).map Prod.snd)

/-- The method `determinant()`; the last loop is
`for (size_type i = 0; i < rows(); ++i) det *= A[i][i]`. -/
def determinant (fuel : Nat) (p : FMatrixPrecision) (self : DenseMatrix) :
    Option (Except FMatrixError ℚ) :=
  if self.rows ≠ self.cols then some (Except.error FMatrixError.notSquare)
  else if self.rows = 1 then some (Except.ok (self.get 0 0))
  else if self.rows = 2 then
    some (Except.ok (self.get 0 0 * self.get 1 1 - self.get 0 1 * self.get 1 0))
  else if self.rows = 3 then
    let t4 := self.get 0 0 * self.get 1 1
    let t6 := self.get 0 0 * self.get 1 2
    let t8 := self.get 0 1 * self.get 1 0
    let t10 := self.get 0 2 * self.get 1 0
    let t12 := self.get 0 1 * self.get 2 0
    let t14 := self.get 0 2 * self.get 2 0
    some (Except.ok (t4 * self.get 2 2 - t6 * self.get 2 1 - t8 * self.get 2 2
      + t10 * self.get 2 1 + t12 * self.get 1 2 - t14 * self.get 1 1))
  else
    (luDecomposition fuel p self.rows self ElimDet (ElimDet.init 0)).bind (fun r =>
      match r.1 with
      | some _ => some (Except.ok 0)
      | none =>
        (forUpTo fuel 0 self.rows (fun i det => some (det * r.2.1.get i i)) r.2.2).map
          Except.ok)

/-- The back substitution of `solve`:
`for (int i = rows-1; i >= 0; i--) { for (size_type j = i+1; j < rows; j++) rhs[i] -= A[i][j]*x[j]; x[i] = rhs[i]/A[i][i]; }`. -/
def backsolve (fuel rows : Nat) (A : DenseMatrix) (x : Vec) : Option Vec :=
  forDownInt fuel rows
    (fun i x =>
      (forUpTo fuel (i.toNat + 1) rows
        (fun j x => some (x.set i.toNat (x i.toNat - A.get i.toNat j * x j))) x).map
        (fun x1 => x1.set i.toNat (x1 i.toNat / A.get i.toNat i.toNat)))
    x

/-- The method `solve(x, b)`. -/
def solve (fuel : Nat) (checking : Bool) (p : FMatrixPrecision) (self : DenseMatrix)
    (x b : Vec) : Option (Option FMatrixError × Vec) :=
  if self.rows ≠ self.cols then some (some FMatrixError.notSquare, x)
  else if self.rows = 1 then
    if checking = true ∧ absreal (self.get 0 0) < p.absolute_limit then
      some (some FMatrixError.singular, x)
    else some (none, x.set 0 (b 0 / self.get 0 0))
  else if self.rows = 2 then
    let detinv := self.get 0 0 * self.get 1 1 - self.get 0 1 * self.get 1 0
    if checking = true ∧ absreal detinv < p.absolute_limit then
      some (some FMatrixError.singular, x)
    else
      let detinv := 1 / detinv
      let x := x.set 0 (detinv * (self.get 1 1 * b 0 - self.get 0 1 * b 1))
      let x := x.set 1 (detinv * (self.get 0 0 * b 1 - self.get 1 0 * b 0))
      some (none, x)
  else if self.rows = 3 then
    (determinant fuel p self).bind (fun r =>
      match r with
      | Except.error e => some (some e, x)
      | Except.ok d =>
        if checking = true ∧ absreal d < p.absolute_limit then
          some (some FMatrixError.singular, x)
        else
          let x := x.set 0
            ((b 0 * self.get 1 1 * self.get 2 2 - b 0 * self.get 2 1 * self.get 1 2
              - b 1 * self.get 0 1 * self.get 2 2 + b 1 * self.get 2 1 * self.get 0 2
              + b 2 * self.get 0 1 * self.get 1 2 - b 2 * self.get 1 1 * self.get 0 2) / d)
          let x := x.set 1
            ((self.get 0 0 * b 1 * self.get 2 2 - self.get 0 0 * b 2 * self.get 1 2
              - self.get 1 0 * b 0 * self.get 2 2 + self.get 1 0 * b 2 * self.get 0 2
              + self.get 2 0 * b 0 * self.get 1 2 - self.get 2 0 * b 1 * self.get 0 2) / d)
          let x := x.set 2
            ((self.get 0 0 * self.get 1 1 * b 2 - self.get 0 0 * self.get 2 1 * b 1
              - self.get 1 0 * self.get 0 1 * b 2 + self.get 1 0 * self.get 2 1 * b 0
              + self.get 2 0 * self.get 0 1 * b 1 - self.get 2 0 * self.get 1 1 * b 0) / d)
          some (none, x))
  else
    (luDecomposition fuel p self.rows self Elim b).bind (fun r =>
      match r.1 with
      | some e => some (some e, r.2.2)
      | none => (backsolve fuel self.rows r.2.1 r.2.2).map (fun x => (none, x)))

/-- Assignment from scalar, `operator= (const field_type& f)`:
`for (i = 0; i < rows(); i++) (*this)[i] = f`. -/
def assignScalar (fuel : Nat) (A : DenseMatrix) (f : ℚ) : Option DenseMatrix :=
  forUpTo fuel 0 A.rows (fun i B => some (assignRow B i f)) A

/-- Forward substitution of `invert`:
`for (i = 0; i < rows; i++) for (j = 0; j < i; j++) for (k = 0; k < rows; k++) (*this)[i][k] -= L[i][j]*(*this)[j][k]`. -/
def invertForward (fuel rows : Nat) (L : DenseMatrix) (M : DenseMatrix) : Option DenseMatrix :=
  forUpTo fuel 0 rows (fun i M =>
    forUpTo fuel 0 i (fun j M =>
      forUpTo fuel 0 rows
        (fun k M => some (M.set i k (M.get i k - L.get i j * M.get j k))) M) M) M

/-- Back substitution of `invert`:
`for (i = rows; i > 0; ) { --i; for (k = 0; k < rows; k++) { for (j = i+1; j < rows; j++) (*this)[i][k] -= U[i][j]*(*this)[j][k]; (*this)[i][k] /= U[i][i]; } }`. -/
def invertBackward (fuel rows : Nat) (U : DenseMatrix) (M : DenseMatrix) : Option DenseMatrix :=
  forDownFrom fuel rows (fun i M =>
    forUpTo fuel 0 rows (fun k M =>
      (forUpTo fuel (i + 1) rows
        (fun j M => some (M.set i k (M.get i k - U.get i j * M.get j k))) M).map
        (fun M1 => M1.set i k (M1.get i k / U.get i i))) M) M

/-- The column exchanges at the end of `invert`:
`for (i = rows; i > 0; ) { --i; if (i != pivot[i]) for (j = 0; j < rows; ++j) std::swap((*this)[j][pivot[i]], (*this)[j][i]); }`. -/
def invertUnpivot (fuel rows : Nat) (pivot : Nat → Nat) (M : DenseMatrix) : Option DenseMatrix :=
  forDownFrom fuel rows (fun i M =>
    if i ≠ pivot i then
      forUpTo fuel 0 rows (fun j M =>
        some ((M.set j (pivot i) (M.get j i)).set j i (M.get j (pivot i)))) M
    else some M) M

/-- The method `invert()`. -/
def invert (fuel : Nat) (checking : Bool) (p : FMatrixPrecision) (self : DenseMatrix) :
    Option (Option FMatrixError × DenseMatrix) :=
  if self.rows ≠ self.cols then some (some FMatrixError.notSquare, self)
  else if self.rows = 1 then
    if checking = true ∧ absreal (self.get 0 0) < p.absolute_limit then
      some (some FMatrixError.singular, self)
    else some (none, self.set 0 0 (1 / self.get 0 0))
  else if self.rows = 2 then
    let detinv := self.get 0 0 * self.get 1 1 - self.get 0 1 * self.get 1 0
    if checking = true ∧ absreal detinv < p.absolute_limit then
      some (some FMatrixError.singular, self)
    else
      let detinv := 1 / detinv
      let temp := self.get 0 0
      let M := self.set 0 0 (self.get 1 1 * detinv)
      let M := M.set 0 1 (-M.get 0 1 * detinv)
      let M := M.set 1 0 (-M.get 1 0 * detinv)
      let M := M.set 1 1 (temp * detinv)
      some (none, M)
  else
    (ElimPivot.init fuel self.rows (fun _ => 0)).bind (fun pivot0 =>
      (luDecomposition fuel p self.rows self ElimPivot pivot0).bind (fun r =>
        match r.1 with
        | some e => some (some e, self)
        | none =>
          let A := r.2.1
          let pivot := r.2.2
          (assignScalar fuel self 0).bind (fun M =>
            (forUpTo fuel 0 self.rows (fun i M => some (M.set i i 1)) M).bind (fun M =>
              (invertForward fuel self.rows A M).bind (fun M =>
                (invertBackward fuel self.rows A M).bind (fun M =>
                  (invertUnpivot fuel self.rows pivot M).map (fun M => (none, M))))))))

end Stepwise

/-! ## Loops and closed forms -/

theorem forUp_induct {σ : Type} (P : Nat → σ → Prop) (lo cnt : Nat) (body : Nat → σ → σ)
    (s : σ) (h0 : P 0 s)
    (hs : ∀ c t, c < cnt → P c t → P (c + 1) (body (lo + c) t)) :
    P cnt (forUp lo cnt body s) := by
  induction cnt with
  | zero => exact h0
  | succ c ih =>
    exact hs c _ (Nat.lt_succ_self c) (ih fun d t hd ht => hs d t (Nat.lt_succ_of_lt hd) ht)

theorem forDown_induct {σ : Type} (P : Nat → σ → Prop) (n : Nat) (body : Nat → σ → σ)
    (s : σ) (h0 : P n s)
    (hs : ∀ c t, c < n → P (c + 1) t → P c (body c t)) :
    P 0 (forDown n body s) := by
  induction n generalizing s with
  | zero => exact h0
  | succ c ih =>
    exact ih (body c s) (hs c s (Nat.lt_succ_self c) h0)
      fun d t hd ht => hs d t (Nat.lt_succ_of_lt hd) ht

@[simp] theorem DenseMatrix.get_set (A : DenseMatrix) (i j : Nat) (a : ℚ) (r c : Nat) :
    (A.set i j a).get r c = if r = i ∧ c = j then a else A.get r c := rfl

@[simp] theorem DenseMatrix.rows_set (A : DenseMatrix) (i j : Nat) (a : ℚ) :
    (A.set i j a).rows = A.rows := rfl

@[simp] theorem DenseMatrix.cols_set (A : DenseMatrix) (i j : Nat) (a : ℚ) :
    (A.set i j a).cols = A.cols := rfl

/-! ## Row exchange and elimination of one step -/

theorem swapRows_spec (rows : Nat) (A : DenseMatrix) (i m : Nat) :
    (swapRows rows A i m).rows = A.rows ∧ (swapRows rows A i m).cols = A.cols ∧
    ∀ r c, (swapRows rows A i m).get r c =
      if c < rows then (if r = i then A.get m c else if r = m then A.get i c else A.get r c)
      else A.get r c := by
  unfold swapRows
  refine forUp_induct
    (fun cnt B => B.rows = A.rows ∧ B.cols = A.cols ∧ ∀ r c, B.get r c =
      if c < cnt then (if r = i then A.get m c else if r = m then A.get i c else A.get r c)
      else A.get r c) 0 rows _ A ⟨rfl, rfl, fun r c => by simp⟩ ?_
  intro cnt B _ hB
  obtain ⟨h1, h2, h3⟩ := hB
  refine ⟨by simpa using h1, by simpa using h2, fun r c => ?_⟩
  simp only [DenseMatrix.get_set, Nat.zero_add, h3]
  by_cases hc : c = cnt
  · subst hc
    have hlt : ¬ c < c := lt_irrefl c
    by_cases hri : r = i
    · subst hri
      by_cases hrm : r = m
      · subst hrm; simp
      · simp [hrm, hlt]
    · by_cases hrm : r = m
      · subst hrm
        have : ¬ i = r := fun h => hri h.symm
        simp [hri, this, hlt]
      · simp [hri, hrm, hlt]
  · have : c < cnt + 1 ↔ c < cnt := by omega
    simp [hc, this]

theorem rowUpdate_spec (lo cnt k i : Nat) (hki : k ≠ i) (f : ℚ) (A : DenseMatrix) :
    (forUp lo cnt (fun j B => B.set k j (B.get k j - f * B.get i j)) A).rows = A.rows ∧
    (forUp lo cnt (fun j B => B.set k j (B.get k j - f * B.get i j)) A).cols = A.cols ∧
    ∀ r c, (forUp lo cnt (fun j B => B.set k j (B.get k j - f * B.get i j)) A).get r c =
      if r = k ∧ lo ≤ c ∧ c < lo + cnt then A.get k c - f * A.get i c else A.get r c := by
  refine forUp_induct
    (fun n B => B.rows = A.rows ∧ B.cols = A.cols ∧ ∀ r c, B.get r c =
      if r = k ∧ lo ≤ c ∧ c < lo + n then A.get k c - f * A.get i c else A.get r c)
    lo cnt _ A ⟨rfl, rfl, fun r c => by
      have : ¬ (r = k ∧ lo ≤ c ∧ c < lo + 0) := by omega
      simp only [this, if_false]⟩ ?_
  intro n B _ hB
  obtain ⟨h1, h2, h3⟩ := hB
  refine ⟨by simpa using h1, by simpa using h2, fun r c => ?_⟩
  simp only [DenseMatrix.get_set, h3]
  have hik : ¬ i = k := fun h => hki h.symm
  by_cases hr : r = k
  · subst hr
    by_cases hc : c = lo + n
    · subst hc
      simp [hik]
    · have : (c < lo + (n + 1)) ↔ c < lo + n := by omega
      simp [hc, this]
  · simp [hr]

theorem DenseMatrix.ext_get {A B : DenseMatrix} (h1 : A.rows = B.rows) (h2 : A.cols = B.cols)
    (h3 : ∀ r c, A.get r c = B.get r c) : A = B := by
  cases A; cases B
  simp only [DenseMatrix.rows, DenseMatrix.cols, DenseMatrix.get] at h1 h2 h3
  subst h1; subst h2
  congr
  funext r c
  exact h3 r c

theorem eliminateRow_fst {σ : Type} (rows : Nat) (F : Func σ) (i k : Nat) (hki : k ≠ i)
    (s : DenseMatrix × σ) :
    (eliminateRow rows F i k s).1.rows = s.1.rows ∧
    (eliminateRow rows F i k s).1.cols = s.1.cols ∧
    ∀ r c, (eliminateRow rows F i k s).1.get r c =
      if r = k then
        (if c = i then s.1.get k i / s.1.get i i
         else if i < c ∧ c < rows then s.1.get k c - s.1.get k i / s.1.get i i * s.1.get i c
         else s.1.get k c)
      else s.1.get r c := by
  unfold eliminateRow
  obtain ⟨h1, h2, h3⟩ := rowUpdate_spec (i + 1) (rows - (i + 1)) k i hki
    (s.1.get k i / s.1.get i i) (s.1.set k i (s.1.get k i / s.1.get i i))
  refine ⟨by simpa using h1, by simpa using h2, fun r c => ?_⟩
  simp only [h3, DenseMatrix.get_set]
  have hik : ¬ i = k := fun h => hki h.symm
  by_cases hr : r = k
  · subst hr
    by_cases hc : c = i
    · subst hc
      have : ¬ (c + 1 ≤ c) := by omega
      simp [this]
    · by_cases hc2 : i < c ∧ c < rows
      · have : i + 1 ≤ c ∧ c < i + 1 + (rows - (i + 1)) := by omega
        simp [hc, hc2, this, hik]
      · have : ¬ (i + 1 ≤ c ∧ c < i + 1 + (rows - (i + 1))) := by omega
        simp [hc, hc2, this]
  · simp [hr]

theorem elimination_spec {σ : Type} (rows : Nat) (F : Func σ) (i : Nat) (A : DenseMatrix)
    (st : σ) :
    forUp (i + 1) (rows - (i + 1)) (fun k u => eliminateRow rows F i k u) (A, st)
      = (elimStep rows i A, elimCalls rows F i A st) := by
  unfold elimCalls
  have key : ∀ cnt, cnt ≤ rows - (i + 1) →
      (forUp (i + 1) cnt (fun k u => eliminateRow rows F i k u) (A, st)).1.rows = A.rows ∧
      (forUp (i + 1) cnt (fun k u => eliminateRow rows F i k u) (A, st)).1.cols = A.cols ∧
      (∀ r c, (forUp (i + 1) cnt (fun k u => eliminateRow rows F i k u) (A, st)).1.get r c =
        if i < r ∧ r < i + 1 + cnt then
          (if c = i then A.get r i / A.get i i
           else if i < c ∧ c < rows then A.get r c - A.get r i / A.get i i * A.get i c
           else A.get r c)
        else A.get r c) ∧
      (forUp (i + 1) cnt (fun k u => eliminateRow rows F i k u) (A, st)).2 =
        forUp (i + 1) cnt (fun k st => F.call (A.get k i / A.get i i) k i st) st := by
    intro cnt
    induction cnt with
    | zero =>
      intro _
      refine ⟨rfl, rfl, fun r c => ?_, rfl⟩
      have : ¬ (i < r ∧ r < i + 1 + 0) := by omega
      simp [forUp, this]
    | succ n ih =>
      intro hn
      obtain ⟨h1, h2, h3, h4⟩ := ih (by omega)
      have hki : i + 1 + n ≠ i := by omega
      obtain ⟨e1, e2, e3⟩ := eliminateRow_fst rows F i (i + 1 + n) hki
        (forUp (i + 1) n (fun k u => eliminateRow rows F i k u) (A, st))
      simp only [forUp]
      refine ⟨e1.trans h1, e2.trans h2, fun r c => ?_, ?_⟩
      · rw [e3]
        by_cases hr : r = i + 1 + n
        · subst hr
          have a1 : ¬ (i < i + 1 + n ∧ i + 1 + n < i + 1 + n) := by omega
          have a2 : ¬ (i < i ∧ i < i + 1 + n) := by omega
          have a3 : i < i + 1 + n ∧ i + 1 + n < i + 1 + (n + 1) := by omega
          simp only [h3, a1, a2, a3, if_true, if_false]
          by_cases hc : c = i
          · subst hc; simp
          · by_cases hc2 : i < c ∧ c < rows
            · simp [hc, hc2]
            · simp [hc, hc2]
        · have : (i < r ∧ r < i + 1 + (n + 1)) ↔ (i < r ∧ r < i + 1 + n) := by omega
          simp only [hr, if_false, h3, this]
      · show (F.call _ _ _ _) = F.call _ _ _ _
        have a1 : ¬ (i < i + 1 + n ∧ i + 1 + n < i + 1 + n) := by omega
        have a2 : ¬ (i < i ∧ i < i + 1 + n) := by omega
        rw [h4, h3, h3]
        simp only [a1, a2, if_false]
  obtain ⟨h1, h2, h3, h4⟩ := key (rows - (i + 1)) le_rfl
  refine Prod.ext (DenseMatrix.ext_get h1 h2 fun r c => ?_) h4
  rw [h3]
  have : (i < r ∧ r < i + 1 + (rows - (i + 1))) ↔ (i < r ∧ r < rows) := by omega
  simp only [this]
  rfl

theorem swapRows_eq (rows : Nat) (A : DenseMatrix) (i m : Nat) :
    swapRows rows A i m = swapStep rows i m A := by
  obtain ⟨h1, h2, h3⟩ := swapRows_spec rows A i m
  exact DenseMatrix.ext_get h1 h2 fun r c => by rw [h3]; rfl

theorem swapStep_self (rows i : Nat) (A : DenseMatrix) : swapStep rows i i A = A := by
  refine DenseMatrix.ext_get rfl rfl fun r c => ?_
  show (if c < rows then (if r = i then A.get i c else if r = i then A.get i c else A.get r c)
      else A.get r c) = A.get r c
  by_cases hc : c < rows <;> by_cases hr : r = i <;> simp [hc, hr]

theorem pivotSearch_spec (rows : Nat) (A : DenseMatrix) (i : Nat) :
    (pivotSearch rows A i (absreal (A.get i i))).1
        = absreal (A.get (pivotSearch rows A i (absreal (A.get i i))).2 i) ∧
    ((pivotSearch rows A i (absreal (A.get i i))).2 = i ∨
      (i < (pivotSearch rows A i (absreal (A.get i i))).2 ∧
        (pivotSearch rows A i (absreal (A.get i i))).2 < rows)) := by
  unfold pivotSearch
  have key : ∀ cnt, cnt ≤ rows - (i + 1) →
      (forUp (i + 1) cnt
        (fun k s => if absreal (A.get k i) > s.1 then (absreal (A.get k i), k) else s)
        (absreal (A.get i i), i)).1
        = absreal (A.get (forUp (i + 1) cnt
          (fun k s => if absreal (A.get k i) > s.1 then (absreal (A.get k i), k) else s)
          (absreal (A.get i i), i)).2 i) ∧
      ((forUp (i + 1) cnt
          (fun k s => if absreal (A.get k i) > s.1 then (absreal (A.get k i), k) else s)
          (absreal (A.get i i), i)).2 = i ∨
        (i < (forUp (i + 1) cnt
          (fun k s => if absreal (A.get k i) > s.1 then (absreal (A.get k i), k) else s)
          (absreal (A.get i i), i)).2 ∧
        (forUp (i + 1) cnt
          (fun k s => if absreal (A.get k i) > s.1 then (absreal (A.get k i), k) else s)
          (absreal (A.get i i), i)).2 < rows)) := by
    intro cnt
    induction cnt with
    | zero => intro _; exact ⟨rfl, Or.inl rfl⟩
    | succ n ih =>
      intro hn
      obtain ⟨h1, h2⟩ := ih (by omega)
      simp only [forUp]
      split
      · exact ⟨rfl, Or.inr ⟨by omega, by omega⟩⟩
      · exact ⟨h1, h2⟩
  exact key _ le_rfl

theorem pivotRow_range (rows : Nat) (pivthres : ℚ) (A : DenseMatrix) (i : Nat) :
    pivotRow rows pivthres A i = i ∨
      (i < pivotRow rows pivthres A i ∧ pivotRow rows pivthres A i < rows) := by
  unfold pivotRow
  split
  · exact (pivotSearch_spec rows A i).2
  · exact Or.inl rfl

theorem luBody_spec {σ : Type} (rows : Nat) (pivthres singthres : ℚ) (F : Func σ) (i : Nat)
    (A : DenseMatrix) (st : σ) :
    luBody rows pivthres singthres F i (A, st) =
      if absreal ((swapStep rows i (pivotRow rows pivthres A i) A).get i i) < singthres then
        (some FMatrixError.singular,
          (swapStep rows i (pivotRow rows pivthres A i) A,
            if pivotRow rows pivthres A i = i then st
            else F.swap i (pivotRow rows pivthres A i) st))
      else
        (none,
          (elimStep rows i (swapStep rows i (pivotRow rows pivthres A i) A),
            elimCalls rows F i (swapStep rows i (pivotRow rows pivthres A i) A)
              (if pivotRow rows pivthres A i = i then st
               else F.swap i (pivotRow rows pivthres A i) st))) := by
  unfold luBody pivotRow
  simp only [elimination_spec, swapRows_eq]
  obtain ⟨h1, h2⟩ := pivotSearch_spec rows A i
  by_cases hp : absreal (A.get i i) < pivthres
  · simp only [hp, if_true]
    by_cases hm : (pivotSearch rows A i (absreal (A.get i i))).2 = i
    · simp only [hm, ne_eq, not_true_eq_false, if_false, if_true, swapStep_self]
      rw [h1, hm]
      simp only [elimination_spec]
    · have hlt : i < rows := by
        rcases h2 with h | h
        · exact absurd h hm
        · omega
      have hget : (swapStep rows i (pivotSearch rows A i (absreal (A.get i i))).2 A).get i i
          = A.get (pivotSearch rows A i (absreal (A.get i i))).2 i := by
        show (if i < rows then (if i = i then A.get _ i else _) else _) = _
        simp [hlt]
      simp only [hm, ne_eq, not_false_eq_true, if_true, if_false, hget, h1, elimination_spec]
  · simp only [hp, if_false, if_true, swapStep_self, elimination_spec]

/-! ## The loop of `luDecomposition`: invariants and observers -/

theorem luDecomposition_eq {σ : Type} (p : FMatrixPrecision) (rows : Nat) (A : DenseMatrix)
    (F : Func σ) (func : σ) :
    luDecomposition p rows A F func = luLoop p rows A F func rows := rfl

theorem luLoop_succ {σ : Type} (p : FMatrixPrecision) (rows : Nat) (A : DenseMatrix)
    (F : Func σ) (func : σ) (cnt : Nat) :
    luLoop p rows A F func (cnt + 1) =
      match (luLoop p rows A F func cnt).1 with
      | some _ => luLoop p rows A F func cnt
      | none => luBody rows (pivThreshold p A) (singThreshold p A) F cnt
          (luLoop p rows A F func cnt).2 := by
  simp only [luLoop, forUp, Nat.zero_add]

theorem luLoop_induct {σ : Type} (p : FMatrixPrecision) (rows : Nat) (A : DenseMatrix)
    (F : Func σ) (func : σ) (Inv : Nat → DenseMatrix → σ → Prop) (h0 : Inv 0 A func)
    (hstep : ∀ i W st m, i < rows → Inv i W st → (m = i ∨ (i < m ∧ m < rows)) →
      singThreshold p A ≤ absreal ((swapStep rows i m W).get i i) →
      Inv (i + 1) (elimStep rows i (swapStep rows i m W))
        (elimCalls rows F i (swapStep rows i m W) (if m = i then st else F.swap i m st)))
    (cnt : Nat) (hcnt : cnt ≤ rows) (hok : (luLoop p rows A F func cnt).1 = none) :
    Inv cnt (luLoop p rows A F func cnt).2.1 (luLoop p rows A F func cnt).2.2 := by
  induction cnt with
  | zero => exact h0
  | succ n ih =>
    rw [luLoop_succ] at hok ⊢
    cases hprev : (luLoop p rows A F func n).1 with
    | some e =>
      rw [hprev] at hok
      simp only at hok
      rw [hprev] at hok
      exact absurd hok (by simp)
    | none =>
      rw [hprev] at hok
      simp only at hok ⊢
      have ih2 := ih (by omega) hprev
      have hb := luBody_spec rows (pivThreshold p A) (singThreshold p A) F n
        (luLoop p rows A F func n).2.1 (luLoop p rows A F func n).2.2
      rw [Prod.mk.eta] at hb
      rw [hb] at hok ⊢
      split at hok
      · exact absurd hok (by simp)
      · rename_i hns
        rw [if_neg hns]
        exact hstep n _ _ _ (by omega) ih2 (pivotRow_range _ _ _ _) (not_lt.mp hns)

theorem luDecomposition_induct {σ : Type} (p : FMatrixPrecision) (rows : Nat)
    (A : DenseMatrix) (F : Func σ) (func : σ) (Inv : Nat → DenseMatrix → σ → Prop)
    (h0 : Inv 0 A func)
    (hstep : ∀ i W st m, i < rows → Inv i W st → (m = i ∨ (i < m ∧ m < rows)) →
      singThreshold p A ≤ absreal ((swapStep rows i m W).get i i) →
      Inv (i + 1) (elimStep rows i (swapStep rows i m W))
        (elimCalls rows F i (swapStep rows i m W) (if m = i then st else F.swap i m st)))
    (hok : (luDecomposition p rows A F func).1 = none) :
    Inv rows (luDecomposition p rows A F func).2.1 (luDecomposition p rows A F func).2.2 :=
  luLoop_induct p rows A F func Inv h0 hstep rows le_rfl hok

theorem luLoop_observer {σ τ : Type} (p : FMatrixPrecision) (rows : Nat) (A : DenseMatrix)
    (F : Func σ) (func : σ) (G : Func τ) (gunc : τ) (cnt : Nat) :
    (luLoop p rows A F func cnt).1 = (luLoop p rows A G gunc cnt).1 ∧
    (luLoop p rows A F func cnt).2.1 = (luLoop p rows A G gunc cnt).2.1 := by
  induction cnt with
  | zero => exact ⟨rfl, rfl⟩
  | succ n ih =>
    obtain ⟨h1, h2⟩ := ih
    rw [luLoop_succ, luLoop_succ]
    cases hF : (luLoop p rows A F func n).1 with
    | some e =>
      rw [hF] at h1
      rw [← h1]
      simp only
      exact ⟨hF.trans h1, h2⟩
    | none =>
      rw [hF] at h1
      rw [← h1]
      simp only
      have hb := luBody_spec rows (pivThreshold p A) (singThreshold p A) F n
        (luLoop p rows A F func n).2.1 (luLoop p rows A F func n).2.2
      have hc := luBody_spec rows (pivThreshold p A) (singThreshold p A) G n
        (luLoop p rows A G gunc n).2.1 (luLoop p rows A G gunc n).2.2
      rw [Prod.mk.eta] at hb hc
      rw [hb, hc, ← h2]
      split <;> exact ⟨rfl, rfl⟩

theorem luDecomposition_observer {σ τ : Type} (p : FMatrixPrecision) (rows : Nat)
    (A : DenseMatrix) (F : Func σ) (func : σ) (G : Func τ) (gunc : τ) :
    (luDecomposition p rows A F func).1 = (luDecomposition p rows A G gunc).1 ∧
    (luDecomposition p rows A F func).2.1 = (luDecomposition p rows A G gunc).2.1 :=
  luLoop_observer p rows A F func G gunc rows

theorem luLoop_error {σ : Type} (p : FMatrixPrecision) (rows : Nat) (A : DenseMatrix)
    (F : Func σ) (func : σ) (cnt : Nat) :
    (luLoop p rows A F func cnt).1 = none ∨
      (luLoop p rows A F func cnt).1 = some FMatrixError.singular := by
  induction cnt with
  | zero => exact Or.inl rfl
  | succ n ih =>
    rw [luLoop_succ]
    cases hF : (luLoop p rows A F func n).1 with
    | some e =>
      simp only
      rw [hF] at ih ⊢
      exact ih
    | none =>
      simp only
      have hb := luBody_spec rows (pivThreshold p A) (singThreshold p A) F n
        (luLoop p rows A F func n).2.1 (luLoop p rows A F func n).2.2
      rw [Prod.mk.eta] at hb
      rw [hb]
      split
      · exact Or.inr rfl
      · exact Or.inl rfl

/-! ## The matrix a working matrix stands for -/

theorem swapStep_get (rows i m : Nat) (A : DenseMatrix) (r c : Nat) :
    (swapStep rows i m A).get r c =
      if c < rows then (if r = i then A.get m c else if r = m then A.get i c else A.get r c)
      else A.get r c := rfl

theorem elimStep_get (rows i : Nat) (A : DenseMatrix) (r c : Nat) :
    (elimStep rows i A).get r c =
      if i < r ∧ r < rows then
        (if c = i then A.get r i / A.get i i
         else if i < c ∧ c < rows then A.get r c - A.get r i / A.get i i * A.get i c
         else A.get r c)
      else A.get r c := rfl

theorem eff_swap (n i m : Nat) (W : DenseMatrix) (hm : m = i ∨ (i < m ∧ m < n))
    (k j : Nat) (hj : j < n) :
    eff i (swapStep n i m W) k j = eff i W (swapIdx i m k) j := by
  unfold eff swapIdx
  rw [swapStep_get]
  simp only [hj, if_true]
  by_cases hki : k = i
  · subst hki
    have : (j < k ∧ j < m) ↔ (j < k ∧ j < k) := by omega
    simp [this]
  · by_cases hkm : k = m
    · subst hkm
      have : (j < i ∧ j < k) ↔ (j < i ∧ j < i) := by omega
      simp [hki, this]
    · simp [hki, hkm]

theorem eff_elim (n i : Nat) (W : DenseMatrix) (hp : W.get i i ≠ 0) (k j : Nat)
    (hk : k < n) (hj : j < n) :
    eff (i + 1) (elimStep n i W) k j =
      eff i W k j - (if i < k then W.get k i / W.get i i else 0) * eff i W i j := by
  unfold eff
  rw [elimStep_get]
  by_cases hik : i < k
  · have h1 : i < k ∧ k < n := ⟨hik, hk⟩
    by_cases hji : j = i
    · subst hji
      have a1 : j < j + 1 ∧ j < k := by omega
      have a2 : ¬ (j < j ∧ j < k) := by omega
      have a3 : ¬ (j < j ∧ j < j) := by omega
      rw [if_pos a1, if_neg a2, if_pos hik, if_neg a3]
      field_simp
    · by_cases hlt : j < i
      · have a1 : j < i + 1 ∧ j < k := by omega
        have a2 : j < i ∧ j < k := by omega
        have a3 : j < i ∧ j < i := by omega
        rw [if_pos a1, if_pos a2, if_pos hik, if_pos a3]
        ring
      · have a1 : ¬ (j < i + 1 ∧ j < k) := by omega
        have a2 : ¬ (j < i ∧ j < k) := by omega
        have a3 : ¬ (j < i ∧ j < i) := by omega
        have a4 : i < j ∧ j < n := by omega
        have a5 : ¬ j < i := hlt
        rw [if_neg a1, if_pos h1, if_neg hji, if_pos a4, if_neg a2, if_pos hik, if_neg a3]
  · have h1 : ¬ (i < k ∧ k < n) := by omega
    have a1 : (j < i + 1 ∧ j < k) ↔ (j < i ∧ j < k) := by omega
    rw [if_neg h1, if_neg hik, zero_mul, sub_zero]
    simp only [a1]

/-! ## The sign-tracking observer: determinant -/

theorem singThreshold_pos (p : FMatrixPrecision) (A : DenseMatrix)
    (hp : 0 < p.absolute_limit) : 0 < singThreshold p A :=
  lt_max_of_lt_left hp

theorem pivot_ne_zero (p : FMatrixPrecision) (A : DenseMatrix) (hp : 0 < p.absolute_limit)
    (a : ℚ) (h : singThreshold p A ≤ absreal a) : a ≠ 0 := by
  intro h0
  have := singThreshold_pos p A hp
  rw [h0] at h
  simp [absreal] at h
  linarith

theorem elimCalls_ElimDet (rows i : Nat) (A : DenseMatrix) (sign : ℚ) :
    elimCalls rows ElimDet i A sign = sign := by
  unfold elimCalls
  exact forUp_induct (fun _ s => s = sign) _ _ _ _ rfl fun _ _ _ h => h

theorem det_swapStep (n i m : Nat) (W : DenseMatrix) (hi : i < n)
    (hm : m = i ∨ (i < m ∧ m < n)) :
    (toMatrix n (eff i (swapStep n i m W))).det =
      (if m = i then 1 else -1) * (toMatrix n (eff i W)).det := by
  by_cases hmi : m = i
  · subst hmi
    simp [swapStep_self]
  · have hmn : m < n := by omega
    have hne : (⟨i, hi⟩ : Fin n) ≠ ⟨m, hmn⟩ := by
      intro h; exact hmi (Fin.mk.inj h).symm
    have hsub : toMatrix n (eff i (swapStep n i m W)) =
        (toMatrix n (eff i W)).submatrix (Equiv.swap (⟨i, hi⟩ : Fin n) ⟨m, hmn⟩) id := by
      ext k j
      simp only [toMatrix, Matrix.of_apply, Matrix.submatrix_apply, id]
      rw [eff_swap n i m W hm k j j.2]
      congr 1
      unfold swapIdx
      by_cases h1 : (k : Nat) = i
      · have : k = ⟨i, hi⟩ := Fin.ext h1
        simp [h1, this]
      · by_cases h2 : (k : Nat) = m
        · have : k = ⟨m, hmn⟩ := Fin.ext h2
          simp [h1, h2, this]
        · have e1 : k ≠ ⟨i, hi⟩ := fun h => h1 (congrArg Fin.val h)
          have e2 : k ≠ ⟨m, hmn⟩ := fun h => h2 (congrArg Fin.val h)
          simp [h1, h2, Equiv.swap_apply_of_ne_of_ne e1 e2]
    rw [hsub, Matrix.det_permute, Equiv.Perm.sign_swap hne]
    simp [hmi]

theorem det_elimStep (n i : Nat) (W : DenseMatrix) (hi : i < n) (hp : W.get i i ≠ 0) :
    (toMatrix n (eff (i + 1) (elimStep n i W))).det = (toMatrix n (eff i W)).det := by
  refine Matrix.det_eq_of_forall_row_eq_smul_add_const
    (fun k : Fin n => -(if i < (k : Nat) then W.get k i / W.get i i else 0)) ⟨i, hi⟩ ?_ ?_
  · simp
  · intro k j
    simp only [toMatrix, Matrix.of_apply]
    rw [eff_elim n i W hp k j k.2 j.2]
    ring

theorem det_eff_final (n : Nat) (W : DenseMatrix) :
    (toMatrix n (eff n W)).det = ∏ k in Finset.range n, W.get k k := by
  rw [Matrix.det_of_upperTriangular]
  · rw [← Fin.prod_univ_eq_prod_range (fun k => W.get k k) n]
    refine Finset.prod_congr rfl fun k _ => ?_
    simp [toMatrix, eff]
  · intro k j hjk
    have hjk2 : (j : Nat) < k := hjk
    have hjn : (j : Nat) < n := j.2
    simp only [toMatrix, Matrix.of_apply, eff, hjk2, hjn, and_self, if_true]

theorem prodLoop_eq (n : Nat) (f : Nat → ℚ) (s : ℚ) :
    forUp 0 n (fun i det => det * f i) s = s * ∏ k in Finset.range n, f k := by
  induction n with
  | zero => simp [forUp]
  | succ m ih =>
    simp only [forUp, Nat.zero_add, ih, Finset.prod_range_succ]
    ring

theorem eff_zero (W : DenseMatrix) : eff 0 W = W.get := by
  funext k j
  simp [eff]

theorem luDecomposition_det (p : FMatrixPrecision) (hp : 0 < p.absolute_limit)
    (A : DenseMatrix)
    (hok : (luDecomposition p A.rows A ElimDet (ElimDet.init 0)).1 = none) :
    (toMatrix A.rows A.get).det =
      (luDecomposition p A.rows A ElimDet (ElimDet.init 0)).2.2 *
        ∏ k in Finset.range A.rows,
          (luDecomposition p A.rows A ElimDet (ElimDet.init 0)).2.1.get k k := by
  have h := luDecomposition_induct p A.rows A ElimDet (ElimDet.init 0)
    (fun i W sign => (toMatrix A.rows A.get).det = sign * (toMatrix A.rows (eff i W)).det)
    (by simp [eff_zero, ElimDet.init]) ?_ hok
  · rw [h, det_eff_final]
  · intro i W st m hi hinv hm hpiv
    have hne := pivot_ne_zero p A hp _ hpiv
    rw [elimCalls_ElimDet, det_elimStep _ _ _ hi hne, det_swapStep _ _ _ _ hi hm, hinv]
    by_cases hmi : m = i
    · simp [hmi]
    · simp only [hmi, if_false, ElimDet]
      ring

/-! ## The right-hand-side observer: solve -/

theorem swapIdx_swapIdx (i m k : Nat) : swapIdx i m (swapIdx i m k) = k := by
  unfold swapIdx
  by_cases h1 : k = i
  · by_cases h2 : m = i
    · simp [h1, h2]
    · simp [h1, h2]
  · by_cases h2 : k = m
    · simp [h1, h2]
    · simp [h1, h2]

theorem swapIdx_lt (n i m k : Nat) (hi : i < n) (hm : m < n) (hk : k < n) :
    swapIdx i m k < n := by
  unfold swapIdx
  split
  · exact hm
  · split
    · exact hi
    · exact hk

theorem Elim_swap_apply (i m : Nat) (rhs : Vec) (k : Nat) :
    Elim.swap i m rhs k = rhs (swapIdx i m k) := by
  show (if k = m then rhs i else if k = i then rhs m else rhs k) = _
  unfold swapIdx
  by_cases h1 : k = i
  · subst h1
    by_cases h2 : k = m
    · subst h2; simp
    · simp [h2]
  · by_cases h2 : k = m
    · subst h2
      have : ¬ i = k := fun h => h1 h.symm
      simp [h1]
    · simp [h1, h2]

theorem elimCalls_Elim (rows i : Nat) (A : DenseMatrix) (rhs : Vec) (k : Nat) :
    elimCalls rows Elim i A rhs k =
      if i < k ∧ k < rows then rhs k - A.get k i / A.get i i * rhs i else rhs k := by
  unfold elimCalls
  have key : ∀ cnt, ∀ k, forUp (i + 1) cnt
      (fun k st => Elim.call (A.get k i / A.get i i) k i st) rhs k =
      if i < k ∧ k < i + 1 + cnt then rhs k - A.get k i / A.get i i * rhs i else rhs k := by
    intro cnt
    induction cnt with
    | zero =>
      intro k
      have : ¬ (i < k ∧ k < i + 1 + 0) := by omega
      simp only [forUp, this, if_false]
    | succ n ih =>
      intro k
      simp only [forUp]
      show (if k = i + 1 + n then _ else _) = _
      by_cases hk : k = i + 1 + n
      · subst hk
        have a1 : ¬ (i < i + 1 + n ∧ i + 1 + n < i + 1 + n) := by omega
        have a2 : ¬ (i < i ∧ i < i + 1 + n) := by omega
        have a3 : i < i + 1 + n ∧ i + 1 + n < i + 1 + (n + 1) := by omega
        rw [if_pos rfl, ih, ih, if_neg a1, if_neg a2, if_pos a3]
      · have : (i < k ∧ k < i + 1 + (n + 1)) ↔ (i < k ∧ k < i + 1 + n) := by omega
        rw [if_neg hk, ih]
        simp only [this]
  rw [key]
  have : (i < k ∧ k < i + 1 + (rows - (i + 1))) ↔ (i < k ∧ k < rows) := by omega
  simp only [this]

theorem accLoop_spec (lo cnt c : Nat) (hc : c < lo) (g : Nat → ℚ) (t : Vec) (k : Nat) :
    forUp lo cnt (fun j x => Vec.set x c (x c - g j * x j)) t k =
      if k = c then
        t c - ∑ j in Finset.range (lo + cnt), (if lo ≤ j then g j * t j else 0)
      else t k := by
  induction cnt generalizing k with
  | zero =>
    have : ∑ j in Finset.range (lo + 0), (if lo ≤ j then g j * t j else 0) = 0 := by
      apply Finset.sum_eq_zero
      intro j hj
      have : ¬ lo ≤ j := by
        have := Finset.mem_range.mp hj
        omega
      simp [this]
    simp only [forUp, this, sub_zero]
    split
    · rename_i h; rw [h]
    · rfl
  | succ n ih =>
    simp only [forUp]
    show (if k = c then _ else _) = _
    by_cases hk : k = c
    · subst hk
      have hne : lo + n ≠ k := by omega
      rw [if_pos rfl, if_pos rfl, ih, ih, if_pos rfl, if_neg hne, ← Nat.add_assoc,
        Finset.sum_range_succ]
      have : lo ≤ lo + n := by omega
      simp only [this, if_true]
      ring
    · rw [if_neg hk, if_neg hk, ih, if_neg hk]

theorem solves_swap (n i m : Nat) (W : DenseMatrix) (rhs x : Vec) (hi : i < n)
    (hm : m = i ∨ (i < m ∧ m < n))
    (h : Solves n (eff i (swapStep n i m W)) (if m = i then rhs else Elim.swap i m rhs) x) :
    Solves n (eff i W) rhs x := by
  by_cases hmi : m = i
  · subst hmi
    simpa [swapStep_self] using h
  · rw [if_neg hmi] at h
    have hmn : m < n := by omega
    intro k hk
    have hk2 := h (swapIdx i m k) (swapIdx_lt n i m k hi hmn hk)
    rw [Elim_swap_apply, swapIdx_swapIdx] at hk2
    rw [← hk2]
    refine Finset.sum_congr rfl fun j hj => ?_
    rw [eff_swap n i m W hm _ j (Finset.mem_range.mp hj), swapIdx_swapIdx]

theorem solves_elim (n i : Nat) (W : DenseMatrix) (rhs x : Vec) (hi : i < n)
    (hp : W.get i i ≠ 0)
    (h : Solves n (eff (i + 1) (elimStep n i W)) (elimCalls n Elim i W rhs) x) :
    Solves n (eff i W) rhs x := by
  have hrow : ∀ k, k < n → ∑ j in Finset.range n, eff i W k j * x j =
      elimCalls n Elim i W rhs k + (if i < k then W.get k i / W.get i i else 0) *
        ∑ j in Finset.range n, eff i W i j * x j := by
    intro k hk
    rw [← h k hk, Finset.mul_sum, ← Finset.sum_add_distrib]
    refine Finset.sum_congr rfl fun j hj => ?_
    rw [eff_elim n i W hp k j hk (Finset.mem_range.mp hj)]
    ring
  have hi2 : ∑ j in Finset.range n, eff i W i j * x j = rhs i := by
    have := hrow i hi
    rw [elimCalls_Elim] at this
    have a1 : ¬ (i < i ∧ i < n) := by omega
    have a2 : ¬ i < i := by omega
    rw [if_neg a1, if_neg a2] at this
    linarith
  intro k hk
  rw [hrow k hk, hi2, elimCalls_Elim]
  by_cases hik : i < k
  · have : i < k ∧ k < n := ⟨hik, hk⟩
    rw [if_pos this, if_pos hik]
    ring
  · have : ¬ (i < k ∧ k < n) := fun h => hik h.1
    rw [if_neg this, if_neg hik]
    ring

theorem backsolve_spec (n : Nat) (W : DenseMatrix) (rhs : Vec)
    (hd : ∀ k, k < n → W.get k k ≠ 0) :
    Solves n (eff n W) rhs (backsolve n W rhs) := by
  unfold backsolve
  have h := forDown_induct
    (fun c x => (∀ k, c ≤ k → k < n → ∑ j in Finset.range n, eff n W k j * x j = rhs k) ∧
      (∀ k, k < c → x k = rhs k)) n
    (fun i x =>
      let x1 := forUp (i + 1) (n - (i + 1)) (fun j x => x.set i (x i - W.get i j * x j)) x
      x1.set i (x1 i / W.get i i)) rhs
    ⟨fun k h1 h2 => absurd h1 (by omega), fun k _ => rfl⟩ ?_
  · intro k hk
    exact h.1 k (Nat.zero_le k) hk
  · intro c t hc ⟨h1, h2⟩
    have hx : ∀ k, (Vec.set (forUp (c + 1) (n - (c + 1))
          (fun j x => Vec.set x c (x c - W.get c j * x j)) t) c
        (forUp (c + 1) (n - (c + 1))
          (fun j x => Vec.set x c (x c - W.get c j * x j)) t c / W.get c c)) k =
        if k = c then
          (rhs c - ∑ j in Finset.range n, (if c + 1 ≤ j then W.get c j * t j else 0))
            / W.get c c
        else t k := by
      intro k
      show (if k = c then _ else _) = _
      have hcn : c + 1 + (n - (c + 1)) = n := by omega
      by_cases hk : k = c
      · rw [if_pos hk, if_pos hk, accLoop_spec (c + 1) _ c (by omega), if_pos rfl, hcn,
          h2 c (Nat.lt_succ_self c)]
      · rw [if_neg hk, if_neg hk, accLoop_spec (c + 1) _ c (by omega), if_neg hk]
    refine ⟨fun k hck hkn => ?_, fun k hkc => ?_⟩
    · simp only [hx]
      by_cases hkc : k = c
      · subst hkc
        have hsplit : ∀ j, j ∈ Finset.range n →
            eff n W k j * (if j = k then
              (rhs k - ∑ j in Finset.range n, (if k + 1 ≤ j then W.get k j * t j else 0))
                / W.get k k else t j) =
            (if j = k then
              (rhs k - ∑ j in Finset.range n, (if k + 1 ≤ j then W.get k j * t j else 0))
              else 0) + (if k + 1 ≤ j then W.get k j * t j else 0) := by
          intro j hj
          have hjn := Finset.mem_range.mp hj
          unfold eff
          by_cases hjk : j = k
          · subst hjk
            have a1 : ¬ (j < n ∧ j < j) := by omega
            have a2 : ¬ (j + 1 ≤ j) := by omega
            rw [if_neg a1, if_pos rfl, if_pos rfl, if_neg a2]
            have := hd j hjn
            field_simp
          · by_cases hlt : j < k
            · have a1 : j < n ∧ j < k := ⟨hjn, hlt⟩
              have a2 : ¬ (k + 1 ≤ j) := by omega
              rw [if_pos a1, if_neg hjk, if_neg hjk, if_neg a2]
              ring
            · have a1 : ¬ (j < n ∧ j < k) := fun h => hlt h.2
              have a2 : k + 1 ≤ j := by omega
              rw [if_neg a1, if_neg hjk, if_neg hjk, if_pos a2]
              ring
        rw [Finset.sum_congr rfl hsplit, Finset.sum_add_distrib, Finset.sum_ite_eq']
        rw [if_pos (Finset.mem_range.mpr hkn)]
        ring
      · rw [← h1 k (by omega) hkn]
        refine Finset.sum_congr rfl fun j hj => ?_
        have hjn := Finset.mem_range.mp hj
        by_cases hjc : j = c
        · subst hjc
          have : j < n ∧ j < k := by omega
          simp only [eff, this, and_self, if_true, zero_mul]
        · rw [if_neg hjc]
    · show (Vec.set _ c _) k = rhs k
      rw [hx, if_neg (by omega), h2 k (by omega)]

theorem factored_diag (n i m : Nat) (W : DenseMatrix) (hm : m = i ∨ (i < m ∧ m < n))
    (hd : ∀ k, k < i → W.get k k ≠ 0) (hp : (swapStep n i m W).get i i ≠ 0) :
    ∀ k, k < i + 1 → (elimStep n i (swapStep n i m W)).get k k ≠ 0 := by
  intro k hk
  rw [elimStep_get]
  have a1 : ¬ (i < k ∧ k < n) := by omega
  rw [if_neg a1]
  by_cases hki : k = i
  · subst hki; exact hp
  · have hlt : k < i := by omega
    rw [swapStep_get]
    have a2 : ¬ k = m := by omega
    by_cases hkn : k < n
    · rw [if_pos hkn, if_neg hki, if_neg a2]; exact hd k hlt
    · rw [if_neg hkn]; exact hd k hlt

theorem luDecomposition_solve (p : FMatrixPrecision) (hp : 0 < p.absolute_limit)
    (A : DenseMatrix) (b : Vec)
    (hok : (luDecomposition p A.rows A Elim b).1 = none) :
    (∀ x, Solves A.rows (eff A.rows (luDecomposition p A.rows A Elim b).2.1)
        (luDecomposition p A.rows A Elim b).2.2 x → Solves A.rows A.get b x) ∧
    (∀ k, k < A.rows → (luDecomposition p A.rows A Elim b).2.1.get k k ≠ 0) := by
  refine luDecomposition_induct p A.rows A Elim b
    (fun i W rhs => (∀ x, Solves A.rows (eff i W) rhs x → Solves A.rows A.get b x) ∧
      (∀ k, k < i → W.get k k ≠ 0))
    ⟨fun x hx => by rwa [eff_zero] at hx, fun k hk => absurd hk (by omega)⟩ ?_ hok
  intro i W st m hi ⟨h1, h2⟩ hm hpiv
  have hne := pivot_ne_zero p A hp _ hpiv
  refine ⟨fun x hx => ?_, factored_diag _ i m W hm h2 hne⟩
  exact h1 x (solves_swap _ i m W st x hi hm (solves_elim _ i _ _ x hi hne hx))

theorem solve_general_ok (checking : Bool) (p : FMatrixPrecision) (A : DenseMatrix)
    (hsq : A.rows = A.cols) (hn : 4 ≤ A.rows) (x b : Vec)
    (hlu : (luDecomposition p A.rows A Elim b).1 = none) :
    solve checking p A x b =
      (none, backsolve A.rows (luDecomposition p A.rows A Elim b).2.1
          (luDecomposition p A.rows A Elim b).2.2) := by
  unfold solve
  have h0 : ¬ A.rows ≠ A.cols := fun h => h hsq
  have h1 : ¬ A.rows = 1 := by omega
  have h2 : ¬ A.rows = 2 := by omega
  have h3 : ¬ A.rows = 3 := by omega
  simp only [h0, h1, h2, h3, if_false]
  rw [hlu]

theorem solve_general_err (checking : Bool) (p : FMatrixPrecision) (A : DenseMatrix)
    (hsq : A.rows = A.cols) (hn : 4 ≤ A.rows) (x b : Vec) (e : FMatrixError)
    (hlu : (luDecomposition p A.rows A Elim b).1 = some e) :
    solve checking p A x b = (some e, (luDecomposition p A.rows A Elim b).2.2) := by
  unfold solve
  have h0 : ¬ A.rows ≠ A.cols := fun h => h hsq
  have h1 : ¬ A.rows = 1 := by omega
  have h2 : ¬ A.rows = 2 := by omega
  have h3 : ¬ A.rows = 3 := by omega
  simp only [h0, h1, h2, h3, if_false]
  rw [hlu]

theorem solve_general_solves (checking : Bool) (p : FMatrixPrecision)
    (hp : 0 < p.absolute_limit) (A : DenseMatrix) (hsq : A.rows = A.cols)
    (hn : 4 ≤ A.rows) (x b : Vec) (hok : (solve checking p A x b).1 = none) :
    Solves A.rows A.get b (solve checking p A x b).2 := by
  cases hlu : (luDecomposition p A.rows A Elim b).1 with
  | some e =>
    rw [solve_general_err checking p A hsq hn x b e hlu] at hok
    exact absurd hok (by simp)
  | none =>
    rw [solve_general_ok checking p A hsq hn x b hlu]
    obtain ⟨h1, h2⟩ := luDecomposition_solve p hp A b hlu
    exact h1 _ (backsolve_spec _ _ _ h2)

/-! ## The pivot-recording observer: invert -/

theorem permRows_congr (p q : Nat → Nat) (i : Nat) (f : Nat → Nat → ℚ)
    (h : ∀ k, k < i → p k = q k) : permRows p i f = permRows q i f := by
  induction i with
  | zero => rfl
  | succ n ih =>
    funext k j
    simp only [permRows]
    rw [ih fun k hk => h k (Nat.lt_succ_of_lt hk), h n (Nat.lt_succ_self n)]

theorem elimCalls_ElimPivot (rows i : Nat) (A : DenseMatrix) (pivot : Nat → Nat) :
    elimCalls rows ElimPivot i A pivot = pivot := by
  unfold elimCalls
  exact forUp_induct (fun _ s => s = pivot) _ _ _ _ rfl fun _ _ _ h => h

theorem ElimPivot_init_apply (n : Nat) (p0 : Nat → Nat) (k : Nat) :
    ElimPivot.init n p0 k = if k < n then k else p0 k := by
  unfold ElimPivot.init
  induction n with
  | zero => rfl
  | succ m ih =>
    rcases Nat.lt_trichotomy k m with h | h | h
    · have h1 : k < m + 1 := Nat.lt_succ_of_lt h
      have h2 : ¬ k = 0 + m := by rw [Nat.zero_add]; exact Nat.ne_of_lt h
      show (if k = 0 + m then 0 + m else _) = _
      rw [if_neg h2, ih, if_pos h, if_pos h1]
    · have h1 : k < m + 1 := h ▸ Nat.lt_succ_self k
      have h2 : k = 0 + m := by rw [Nat.zero_add]; exact h
      show (if k = 0 + m then 0 + m else _) = _
      rw [if_pos h2, if_pos h1, Nat.zero_add, h]
    · have h1 : ¬ k < m + 1 := Nat.not_lt.mpr h
      have h2 : ¬ k = 0 + m := by rw [Nat.zero_add]; exact Nat.ne_of_gt h
      have h3 : ¬ k < m := Nat.lt_asymm h
      show (if k = 0 + m then 0 + m else _) = _
      rw [if_neg h2, ih, if_neg h3, if_neg h1]

theorem lu_swap (n i m : Nat) (W : DenseMatrix)
    (hm : m = i ∨ (i < m ∧ m < n)) (k j : Nat) (hj : j < n) :
    luSum n i (swapStep n i m W) k j = luSum n i W (swapIdx i m k) j := by
  unfold luSum
  rw [eff_swap n i m W hm k j hj]
  congr 1
  refine Finset.sum_congr rfl fun c hc => ?_
  have hcn := Finset.mem_range.mp hc
  by_cases hci : c < i
  · have e1 : (c < i ∧ c < k) ↔ (c < i ∧ c < swapIdx i m k) := by
      unfold swapIdx
      by_cases h1 : k = i
      · rw [if_pos h1]; omega
      · by_cases h2 : k = m
        · rw [if_neg h1, if_pos h2]; omega
        · rw [if_neg h1, if_neg h2]
    have e2 : (swapStep n i m W).get k c = W.get (swapIdx i m k) c := by
      rw [swapStep_get, if_pos hcn]
      unfold swapIdx
      by_cases h1 : k = i
      · rw [if_pos h1, if_pos h1]
      · by_cases h2 : k = m
        · rw [if_neg h1, if_pos h2, if_neg h1, if_pos h2]
        · rw [if_neg h1, if_neg h2, if_neg h1, if_neg h2]
    have e3 : eff i (swapStep n i m W) c j = eff i W c j := by
      rw [eff_swap n i m W hm c j hj]
      have : swapIdx i m c = c := by
        unfold swapIdx
        rw [if_neg (by omega), if_neg (by omega)]
      rw [this]
    simp only [e1, e2, e3]
  · have a1 : ¬ (c < i ∧ c < k) := fun h => hci h.1
    have a2 : ¬ (c < i ∧ c < swapIdx i m k) := fun h => hci h.1
    rw [if_neg a1, if_neg a2]

theorem lu_elim (n i : Nat) (W : DenseMatrix) (hi : i < n) (hp : W.get i i ≠ 0)
    (k j : Nat) (hk : k < n) (hj : j < n) :
    luSum n (i + 1) (elimStep n i W) k j = luSum n i W k j := by
  unfold luSum
  have hterm : ∀ c, c ∈ Finset.range n →
      (if c < i + 1 ∧ c < k then (elimStep n i W).get k c * eff (i + 1) (elimStep n i W) c j
        else 0) =
      (if c < i ∧ c < k then W.get k c * eff i W c j else 0) +
        (if c = i then (if i < k then W.get k i / W.get i i else 0) * eff i W i j else 0) := by
    intro c hc
    have hcn := Finset.mem_range.mp hc
    by_cases hci : c = i
    · subst hci
      have a1 : ¬ (c < c ∧ c < k) := by omega
      rw [if_neg a1, if_pos rfl, zero_add]
      by_cases hck : c < k
      · have a2 : c < c + 1 ∧ c < k := by omega
        have a3 : c < k ∧ k < n := ⟨hck, hk⟩
        have a4 : ¬ c < c := by omega
        rw [if_pos a2, if_pos hck, eff_elim n c W hp c j hcn hj, if_neg a4, elimStep_get,
          if_pos a3, if_pos rfl]
        ring
      · have a2 : ¬ (c < c + 1 ∧ c < k) := fun h => hck h.2
        rw [if_neg a2, if_neg hck, zero_mul]
    · rw [if_neg hci, add_zero]
      by_cases hlt : c < i ∧ c < k
      · have a2 : c < i + 1 ∧ c < k := by omega
        have a3 : ¬ i < c := by omega
        rw [if_pos a2, if_pos hlt, eff_elim n i W hp c j hcn hj, if_neg a3, elimStep_get]
        have a4 : ¬ c = i := hci
        have a5 : ¬ (i < c ∧ c < n) := by omega
        by_cases hik : i < k ∧ k < n
        · rw [if_pos hik, if_neg a4, if_neg a5]; ring
        · rw [if_neg hik]; ring
      · have a2 : ¬ (c < i + 1 ∧ c < k) := by omega
        rw [if_neg a2, if_neg hlt]
  rw [Finset.sum_congr rfl hterm, Finset.sum_add_distrib, Finset.sum_ite_eq',
    if_pos (Finset.mem_range.mpr hi), eff_elim n i W hp k j hk hj]
  ring

theorem luSum_zero (n : Nat) (W : DenseMatrix) (k j : Nat) : luSum n 0 W k j = W.get k j := by
  unfold luSum
  rw [eff_zero]
  have : ∑ m in Finset.range n, (if m < 0 ∧ m < k then W.get k m * W.get m j else 0) = 0 := by
    apply Finset.sum_eq_zero
    intro m _
    have : ¬ (m < 0 ∧ m < k) := by omega
    rw [if_neg this]
  rw [this, add_zero]

theorem luDecomposition_pivot (p : FMatrixPrecision) (hp : 0 < p.absolute_limit)
    (A : DenseMatrix) (p0 : Nat → Nat)
    (hok : (luDecomposition p A.rows A ElimPivot (ElimPivot.init A.rows p0)).1 = none) :
    (∀ k j, k < A.rows → j < A.rows →
      permRows (luDecomposition p A.rows A ElimPivot (ElimPivot.init A.rows p0)).2.2
        A.rows A.get k j =
      luSum A.rows A.rows
        (luDecomposition p A.rows A ElimPivot (ElimPivot.init A.rows p0)).2.1 k j) ∧
    (∀ k, k < A.rows →
      (luDecomposition p A.rows A ElimPivot (ElimPivot.init A.rows p0)).2.1.get k k ≠ 0) ∧
    (∀ k, k < A.rows →
      k ≤ (luDecomposition p A.rows A ElimPivot (ElimPivot.init A.rows p0)).2.2 k ∧
      (luDecomposition p A.rows A ElimPivot (ElimPivot.init A.rows p0)).2.2 k < A.rows) := by
  have h := luDecomposition_induct p A.rows A ElimPivot (ElimPivot.init A.rows p0)
    (fun i W pivot =>
      (∀ k j, k < A.rows → j < A.rows → permRows pivot i A.get k j = luSum A.rows i W k j) ∧
      (∀ k, i ≤ k → k < A.rows → pivot k = k) ∧
      (∀ k, k < i → W.get k k ≠ 0) ∧
      (∀ k, k < i → k ≤ pivot k ∧ pivot k < A.rows))
    ⟨fun k j _ _ => by rw [luSum_zero]; rfl,
      fun k _ hk => by rw [ElimPivot_init_apply, if_pos hk],
      fun k hk => absurd hk (by omega), fun k hk => absurd hk (by omega)⟩ ?_ hok
  · obtain ⟨h1, _, h3, h4⟩ := h
    exact ⟨h1, h3, h4⟩
  · intro i W pivot m hi ⟨h1, h2, h3, h4⟩ hm hpiv
    have hne := pivot_ne_zero p A hp _ hpiv
    rw [elimCalls_ElimPivot]
    have hmn : m < A.rows := by omega
    have hpv : ∀ k, (if m = i then pivot else ElimPivot.swap i m pivot) k =
        if k = i then m else pivot k := by
      intro k
      by_cases hmi : m = i
      · rw [if_pos hmi]
        by_cases hki : k = i
        · rw [if_pos hki, hki, h2 i le_rfl hi, hmi]
        · rw [if_neg hki]
      · rw [if_neg hmi]
        rfl
    refine ⟨fun k j hk hj => ?_, fun k hik hk => ?_, factored_diag _ i m W hm h3 hne,
      fun k hk => ?_⟩
    · show permRows _ i A.get (swapIdx i _ k) j = _
      rw [hpv i, if_pos rfl,
        permRows_congr _ pivot i A.get (fun c hc => by rw [hpv c, if_neg (by omega)]),
        h1 _ j (swapIdx_lt _ i m k hi hmn hk) hj, ← lu_swap _ i m W hm k j hj,
        lu_elim _ i _ hi hne k j hk hj]
    · rw [hpv k, if_neg (by omega)]
      exact h2 k (by omega) hk
    · rw [hpv k]
      by_cases hki : k = i
      · rw [if_pos hki, hki]
        exact ⟨by omega, hmn⟩
      · rw [if_neg hki]
        exact h4 k (by omega)

/-! ## The substitutions of `invert` -/

theorem assignScalar_spec (A : DenseMatrix) (f : ℚ) :
    (assignScalar A f).rows = A.rows ∧ (assignScalar A f).cols = A.cols ∧
    ∀ r c, (assignScalar A f).get r c = if r < A.rows ∧ c < A.cols then f else A.get r c := by
  unfold assignScalar
  refine forUp_induct
    (fun cnt B => B.rows = A.rows ∧ B.cols = A.cols ∧
      ∀ r c, B.get r c = if r < cnt ∧ c < A.cols then f else A.get r c) 0 A.rows _ A
    ⟨rfl, rfl, fun r c => by
      have : ¬ (r < 0 ∧ c < A.cols) := by omega
      rw [if_neg this]⟩ ?_
  intro cnt B _ ⟨h1, h2, h3⟩
  refine ⟨h1, h2, fun r c => ?_⟩
  show (if r = 0 + cnt ∧ c < B.cols then f else B.get r c) = _
  rw [h2, h3, Nat.zero_add]
  by_cases hc : c < A.cols
  · by_cases hr : r = cnt
    · have : r < cnt + 1 ∧ c < A.cols := by omega
      rw [if_pos ⟨hr, hc⟩, if_pos this]
    · have a1 : ¬ (r = cnt ∧ c < A.cols) := fun h => hr h.1
      have a2 : (r < cnt + 1 ∧ c < A.cols) ↔ (r < cnt ∧ c < A.cols) := by omega
      rw [if_neg a1]
      simp only [a2]
  · have a1 : ¬ (r = cnt ∧ c < A.cols) := fun h => hc h.2
    have a2 : ¬ (r < cnt ∧ c < A.cols) := fun h => hc h.2
    have a3 : ¬ (r < cnt + 1 ∧ c < A.cols) := fun h => hc h.2
    rw [if_neg a1, if_neg a2, if_neg a3]

theorem setDiag_spec (n : Nat) (M : DenseMatrix) :
    (forUp 0 n (fun i M => M.set i i 1) M).rows = M.rows ∧
    (forUp 0 n (fun i M => M.set i i 1) M).cols = M.cols ∧
    ∀ r c, (forUp 0 n (fun i M => M.set i i 1) M).get r c =
      if r = c ∧ r < n then 1 else M.get r c := by
  refine forUp_induct
    (fun cnt B => B.rows = M.rows ∧ B.cols = M.cols ∧
      ∀ r c, B.get r c = if r = c ∧ r < cnt then 1 else M.get r c) 0 n _ M
    ⟨rfl, rfl, fun r c => by
      have : ¬ (r = c ∧ r < 0) := by omega
      rw [if_neg this]⟩ ?_
  intro cnt B _ ⟨h1, h2, h3⟩
  refine ⟨h1, h2, fun r c => ?_⟩
  rw [DenseMatrix.get_set, h3, Nat.zero_add]
  by_cases h : r = cnt ∧ c = cnt
  · have : r = c ∧ r < cnt + 1 := by omega
    rw [if_pos h, if_pos this]
  · have : (r = c ∧ r < cnt + 1) ↔ (r = c ∧ r < cnt) := by omega
    rw [if_neg h]
    simp only [this]

/-- Closed form of the matrix that `invert` starts its substitutions from:
the identity in the leading `rows x cols` entries. -/
theorem invertInit_spec (self : DenseMatrix) :
    (forUp 0 self.rows (fun i M => M.set i i 1) (assignScalar self 0)).rows = self.rows ∧
    (forUp 0 self.rows (fun i M => M.set i i 1) (assignScalar self 0)).cols = self.cols ∧
    ∀ r c, r < self.rows → c < self.cols →
      (forUp 0 self.rows (fun i M => M.set i i 1) (assignScalar self 0)).get r c =
        if r = c then 1 else 0 := by
  obtain ⟨a1, a2, a3⟩ := assignScalar_spec self 0
  obtain ⟨b1, b2, b3⟩ := setDiag_spec self.rows (assignScalar self 0)
  refine ⟨b1.trans a1, b2.trans a2, fun r c hr hc => ?_⟩
  rw [b3]
  by_cases h : r = c
  · rw [if_pos ⟨h, hr⟩, if_pos h]
  · have : ¬ (r = c ∧ r < self.rows) := fun h2 => h h2.1
    rw [if_neg this, a3, if_pos ⟨hr, hc⟩, if_neg h]

theorem forwardRow_spec (n i cnt : Nat) (hcnt : cnt ≤ i) (L M : DenseMatrix) :
    (forUp 0 cnt (fun j M =>
      forUp 0 n (fun k M => M.set i k (M.get i k - L.get i j * M.get j k)) M) M).rows
        = M.rows ∧
    (forUp 0 cnt (fun j M =>
      forUp 0 n (fun k M => M.set i k (M.get i k - L.get i j * M.get j k)) M) M).cols
        = M.cols ∧
    ∀ r c, (forUp 0 cnt (fun j M =>
      forUp 0 n (fun k M => M.set i k (M.get i k - L.get i j * M.get j k)) M) M).get r c =
      if r = i ∧ c < n then M.get i c - ∑ j in Finset.range cnt, L.get i j * M.get j c
      else M.get r c := by
  induction cnt with
  | zero =>
    refine ⟨rfl, rfl, fun r c => ?_⟩
    simp only [forUp, Finset.range_zero, Finset.sum_empty, sub_zero]
    split
    · rename_i h; rw [h.1]
    · rfl
  | succ m ih =>
    obtain ⟨h1, h2, h3⟩ := ih (by omega)
    have hne : i ≠ 0 + m := by omega
    obtain ⟨e1, e2, e3⟩ := rowUpdate_spec 0 n i (0 + m) hne (L.get i (0 + m))
      (forUp 0 m (fun j M =>
        forUp 0 n (fun k M => M.set i k (M.get i k - L.get i j * M.get j k)) M) M)
    simp only [forUp]
    refine ⟨e1.trans h1, e2.trans h2, fun r c => ?_⟩
    rw [e3]
    have a0 : ¬ (0 + m = i ∧ c < n) := by omega
    by_cases hr : r = i ∧ c < n
    · have a1 : r = i ∧ 0 ≤ c ∧ c < 0 + n := by omega
      have a2 : i = i ∧ c < n := ⟨rfl, hr.2⟩
      rw [if_pos a1, if_pos hr, h3, h3, if_pos a2, if_neg a0, Finset.sum_range_succ,
        Nat.zero_add]
      ring
    · have a1 : ¬ (r = i ∧ 0 ≤ c ∧ c < 0 + n) := by omega
      rw [if_neg a1, if_neg hr, h3, if_neg hr]

theorem invertForward_spec (n : Nat) (L M0 : DenseMatrix) :
    (invertForward n L M0).rows = M0.rows ∧ (invertForward n L M0).cols = M0.cols ∧
    ∀ i c, i < n → c < n →
      (invertForward n L M0).get i c =
        M0.get i c - ∑ j in Finset.range i, L.get i j * (invertForward n L M0).get j c := by
  unfold invertForward
  have h := forUp_induct
    (fun cnt M => M.rows = M0.rows ∧ M.cols = M0.cols ∧
      (∀ i c, i < cnt → c < n →
        M.get i c = M0.get i c - ∑ j in Finset.range i, L.get i j * M.get j c) ∧
      (∀ r c, cnt ≤ r → M.get r c = M0.get r c)) 0 n
    (fun i M => forUp 0 i (fun j M =>
      forUp 0 n (fun k M => M.set i k (M.get i k - L.get i j * M.get j k)) M) M) M0
    ⟨rfl, rfl, fun i c hi _ => absurd hi (by omega), fun _ _ _ => rfl⟩ ?_
  · exact ⟨h.1, h.2.1, h.2.2.1⟩
  · intro cnt M _ ⟨h1, h2, h3, h4⟩
    obtain ⟨e1, e2, e3⟩ := forwardRow_spec n (0 + cnt) (0 + cnt) le_rfl L M
    simp only [Nat.zero_add] at e1 e2 e3
    simp only [Nat.zero_add]
    refine ⟨e1.trans h1, e2.trans h2, fun i c hi hc => ?_, fun r c hr => ?_⟩
    · have hsum : ∀ i, i ≤ cnt → ∑ j in Finset.range i, L.get i j *
          (forUp 0 cnt (fun j M => forUp 0 n
            (fun k M => M.set cnt k (M.get cnt k - L.get cnt j * M.get j k)) M) M).get j c =
          ∑ j in Finset.range i, L.get i j * M.get j c := by
        intro i hi
        refine Finset.sum_congr rfl fun j hj => ?_
        have hj2 := Finset.mem_range.mp hj
        have : ¬ (j = cnt ∧ c < n) := by omega
        rw [e3, if_neg this]
      rw [hsum i (by omega), e3]
      by_cases hic : i = cnt
      · rw [if_pos ⟨hic, hc⟩, h4 cnt c le_rfl, hic]
      · have : ¬ (i = cnt ∧ c < n) := fun h => hic h.1
        rw [if_neg this]
        exact h3 i c (by omega) hc
    · have : ¬ (r = cnt ∧ c < n) := by omega
      rw [e3, if_neg this]
      exact h4 r c (by omega)

theorem entryAcc_spec (lo cnt i k : Nat) (hi : i < lo) (U M : DenseMatrix) :
    (forUp lo cnt (fun j M => M.set i k (M.get i k - U.get i j * M.get j k)) M).rows
      = M.rows ∧
    (forUp lo cnt (fun j M => M.set i k (M.get i k - U.get i j * M.get j k)) M).cols
      = M.cols ∧
    ∀ r c, (forUp lo cnt (fun j M => M.set i k (M.get i k - U.get i j * M.get j k)) M).get r c =
      if r = i ∧ c = k then
        M.get i k - ∑ j in Finset.range (lo + cnt),
          (if lo ≤ j then U.get i j * M.get j k else 0)
      else M.get r c := by
  induction cnt with
  | zero =>
    refine ⟨rfl, rfl, fun r c => ?_⟩
    have : ∑ j in Finset.range (lo + 0),
        (if lo ≤ j then U.get i j * M.get j k else 0) = 0 := by
      apply Finset.sum_eq_zero
      intro j hj
      have : ¬ lo ≤ j := by
        have := Finset.mem_range.mp hj
        omega
      rw [if_neg this]
    simp only [forUp, this, sub_zero]
    split
    · rename_i h; rw [h.1, h.2]
    · rfl
  | succ m ih =>
    obtain ⟨h1, h2, h3⟩ := ih
    simp only [forUp]
    refine ⟨h1, h2, fun r c => ?_⟩
    rw [DenseMatrix.get_set]
    by_cases hr : r = i ∧ c = k
    · have a1 : i = i ∧ k = k := ⟨rfl, rfl⟩
      have a2 : ¬ (lo + m = i ∧ k = k) := by omega
      have a3 : lo ≤ lo + m := by omega
      rw [if_pos hr, if_pos hr, h3, h3, if_pos a1, if_neg a2, ← Nat.add_assoc,
        Finset.sum_range_succ, if_pos a3]
      ring
    · rw [if_neg hr, if_neg hr, h3, if_neg hr]

theorem backwardRow_spec (n i cnt : Nat) (hi : i < n) (U M : DenseMatrix) :
    (forUp 0 cnt (fun k M =>
      let M1 := forUp (i + 1) (n - (i + 1))
        (fun j M => M.set i k (M.get i k - U.get i j * M.get j k)) M
      M1.set i k (M1.get i k / U.get i i)) M).rows = M.rows ∧
    (forUp 0 cnt (fun k M =>
      let M1 := forUp (i + 1) (n - (i + 1))
        (fun j M => M.set i k (M.get i k - U.get i j * M.get j k)) M
      M1.set i k (M1.get i k / U.get i i)) M).cols = M.cols ∧
    ∀ r c, (forUp 0 cnt (fun k M =>
      let M1 := forUp (i + 1) (n - (i + 1))
        (fun j M => M.set i k (M.get i k - U.get i j * M.get j k)) M
      M1.set i k (M1.get i k / U.get i i)) M).get r c =
      if r = i ∧ c < cnt then
        (M.get i c - ∑ j in Finset.range n,
          (if i + 1 ≤ j then U.get i j * M.get j c else 0)) / U.get i i
      else M.get r c := by
  have hn : i + 1 + (n - (i + 1)) = n := by omega
  induction cnt with
  | zero =>
    refine ⟨rfl, rfl, fun r c => ?_⟩
    have : ¬ (r = i ∧ c < 0) := by omega
    rw [if_neg this]
    rfl
  | succ m ih =>
    obtain ⟨h1, h2, h3⟩ := ih
    obtain ⟨e1, e2, e3⟩ := entryAcc_spec (i + 1) (n - (i + 1)) i (0 + m) (by omega) U
      (forUp 0 m (fun k M =>
        let M1 := forUp (i + 1) (n - (i + 1))
          (fun j M => M.set i k (M.get i k - U.get i j * M.get j k)) M
        M1.set i k (M1.get i k / U.get i i)) M)
    simp only [forUp]
    refine ⟨e1.trans h1, e2.trans h2, fun r c => ?_⟩
    rw [DenseMatrix.get_set, e3, e3, hn, Nat.zero_add]
    have hsum : ∑ j in Finset.range n, (if i + 1 ≤ j then U.get i j *
        (forUp 0 m (fun k M =>
          let M1 := forUp (i + 1) (n - (i + 1))
            (fun j M => M.set i k (M.get i k - U.get i j * M.get j k)) M
          M1.set i k (M1.get i k / U.get i i)) M).get j m else 0) =
        ∑ j in Finset.range n, (if i + 1 ≤ j then U.get i j * M.get j m else 0) := by
      refine Finset.sum_congr rfl fun j _ => ?_
      by_cases hj : i + 1 ≤ j
      · have : ¬ (j = i ∧ m < m) := by omega
        rw [if_pos hj, if_pos hj, h3, if_neg this]
      · rw [if_neg hj, if_neg hj]
    by_cases hr : r = i ∧ c = m
    · have a1 : i = i ∧ m = m := ⟨rfl, rfl⟩
      have a2 : r = i ∧ c < m + 1 := by omega
      have a3 : ¬ (i = i ∧ m < m) := by omega
      rw [if_pos hr, if_pos a1, if_pos a2, hsum, h3, if_neg a3, hr.2]
    · have a2 : (r = i ∧ c < m + 1) ↔ (r = i ∧ c < m) := by omega
      rw [if_neg hr, if_neg hr, h3]
      simp only [a2]

theorem invertBackward_spec (n : Nat) (U Y : DenseMatrix) :
    (invertBackward n U Y).rows = Y.rows ∧ (invertBackward n U Y).cols = Y.cols ∧
    ∀ i k, i < n → k < n →
      (invertBackward n U Y).get i k =
        (Y.get i k - ∑ j in Finset.range n,
          (if i + 1 ≤ j then U.get i j * (invertBackward n U Y).get j k else 0))
            / U.get i i := by
  unfold invertBackward
  have h := forDown_induct
    (fun c M => M.rows = Y.rows ∧ M.cols = Y.cols ∧
      (∀ i k, c ≤ i → i < n → k < n →
        M.get i k = (Y.get i k - ∑ j in Finset.range n,
          (if i + 1 ≤ j then U.get i j * M.get j k else 0)) / U.get i i) ∧
      (∀ r k, r < c → M.get r k = Y.get r k)) n
    (fun i M => forUp 0 n (fun k M =>
      let M1 := forUp (i + 1) (n - (i + 1))
        (fun j M => M.set i k (M.get i k - U.get i j * M.get j k)) M
      M1.set i k (M1.get i k / U.get i i)) M) Y
    ⟨rfl, rfl, fun i k h1 h2 _ => absurd h1 (by omega), fun _ _ _ => rfl⟩ ?_
  · exact ⟨h.1, h.2.1, fun i k hi hk => h.2.2.1 i k (Nat.zero_le i) hi hk⟩
  · intro c t hc ⟨h1, h2, h3, h4⟩
    obtain ⟨e1, e2, e3⟩ := backwardRow_spec n c n hc U t
    refine ⟨e1.trans h1, e2.trans h2, fun i k hci hi hk => ?_, fun r k hr => ?_⟩
    · have hsum : ∑ j in Finset.range n, (if i + 1 ≤ j then U.get i j *
          (forUp 0 n (fun k M =>
            let M1 := forUp (c + 1) (n - (c + 1))
              (fun j M => M.set c k (M.get c k - U.get c j * M.get j k)) M
            M1.set c k (M1.get c k / U.get c c)) t).get j k else 0) =
          ∑ j in Finset.range n, (if i + 1 ≤ j then U.get i j * t.get j k else 0) := by
        refine Finset.sum_congr rfl fun j _ => ?_
        by_cases hj : i + 1 ≤ j
        · have : ¬ (j = c ∧ k < n) := by omega
          rw [if_pos hj, if_pos hj, e3, if_neg this]
        · rw [if_neg hj, if_neg hj]
      show (forUp 0 n _ t).get i k = _
      rw [hsum, e3]
      by_cases hic : i = c
      · rw [if_pos ⟨hic, hk⟩, h4 c k (Nat.lt_succ_self c), hic]
      · have : ¬ (i = c ∧ k < n) := fun h => hic h.1
        rw [if_neg this]
        exact h3 i k (by omega) hi hk
    · have : ¬ (r = c ∧ k < n) := by omega
      show (forUp 0 n _ t).get r k = _
      rw [e3, if_neg this]
      exact h4 r k (by omega)

theorem colSwap_spec (n i q : Nat) (M : DenseMatrix) :
    (forUp 0 n (fun j M => (M.set j q (M.get j i)).set j i (M.get j q)) M).rows = M.rows ∧
    (forUp 0 n (fun j M => (M.set j q (M.get j i)).set j i (M.get j q)) M).cols = M.cols ∧
    ∀ r c, (forUp 0 n (fun j M => (M.set j q (M.get j i)).set j i (M.get j q)) M).get r c =
      if r < n then M.get r (swapIdx i q c) else M.get r c := by
  refine forUp_induct
    (fun cnt B => B.rows = M.rows ∧ B.cols = M.cols ∧
      ∀ r c, B.get r c = if r < cnt then M.get r (swapIdx i q c) else M.get r c) 0 n _ M
    ⟨rfl, rfl, fun r c => by rw [if_neg (Nat.not_lt_zero r)]⟩ ?_
  intro cnt B _ ⟨h1, h2, h3⟩
  refine ⟨h1, h2, fun r c => ?_⟩
  rw [DenseMatrix.get_set, DenseMatrix.get_set, Nat.zero_add]
  have hlt : ¬ cnt < cnt := lt_irrefl cnt
  by_cases hr : r = cnt
  · have a0 : r < cnt + 1 := by omega
    rw [if_pos a0, h3, h3, h3, hr, if_neg hlt, if_neg hlt, if_neg hlt]
    unfold swapIdx
    by_cases hci : c = i
    · rw [if_pos ⟨rfl, hci⟩, if_pos hci]
    · have a1 : ¬ (cnt = cnt ∧ c = i) := fun h => hci h.2
      rw [if_neg a1, if_neg hci]
      by_cases hcq : c = q
      · rw [if_pos ⟨rfl, hcq⟩, if_pos hcq]
      · have a2 : ¬ (cnt = cnt ∧ c = q) := fun h => hcq h.2
        rw [if_neg a2, if_neg hcq]
  · have a1 : ¬ (r = cnt ∧ c = i) := fun h => hr h.1
    have a2 : ¬ (r = cnt ∧ c = q) := fun h => hr h.1
    have a3 : r < cnt + 1 ↔ r < cnt := by omega
    rw [if_neg a1, if_neg a2, h3]
    simp only [a3]

theorem swapIdx_self (i k : Nat) : swapIdx i i k = k := by
  unfold swapIdx
  by_cases h : k = i
  · rw [if_pos h, h]
  · rw [if_neg h, if_neg h]

theorem sum_swapIdx (n i q : Nat) (hi : i < n) (hq : q < n) (f g : Nat → ℚ) :
    ∑ s in Finset.range n, f (swapIdx i q s) * g s =
      ∑ s in Finset.range n, f s * g (swapIdx i q s) := by
  refine Finset.sum_nbij' (swapIdx i q) (swapIdx i q) ?_ ?_ ?_ ?_ ?_
  · intro a ha
    exact Finset.mem_range.mpr (swapIdx_lt n i q a hi hq (Finset.mem_range.mp ha))
  · intro a ha
    exact Finset.mem_range.mpr (swapIdx_lt n i q a hi hq (Finset.mem_range.mp ha))
  · intro a _; exact swapIdx_swapIdx i q a
  · intro a _; exact swapIdx_swapIdx i q a
  · intro a _; rw [swapIdx_swapIdx]

theorem invertUnpivot_spec (n : Nat) (pivot : Nat → Nat) (X : DenseMatrix)
    (f : Nat → Nat → ℚ) (hpiv : ∀ k, k < n → k ≤ pivot k ∧ pivot k < n) :
    (invertUnpivot n pivot X).rows = X.rows ∧ (invertUnpivot n pivot X).cols = X.cols ∧
    ∀ r j, r < n →
      ∑ s in Finset.range n, (invertUnpivot n pivot X).get r s * f s j =
        ∑ s in Finset.range n, X.get r s * permRows pivot n f s j := by
  unfold invertUnpivot
  have h := forDown_induct
    (fun c M => M.rows = X.rows ∧ M.cols = X.cols ∧ ∀ r j, r < n →
      ∑ s in Finset.range n, M.get r s * permRows pivot c f s j =
        ∑ s in Finset.range n, X.get r s * permRows pivot n f s j) n
    (fun i M =>
      if i ≠ pivot i then
        forUp 0 n (fun j M =>
          (M.set j (pivot i) (M.get j i)).set j i (M.get j (pivot i))) M
      else M) X ⟨rfl, rfl, fun _ _ _ => rfl⟩ ?_
  · exact h
  · intro c t hc ⟨h1, h2, h3⟩
    by_cases hcp : c = pivot c
    · have : ¬ c ≠ pivot c := fun h => h hcp
      simp only [this, if_false]
      refine ⟨h1, h2, fun r j hr => ?_⟩
      rw [← h3 r j hr]
      refine Finset.sum_congr rfl fun s _ => ?_
      show _ = t.get r s * permRows pivot c f (swapIdx c (pivot c) s) j
      rw [← hcp, swapIdx_self]
    · have hcp2 : c ≠ pivot c := hcp
      simp only [hcp2, ne_eq, not_false_eq_true, if_true]
      obtain ⟨e1, e2, e3⟩ := colSwap_spec n c (pivot c) t
      refine ⟨e1.trans h1, e2.trans h2, fun r j hr => ?_⟩
      rw [← h3 r j hr]
      have : ∀ s, (forUp 0 n (fun j M =>
          (M.set j (pivot c) (M.get j c)).set j c (M.get j (pivot c))) t).get r s =
          t.get r (swapIdx c (pivot c) s) := by
        intro s
        rw [e3, if_pos hr]
      simp only [this]
      exact sum_swapIdx n c (pivot c) hc (hpiv c hc).2 (fun s => t.get r s)
        (fun s => permRows pivot c f s j)

theorem toMatrix_mul_apply (n : Nat) (f g : Nat → Nat → ℚ) (i k : Fin n) :
    (toMatrix n f * toMatrix n g) i k = ∑ j in Finset.range n, f i j * g j k := by
  rw [Matrix.mul_apply]
  exact Fin.sum_univ_eq_sum_range (fun j => f i j * g j k) n

theorem sum_range_ite_lt (n i : Nat) (hi : i ≤ n) (g : Nat → ℚ) :
    ∑ j in Finset.range n, (if j < i then g j else 0) = ∑ j in Finset.range i, g j := by
  induction n with
  | zero =>
    have : i = 0 := by omega
    subst this
    rfl
  | succ m ih =>
    by_cases him : i = m + 1
    · subst him
      refine Finset.sum_congr rfl fun j hj => ?_
      rw [if_pos (Finset.mem_range.mp hj)]
    · have : ¬ m < i := by omega
      rw [Finset.sum_range_succ, if_neg this, add_zero]
      exact ih (by omega)

theorem lower_mul_forward (n : Nat) (W M0 : DenseMatrix)
    (hM0 : ∀ r c, r < n → c < n → M0.get r c = if r = c then 1 else 0) :
    toMatrix n (lowerU W) * toMatrix n (invertForward n W M0).get = 1 := by
  obtain ⟨_, _, h3⟩ := invertForward_spec n W M0
  ext i c
  rw [toMatrix_mul_apply]
  have hterm : ∀ j, j ∈ Finset.range n →
      lowerU W i j * (invertForward n W M0).get j c =
        (if j < (i : Nat) then W.get i j * (invertForward n W M0).get j c else 0) +
          (if j = (i : Nat) then (invertForward n W M0).get i c else 0) := by
    intro j _
    unfold lowerU
    by_cases h1 : j < (i : Nat)
    · have : ¬ j = (i : Nat) := by omega
      rw [if_pos h1, if_pos h1, if_neg this, add_zero]
    · by_cases h2 : j = (i : Nat)
      · rw [if_neg h1, if_pos h2, if_neg h1, if_pos h2, h2, one_mul, zero_add]
      · rw [if_neg h1, if_neg h2, if_neg h1, if_neg h2, zero_mul, zero_add]
  rw [Finset.sum_congr rfl hterm, Finset.sum_add_distrib, Finset.sum_ite_eq',
    if_pos (Finset.mem_range.mpr i.2), sum_range_ite_lt n i (le_of_lt i.2),
    h3 i c i.2 c.2, hM0 i c i.2 c.2, Matrix.one_apply]
  by_cases hic : i = c
  · rw [if_pos hic, if_pos (congrArg Fin.val hic)]; ring
  · have : ¬ (i : Nat) = c := fun h => hic (Fin.ext h)
    rw [if_neg hic, if_neg this]; ring

theorem upper_mul_backward (n : Nat) (W Y : DenseMatrix)
    (hd : ∀ k, k < n → W.get k k ≠ 0) :
    toMatrix n (eff n W) * toMatrix n (invertBackward n W Y).get = toMatrix n Y.get := by
  obtain ⟨_, _, h3⟩ := invertBackward_spec n W Y
  ext i k
  rw [toMatrix_mul_apply]
  have hterm : ∀ j, j ∈ Finset.range n →
      eff n W i j * (invertBackward n W Y).get j k =
        (if j = (i : Nat) then W.get i i * (invertBackward n W Y).get i k else 0) +
          (if (i : Nat) + 1 ≤ j then W.get i j * (invertBackward n W Y).get j k else 0) := by
    intro j hj
    have hjn := Finset.mem_range.mp hj
    unfold eff
    by_cases h1 : j < (i : Nat)
    · have a1 : j < n ∧ j < (i : Nat) := ⟨hjn, h1⟩
      have a2 : ¬ j = (i : Nat) := by omega
      have a3 : ¬ (i : Nat) + 1 ≤ j := by omega
      rw [if_pos a1, if_neg a2, if_neg a3, zero_mul, zero_add]
    · have a1 : ¬ (j < n ∧ j < (i : Nat)) := fun h => h1 h.2
      by_cases h2 : j = (i : Nat)
      · have a3 : ¬ (i : Nat) + 1 ≤ j := by omega
        rw [if_neg a1, if_pos h2, if_neg a3, h2, add_zero]
      · have a3 : (i : Nat) + 1 ≤ j := by omega
        rw [if_neg a1, if_neg h2, if_pos a3, zero_add]
  rw [Finset.sum_congr rfl hterm, Finset.sum_add_distrib, Finset.sum_ite_eq',
    if_pos (Finset.mem_range.mpr i.2)]
  have hx := h3 i k i.2 k.2
  have hne := hd i i.2
  show _ = Y.get i k
  rw [hx]
  field_simp

theorem luSum_eq_mul (n : Nat) (W : DenseMatrix) :
    toMatrix n (luSum n n W) = toMatrix n (lowerU W) * toMatrix n (eff n W) := by
  ext k j
  rw [toMatrix_mul_apply]
  show luSum n n W k j = _
  unfold luSum
  have hterm : ∀ m, m ∈ Finset.range n →
      lowerU W k m * eff n W m j =
        (if m < n ∧ m < (k : Nat) then W.get k m * eff n W m j else 0) +
          (if m = (k : Nat) then eff n W k j else 0) := by
    intro m hm
    have hmn := Finset.mem_range.mp hm
    unfold lowerU
    by_cases h1 : m < (k : Nat)
    · have a1 : m < n ∧ m < (k : Nat) := ⟨hmn, h1⟩
      have a2 : ¬ m = (k : Nat) := by omega
      rw [if_pos h1, if_pos a1, if_neg a2, add_zero]
    · have a1 : ¬ (m < n ∧ m < (k : Nat)) := fun h => h1 h.2
      by_cases h2 : m = (k : Nat)
      · rw [if_neg h1, if_pos h2, if_neg a1, if_pos h2, h2, one_mul, zero_add]
      · rw [if_neg h1, if_neg h2, if_neg a1, if_neg h2, zero_mul, zero_add]
  rw [Finset.sum_congr rfl hterm, Finset.sum_add_distrib, Finset.sum_ite_eq',
    if_pos (Finset.mem_range.mpr k.2)]
  ring

theorem substitutions_inverse (n : Nat) (W M0 : DenseMatrix)
    (hM0 : ∀ r c, r < n → c < n → M0.get r c = if r = c then 1 else 0)
    (hd : ∀ k, k < n → W.get k k ≠ 0) :
    toMatrix n (invertBackward n W (invertForward n W M0)).get * toMatrix n (luSum n n W)
      = 1 := by
  rw [Matrix.mul_eq_one_comm, luSum_eq_mul, Matrix.mul_assoc, upper_mul_backward n W _ hd,
    lower_mul_forward n W M0 hM0]

theorem invert_general_ok (checking : Bool) (p : FMatrixPrecision) (A : DenseMatrix)
    (hsq : A.rows = A.cols) (hn : 3 ≤ A.rows)
    (hlu : (luDecomposition p A.rows A ElimPivot (ElimPivot.init A.rows fun _ => 0)).1
      = none) :
    invert checking p A =
      (none, invertUnpivot A.rows
        (luDecomposition p A.rows A ElimPivot (ElimPivot.init A.rows fun _ => 0)).2.2
        (invertBackward A.rows
          (luDecomposition p A.rows A ElimPivot (ElimPivot.init A.rows fun _ => 0)).2.1
          (invertForward A.rows
            (luDecomposition p A.rows A ElimPivot (ElimPivot.init A.rows fun _ => 0)).2.1
            (forUp 0 A.rows (fun i M => M.set i i 1) (assignScalar A 0))))) := by
  unfold invert
  have h0 : ¬ A.rows ≠ A.cols := fun h => h hsq
  have h1 : ¬ A.rows = 1 := by omega
  have h2 : ¬ A.rows = 2 := by omega
  simp only [h0, h1, h2, if_false]
  rw [hlu]

theorem invert_general_err (checking : Bool) (p : FMatrixPrecision) (A : DenseMatrix)
    (hsq : A.rows = A.cols) (hn : 3 ≤ A.rows) (e : FMatrixError)
    (hlu : (luDecomposition p A.rows A ElimPivot (ElimPivot.init A.rows fun _ => 0)).1
      = some e) :
    invert checking p A = (some e, A) := by
  unfold invert
  have h0 : ¬ A.rows ≠ A.cols := fun h => h hsq
  have h1 : ¬ A.rows = 1 := by omega
  have h2 : ¬ A.rows = 2 := by omega
  simp only [h0, h1, h2, if_false]
  rw [hlu]

theorem invert_general_mul (p : FMatrixPrecision) (hp : 0 < p.absolute_limit)
    (A : DenseMatrix) (hsq : A.rows = A.cols)
    (hlu : (luDecomposition p A.rows A ElimPivot (ElimPivot.init A.rows fun _ => 0)).1
      = none) :
    (invertUnpivot A.rows
        (luDecomposition p A.rows A ElimPivot (ElimPivot.init A.rows fun _ => 0)).2.2
        (invertBackward A.rows
          (luDecomposition p A.rows A ElimPivot (ElimPivot.init A.rows fun _ => 0)).2.1
          (invertForward A.rows
            (luDecomposition p A.rows A ElimPivot (ElimPivot.init A.rows fun _ => 0)).2.1
            (forUp 0 A.rows (fun i M => M.set i i 1) (assignScalar A 0))))).rows = A.rows ∧
    (invertUnpivot A.rows
        (luDecomposition p A.rows A ElimPivot (ElimPivot.init A.rows fun _ => 0)).2.2
        (invertBackward A.rows
          (luDecomposition p A.rows A ElimPivot (ElimPivot.init A.rows fun _ => 0)).2.1
          (invertForward A.rows
            (luDecomposition p A.rows A ElimPivot (ElimPivot.init A.rows fun _ => 0)).2.1
            (forUp 0 A.rows (fun i M => M.set i i 1) (assignScalar A 0))))).cols = A.cols ∧
    toMatrix A.rows (invertUnpivot A.rows
        (luDecomposition p A.rows A ElimPivot (ElimPivot.init A.rows fun _ => 0)).2.2
        (invertBackward A.rows
          (luDecomposition p A.rows A ElimPivot (ElimPivot.init A.rows fun _ => 0)).2.1
          (invertForward A.rows
            (luDecomposition p A.rows A ElimPivot (ElimPivot.init A.rows fun _ => 0)).2.1
            (forUp 0 A.rows (fun i M => M.set i i 1) (assignScalar A 0))))).get *
        toMatrix A.rows A.get = 1 := by
  obtain ⟨l1, l2, l3⟩ := luDecomposition_pivot p hp A (fun _ => 0) hlu
  obtain ⟨i1, i2, i3⟩ := invertInit_spec A
  obtain ⟨f1, f2, _⟩ := invertForward_spec A.rows
    (luDecomposition p A.rows A ElimPivot (ElimPivot.init A.rows fun _ => 0)).2.1
    (forUp 0 A.rows (fun i M => M.set i i 1) (assignScalar A 0))
  obtain ⟨b1, b2, _⟩ := invertBackward_spec A.rows
    (luDecomposition p A.rows A ElimPivot (ElimPivot.init A.rows fun _ => 0)).2.1
    (invertForward A.rows
      (luDecomposition p A.rows A ElimPivot (ElimPivot.init A.rows fun _ => 0)).2.1
      (forUp 0 A.rows (fun i M => M.set i i 1) (assignScalar A 0)))
  obtain ⟨u1, u2, u3⟩ := invertUnpivot_spec A.rows
    (luDecomposition p A.rows A ElimPivot (ElimPivot.init A.rows fun _ => 0)).2.2
    (invertBackward A.rows
      (luDecomposition p A.rows A ElimPivot (ElimPivot.init A.rows fun _ => 0)).2.1
      (invertForward A.rows
        (luDecomposition p A.rows A ElimPivot (ElimPivot.init A.rows fun _ => 0)).2.1
        (forUp 0 A.rows (fun i M => M.set i i 1) (assignScalar A 0))))
    A.get l3
  have hsub := substitutions_inverse A.rows
    (luDecomposition p A.rows A ElimPivot (ElimPivot.init A.rows fun _ => 0)).2.1
    (forUp 0 A.rows (fun i M => M.set i i 1) (assignScalar A 0))
    (fun r c hr hc => i3 r c hr (hsq ▸ hc)) l2
  refine ⟨((u1.trans b1).trans f1).trans i1, ((u2.trans b2).trans f2).trans i2, ?_⟩
  rw [← hsub]
  ext r j
  rw [toMatrix_mul_apply, toMatrix_mul_apply, u3 r j r.2]
  refine Finset.sum_congr rfl fun s hs => ?_
  rw [l1 s j (Finset.mem_range.mp hs) j.2]

theorem invert_general_inverse (checking : Bool) (p : FMatrixPrecision)
    (hp : 0 < p.absolute_limit) (A : DenseMatrix) (hsq : A.rows = A.cols)
    (hn : 3 ≤ A.rows) (hok : (invert checking p A).1 = none) :
    (invert checking p A).2.rows = A.rows ∧ (invert checking p A).2.cols = A.cols ∧
    toMatrix A.rows (invert checking p A).2.get * toMatrix A.rows A.get = 1 ∧
    toMatrix A.rows A.get * toMatrix A.rows (invert checking p A).2.get = 1 := by
  cases hlu : (luDecomposition p A.rows A ElimPivot (ElimPivot.init A.rows fun _ => 0)).1 with
  | some e =>
    rw [invert_general_err checking p A hsq hn e hlu] at hok
    exact absurd hok (by simp)
  | none =>
    rw [invert_general_ok checking p A hsq hn hlu]
    obtain ⟨hr, hc, hmul⟩ := invert_general_mul p hp A hsq hlu
    exact ⟨hr, hc, hmul, Matrix.mul_eq_one_comm.mp hmul⟩

/-! ## Closed-form paths -/

theorem solve_one_eq (checking : Bool) (p : FMatrixPrecision) (a : Nat → Nat → ℚ)
    (x b : Vec) :
    solve checking p ⟨1, 1, a⟩ x b =
      if checking = true ∧ absreal (a 0 0) < p.absolute_limit then
        (some FMatrixError.singular, x)
      else (none, x.set 0 (b 0 / a 0 0)) := by
  simp [solve, DenseMatrix.rows, DenseMatrix.cols, DenseMatrix.get]

theorem solve_two_eq (checking : Bool) (p : FMatrixPrecision) (a : Nat → Nat → ℚ)
    (x b : Vec) :
    solve checking p ⟨2, 2, a⟩ x b =
      if checking = true ∧ absreal (a 0 0 * a 1 1 - a 0 1 * a 1 0) < p.absolute_limit then
        (some FMatrixError.singular, x)
      else (none, (x.set 0 (1 / (a 0 0 * a 1 1 - a 0 1 * a 1 0) * (a 1 1 * b 0 - a 0 1 * b 1))).set 1
        (1 / (a 0 0 * a 1 1 - a 0 1 * a 1 0) * (a 0 0 * b 1 - a 1 0 * b 0))) := by
  simp [solve, DenseMatrix.rows, DenseMatrix.cols, DenseMatrix.get]

theorem determinant_three_eq (p : FMatrixPrecision) (a : Nat → Nat → ℚ) :
    determinant p ⟨3, 3, a⟩ = Except.ok (det3 a) := by
  simp [determinant, DenseMatrix.rows, DenseMatrix.cols, DenseMatrix.get, det3]

theorem solve_three_eq (checking : Bool) (p : FMatrixPrecision) (a : Nat → Nat → ℚ)
    (x b : Vec) :
    solve checking p ⟨3, 3, a⟩ x b =
      if checking = true ∧ absreal (det3 a) < p.absolute_limit then
        (some FMatrixError.singular, x)
      else (none, ((x.set 0
          ((b 0 * a 1 1 * a 2 2 - b 0 * a 2 1 * a 1 2
            - b 1 * a 0 1 * a 2 2 + b 1 * a 2 1 * a 0 2
            + b 2 * a 0 1 * a 1 2 - b 2 * a 1 1 * a 0 2) / det3 a)).set 1
          ((a 0 0 * b 1 * a 2 2 - a 0 0 * b 2 * a 1 2
            - a 1 0 * b 0 * a 2 2 + a 1 0 * b 2 * a 0 2
            + a 2 0 * b 0 * a 1 2 - a 2 0 * b 1 * a 0 2) / det3 a)).set 2
          ((a 0 0 * a 1 1 * b 2 - a 0 0 * a 2 1 * b 1
            - a 1 0 * a 0 1 * b 2 + a 1 0 * a 2 1 * b 0
            + a 2 0 * a 0 1 * b 1 - a 2 0 * a 1 1 * b 0) / det3 a)) := by
  unfold solve
  rw [determinant_three_eq]
  simp [DenseMatrix.rows, DenseMatrix.cols, DenseMatrix.get]

theorem invert_one_eq (checking : Bool) (p : FMatrixPrecision) (a : Nat → Nat → ℚ) :
    invert checking p ⟨1, 1, a⟩ =
      if checking = true ∧ absreal (a 0 0) < p.absolute_limit then
        (some FMatrixError.singular, ⟨1, 1, a⟩)
      else (none, (⟨1, 1, a⟩ : DenseMatrix).set 0 0 (1 / a 0 0)) := by
  simp [invert, DenseMatrix.rows, DenseMatrix.cols, DenseMatrix.get]

theorem invert_two_eq (checking : Bool) (p : FMatrixPrecision) (a : Nat → Nat → ℚ) :
    invert checking p ⟨2, 2, a⟩ =
      if checking = true ∧ absreal (a 0 0 * a 1 1 - a 0 1 * a 1 0) < p.absolute_limit then
        (some FMatrixError.singular, ⟨2, 2, a⟩)
      else (none, ((((⟨2, 2, a⟩ : DenseMatrix).set 0 0
          (a 1 1 * (1 / (a 0 0 * a 1 1 - a 0 1 * a 1 0)))).set 0 1
          (-a 0 1 * (1 / (a 0 0 * a 1 1 - a 0 1 * a 1 0)))).set 1 0
          (-a 1 0 * (1 / (a 0 0 * a 1 1 - a 0 1 * a 1 0)))).set 1 1
          (a 0 0 * (1 / (a 0 0 * a 1 1 - a 0 1 * a 1 0)))) := by
  simp [invert, DenseMatrix.rows, DenseMatrix.cols, DenseMatrix.get, DenseMatrix.set]

theorem det_toMatrix_one (a : Nat → Nat → ℚ) : (toMatrix 1 a).det = a 0 0 := by
  rw [Matrix.det_unique]
  rfl

theorem det_toMatrix_two (a : Nat → Nat → ℚ) :
    (toMatrix 2 a).det = a 0 0 * a 1 1 - a 0 1 * a 1 0 := by
  rw [Matrix.det_fin_two]
  rfl

theorem det_toMatrix_three (a : Nat → Nat → ℚ) : (toMatrix 3 a).det = det3 a := by
  rw [Matrix.det_fin_three]
  simp only [toMatrix, Matrix.of_apply, det3]
  norm_num
  ring

theorem solve_fast_solves (checking : Bool) (p : FMatrixPrecision) (A : DenseMatrix)
    (hsq : A.rows = A.cols) (h1 : 1 ≤ A.rows) (h3 : A.rows ≤ 3)
    (hdet : (toMatrix A.rows A.get).det ≠ 0) (x b : Vec)
    (hok : (solve checking p A x b).1 = none) :
    Solves A.rows A.get b (solve checking p A x b).2 := by
  obtain ⟨r, c, a⟩ := A
  simp only [DenseMatrix.rows, DenseMatrix.cols] at hsq h1 h3
  subst hsq
  change (toMatrix r a).det ≠ 0 at hdet
  change Solves r a b _
  have hr : r = 1 ∨ r = 2 ∨ r = 3 := by omega
  rcases hr with h | h | h
  · subst h
    rw [det_toMatrix_one] at hdet
    rw [solve_one_eq] at hok ⊢
    split at hok
    · exact absurd hok (by simp)
    · rename_i hc
      rw [if_neg hc]
      intro k hk
      interval_cases k
      simp [Vec.set, Finset.sum_range_succ]
      field_simp
  · subst h
    rw [det_toMatrix_two] at hdet
    rw [solve_two_eq] at hok ⊢
    split at hok
    · exact absurd hok (by simp)
    · rename_i hc
      rw [if_neg hc]
      intro k hk
      interval_cases k
      · simp [Vec.set, Finset.sum_range_succ]
        field_simp
        ring
      · simp [Vec.set, Finset.sum_range_succ]
        field_simp
        ring
  · subst h
    rw [det_toMatrix_three] at hdet
    rw [solve_three_eq] at hok ⊢
    split at hok
    · exact absurd hok (by simp)
    · rename_i hc
      rw [if_neg hc]
      intro k hk
      interval_cases k
      · simp [Vec.set, Finset.sum_range_succ]
        field_simp
        unfold det3
        ring
      · simp [Vec.set, Finset.sum_range_succ]
        field_simp
        unfold det3
        ring
      · simp [Vec.set, Finset.sum_range_succ]
        field_simp
        unfold det3
        ring

theorem invert_fast_inverse (checking : Bool) (p : FMatrixPrecision) (A : DenseMatrix)
    (hsq : A.rows = A.cols) (h1 : 1 ≤ A.rows) (h2 : A.rows ≤ 2)
    (hdet : (toMatrix A.rows A.get).det ≠ 0)
    (hok : (invert checking p A).1 = none) :
    (invert checking p A).2.rows = A.rows ∧ (invert checking p A).2.cols = A.cols ∧
    toMatrix A.rows (invert checking p A).2.get * toMatrix A.rows A.get = 1 ∧
    toMatrix A.rows A.get * toMatrix A.rows (invert checking p A).2.get = 1 := by
  obtain ⟨r, c, a⟩ := A
  simp only [DenseMatrix.rows, DenseMatrix.cols] at hsq h1 h2
  subst hsq
  change (toMatrix r a).det ≠ 0 at hdet
  change DenseMatrix.rows _ = r ∧ DenseMatrix.cols _ = r ∧
    toMatrix r (DenseMatrix.get _) * toMatrix r a = 1 ∧
    toMatrix r a * toMatrix r (DenseMatrix.get _) = 1
  have hr : r = 1 ∨ r = 2 := by omega
  rcases hr with h | h
  · subst h
    rw [det_toMatrix_one] at hdet
    rw [invert_one_eq] at hok ⊢
    split at hok
    · exact absurd hok (by simp)
    · rename_i hc
      rw [if_neg hc]
      have hm : toMatrix 1 ((⟨1, 1, a⟩ : DenseMatrix).set 0 0 (1 / a 0 0)).get *
          toMatrix 1 a = 1 := by
        ext i j
        fin_cases i
        fin_cases j
        simp [Matrix.mul_apply, toMatrix, DenseMatrix.set, DenseMatrix.get]
        field_simp
      exact ⟨rfl, rfl, hm, Matrix.mul_eq_one_comm.mp hm⟩
  · subst h
    rw [det_toMatrix_two] at hdet
    rw [invert_two_eq] at hok ⊢
    split at hok
    · exact absurd hok (by simp)
    · rename_i hc
      rw [if_neg hc]
      have hm : toMatrix 2 (((((⟨2, 2, a⟩ : DenseMatrix).set 0 0
          (a 1 1 * (1 / (a 0 0 * a 1 1 - a 0 1 * a 1 0)))).set 0 1
          (-a 0 1 * (1 / (a 0 0 * a 1 1 - a 0 1 * a 1 0)))).set 1 0
          (-a 1 0 * (1 / (a 0 0 * a 1 1 - a 0 1 * a 1 0)))).set 1 1
          (a 0 0 * (1 / (a 0 0 * a 1 1 - a 0 1 * a 1 0)))).get * toMatrix 2 a = 1 := by
        ext i j
        fin_cases i <;> fin_cases j <;>
          simp [Matrix.mul_apply, toMatrix, Fin.sum_univ_two, DenseMatrix.set, DenseMatrix.get] <;>
          field_simp <;> ring
      exact ⟨rfl, rfl, hm, Matrix.mul_eq_one_comm.mp hm⟩

/-! ## General path of `determinant` -/

theorem determinant_general_ok (p : FMatrixPrecision) (A : DenseMatrix)
    (hsq : A.rows = A.cols) (hn : 4 ≤ A.rows)
    (hlu : (luDecomposition p A.rows A ElimDet (ElimDet.init 0)).1 = none) :
    determinant p A = Except.ok
      ((luDecomposition p A.rows A ElimDet (ElimDet.init 0)).2.2 *
        ∏ k in Finset.range A.rows,
          (luDecomposition p A.rows A ElimDet (ElimDet.init 0)).2.1.get k k) := by
  unfold determinant
  have h0 : ¬ A.rows ≠ A.cols := fun h => h hsq
  have h1 : ¬ A.rows = 1 := by omega
  have h2 : ¬ A.rows = 2 := by omega
  have h3 : ¬ A.rows = 3 := by omega
  simp only [h0, h1, h2, h3, if_false]
  rw [hlu]
  simp only [prodLoop_eq]

theorem determinant_general_err (p : FMatrixPrecision) (A : DenseMatrix)
    (hsq : A.rows = A.cols) (hn : 4 ≤ A.rows) (e : FMatrixError)
    (hlu : (luDecomposition p A.rows A ElimDet (ElimDet.init 0)).1 = some e) :
    determinant p A = Except.ok 0 := by
  unfold determinant
  have h0 : ¬ A.rows ≠ A.cols := fun h => h hsq
  have h1 : ¬ A.rows = 1 := by omega
  have h2 : ¬ A.rows = 2 := by omega
  have h3 : ¬ A.rows = 3 := by omega
  simp only [h0, h1, h2, h3, if_false]
  rw [hlu]

theorem determinant_general_det (p : FMatrixPrecision) (hp : 0 < p.absolute_limit)
    (A : DenseMatrix) (hsq : A.rows = A.cols) (hn : 4 ≤ A.rows)
    (hlu : (luDecomposition p A.rows A ElimDet (ElimDet.init 0)).1 = none) :
    determinant p A = Except.ok (toMatrix A.rows A.get).det := by
  rw [determinant_general_ok p A hsq hn hlu, luDecomposition_det p hp A hlu]

theorem toMatrix_swapStep (n i j : Nat) (hi : i < n) (hj : j < n) (A : DenseMatrix) :
    toMatrix n (swapStep n i j A).get =
      (toMatrix n A.get).submatrix (Equiv.swap (⟨i, hi⟩ : Fin n) ⟨j, hj⟩) id := by
  ext k c
  simp only [toMatrix, Matrix.of_apply, Matrix.submatrix_apply, id]
  rw [swapStep_get, if_pos c.2]
  by_cases h1 : (k : Nat) = i
  · have : k = ⟨i, hi⟩ := Fin.ext h1
    rw [if_pos h1, this, Equiv.swap_apply_left]
  · by_cases h2 : (k : Nat) = j
    · have : k = ⟨j, hj⟩ := Fin.ext h2
      rw [if_neg h1, if_pos h2, this, Equiv.swap_apply_right]
    · have e1 : k ≠ ⟨i, hi⟩ := fun h => h1 (congrArg Fin.val h)
      have e2 : k ≠ ⟨j, hj⟩ := fun h => h2 (congrArg Fin.val h)
      rw [if_neg h1, if_neg h2, Equiv.swap_apply_of_ne_of_ne e1 e2]

theorem det_toMatrix_swapStep (n i j : Nat) (hi : i < n) (hj : j < n) (hij : i ≠ j)
    (A : DenseMatrix) :
    (toMatrix n (swapStep n i j A).get).det = -(toMatrix n A.get).det := by
  have hne : (⟨i, hi⟩ : Fin n) ≠ ⟨j, hj⟩ := fun h => hij (Fin.mk.inj h)
  rw [toMatrix_swapStep n i j hi hj, Matrix.det_permute, Equiv.Perm.sign_swap hne]
  simp

theorem determinant_small_det (p : FMatrixPrecision) (A : DenseMatrix)
    (hsq : A.rows = A.cols) (h1 : 1 ≤ A.rows) (h3 : A.rows ≤ 3) :
    determinant p A = Except.ok (toMatrix A.rows A.get).det := by
  obtain ⟨r, c, a⟩ := A
  simp only [DenseMatrix.rows, DenseMatrix.cols] at hsq h1 h3
  subst hsq
  change determinant p ⟨r, r, a⟩ = Except.ok (toMatrix r a).det
  have hr : r = 1 ∨ r = 2 ∨ r = 3 := by omega
  rcases hr with h | h | h
  · subst h
    rw [det_toMatrix_one]
    simp [determinant, DenseMatrix.rows, DenseMatrix.cols, DenseMatrix.get]
  · subst h
    rw [det_toMatrix_two]
    simp [determinant, DenseMatrix.rows, DenseMatrix.cols, DenseMatrix.get]
  · subst h
    rw [det_toMatrix_three, determinant_three_eq]

/-! ## Properties of `solve`, `invert` and `determinant` -/

/-- C5: closed forms of `determinant`: `A00` for a 1 x 1 matrix, `a d - b c`
for the 2 x 2 matrix `[[a, b], [c, d]]`, and for a 3 x 3 matrix the value
computed from the six products `t4 ... t14`, which equals the cofactor expansion
`a00 (a11 a22 - a12 a21) - a01 (a10 a22 - a12 a20) + a02 (a10 a21 - a11 a20)`. -/
theorem determinant_closed_forms (p : FMatrixPrecision) (a : Nat → Nat → ℚ) :
    determinant p ⟨1, 1, a⟩ = Except.ok (a 0 0) ∧
    determinant p ⟨2, 2, a⟩ = Except.ok (a 0 0 * a 1 1 - a 0 1 * a 1 0) ∧
    determinant p ⟨3, 3, a⟩ = Except.ok
      (a 0 0 * (a 1 1 * a 2 2 - a 1 2 * a 2 1) - a 0 1 * (a 1 0 * a 2 2 - a 1 2 * a 2 0)
        + a 0 2 * (a 1 0 * a 2 1 - a 1 1 * a 2 0)) := by
  refine ⟨?_, ?_, ?_⟩
  · simp [determinant, DenseMatrix.rows, DenseMatrix.cols, DenseMatrix.get]
  · simp [determinant, DenseMatrix.rows, DenseMatrix.cols, DenseMatrix.get]
  · rw [determinant_three_eq]
    congr 1
    unfold det3
    ring

/-- C6: on the general path of `determinant` (`rows() >= 4`), whenever the LU
decomposition succeeds, `determinant()` returns the determinant of the original
matrix (the determinant of Mathlib, defined by the Leibniz formula).  The
absolute limit is positive, as it is initially. -/
theorem determinant_general_path (p : FMatrixPrecision) (hp : 0 < p.absolute_limit)
    (A : DenseMatrix) (hsq : A.rows = A.cols) (hn : 4 ≤ A.rows)
    (hlu : (luDecomposition p A.rows A ElimDet (ElimDet.init 0)).1 = none) :
    determinant p A = Except.ok (toMatrix A.rows A.get).det := by
  rw [determinant_general_ok p A hsq hn hlu]
  congr 1
  exact (luDecomposition_det p hp A hlu).symm

/-- Instance of C6: the regular 4 x 4 sample matrix under the initial thresholds. -/
theorem determinant_general_path_witness :
    0 < FMatrixPrecision.initial.absolute_limit ∧
    (luDecomposition FMatrixPrecision.initial 4 sampleRegular ElimDet (ElimDet.init 0)).1
      = none ∧
    determinant FMatrixPrecision.initial sampleRegular =
      Except.ok (toMatrix 4 sampleRegular.get).det :=
  ⟨by decide!, by decide!,
    determinant_general_path FMatrixPrecision.initial (by decide!) sampleRegular rfl
      (by decide) (by decide!)⟩

/-- C7: when the LU decomposition of a matrix with `rows() >= 4` throws
"matrix is singular" (with whatever observer), `determinant()` returns 0 and
throws nothing, while `solve(x, b)`, for every `x` and `b`, and `invert()`
throw that exception. -/
theorem singular_policy {σ : Type} (checking : Bool) (p : FMatrixPrecision)
    (A : DenseMatrix) (hsq : A.rows = A.cols) (hn : 4 ≤ A.rows) (F : Func σ) (func : σ)
    (hsing : (luDecomposition p A.rows A F func).1 = some FMatrixError.singular) :
    determinant p A = Except.ok 0 ∧
    (∀ x b, (solve checking p A x b).1 = some FMatrixError.singular) ∧
    (invert checking p A).1 = some FMatrixError.singular := by
  refine ⟨?_, fun x b => ?_, ?_⟩
  · have h := (luDecomposition_observer p A.rows A ElimDet (ElimDet.init 0) F func).1
    exact determinant_general_err p A hsq hn _ (h.trans hsing)
  · have h := (luDecomposition_observer p A.rows A Elim b F func).1
    rw [solve_general_err checking p A hsq hn x b _ (h.trans hsing)]
  · have h := (luDecomposition_observer p A.rows A ElimPivot
      (ElimPivot.init A.rows fun _ => 0) F func).1
    rw [invert_general_err checking p A hsq (by omega) _ (h.trans hsing)]

/-- Instance of C7: `diag(1, 1, 1, 1e-15)` under the initial thresholds. -/
theorem singular_policy_witness :
    (luDecomposition FMatrixPrecision.initial 4 sampleTinyPivot ElimDet (ElimDet.init 0)).1
      = some FMatrixError.singular ∧
    determinant FMatrixPrecision.initial sampleTinyPivot = Except.ok 0 ∧
    (∀ x b, (solve false FMatrixPrecision.initial sampleTinyPivot x b).1
      = some FMatrixError.singular) ∧
    (invert false FMatrixPrecision.initial sampleTinyPivot).1 = some FMatrixError.singular :=
  ⟨by decide!,
    singular_policy false FMatrixPrecision.initial sampleTinyPivot rfl (by decide) ElimDet
      (ElimDet.init 0) (by decide!)⟩

/-- C8: when `rows() != cols()`, `solve`, `invert` and `determinant` throw the
"Can't solve / Can't invert / There is no determinant" exception whatever the
entries are: `solve` leaves `x` as it was, `invert` leaves the matrix as it
was, and `determinant` throws (the result is not 0). -/
theorem dimension_check (checking : Bool) (p : FMatrixPrecision) (A : DenseMatrix)
    (hns : A.rows ≠ A.cols) (x b : Vec) :
    solve checking p A x b = (some FMatrixError.notSquare, x) ∧
    invert checking p A = (some FMatrixError.notSquare, A) ∧
    determinant p A = Except.error FMatrixError.notSquare := by
  refine ⟨?_, ?_, ?_⟩
  · unfold solve
    rw [if_pos hns]
  · unfold invert
    rw [if_pos hns]
  · unfold determinant
    rw [if_pos hns]

/-- Instance of C8: a 2 x 3 matrix. -/
theorem dimension_check_witness :
    sampleWide.rows ≠ sampleWide.cols ∧
    solve true FMatrixPrecision.initial sampleWide sampleRhs sampleRhsTwo
      = (some FMatrixError.notSquare, sampleRhs) ∧
    invert true FMatrixPrecision.initial sampleWide = (some FMatrixError.notSquare, sampleWide) ∧
    determinant FMatrixPrecision.initial sampleWide = Except.error FMatrixError.notSquare :=
  ⟨by decide,
    dimension_check true FMatrixPrecision.initial sampleWide (by decide) sampleRhs
      sampleRhsTwo⟩

theorem solve_fast_accepts (checking : Bool) (p : FMatrixPrecision) (A : DenseMatrix)
    (hsq : A.rows = A.cols) (h1 : 1 ≤ A.rows) (h3 : A.rows ≤ 3) (x b : Vec)
    (hc : checking = false ∨ p.absolute_limit ≤ absreal (toMatrix A.rows A.get).det) :
    (solve checking p A x b).1 = none := by
  obtain ⟨r, c, a⟩ := A
  simp only [DenseMatrix.rows, DenseMatrix.cols] at hsq h1 h3
  subst hsq
  change checking = false ∨ p.absolute_limit ≤ absreal (toMatrix r a).det at hc
  have hr : r = 1 ∨ r = 2 ∨ r = 3 := by omega
  rcases hr with h | h | h
  · subst h
    rw [det_toMatrix_one] at hc
    rw [solve_one_eq, if_neg]
    rintro ⟨hck, hlt⟩
    rcases hc with hc | hc
    · rw [hc] at hck; exact absurd hck (by simp)
    · exact absurd hlt (not_lt.mpr hc)
  · subst h
    rw [det_toMatrix_two] at hc
    rw [solve_two_eq, if_neg]
    rintro ⟨hck, hlt⟩
    rcases hc with hc | hc
    · rw [hc] at hck; exact absurd hck (by simp)
    · exact absurd hlt (not_lt.mpr hc)
  · subst h
    rw [det_toMatrix_three] at hc
    rw [solve_three_eq, if_neg]
    rintro ⟨hck, hlt⟩
    rcases hc with hc | hc
    · rw [hc] at hck; exact absurd hck (by simp)
    · exact absurd hlt (not_lt.mpr hc)

theorem invert_fast_accepts (checking : Bool) (p : FMatrixPrecision) (A : DenseMatrix)
    (hsq : A.rows = A.cols) (h1 : 1 ≤ A.rows) (h2 : A.rows ≤ 2)
    (hc : checking = false ∨ p.absolute_limit ≤ absreal (toMatrix A.rows A.get).det) :
    (invert checking p A).1 = none := by
  obtain ⟨r, c, a⟩ := A
  simp only [DenseMatrix.rows, DenseMatrix.cols] at hsq h1 h2
  subst hsq
  change checking = false ∨ p.absolute_limit ≤ absreal (toMatrix r a).det at hc
  have hr : r = 1 ∨ r = 2 := by omega
  rcases hr with h | h
  · subst h
    rw [det_toMatrix_one] at hc
    rw [invert_one_eq, if_neg]
    rintro ⟨hck, hlt⟩
    rcases hc with hc | hc
    · rw [hc] at hck; exact absurd hck (by simp)
    · exact absurd hlt (not_lt.mpr hc)
  · subst h
    rw [det_toMatrix_two] at hc
    rw [invert_two_eq, if_neg]
    rintro ⟨hck, hlt⟩
    rcases hc with hc | hc
    · rw [hc] at hck; exact absurd hck (by simp)
    · exact absurd hlt (not_lt.mpr hc)

/-- C10, the claim as stated fails on the LU path: for the 4 x 4 matrix with
leading block `[[1, 1], [1e-3, 1e-3 + 1e-14]]` the decomposition meets the
pivot `1e-14`, below the singularity threshold `2e-14`, and `determinant()`
returns 0; with rows 0 and 1 exchanged the pivots are `1e-3` and `-1e-11`, and
`determinant()` returns `-1e-14`, which is not `-0`. -/
theorem row_exchange_not_negated :
    determinant FMatrixPrecision.initial sampleRowOrder = Except.ok 0 ∧
    determinant FMatrixPrecision.initial (swapRows 4 sampleRowOrder 0 1)
      = Except.ok (-(1 / 10 ^ 14)) ∧
    (toMatrix 4 sampleRowOrder.get).det = 1 / 10 ^ 14 := by
  refine ⟨by decide!, by decide!, ?_⟩
  have h : determinant FMatrixPrecision.initial (swapRows 4 sampleRowOrder 0 1) =
      Except.ok (toMatrix 4 (swapRows 4 sampleRowOrder 0 1).get).det :=
    determinant_general_det FMatrixPrecision.initial (by decide!)
      (swapRows 4 sampleRowOrder 0 1) (by decide!) (by decide!) (by decide!)
  have h2 : determinant FMatrixPrecision.initial (swapRows 4 sampleRowOrder 0 1)
      = Except.ok (-(1 / 10 ^ 14)) := by decide!
  rw [h2, swapRows_eq, det_toMatrix_swapStep 4 0 1 (by decide) (by decide) (by decide)] at h
  have h3 := Except.ok.inj h
  linarith

/-- C10, amended: exchanging two distinct rows `i`, `j` of a square matrix
with `rows() >= 2` negates `determinant()` on the closed-form paths
(`rows()` 2 and 3), and on the LU path (`rows() >= 4`) whenever the
decomposition reaches the same verdict for both matrices (it succeeds for both
or throws for both); the absolute limit is positive. -/
theorem determinant_row_exchange (p : FMatrixPrecision) (hp : 0 < p.absolute_limit)
    (A : DenseMatrix) (hsq : A.rows = A.cols) (hN : 2 ≤ A.rows) (i j : Nat)
    (hi : i < A.rows) (hj : j < A.rows) (hij : i ≠ j)
    (hsame : 4 ≤ A.rows →
      ((luDecomposition p A.rows A ElimDet (ElimDet.init 0)).1 = none ↔
        (luDecomposition p A.rows (swapRows A.rows A i j) ElimDet (ElimDet.init 0)).1
          = none)) :
    ∃ d, determinant p A = Except.ok d ∧
      determinant p (swapRows A.rows A i j) = Except.ok (-d) := by
  have hrows : (swapRows A.rows A i j).rows = A.rows := (swapRows_spec A.rows A i j).1
  have hcols : (swapRows A.rows A i j).cols = A.cols := (swapRows_spec A.rows A i j).2.1
  have hsq2 : (swapRows A.rows A i j).rows = (swapRows A.rows A i j).cols := by
    rw [hrows, hcols, hsq]
  have hdet : (toMatrix A.rows (swapRows A.rows A i j).get).det
      = -(toMatrix A.rows A.get).det := by
    rw [swapRows_eq, det_toMatrix_swapStep A.rows i j hi hj hij]
  by_cases h3 : A.rows ≤ 3
  · refine ⟨(toMatrix A.rows A.get).det,
      determinant_small_det p A hsq (by omega) h3, ?_⟩
    have h := determinant_small_det p (swapRows A.rows A i j) hsq2 (by omega) (by omega)
    rw [hrows] at h
    rw [h, hdet]
  · have h4 : 4 ≤ A.rows := by omega
    cases hlu : (luDecomposition p A.rows A ElimDet (ElimDet.init 0)).1 with
    | none =>
      have hlu2 := (hsame h4).mp hlu
      refine ⟨(toMatrix A.rows A.get).det, determinant_general_det p hp A hsq h4 hlu, ?_⟩
      have h := determinant_general_det p hp (swapRows A.rows A i j) hsq2 (by omega)
        (by rw [hrows]; exact hlu2)
      rw [hrows] at h
      rw [h, hdet]
    | some e =>
      have hlu2 : ∃ e2, (luDecomposition p A.rows (swapRows A.rows A i j) ElimDet
          (ElimDet.init 0)).1 = some e2 := by
        cases h : (luDecomposition p A.rows (swapRows A.rows A i j) ElimDet
          (ElimDet.init 0)).1 with
        | none =>
          have := (hsame h4).mpr h
          rw [hlu] at this
          exact absurd this (by simp)
        | some e2 => exact ⟨e2, rfl⟩
      obtain ⟨e2, he2⟩ := hlu2
      refine ⟨0, determinant_general_err p A hsq h4 e hlu, ?_⟩
      rw [determinant_general_err p (swapRows A.rows A i j) hsq2 (by omega) e2
        (by rw [hrows]; exact he2)]
      simp

/-- Instance of the amended C10: rows 0 and 1 of the regular 4 x 4 sample matrix. -/
theorem determinant_row_exchange_witness :
    ∃ d, determinant FMatrixPrecision.initial sampleRegular = Except.ok d ∧
      determinant FMatrixPrecision.initial (swapRows 4 sampleRegular 0 1) = Except.ok (-d) :=
  determinant_row_exchange FMatrixPrecision.initial (by decide!) sampleRegular rfl
    (by decide) 0 1 (by decide) (by decide) (by decide)
    (fun _ => ⟨fun _ => by decide!, fun _ => by decide!⟩)

/-! ## Singular matrices, scenarios and linear maps -/

theorem det_eq_zero_of_singular (n : Nat) (f : Nat → Nat → ℚ)
    (hsing : (∃ i, i < n ∧ ∀ j, j < n → f i j = 0) ∨
      ¬ LinearIndependent ℚ (fun i => toMatrix n f i)) :
    (toMatrix n f).det = 0 := by
  rcases hsing with ⟨i, hi, hz⟩ | hdep
  · exact Matrix.det_eq_zero_of_row_eq_zero (⟨i, hi⟩ : Fin n) fun j => hz j j.2
  · by_contra hne
    apply hdep
    rw [Matrix.linearIndependent_rows_iff_isUnit, Matrix.isUnit_iff_isUnit_det]
    exact isUnit_iff_ne_zero.mpr hne

theorem lu_fails_of_det_zero {σ : Type} (p : FMatrixPrecision) (hp : 0 < p.absolute_limit)
    (A : DenseMatrix) (hsq : A.rows = A.cols) (hdet : (toMatrix A.rows A.get).det = 0)
    (F : Func σ) (func : σ) :
    (luDecomposition p A.rows A F func).1 = some FMatrixError.singular := by
  rcases luLoop_error p A.rows A F func A.rows with h | h
  · exfalso
    have hpiv : (luDecomposition p A.rows A ElimPivot (ElimPivot.init A.rows fun _ => 0)).1
        = none :=
      (luDecomposition_observer p A.rows A ElimPivot (ElimPivot.init A.rows fun _ => 0)
        F func).1.trans h
    have hmul := (invert_general_mul p hp A hsq hpiv).2.2
    have hu := Matrix.isUnit_det_of_left_inverse hmul
    rw [hdet] at hu
    exact not_isUnit_zero hu
  · exact h

/-- C11, amended: the scalar type being an exact field, for every square matrix
with `rows() >= 1` that has an all-zero row or linearly dependent rows,
`determinant()` returns exactly 0; for `rows() >= 4` the LU decomposition throws
"matrix is singular", with whatever observer.  The absolute limit is positive,
as it is initially. -/
theorem determinant_singular (p : FMatrixPrecision) (hp : 0 < p.absolute_limit)
    (A : DenseMatrix) (hsq : A.rows = A.cols) (hN : 1 ≤ A.rows)
    (hsing : (∃ i, i < A.rows ∧ ∀ j, j < A.rows → A.get i j = 0) ∨
      ¬ LinearIndependent ℚ (fun i => toMatrix A.rows A.get i)) :
    determinant p A = Except.ok 0 ∧
    (4 ≤ A.rows → ∀ (σ : Type) (F : Func σ) (func : σ),
      (luDecomposition p A.rows A F func).1 = some FMatrixError.singular) := by
  have hdet := det_eq_zero_of_singular A.rows A.get hsing
  refine ⟨?_, fun _ σ F func => lu_fails_of_det_zero p hp A hsq hdet F func⟩
  by_cases h3 : A.rows ≤ 3
  · rw [determinant_small_det p A hsq hN h3, hdet]
  · exact determinant_general_err p A hsq (by omega) _
      (lu_fails_of_det_zero p hp A hsq hdet ElimDet (ElimDet.init 0))

/-- Instance of the amended C11: a 4 x 4 matrix of rationals with a zero row,
under the initial thresholds. -/
theorem determinant_singular_witness :
    determinant FMatrixPrecision.initial sampleZeroRow = Except.ok 0 ∧
    (luDecomposition FMatrixPrecision.initial 4 sampleZeroRow Elim sampleRhs).1
      = some FMatrixError.singular :=
  have h := determinant_singular FMatrixPrecision.initial (by decide!) sampleZeroRow rfl
    (by decide) (Or.inl ⟨2, by decide, fun _ _ => rfl⟩)
  ⟨h.1, h.2 (by decide) Vec Elim sampleRhs⟩

/-- C12, the claim as stated fails: the rows of `[[1, 1], [1, 1]]` are equal
and its determinant is 0, but without checking neither `solve` nor `invert`
throws.  For the scalar type `double` it fails with checking compiled in and on
the LU path as well: the last row of `[[1, 1, 0], [0, 3, 1+e], [1, 4, 1+e]]`,
`e = 2^-52`, is the sum of the other two, the closed formula gives the
determinant `2^-52`, which is not below the absolute limit, and `solve` throws
nothing; the last row of `[[3, 1, 0, 0], [d, 0, 0, 1], [0, 0, 1, 0], [3+d, 1, 0, 1]]`,
`d = 2^-20`, is the sum of the first two, every pivot the LU decomposition
meets is above the singularity threshold, and neither `solve` nor `invert`
throws. -/
theorem singular_not_signalled :
    (toMatrix 2 sampleDependent).det = 0 ∧
    (solve false FMatrixPrecision.initial ⟨2, 2, sampleDependent⟩ (fun _ => 0)
      sampleRhsTwo).1 = none ∧
    (invert false FMatrixPrecision.initial ⟨2, 2, sampleDependent⟩).1 = none ∧
    (∀ j, j < 3 → (Ieee.sampleRounding.get 2 j).toRat =
      (Ieee.sampleRounding.get 0 j).toRat + (Ieee.sampleRounding.get 1 j).toRat) ∧
    (Ieee.solve true Ieee.FMatrixPrecision.initial Ieee.sampleRounding (fun _ => 0)
      Ieee.sampleRhs).1 = none ∧
    (∀ j, j < 4 → (Ieee.sampleGrowth.get 3 j).toRat =
      (Ieee.sampleGrowth.get 0 j).toRat + (Ieee.sampleGrowth.get 1 j).toRat) ∧
    (Ieee.solve true Ieee.FMatrixPrecision.initial Ieee.sampleGrowth (fun _ => 0)
      Ieee.sampleRhs).1 = none ∧
    (Ieee.invert true Ieee.FMatrixPrecision.initial Ieee.sampleGrowth).1 = none := by
  refine ⟨?_, by decide!, by decide!, by decide!, by decide!, by decide!, by decide!,
    by decide!⟩
  rw [det_toMatrix_two]
  decide!

/-- C12, amended: the scalar type being an exact field, for every square
matrix with `rows() >= 1` that has an all-zero row or linearly dependent rows,
and a positive absolute limit, `solve(x, b)` throws "matrix is singular" for
every `b` when checking is compiled in or `rows() >= 4`, and `invert()` throws
it, leaving the matrix as it was, when checking is compiled in or
`rows() >= 3`; on the fast paths `solve` then leaves `x` as it was. -/
theorem singular_signalled (checking : Bool) (p : FMatrixPrecision)
    (hp : 0 < p.absolute_limit) (A : DenseMatrix) (hsq : A.rows = A.cols)
    (hN : 1 ≤ A.rows)
    (hsing : (∃ i, i < A.rows ∧ ∀ j, j < A.rows → A.get i j = 0) ∨
      ¬ LinearIndependent ℚ (fun i => toMatrix A.rows A.get i)) :
    (checking = true ∨ 4 ≤ A.rows →
      ∀ x b, (solve checking p A x b).1 = some FMatrixError.singular) ∧
    (checking = true → A.rows ≤ 3 → ∀ x b, (solve checking p A x b).2 = x) ∧
    (checking = true ∨ 3 ≤ A.rows →
      invert checking p A = (some FMatrixError.singular, A)) := by
  have hdet := det_eq_zero_of_singular A.rows A.get hsing
  have habs : absreal (toMatrix A.rows A.get).det < p.absolute_limit := by
    rw [hdet]
    simpa [absreal] using hp
  obtain ⟨r, c, a⟩ := A
  simp only [DenseMatrix.rows, DenseMatrix.cols] at hsq hN
  subst hsq
  change absreal (toMatrix r a).det < p.absolute_limit at habs
  change (toMatrix r a).det = 0 at hdet
  refine ⟨fun hc x b => ?_, fun hc h3 x b => ?_, fun hc => ?_⟩
  · by_cases h4 : 4 ≤ r
    · rw [solve_general_err checking p ⟨r, r, a⟩ rfl h4 x b _
        (lu_fails_of_det_zero p hp ⟨r, r, a⟩ rfl hdet Elim b)]
    · have hck : checking = true := by
        rcases hc with h | h
        · exact h
        · exact absurd h h4
      have hr : r = 1 ∨ r = 2 ∨ r = 3 := by omega
      rcases hr with h | h | h
      · subst h
        rw [det_toMatrix_one] at habs
        rw [solve_one_eq, if_pos ⟨hck, habs⟩]
      · subst h
        rw [det_toMatrix_two] at habs
        rw [solve_two_eq, if_pos ⟨hck, habs⟩]
      · subst h
        rw [det_toMatrix_three] at habs
        rw [solve_three_eq, if_pos ⟨hck, habs⟩]
  · change r ≤ 3 at h3
    have hr : r = 1 ∨ r = 2 ∨ r = 3 := by omega
    rcases hr with h | h | h
    · subst h
      rw [det_toMatrix_one] at habs
      rw [solve_one_eq, if_pos ⟨hc, habs⟩]
    · subst h
      rw [det_toMatrix_two] at habs
      rw [solve_two_eq, if_pos ⟨hc, habs⟩]
    · subst h
      rw [det_toMatrix_three] at habs
      rw [solve_three_eq, if_pos ⟨hc, habs⟩]
  · by_cases h3 : 3 ≤ r
    · exact invert_general_err checking p ⟨r, r, a⟩ rfl h3 _
        (lu_fails_of_det_zero p hp ⟨r, r, a⟩ rfl hdet ElimPivot
          (ElimPivot.init r fun _ => 0))
    · have hck : checking = true := by
        rcases hc with h | h
        · exact h
        · exact absurd h h3
      have hr : r = 1 ∨ r = 2 := by omega
      rcases hr with h | h
      · subst h
        rw [det_toMatrix_one] at habs
        rw [invert_one_eq, if_pos ⟨hck, habs⟩]
      · subst h
        rw [det_toMatrix_two] at habs
        rw [invert_two_eq, if_pos ⟨hck, habs⟩]

/-- Instance of the amended C12: `[[1, 1], [1, 1]]` of rationals with checking
compiled in, and a 4 x 4 matrix of rationals with a zero row, under the initial
thresholds. -/
theorem singular_signalled_witness :
    (∀ x b, (solve true FMatrixPrecision.initial ⟨2, 2, sampleDependent⟩ x b).1
      = some FMatrixError.singular) ∧
    invert true FMatrixPrecision.initial ⟨2, 2, sampleDependent⟩
      = (some FMatrixError.singular, ⟨2, 2, sampleDependent⟩) ∧
    (∀ x b, (solve false FMatrixPrecision.initial sampleZeroRow x b).1
      = some FMatrixError.singular) :=
  have h2 := singular_signalled true FMatrixPrecision.initial (by decide!)
    ⟨2, 2, sampleDependent⟩ rfl (by decide) (Or.inr (by
      intro hli
      have hinj := hli.injective
      have : (0 : Fin 2) = 1 := hinj (by funext j; rfl)
      exact absurd this (by decide)))
  have h4 := singular_signalled false FMatrixPrecision.initial (by decide!)
    sampleZeroRow rfl (by decide) (Or.inl ⟨2, by decide, fun _ _ => rfl⟩)
  ⟨h2.1 (Or.inl rfl), h2.2.2 (Or.inl rfl), h4.1 (Or.inr (by decide))⟩

theorem solve_fast_eq (checking : Bool) (p : FMatrixPrecision) (A : DenseMatrix)
    (hsq : A.rows = A.cols) (h1 : 1 ≤ A.rows) (h3 : A.rows ≤ 3) (x b : Vec) :
    (checking = true ∧ absreal (toMatrix A.rows A.get).det < p.absolute_limit →
      solve checking p A x b = (some FMatrixError.singular, x)) ∧
    (¬ (checking = true ∧ absreal (toMatrix A.rows A.get).det < p.absolute_limit) →
      (solve checking p A x b).1 = none) := by
  obtain ⟨r, c, a⟩ := A
  simp only [DenseMatrix.rows, DenseMatrix.cols] at hsq h1 h3
  subst hsq
  change (checking = true ∧ absreal (toMatrix r a).det < p.absolute_limit → _) ∧
    (¬ (checking = true ∧ absreal (toMatrix r a).det < p.absolute_limit) → _)
  have hr : r = 1 ∨ r = 2 ∨ r = 3 := by omega
  rcases hr with h | h | h
  · subst h
    rw [det_toMatrix_one, solve_one_eq]
    exact ⟨fun hc => by rw [if_pos hc], fun hc => by rw [if_neg hc]⟩
  · subst h
    rw [det_toMatrix_two, solve_two_eq]
    exact ⟨fun hc => by rw [if_pos hc], fun hc => by rw [if_neg hc]⟩
  · subst h
    rw [det_toMatrix_three, solve_three_eq]
    exact ⟨fun hc => by rw [if_pos hc], fun hc => by rw [if_neg hc]⟩

theorem invert_fast_eq (checking : Bool) (p : FMatrixPrecision) (A : DenseMatrix)
    (hsq : A.rows = A.cols) (h1 : 1 ≤ A.rows) (h2 : A.rows ≤ 2) :
    (checking = true ∧ absreal (toMatrix A.rows A.get).det < p.absolute_limit →
      invert checking p A = (some FMatrixError.singular, A)) ∧
    (¬ (checking = true ∧ absreal (toMatrix A.rows A.get).det < p.absolute_limit) →
      (invert checking p A).1 = none) := by
  obtain ⟨r, c, a⟩ := A
  simp only [DenseMatrix.rows, DenseMatrix.cols] at hsq h1 h2
  subst hsq
  change (checking = true ∧ absreal (toMatrix r a).det < p.absolute_limit → _) ∧
    (¬ (checking = true ∧ absreal (toMatrix r a).det < p.absolute_limit) → _)
  have hr : r = 1 ∨ r = 2 := by omega
  rcases hr with h | h
  · subst h
    rw [det_toMatrix_one, invert_one_eq]
    exact ⟨fun hc => by rw [if_pos hc], fun hc => by rw [if_neg hc]⟩
  · subst h
    rw [det_toMatrix_two, invert_two_eq]
    exact ⟨fun hc => by rw [if_pos hc], fun hc => by rw [if_neg hc]⟩

/-- C13, the claim as stated fails: without checking, `solve` on the 2 x 2 and
on the 3 x 3 zero matrix and `invert` on the 2 x 2 zero matrix throw nothing,
although the determinant 0 is below the absolute limit. -/
theorem unchecked_fast_paths :
    absreal (toMatrix 2 fun _ _ => 0).det < FMatrixPrecision.initial.absolute_limit ∧
    absreal (toMatrix 3 fun _ _ => 0).det < FMatrixPrecision.initial.absolute_limit ∧
    (solve false FMatrixPrecision.initial ⟨2, 2, fun _ _ => 0⟩ (fun _ => 0) sampleRhs).1
      = none ∧
    (solve false FMatrixPrecision.initial ⟨3, 3, fun _ _ => 0⟩ (fun _ => 0) sampleRhs).1
      = none ∧
    (invert false FMatrixPrecision.initial ⟨2, 2, fun _ _ => 0⟩).1 = none := by
  refine ⟨?_, ?_, by decide!, by decide!, by decide!⟩
  · rw [det_toMatrix_two]; decide!
  · rw [det_toMatrix_three]; decide!

/-- C13, amended: every singularity check of the fast paths is made only when
checking is compiled in.  For `rows()` 1, 2, 3, `solve` throws "matrix is
singular" exactly when checking is compiled in and the magnitude of the
determinant (`A00` for `rows() = 1`) is below the absolute limit, and then `x`
is left as it was; otherwise nothing is thrown.  For `rows()` 1, 2, `invert`
does the same and leaves the matrix as it was. -/
theorem fast_path_checks (checking : Bool) (p : FMatrixPrecision) (A : DenseMatrix)
    (hsq : A.rows = A.cols) (h1 : 1 ≤ A.rows) (h3 : A.rows ≤ 3) (x b : Vec) :
    ((solve checking p A x b).1 = some FMatrixError.singular ↔
      checking = true ∧ absreal (toMatrix A.rows A.get).det < p.absolute_limit) ∧
    ((solve checking p A x b).1 = none ↔
      ¬ (checking = true ∧ absreal (toMatrix A.rows A.get).det < p.absolute_limit)) ∧
    ((solve checking p A x b).1 = some FMatrixError.singular →
      (solve checking p A x b).2 = x) ∧
    (A.rows ≤ 2 →
      ((invert checking p A).1 = some FMatrixError.singular ↔
        checking = true ∧ absreal (toMatrix A.rows A.get).det < p.absolute_limit) ∧
      ((invert checking p A).1 = none ↔
        ¬ (checking = true ∧ absreal (toMatrix A.rows A.get).det < p.absolute_limit)) ∧
      ((invert checking p A).1 = some FMatrixError.singular →
        (invert checking p A).2 = A)) ∧
    (absreal (toMatrix 1 A.get).det = absreal (A.get 0 0)) := by
  obtain ⟨s1, s2⟩ := solve_fast_eq checking p A hsq h1 h3 x b
  have hsolve : ∀ (hc : Prop) [Decidable hc] (r : Option FMatrixError × Vec),
      (hc → r = (some FMatrixError.singular, x)) → (¬ hc → r.1 = none) →
      (r.1 = some FMatrixError.singular ↔ hc) ∧ (r.1 = none ↔ ¬ hc) ∧
      (r.1 = some FMatrixError.singular → r.2 = x) := by
    intro hc _ r e1 e2
    by_cases h : hc
    · rw [e1 h]
      exact ⟨⟨fun _ => h, fun _ => rfl⟩, ⟨fun h0 => absurd h0 (by simp), fun h0 => absurd h h0⟩,
        fun _ => rfl⟩
    · have := e2 h
      exact ⟨⟨fun h0 => by rw [this] at h0; exact absurd h0 (by simp), fun h0 => absurd h0 h⟩,
        ⟨fun _ => h, fun _ => this⟩, fun h0 => by rw [this] at h0; exact absurd h0 (by simp)⟩
  obtain ⟨a1, a2, a3⟩ := hsolve _ _ s1 s2
  refine ⟨a1, a2, a3, fun h2 => ?_, by rw [det_toMatrix_one]⟩
  obtain ⟨i1, i2⟩ := invert_fast_eq checking p A hsq h1 h2
  by_cases h : checking = true ∧ absreal (toMatrix A.rows A.get).det < p.absolute_limit
  · rw [i1 h]
    exact ⟨⟨fun _ => h, fun _ => rfl⟩, ⟨fun h0 => absurd h0 (by simp), fun h0 => absurd h h0⟩,
      fun _ => rfl⟩
  · have := i2 h
    exact ⟨⟨fun h0 => by rw [this] at h0; exact absurd h0 (by simp), fun h0 => absurd h0 h⟩,
      ⟨fun _ => h, fun _ => this⟩, fun h0 => by rw [this] at h0; exact absurd h0 (by simp)⟩

/-- Instance of the amended C13: `[[1, 1], [1, 1]]` with checking compiled in
is rejected by `solve`, which leaves `x` as it was. -/
theorem fast_path_checks_witness :
    (solve true FMatrixPrecision.initial ⟨2, 2, sampleDependent⟩ sampleRhs sampleRhsTwo).1
      = some FMatrixError.singular ∧
    (solve true FMatrixPrecision.initial ⟨2, 2, sampleDependent⟩ sampleRhs sampleRhsTwo).2
      = sampleRhs :=
  have h := fast_path_checks true FMatrixPrecision.initial ⟨2, 2, sampleDependent⟩ rfl
    (by decide) (by decide) sampleRhs sampleRhsTwo
  have hs : (solve true FMatrixPrecision.initial ⟨2, 2, sampleDependent⟩ sampleRhs
      sampleRhsTwo).1 = some FMatrixError.singular := by decide!
  ⟨hs, h.2.2.1 hs⟩

/-- C14: for `A = [[2, 1], [1, 1]]` and `b = (3, 2)`, under the initial
thresholds, with or without checking and whatever `x` held before: `solve`
throws nothing and yields `x = (1, 1)`, `invert` throws nothing and turns `A`
into `[[1, -1], [-1, 2]]`, and `determinant` returns 1. -/
theorem concrete_scenario (checking : Bool) (x : Vec) :
    (solve checking FMatrixPrecision.initial ⟨2, 2, sampleTwo⟩ x sampleRhsTwo).1 = none ∧
    (solve checking FMatrixPrecision.initial ⟨2, 2, sampleTwo⟩ x sampleRhsTwo).2 0 = 1 ∧
    (solve checking FMatrixPrecision.initial ⟨2, 2, sampleTwo⟩ x sampleRhsTwo).2 1 = 1 ∧
    (invert checking FMatrixPrecision.initial ⟨2, 2, sampleTwo⟩).1 = none ∧
    (invert checking FMatrixPrecision.initial ⟨2, 2, sampleTwo⟩).2.rows = 2 ∧
    (invert checking FMatrixPrecision.initial ⟨2, 2, sampleTwo⟩).2.cols = 2 ∧
    (invert checking FMatrixPrecision.initial ⟨2, 2, sampleTwo⟩).2.get 0 0 = 1 ∧
    (invert checking FMatrixPrecision.initial ⟨2, 2, sampleTwo⟩).2.get 0 1 = -1 ∧
    (invert checking FMatrixPrecision.initial ⟨2, 2, sampleTwo⟩).2.get 1 0 = -1 ∧
    (invert checking FMatrixPrecision.initial ⟨2, 2, sampleTwo⟩).2.get 1 1 = 2 ∧
    determinant FMatrixPrecision.initial ⟨2, 2, sampleTwo⟩ = Except.ok 1 := by
  have hc : ¬ (checking = true ∧
      absreal (sampleTwo 0 0 * sampleTwo 1 1 - sampleTwo 0 1 * sampleTwo 1 0)
        < FMatrixPrecision.initial.absolute_limit) := by
    have : ¬ absreal (sampleTwo 0 0 * sampleTwo 1 1 - sampleTwo 0 1 * sampleTwo 1 0)
        < FMatrixPrecision.initial.absolute_limit := by decide!
    exact fun h => this h.2
  have e00 : sampleTwo 0 0 = 2 := rfl
  have e01 : sampleTwo 0 1 = 1 := rfl
  have e10 : sampleTwo 1 0 = 1 := rfl
  have e11 : sampleTwo 1 1 = 1 := rfl
  have b0 : sampleRhsTwo 0 = 3 := rfl
  have b1 : sampleRhsTwo 1 = 2 := rfl
  rw [solve_two_eq, invert_two_eq, if_neg hc, if_neg hc, e00, e01, e10, e11, b0, b1]
  refine ⟨rfl, ?_, ?_, rfl, rfl, rfl, ?_, ?_, ?_, ?_, by decide!⟩
  · simp [Vec.set]; norm_num
  · simp [Vec.set]; norm_num
  · simp [DenseMatrix.get, DenseMatrix.set]; norm_num
  · simp [DenseMatrix.get, DenseMatrix.set]; norm_num
  · simp [DenseMatrix.get, DenseMatrix.set]; norm_num
  · simp [DenseMatrix.get, DenseMatrix.set, e00]; norm_num

theorem sumLoop_eq (n : Nat) (g : Nat → ℚ) (s : ℚ) :
    forUp 0 n (fun j t => t + g j) s = s + ∑ j in Finset.range n, g j := by
  induction n with
  | zero => simp [forUp]
  | succ m ih =>
    simp only [forUp, Nat.zero_add, ih, Finset.sum_range_succ]
    ring

theorem identity_get (N i j : Nat) : (identity N).get i j = if i = j then 1 else 0 := rfl

theorem one_norm_real_identity (N i : Nat) :
    one_norm_real (identity N) i = if i < N then 1 else 0 := by
  unfold one_norm_real
  rw [sumLoop_eq, zero_add]
  show ∑ j in Finset.range N, absreal ((identity N).get i j) = _
  have : ∀ j, j ∈ Finset.range N →
      absreal ((identity N).get i j) = if i = j then 1 else 0 := by
    intro j _
    rw [identity_get]
    by_cases h : i = j
    · simp only [if_pos h]; simp [absreal]
    · simp only [if_neg h]; simp [absreal]
  rw [Finset.sum_congr rfl this, Finset.sum_ite_eq]
  simp only [Finset.mem_range]

theorem infinity_norm_real_identity (N : Nat) (hN : 1 ≤ N) :
    infinity_norm_real (identity N) = 1 := by
  unfold infinity_norm_real
  have key : ∀ cnt, cnt ≤ N →
      forUp 0 cnt (fun i m => max m (one_norm_real (identity N) i)) 0 =
        if cnt = 0 then 0 else 1 := by
    intro cnt
    induction cnt with
    | zero => intro _; rfl
    | succ m ih =>
      intro hm
      have hlt : m < N := hm
      have hne : ¬ m + 1 = 0 := Nat.succ_ne_zero m
      simp only [forUp, Nat.zero_add]
      rw [ih (Nat.le_of_lt hlt), one_norm_real_identity, if_pos hlt, if_neg hne]
      by_cases h0 : m = 0
      · rw [if_pos h0]; norm_num
      · rw [if_neg h0]; norm_num
  have hN0 : ¬ N = 0 := by omega
  have := key N le_rfl
  rw [if_neg hN0] at this
  exact this

theorem elimStep_identity (N i : Nat) : elimStep N i (identity N) = identity N := by
  refine DenseMatrix.ext_get rfl rfl fun r c => ?_
  rw [elimStep_get]
  by_cases h : i < r ∧ r < N
  · have hri : ¬ r = i := by omega
    have e1 : (identity N).get r i = 0 := by rw [identity_get, if_neg hri]
    rw [if_pos h, e1]
    by_cases hc : c = i
    · rw [if_pos hc, hc, e1]; simp
    · rw [if_neg hc]
      by_cases hc2 : i < c ∧ c < N
      · rw [if_pos hc2]; simp
      · rw [if_neg hc2]
  · rw [if_neg h]

theorem luBody_identity {σ : Type} (N : Nat) (pt st : ℚ) (hpt : pt ≤ 1) (hst : st ≤ 1)
    (F : Func σ) (i : Nat) (func : σ) :
    luBody N pt st F i (identity N, func) =
      (none, (identity N, elimCalls N F i (identity N) func)) := by
  have hii : (identity N).get i i = 1 := by rw [identity_get, if_pos rfl]
  have hrow : pivotRow N pt (identity N) i = i := by
    unfold pivotRow
    have : ¬ absreal ((identity N).get i i) < pt := by
      rw [hii]
      simp only [absreal, abs_one, not_lt]
      exact hpt
    rw [if_neg this]
  have hsing : ¬ absreal ((identity N).get i i) < st := by
    rw [hii]
    simp only [absreal, abs_one, not_lt]
    exact hst
  rw [luBody_spec, hrow, swapStep_self, if_neg hsing, if_pos rfl, elimStep_identity]

theorem luLoop_identity {σ : Type} (p : FMatrixPrecision) (N : Nat)
    (hpt : pivThreshold p (identity N) ≤ 1) (hst : singThreshold p (identity N) ≤ 1)
    (F : Func σ) (func : σ) (cnt : Nat) :
    luLoop p N (identity N) F func cnt =
      (none, (identity N, forUp 0 cnt (fun i st => elimCalls N F i (identity N) st) func)) := by
  induction cnt with
  | zero => rfl
  | succ m ih =>
    rw [luLoop_succ, ih]
    simp only
    rw [luBody_identity N _ _ hpt hst]
    simp only [forUp, Nat.zero_add]

theorem initial_thresholds_identity (N : Nat) (hN : 1 ≤ N) :
    pivThreshold FMatrixPrecision.initial (identity N) ≤ 1 ∧
    singThreshold FMatrixPrecision.initial (identity N) ≤ 1 := by
  unfold pivThreshold singThreshold
  rw [infinity_norm_real_identity N hN]
  constructor <;> decide!

theorem luDecomposition_identity {σ : Type} (N : Nat) (hN : 1 ≤ N) (F : Func σ) (func : σ) :
    luDecomposition FMatrixPrecision.initial N (identity N) F func =
      (none, (identity N, forUp 0 N (fun i st => elimCalls N F i (identity N) st) func)) := by
  obtain ⟨hpt, hst⟩ := initial_thresholds_identity N hN
  exact luLoop_identity FMatrixPrecision.initial N hpt hst F func N

theorem toMatrix_identity (N : Nat) : toMatrix N (identity N).get = 1 := by
  ext i j
  simp only [toMatrix, Matrix.of_apply, identity_get, Matrix.one_apply]
  by_cases h : i = j
  · rw [if_pos h, if_pos (congrArg Fin.val h)]
  · have : ¬ (i : Nat) = j := fun h2 => h (Fin.ext h2)
    rw [if_neg h, if_neg this]

theorem identity_row_sum (N i : Nat) (hi : i < N) (x : Vec) :
    ∑ j in Finset.range N, (identity N).get i j * x j = x i := by
  have : ∀ j, j ∈ Finset.range N →
      (identity N).get i j * x j = if i = j then x j else 0 := by
    intro j _
    rw [identity_get]
    by_cases h : i = j
    · simp only [if_pos h, one_mul]
    · simp only [if_neg h, zero_mul]
  rw [Finset.sum_congr rfl this, Finset.sum_ite_eq, if_pos (Finset.mem_range.mpr hi)]

theorem identity_accepts :
    FMatrixPrecision.initial.absolute_limit ≤ absreal (1 : ℚ) := by decide!

/-- C15: for every `N >= 1`, the `N x N` identity matrix and the initial
thresholds, with or without checking: `solve(x, b)` throws nothing and returns
`x = b`, `invert()` throws nothing and leaves the identity, `determinant()`
returns 1, and the LU decomposition, with whatever observer, throws nothing,
leaves the matrix as it is and notifies the observer of eliminations only, of
no row exchange. -/
theorem identity_scenario (checking : Bool) (N : Nat) (hN : 1 ≤ N) (x b : Vec) :
    (solve checking FMatrixPrecision.initial (identity N) x b).1 = none ∧
    (∀ i, i < N → (solve checking FMatrixPrecision.initial (identity N) x b).2 i = b i) ∧
    (invert checking FMatrixPrecision.initial (identity N)).1 = none ∧
    (invert checking FMatrixPrecision.initial (identity N)).2.rows = N ∧
    (invert checking FMatrixPrecision.initial (identity N)).2.cols = N ∧
    (∀ i j, i < N → j < N →
      (invert checking FMatrixPrecision.initial (identity N)).2.get i j
        = (identity N).get i j) ∧
    determinant FMatrixPrecision.initial (identity N) = Except.ok 1 ∧
    (∀ (σ : Type) (F : Func σ) (func : σ),
      luDecomposition FMatrixPrecision.initial N (identity N) F func =
        (none, (identity N,
          forUp 0 N (fun i st => elimCalls N F i (identity N) st) func))) := by
  have hp : 0 < FMatrixPrecision.initial.absolute_limit := by decide!
  have hdet : (toMatrix N (identity N).get).det = 1 := by
    rw [toMatrix_identity, Matrix.det_one]
  have hdet0 : (toMatrix (identity N).rows (identity N).get).det ≠ 0 := by
    show (toMatrix N (identity N).get).det ≠ 0
    rw [hdet]; exact one_ne_zero
  have hacc : checking = false ∨ FMatrixPrecision.initial.absolute_limit ≤
      absreal (toMatrix (identity N).rows (identity N).get).det := by
    right
    show _ ≤ absreal (toMatrix N (identity N).get).det
    rw [hdet]; exact identity_accepts
  have hsolve : (solve checking FMatrixPrecision.initial (identity N) x b).1 = none := by
    by_cases h3 : N ≤ 3
    · exact solve_fast_accepts checking _ (identity N) rfl hN h3 x b hacc
    · rw [solve_general_ok checking _ (identity N) rfl (show 4 ≤ N by omega) x b
        (by show (luDecomposition _ N (identity N) Elim b).1 = none
            rw [luDecomposition_identity N hN])]
  have hinv : (invert checking FMatrixPrecision.initial (identity N)).1 = none := by
    by_cases h2 : N ≤ 2
    · exact invert_fast_accepts checking _ (identity N) rfl hN h2 hacc
    · rw [invert_general_ok checking _ (identity N) rfl (show 3 ≤ N by omega)
        (by show (luDecomposition _ N (identity N) ElimPivot _).1 = none
            rw [luDecomposition_identity N hN])]
  have hsolves : Solves N (identity N).get b
      (solve checking FMatrixPrecision.initial (identity N) x b).2 := by
    by_cases h3 : N ≤ 3
    · exact solve_fast_solves checking _ (identity N) rfl hN h3 hdet0 x b hsolve
    · exact solve_general_solves checking _ hp (identity N) rfl (show 4 ≤ N by omega) x b
        hsolve
  have hinverse : (invert checking FMatrixPrecision.initial (identity N)).2.rows = N ∧
      (invert checking FMatrixPrecision.initial (identity N)).2.cols = N ∧
      toMatrix N (invert checking FMatrixPrecision.initial (identity N)).2.get *
        toMatrix N (identity N).get = 1 := by
    by_cases h2 : N ≤ 2
    · obtain ⟨a1, a2, a3, _⟩ := invert_fast_inverse checking _ (identity N) rfl hN h2 hdet0
        hinv
      exact ⟨a1, a2, a3⟩
    · obtain ⟨a1, a2, a3, _⟩ := invert_general_inverse checking _ hp (identity N) rfl
        (show 3 ≤ N by omega) hinv
      exact ⟨a1, a2, a3⟩
  refine ⟨hsolve, fun i hi => ?_, hinv, hinverse.1, hinverse.2.1, fun i j hi hj => ?_, ?_,
    fun σ F func => luDecomposition_identity N hN F func⟩
  · rw [← hsolves i hi, identity_row_sum N i hi]
  · have hm := hinverse.2.2
    rw [toMatrix_identity, Matrix.mul_one] at hm
    have := congrFun (congrFun hm ⟨i, hi⟩) ⟨j, hj⟩
    simp only [toMatrix, Matrix.of_apply, Matrix.one_apply] at this
    rw [this, identity_get]
    by_cases h : i = j
    · rw [if_pos h, if_pos (Fin.ext h)]
    · have : ¬ (⟨i, hi⟩ : Fin N) = ⟨j, hj⟩ := fun h2 => h (Fin.mk.inj h2)
      rw [if_neg h, if_neg this]
  · by_cases h3 : N ≤ 3
    · have := determinant_small_det FMatrixPrecision.initial (identity N) rfl hN h3
      rw [this]
      show Except.ok (toMatrix N (identity N).get).det = _
      rw [hdet]
    · have := determinant_general_det FMatrixPrecision.initial hp (identity N) rfl
        (show 4 ≤ N by omega)
        (by show (luDecomposition _ N (identity N) ElimDet _).1 = none
            rw [luDecomposition_identity N hN])
      rw [this]
      show Except.ok (toMatrix N (identity N).get).det = _
      rw [hdet]

/-- Instance of C15: `N = 5`. -/
theorem identity_scenario_witness :
    (∀ i, i < 5 →
      (solve false FMatrixPrecision.initial (identity 5) (fun _ => 0) sampleRhs).2 i
        = sampleRhs i) ∧
    (invert false FMatrixPrecision.initial (identity 5)).1 = none ∧
    determinant FMatrixPrecision.initial (identity 5) = Except.ok 1 :=
  have h := identity_scenario false 5 (by decide) (fun _ => 0) sampleRhs
  ⟨h.2.1, h.2.2.1, h.2.2.2.2.2.2.1⟩

theorem invert_inverse (checking : Bool) (p : FMatrixPrecision)
    (hp : 0 < p.absolute_limit) (A : DenseMatrix) (hsq : A.rows = A.cols)
    (hN : 1 ≤ A.rows) (hdet : A.rows ≤ 2 → (toMatrix A.rows A.get).det ≠ 0)
    (hok : (invert checking p A).1 = none) :
    (invert checking p A).2.rows = A.rows ∧ (invert checking p A).2.cols = A.cols ∧
    toMatrix A.rows (invert checking p A).2.get * toMatrix A.rows A.get = 1 := by
  by_cases h2 : A.rows ≤ 2
  · obtain ⟨a1, a2, a3, _⟩ := invert_fast_inverse checking p A hsq hN h2 (hdet h2) hok
    exact ⟨a1, a2, a3⟩
  · obtain ⟨a1, a2, a3, _⟩ := invert_general_inverse checking p hp A hsq (by omega) hok
    exact ⟨a1, a2, a3⟩

/-- C16, the claim as stated fails on the 2 x 2 closed form: without checking,
`invert()` throws nothing on `[[1, 1], [1, 1]]`, whose determinant is 0, and
nothing on the result, but the matrix inverted twice is not the original (its
entry `(0, 0)` is not 1). -/
theorem round_trip_singular :
    (invert false FMatrixPrecision.initial ⟨2, 2, sampleDependent⟩).1 = none ∧
    (invert false FMatrixPrecision.initial
      (invert false FMatrixPrecision.initial ⟨2, 2, sampleDependent⟩).2).1 = none ∧
    (invert false FMatrixPrecision.initial
      (invert false FMatrixPrecision.initial ⟨2, 2, sampleDependent⟩).2).2.get 0 0
        ≠ sampleDependent 0 0 := by
  refine ⟨by decide!, by decide!, by decide!⟩

/-- C16, amended: for a square matrix `A` with `rows() >= 1` on which
`invert()` throws nothing and on whose result `invert()` throws nothing again,
the matrix inverted twice has the shape and the entries of `A`, on the general
path (`rows() >= 3`) as it is and on the closed forms (`rows()` 1, 2) provided
the determinant of `A` is not 0; the absolute limit is positive. -/
theorem invert_round_trip (checking : Bool) (p : FMatrixPrecision)
    (hp : 0 < p.absolute_limit) (A : DenseMatrix) (hsq : A.rows = A.cols)
    (hN : 1 ≤ A.rows) (hdet : A.rows ≤ 2 → (toMatrix A.rows A.get).det ≠ 0)
    (hok1 : (invert checking p A).1 = none)
    (hok2 : (invert checking p (invert checking p A).2).1 = none) :
    (invert checking p (invert checking p A).2).2.rows = A.rows ∧
    (invert checking p (invert checking p A).2).2.cols = A.cols ∧
    toMatrix A.rows (invert checking p (invert checking p A).2).2.get
      = toMatrix A.rows A.get := by
  obtain ⟨hr, hc, hmul⟩ := invert_inverse checking p hp A hsq hN hdet hok1
  have hsqM : (invert checking p A).2.rows = (invert checking p A).2.cols := by
    rw [hr, hc, hsq]
  have hdetM : (invert checking p A).2.rows ≤ 2 →
      (toMatrix (invert checking p A).2.rows (invert checking p A).2.get).det ≠ 0 := by
    intro _
    rw [hr]
    exact (Matrix.isUnit_det_of_right_inverse hmul).ne_zero
  obtain ⟨hr2, hc2, hmul2⟩ := invert_inverse checking p hp (invert checking p A).2 hsqM
    (by rw [hr]; exact hN) hdetM hok2
  rw [hr] at hr2 hmul2
  rw [hc] at hc2
  refine ⟨hr2, hc2, ?_⟩
  calc toMatrix A.rows (invert checking p (invert checking p A).2).2.get
      = toMatrix A.rows (invert checking p (invert checking p A).2).2.get *
          (toMatrix A.rows (invert checking p A).2.get * toMatrix A.rows A.get) := by
        rw [hmul, Matrix.mul_one]
    _ = toMatrix A.rows A.get := by
        rw [← Matrix.mul_assoc, hmul2, Matrix.one_mul]

/-- Instance of the amended C16: the regular 4 x 4 sample matrix under the
initial thresholds. -/
theorem invert_round_trip_witness :
    toMatrix 4 (invert false FMatrixPrecision.initial
      (invert false FMatrixPrecision.initial sampleRegular).2).2.get
        = toMatrix 4 sampleRegular.get :=
  (invert_round_trip false FMatrixPrecision.initial (by decide!) sampleRegular rfl
    (by decide) (fun h => absurd h (by decide)) (by decide!) (by decide!)).2.2

theorem det_embed4 (a : Nat → Nat → ℚ) :
    (toMatrix 4 (embed4 a).get).det = (toMatrix 3 a).det := by
  rw [Matrix.det_succ_row _ (3 : Fin 4)]
  have hsub : (toMatrix 4 (embed4 a).get).submatrix (Fin.succAbove (3 : Fin 4))
      (Fin.succAbove (3 : Fin 4)) = toMatrix 3 a := by
    ext i j
    fin_cases i <;> fin_cases j <;> rfl
  rw [Fin.sum_univ_four]
  have e0 : toMatrix 4 (embed4 a).get 3 0 = 0 := rfl
  have e1 : toMatrix 4 (embed4 a).get 3 1 = 0 := rfl
  have e2 : toMatrix 4 (embed4 a).get 3 2 = 0 := rfl
  have e3 : toMatrix 4 (embed4 a).get 3 3 = 1 := rfl
  rw [e0, e1, e2, e3, hsub]
  norm_num

/-- C17: for every 3 x 3 matrix `A` whose 4 x 4 block embedding
`E = [[A, 0], [0, 1]]` is decomposed without a thrown singularity,
`determinant()` of `E`, computed on the LU path, equals `determinant()` of `A`,
computed by the 3 x 3 closed form.  The absolute limit is positive, as it is
initially. -/
theorem embedding_consistency (p : FMatrixPrecision) (hp : 0 < p.absolute_limit)
    (a : Nat → Nat → ℚ)
    (hlu : (luDecomposition p 4 (embed4 a) ElimDet (ElimDet.init 0)).1 = none) :
    determinant p (embed4 a) = determinant p ⟨3, 3, a⟩ := by
  have h4 : determinant p (embed4 a) = Except.ok (toMatrix 4 (embed4 a).get).det :=
    determinant_general_det p hp (embed4 a) rfl (show 4 ≤ 4 by decide) hlu
  rw [h4, det_embed4, determinant_three_eq, det_toMatrix_three]

/-- Instance of C17: a 3 x 3 matrix with determinant 18 under the initial
thresholds. -/
theorem embedding_consistency_witness :
    (luDecomposition FMatrixPrecision.initial 4 (embed4 sampleThree) ElimDet
      (ElimDet.init 0)).1 = none ∧
    determinant FMatrixPrecision.initial (embed4 sampleThree)
      = determinant FMatrixPrecision.initial ⟨3, 3, sampleThree⟩ :=
  ⟨by decide!, embedding_consistency FMatrixPrecision.initial (by decide!) sampleThree
    (by decide!)⟩

theorem Vec.set_apply (v : Vec) (i : Nat) (a : ℚ) (k : Nat) :
    Vec.set v i a k = if k = i then a else v k := rfl

theorem addLoop_spec (n i : Nat) (g : Nat → ℚ) (v : Vec) :
    forUp 0 n (fun j v => Vec.set v i (v i + g j)) v =
      Vec.set v i (v i + ∑ j in Finset.range n, g j) := by
  induction n with
  | zero =>
    funext k
    simp only [forUp, Finset.range_zero, Finset.sum_empty, add_zero, Vec.set_apply]
    by_cases h : k = i
    · rw [if_pos h, h]
    · rw [if_neg h]
  | succ m ih =>
    funext k
    simp only [forUp, Nat.zero_add, ih, Vec.set_apply, if_true, Finset.sum_range_succ]
    by_cases h : k = i
    · simp only [if_pos h]; ring
    · simp only [if_neg h]

theorem rowwise_spec (m : Nat) (h : Nat → ℚ → ℚ) (v0 : Vec) :
    forUp 0 m (fun i v => Vec.set v i (h i (v i))) v0 =
      fun k => if k < m then h k (v0 k) else v0 k := by
  induction m with
  | zero =>
    funext k
    rw [if_neg (Nat.not_lt_zero k)]
    rfl
  | succ c ih =>
    funext k
    simp only [forUp, Nat.zero_add, ih, Vec.set_apply]
    have hcc : ¬ c < c := lt_irrefl c
    by_cases hk : k = c
    · have : k < c + 1 := by omega
      rw [if_pos hk, if_pos this, if_neg hcc, hk]
    · have : k < c + 1 ↔ k < c := by omega
      rw [if_neg hk]
      simp only [this]

theorem rowLoop_spec (m n : Nat) (g : Nat → Nat → ℚ) (v0 : Vec) :
    forUp 0 m (fun i v => forUp 0 n (fun j v => Vec.set v i (v i + g i j)) v) v0 =
      fun k => if k < m then v0 k + ∑ j in Finset.range n, g k j else v0 k := by
  simp only [addLoop_spec]
  exact rowwise_spec m (fun i a => a + ∑ j in Finset.range n, g i j) v0

theorem rowLoopSub_spec (m n : Nat) (g : Nat → Nat → ℚ) (v0 : Vec) :
    forUp 0 m (fun i v => forUp 0 n (fun j v => Vec.set v i (v i - g i j)) v) v0 =
      fun k => if k < m then v0 k - ∑ j in Finset.range n, g k j else v0 k := by
  have h := rowLoop_spec m n (fun i j => -g i j) v0
  simp only [← sub_eq_add_neg, Finset.sum_neg_distrib] at h
  exact h

theorem rowLoopInit_spec (m n : Nat) (g : Nat → Nat → ℚ) (v0 : Vec) :
    forUp 0 m (fun i v =>
      forUp 0 n (fun j v => Vec.set v i (v i + g i j)) (Vec.set v i 0)) v0 =
      fun k => if k < m then ∑ j in Finset.range n, g k j else v0 k := by
  have hb : (fun i (v : Vec) =>
      forUp 0 n (fun j v => Vec.set v i (v i + g i j)) (Vec.set v i 0)) =
      fun i v => Vec.set v i ((fun i _ => ∑ j in Finset.range n, g i j) i (v i)) := by
    funext i v k
    rw [addLoop_spec]
    simp only [Vec.set_apply, if_true, zero_add]
    by_cases hk : k = i
    · simp only [if_pos hk]
    · simp only [if_neg hk]
  rw [hb]
  exact rowwise_spec m (fun i _ => ∑ j in Finset.range n, g i j) v0

theorem scatterLoop_spec (n : Nat) (g : Nat → ℚ) (v : Vec) :
    forUp 0 n (fun j v => Vec.set v j (v j + g j)) v =
      fun k => if k < n then v k + g k else v k := by
  induction n with
  | zero =>
    funext k
    rw [if_neg (Nat.not_lt_zero k)]
    rfl
  | succ c ih =>
    funext k
    simp only [forUp, Nat.zero_add, ih, Vec.set_apply]
    have hcc : ¬ c < c := lt_irrefl c
    by_cases h : k = c
    · have : k < c + 1 := by omega
      rw [if_pos h, if_pos this, if_neg hcc, h]
    · have : k < c + 1 ↔ k < c := by omega
      rw [if_neg h]
      simp only [this]

theorem colLoop_spec (m n : Nat) (g : Nat → Nat → ℚ) (v0 : Vec) :
    forUp 0 m (fun i v => forUp 0 n (fun j v => Vec.set v j (v j + g i j)) v) v0 =
      fun k => if k < n then v0 k + ∑ i in Finset.range m, g i k else v0 k := by
  simp only [scatterLoop_spec]
  induction m with
  | zero =>
    funext k
    simp only [forUp, Finset.range_zero, Finset.sum_empty, add_zero, ite_self]
  | succ c ih =>
    funext k
    simp only [forUp, Nat.zero_add, ih, Finset.sum_range_succ]
    by_cases h : k < n
    · simp only [if_pos h]; ring
    · simp only [if_neg h]

theorem colLoopSub_spec (m n : Nat) (g : Nat → Nat → ℚ) (v0 : Vec) :
    forUp 0 m (fun i v => forUp 0 n (fun j v => Vec.set v j (v j - g i j)) v) v0 =
      fun k => if k < n then v0 k - ∑ i in Finset.range m, g i k else v0 k := by
  have h := colLoop_spec m n (fun i j => -g i j) v0
  simp only [← sub_eq_add_neg, Finset.sum_neg_distrib] at h
  exact h

theorem mv_eq (checking : Bool) (A : DenseMatrix) (x y : DenseVector) :
    mv checking A x y =
      if checking = true ∧ x.N ≠ A.cols then (some FMatrixError.outOfRange, y)
      else if checking = true ∧ y.N ≠ A.rows then (some FMatrixError.outOfRange, y)
      else (none, ⟨y.N, fun k =>
        if k < A.rows then ∑ j in Finset.range A.cols, A.get k j * x.v j else y.v k⟩) := by
  unfold mv
  rw [rowLoopInit_spec]

theorem mtv_eq (checking : Bool) (A : DenseMatrix) (x y : DenseVector) :
    mtv checking A x y =
      if checking = true ∧ x.N ≠ A.rows then (some FMatrixError.outOfRange, y)
      else if checking = true ∧ y.N ≠ A.cols then (some FMatrixError.outOfRange, y)
      else (none, ⟨y.N, fun k =>
        if k < A.cols then ∑ j in Finset.range A.rows, A.get j k * x.v j else y.v k⟩) := by
  unfold mtv
  rw [rowLoopInit_spec]

theorem umv_eq (checking : Bool) (A : DenseMatrix) (x y : DenseVector) :
    umv checking A x y =
      if checking = true ∧ x.N ≠ A.cols then (some FMatrixError.outOfRange, y)
      else if checking = true ∧ y.N ≠ A.rows then (some FMatrixError.outOfRange, y)
      else (none, ⟨y.N, fun k =>
        if k < A.rows then y.v k + ∑ j in Finset.range A.cols, A.get k j * x.v j
        else y.v k⟩) := by
  unfold umv
  rw [rowLoop_spec]

theorem mmv_eq (checking : Bool) (A : DenseMatrix) (x y : DenseVector) :
    mmv checking A x y =
      if checking = true ∧ x.N ≠ A.cols then (some FMatrixError.outOfRange, y)
      else if checking = true ∧ y.N ≠ A.rows then (some FMatrixError.outOfRange, y)
      else (none, ⟨y.N, fun k =>
        if k < A.rows then y.v k - ∑ j in Finset.range A.cols, A.get k j * x.v j
        else y.v k⟩) := by
  unfold mmv
  rw [rowLoopSub_spec]

theorem usmv_eq (checking : Bool) (A : DenseMatrix) (alpha : ℚ) (x y : DenseVector) :
    usmv checking A alpha x y =
      if checking = true ∧ x.N ≠ A.cols then (some FMatrixError.outOfRange, y)
      else if checking = true ∧ y.N ≠ A.rows then (some FMatrixError.outOfRange, y)
      else (none, ⟨y.N, fun k =>
        if k < A.rows then y.v k + ∑ j in Finset.range A.cols, alpha * A.get k j * x.v j
        else y.v k⟩) := by
  unfold usmv
  rw [rowLoop_spec]

theorem umtv_eq (checking : Bool) (A : DenseMatrix) (x y : DenseVector) :
    umtv checking A x y =
      if checking = true ∧ x.N ≠ A.rows then (some FMatrixError.outOfRange, y)
      else if checking = true ∧ y.N ≠ A.cols then (some FMatrixError.outOfRange, y)
      else (none, ⟨y.N, fun k =>
        if k < A.cols then y.v k + ∑ i in Finset.range A.rows, A.get i k * x.v i
        else y.v k⟩) := by
  unfold umtv
  rw [colLoop_spec]

theorem umhv_eq (conj : ℚ → ℚ) (checking : Bool) (A : DenseMatrix) (x y : DenseVector) :
    umhv conj checking A x y =
      if checking = true ∧ x.N ≠ A.rows then (some FMatrixError.outOfRange, y)
      else if checking = true ∧ y.N ≠ A.cols then (some FMatrixError.outOfRange, y)
      else (none, ⟨y.N, fun k =>
        if k < A.cols then y.v k + ∑ i in Finset.range A.rows, conj (A.get i k) * x.v i
        else y.v k⟩) := by
  unfold umhv
  rw [colLoop_spec]

theorem mmtv_eq (checking : Bool) (A : DenseMatrix) (x y : DenseVector) :
    mmtv checking A x y =
      if checking = true ∧ x.N ≠ A.rows then (some FMatrixError.outOfRange, y)
      else if checking = true ∧ y.N ≠ A.cols then (some FMatrixError.outOfRange, y)
      else (none, ⟨y.N, fun k =>
        if k < A.cols then y.v k - ∑ i in Finset.range A.rows, A.get i k * x.v i
        else y.v k⟩) := by
  unfold mmtv
  rw [colLoopSub_spec]

theorem mmhv_eq (conj : ℚ → ℚ) (checking : Bool) (A : DenseMatrix) (x y : DenseVector) :
    mmhv conj checking A x y =
      if checking = true ∧ x.N ≠ A.rows then (some FMatrixError.outOfRange, y)
      else if checking = true ∧ y.N ≠ A.cols then (some FMatrixError.outOfRange, y)
      else (none, ⟨y.N, fun k =>
        if k < A.cols then y.v k - ∑ i in Finset.range A.rows, conj (A.get i k) * x.v i
        else y.v k⟩) := by
  unfold mmhv
  rw [colLoopSub_spec]

theorem usmtv_eq (checking : Bool) (A : DenseMatrix) (alpha : ℚ) (x y : DenseVector) :
    usmtv checking A alpha x y =
      if checking = true ∧ x.N ≠ A.rows then (some FMatrixError.outOfRange, y)
      else if checking = true ∧ y.N ≠ A.cols then (some FMatrixError.outOfRange, y)
      else (none, ⟨y.N, fun k =>
        if k < A.cols then y.v k + ∑ i in Finset.range A.rows, alpha * A.get i k * x.v i
        else y.v k⟩) := by
  unfold usmtv
  rw [colLoop_spec]

theorem usmhv_eq (conj : ℚ → ℚ) (checking : Bool) (A : DenseMatrix) (alpha : ℚ)
    (x y : DenseVector) :
    usmhv conj checking A alpha x y =
      if checking = true ∧ x.N ≠ A.rows then (some FMatrixError.outOfRange, y)
      else if checking = true ∧ y.N ≠ A.cols then (some FMatrixError.outOfRange, y)
      else (none, ⟨y.N, fun k =>
        if k < A.cols then
          y.v k + ∑ i in Finset.range A.rows, alpha * conj (A.get i k) * x.v i
        else y.v k⟩) := by
  unfold usmhv
  rw [colLoop_spec]

/-- The shape shared by the eleven linear maps with checking compiled in: two
size tests, then the result. -/
theorem sizeChecked_of_eq (a b : Prop) [Decidable a] [Decidable b] (y z : DenseVector)
    (r : Option FMatrixError × DenseVector)
    (h : r = if true = true ∧ ¬ a then (some FMatrixError.outOfRange, y)
      else if true = true ∧ ¬ b then (some FMatrixError.outOfRange, y) else (none, z)) :
    SizeChecked a b y r := by
  subst h
  unfold SizeChecked
  by_cases ha : a <;> by_cases hb : b <;> simp [ha, hb]

/-- C18: `mv` and `mtv` overwrite. For every matrix `A`, every `x` and `y` of
the sizes `mv` requires and every `xt`, `yt` of the sizes `mtv` requires,
whatever `y` and `yt` held before: `mv(x, y)` throws nothing, keeps the size of
`y` and leaves `y[i] = sum_j A[i][j]*x[j]` for every row `i`; `mtv(xt, yt)`
throws nothing, keeps the size of `yt` and leaves
`yt[i] = sum_j A[j][i]*xt[j]` for every column `i`; called on any other vector
of the same size the two give the same entries. -/
theorem mv_mtv_overwrite (checking : Bool) (A : DenseMatrix) (x y xt yt : DenseVector)
    (hx : x.N = A.cols) (hy : y.N = A.rows) (hxt : xt.N = A.rows) (hyt : yt.N = A.cols) :
    (mv checking A x y).1 = none ∧ (mv checking A x y).2.N = y.N ∧
    (∀ i, i < A.rows →
      (mv checking A x y).2.v i = ∑ j in Finset.range A.cols, A.get i j * x.v j) ∧
    (∀ y2 : DenseVector, y2.N = A.rows → ∀ i, i < A.rows →
      (mv checking A x y2).2.v i = (mv checking A x y).2.v i) ∧
    (mtv checking A xt yt).1 = none ∧ (mtv checking A xt yt).2.N = yt.N ∧
    (∀ i, i < A.cols →
      (mtv checking A xt yt).2.v i = ∑ j in Finset.range A.rows, A.get j i * xt.v j) ∧
    (∀ y2 : DenseVector, y2.N = A.cols → ∀ i, i < A.cols →
      (mtv checking A xt yt).2.v i = (mtv checking A xt y2).2.v i) := by
  have hmv : ∀ y2 : DenseVector, y2.N = A.rows → mv checking A x y2 =
      (none, ⟨y2.N, fun k =>
        if k < A.rows then ∑ j in Finset.range A.cols, A.get k j * x.v j else y2.v k⟩) := by
    intro y2 h2
    rw [mv_eq, if_neg (fun h => h.2 hx), if_neg (fun h => h.2 h2)]
  have hmtv : ∀ y2 : DenseVector, y2.N = A.cols → mtv checking A xt y2 =
      (none, ⟨y2.N, fun k =>
        if k < A.cols then ∑ j in Finset.range A.rows, A.get j k * xt.v j else y2.v k⟩) := by
    intro y2 h2
    rw [mtv_eq, if_neg (fun h => h.2 hxt), if_neg (fun h => h.2 h2)]
  refine ⟨?_, ?_, ?_, ?_, ?_, ?_, ?_, ?_⟩
  · rw [hmv y hy]
  · rw [hmv y hy]
  · intro i hi
    rw [hmv y hy]
    exact if_pos hi
  · intro y2 h2 i hi
    rw [hmv y hy, hmv y2 h2]
    exact (if_pos hi).trans (if_pos hi).symm
  · rw [hmtv yt hyt]
  · rw [hmtv yt hyt]
  · intro i hi
    rw [hmtv yt hyt]
    exact if_pos hi
  · intro y2 h2 i hi
    rw [hmtv yt hyt, hmtv y2 h2]
    exact (if_pos hi).trans (if_pos hi).symm

/-- Instance of C18: the 2 x 3 matrix `[[1, 3, 5], [2, 4, 6]]` with
`x = (1, 2, 3)` gives `A x = (22, 28)`, and with `xt = (7, 7)` gives
`A^T xt = (21, 49, 77)`, with checking compiled in. -/
theorem mv_mtv_overwrite_witness :
    sampleVecThree.N = sampleWide.cols ∧ sampleVecTwo.N = sampleWide.rows ∧
    (mv true sampleWide sampleVecThree sampleVecTwo).1 = none ∧
    (mv true sampleWide sampleVecThree sampleVecTwo).2.v 0 = 22 ∧
    (mv true sampleWide sampleVecThree sampleVecTwo).2.v 1 = 28 ∧
    (mtv true sampleWide sampleVecTwo sampleVecThree).1 = none ∧
    (mtv true sampleWide sampleVecTwo sampleVecThree).2.v 0 = 21 ∧
    (mtv true sampleWide sampleVecTwo sampleVecThree).2.v 1 = 49 ∧
    (mtv true sampleWide sampleVecTwo sampleVecThree).2.v 2 = 77 :=
  have h := mv_mtv_overwrite true sampleWide sampleVecThree sampleVecTwo sampleVecTwo
    sampleVecThree (by decide) (by decide) (by decide) (by decide)
  ⟨by decide, by decide, h.1,
    (h.2.2.1 0 (by decide)).trans (by decide!),
    (h.2.2.1 1 (by decide)).trans (by decide!),
    h.2.2.2.2.1,
    (h.2.2.2.2.2.2.1 0 (by decide)).trans (by decide!),
    (h.2.2.2.2.2.2.1 1 (by decide)).trans (by decide!),
    (h.2.2.2.2.2.2.1 2 (by decide)).trans (by decide!)⟩

theorem DenseVector.eta (y : DenseVector) (f : Vec) (h : ∀ k, f k = y.v k) :
    (⟨y.N, f⟩ : DenseVector) = y := by
  obtain ⟨n, v⟩ := y
  have hf : f = v := funext h
  rw [hf]

/-- C19: the accumulating linear maps. For every matrix `A`, scalar `alpha`,
conjugation `conjugateComplex`, vectors `x`, `y0` of the sizes the plain
variants require and `xt`, `yt` of the sizes the transposed variants require,
none of the nine operations throws and the entries of the result are
`y0 + s * op(A) * x`: `s = +1` for `umv`, `umtv`, `umhv`, `s = -1` for `mmv`,
`mmtv`, `mmhv`, `s = alpha` for `usmv`, `usmtv`, `usmhv`, with `op(A)` the
matrix, its transpose, and its transpose with `conjugateComplex` applied to
every entry. Consequently `mmv` after `umv` with the same `x` restores `y0`,
`usmv` with `alpha = 1` equals `umv`, and `umv` from a zero `y0` equals `mv`. -/
theorem accumulating_maps (conjugateComplex : ℚ → ℚ) (checking : Bool) (A : DenseMatrix)
    (alpha : ℚ) (x y0 xt yt : DenseVector)
    (hx : x.N = A.cols) (hy : y0.N = A.rows) (hxt : xt.N = A.rows) (hyt : yt.N = A.cols) :
    ((umv checking A x y0).1 = none ∧ ∀ k, k < A.rows → (umv checking A x y0).2.v k =
      y0.v k + ∑ j in Finset.range A.cols, A.get k j * x.v j) ∧
    ((mmv checking A x y0).1 = none ∧ ∀ k, k < A.rows → (mmv checking A x y0).2.v k =
      y0.v k - ∑ j in Finset.range A.cols, A.get k j * x.v j) ∧
    ((usmv checking A alpha x y0).1 = none ∧ ∀ k, k < A.rows →
      (usmv checking A alpha x y0).2.v k =
        y0.v k + alpha * ∑ j in Finset.range A.cols, A.get k j * x.v j) ∧
    ((umtv checking A xt yt).1 = none ∧ ∀ k, k < A.cols → (umtv checking A xt yt).2.v k =
      yt.v k + ∑ i in Finset.range A.rows, A.get i k * xt.v i) ∧
    ((mmtv checking A xt yt).1 = none ∧ ∀ k, k < A.cols → (mmtv checking A xt yt).2.v k =
      yt.v k - ∑ i in Finset.range A.rows, A.get i k * xt.v i) ∧
    ((usmtv checking A alpha xt yt).1 = none ∧ ∀ k, k < A.cols →
      (usmtv checking A alpha xt yt).2.v k =
        yt.v k + alpha * ∑ i in Finset.range A.rows, A.get i k * xt.v i) ∧
    ((umhv conjugateComplex checking A xt yt).1 = none ∧ ∀ k, k < A.cols →
      (umhv conjugateComplex checking A xt yt).2.v k =
        yt.v k + ∑ i in Finset.range A.rows, conjugateComplex (A.get i k) * xt.v i) ∧
    ((mmhv conjugateComplex checking A xt yt).1 = none ∧ ∀ k, k < A.cols →
      (mmhv conjugateComplex checking A xt yt).2.v k =
        yt.v k - ∑ i in Finset.range A.rows, conjugateComplex (A.get i k) * xt.v i) ∧
    ((usmhv conjugateComplex checking A alpha xt yt).1 = none ∧ ∀ k, k < A.cols →
      (usmhv conjugateComplex checking A alpha xt yt).2.v k =
        yt.v k +
          alpha * ∑ i in Finset.range A.rows, conjugateComplex (A.get i k) * xt.v i) ∧
    (mmv checking A x (umv checking A x y0).2).2 = y0 ∧
    usmv checking A 1 x y0 = umv checking A x y0 ∧
    ((∀ k, k < A.rows → y0.v k = 0) → umv checking A x y0 = mv checking A x y0) := by
  have hnx : ¬ (checking = true ∧ x.N ≠ A.cols) := fun h => h.2 hx
  have hny : ¬ (checking = true ∧ y0.N ≠ A.rows) := fun h => h.2 hy
  have hnxt : ¬ (checking = true ∧ xt.N ≠ A.rows) := fun h => h.2 hxt
  have hnyt : ¬ (checking = true ∧ yt.N ≠ A.cols) := fun h => h.2 hyt
  refine ⟨?_, ?_, ?_, ?_, ?_, ?_, ?_, ?_, ?_, ?_, ?_, ?_⟩
  · rw [umv_eq, if_neg hnx, if_neg hny]
    exact ⟨rfl, fun k hk => if_pos hk⟩
  · rw [mmv_eq, if_neg hnx, if_neg hny]
    exact ⟨rfl, fun k hk => if_pos hk⟩
  · rw [usmv_eq, if_neg hnx, if_neg hny]
    refine ⟨rfl, fun k hk => (if_pos hk).trans ?_⟩
    rw [Finset.mul_sum]
    simp only [mul_assoc]
  · rw [umtv_eq, if_neg hnxt, if_neg hnyt]
    exact ⟨rfl, fun k hk => if_pos hk⟩
  · rw [mmtv_eq, if_neg hnxt, if_neg hnyt]
    exact ⟨rfl, fun k hk => if_pos hk⟩
  · rw [usmtv_eq, if_neg hnxt, if_neg hnyt]
    refine ⟨rfl, fun k hk => (if_pos hk).trans ?_⟩
    rw [Finset.mul_sum]
    simp only [mul_assoc]
  · rw [umhv_eq, if_neg hnxt, if_neg hnyt]
    exact ⟨rfl, fun k hk => if_pos hk⟩
  · rw [mmhv_eq, if_neg hnxt, if_neg hnyt]
    exact ⟨rfl, fun k hk => if_pos hk⟩
  · rw [usmhv_eq, if_neg hnxt, if_neg hnyt]
    refine ⟨rfl, fun k hk => (if_pos hk).trans ?_⟩
    rw [Finset.mul_sum]
    simp only [mul_assoc]
  · rw [umv_eq, if_neg hnx, if_neg hny, mmv_eq, if_neg hnx, if_neg hny]
    refine DenseVector.eta y0 _ (fun k => ?_)
    by_cases hk : k < A.rows
    · simp [hk]
    · simp [hk]
  · rw [usmv_eq, umv_eq]
    simp only [one_mul]
  · intro hz
    rw [umv_eq, mv_eq, if_neg hnx, if_neg hny, if_neg hnx, if_neg hny]
    have : (fun k => if k < A.rows then
        y0.v k + ∑ j in Finset.range A.cols, A.get k j * x.v j else y0.v k) =
        (fun k => if k < A.rows then
          ∑ j in Finset.range A.cols, A.get k j * x.v j else y0.v k) := by
      funext k
      by_cases hk : k < A.rows
      · rw [if_pos hk, if_pos hk, hz k hk, zero_add]
      · rw [if_neg hk, if_neg hk]
    rw [this]

/-- Instance of C19: the 2 x 3 matrix `[[1, 3, 5], [2, 4, 6]]`, `x = (1, 2, 3)`,
`y0 = (7, 7)`, `alpha = 2`, and for the transposed variants `xt = (7, 7)`,
`yt = (1, 2, 3)`, with negation in the place of the conjugation. -/
theorem accumulating_maps_witness :
    sampleVecThree.N = sampleWide.cols ∧ sampleVecTwo.N = sampleWide.rows ∧
    (umv true sampleWide sampleVecThree sampleVecTwo).2.v 0 = 29 ∧
    (mmv true sampleWide sampleVecThree sampleVecTwo).2.v 1 = -21 ∧
    (usmv true sampleWide 2 sampleVecThree sampleVecTwo).2.v 0 = 51 ∧
    (umtv true sampleWide sampleVecTwo sampleVecThree).2.v 2 = 80 ∧
    (mmtv true sampleWide sampleVecTwo sampleVecThree).2.v 0 = -20 ∧
    (usmtv true sampleWide 2 sampleVecTwo sampleVecThree).2.v 1 = 100 ∧
    (umhv (fun a => -a) true sampleWide sampleVecTwo sampleVecThree).2.v 0 = -20 ∧
    (mmhv (fun a => -a) true sampleWide sampleVecTwo sampleVecThree).2.v 0 = 22 ∧
    (usmhv (fun a => -a) true sampleWide 2 sampleVecTwo sampleVecThree).2.v 1 = -96 ∧
    (mmv true sampleWide sampleVecThree
      (umv true sampleWide sampleVecThree sampleVecTwo).2).2 = sampleVecTwo :=
  have h := accumulating_maps (fun a => -a) true sampleWide 2 sampleVecThree sampleVecTwo
    sampleVecTwo sampleVecThree (by decide) (by decide) (by decide) (by decide)
  ⟨by decide, by decide,
    (h.1.2 0 (by decide)).trans (by decide!),
    (h.2.1.2 1 (by decide)).trans (by decide!),
    (h.2.2.1.2 0 (by decide)).trans (by decide!),
    (h.2.2.2.1.2 2 (by decide)).trans (by decide!),
    (h.2.2.2.2.1.2 0 (by decide)).trans (by decide!),
    (h.2.2.2.2.2.1.2 1 (by decide)).trans (by decide!),
    (h.2.2.2.2.2.2.1.2 0 (by decide)).trans (by decide!),
    (h.2.2.2.2.2.2.2.1.2 0 (by decide)).trans (by decide!),
    (h.2.2.2.2.2.2.2.2.1.2 1 (by decide)).trans (by decide!),
    h.2.2.2.2.2.2.2.2.2.1⟩

/-- C20: with checking compiled in, `mv(x, y)` throws "Index out of range"
exactly when `x.N() != cols()` or `y.N() != rows()`, throws nothing exactly when
both sizes match, and leaves `y` as it was when it throws; the same holds of
`umv`, `mmv` and `usmv`, and of `mtv`, `umtv`, `umhv`, `mmtv`, `mmhv`, `usmtv`
and `usmhv` with the mirrored requirement `x.N() == rows()` and
`y.N() == cols()`. -/
theorem linear_map_size_check (conjugateComplex : ℚ → ℚ) (A : DenseMatrix) (alpha : ℚ)
    (x y : DenseVector) :
    SizeChecked (x.N = A.cols) (y.N = A.rows) y (mv true A x y) ∧
    SizeChecked (x.N = A.cols) (y.N = A.rows) y (umv true A x y) ∧
    SizeChecked (x.N = A.cols) (y.N = A.rows) y (mmv true A x y) ∧
    SizeChecked (x.N = A.cols) (y.N = A.rows) y (usmv true A alpha x y) ∧
    SizeChecked (x.N = A.rows) (y.N = A.cols) y (mtv true A x y) ∧
    SizeChecked (x.N = A.rows) (y.N = A.cols) y (umtv true A x y) ∧
    SizeChecked (x.N = A.rows) (y.N = A.cols) y (umhv conjugateComplex true A x y) ∧
    SizeChecked (x.N = A.rows) (y.N = A.cols) y (mmtv true A x y) ∧
    SizeChecked (x.N = A.rows) (y.N = A.cols) y (mmhv conjugateComplex true A x y) ∧
    SizeChecked (x.N = A.rows) (y.N = A.cols) y (usmtv true A alpha x y) ∧
    SizeChecked (x.N = A.rows) (y.N = A.cols) y (usmhv conjugateComplex true A alpha x y) := by
  refine ⟨?_, ?_, ?_, ?_, ?_, ?_, ?_, ?_, ?_, ?_, ?_⟩
  · exact sizeChecked_of_eq _ _ y _ _ (by rw [mv_eq])
  · exact sizeChecked_of_eq _ _ y _ _ (by rw [umv_eq])
  · exact sizeChecked_of_eq _ _ y _ _ (by rw [mmv_eq])
  · exact sizeChecked_of_eq _ _ y _ _ (by rw [usmv_eq])
  · exact sizeChecked_of_eq _ _ y _ _ (by rw [mtv_eq])
  · exact sizeChecked_of_eq _ _ y _ _ (by rw [umtv_eq])
  · exact sizeChecked_of_eq _ _ y _ _ (by rw [umhv_eq])
  · exact sizeChecked_of_eq _ _ y _ _ (by rw [mmtv_eq])
  · exact sizeChecked_of_eq _ _ y _ _ (by rw [mmhv_eq])
  · exact sizeChecked_of_eq _ _ y _ _ (by rw [usmtv_eq])
  · exact sizeChecked_of_eq _ _ y _ _ (by rw [usmhv_eq])

/-- Instance of C20 on the 2 x 3 matrix `[[1, 3, 5], [2, 4, 6]]`: `mv` rejects an
`x` of size 2 and `mtv` a `y` of size 2, both leaving `y` as it was, and `mv`
accepts `x` of size 3 with `y` of size 2. -/
theorem linear_map_size_check_witness :
    (mv true sampleWide sampleVecTwo sampleVecTwo).1 = some FMatrixError.outOfRange ∧
    (mv true sampleWide sampleVecTwo sampleVecTwo).2 = sampleVecTwo ∧
    (mtv true sampleWide sampleVecTwo sampleVecTwo).1 = some FMatrixError.outOfRange ∧
    (mtv true sampleWide sampleVecTwo sampleVecTwo).2 = sampleVecTwo ∧
    (mv true sampleWide sampleVecThree sampleVecTwo).1 = none :=
  have h := linear_map_size_check (fun a => a) sampleWide 1 sampleVecTwo sampleVecTwo
  have h3 := linear_map_size_check (fun a => a) sampleWide 1 sampleVecThree sampleVecTwo
  have e1 := h.1.1.mpr (Or.inl (by decide))
  have e2 := h.2.2.2.2.1.1.mpr (Or.inr (by decide))
  ⟨e1, h.1.2.2 (by rw [e1]; exact Option.some_ne_none _),
    e2, h.2.2.2.2.1.2.2 (by rw [e2]; exact Option.some_ne_none _),
    h3.1.2.1.mpr ⟨by decide, by decide⟩⟩

/-! ## Storage, thresholds, products, partner search and the engine step by step -/

theorem rowsLoop_spec (A : DenseMatrix) (g : Nat → Nat → ℚ → ℚ) :
    (forUp 0 A.rows (fun i B => rowMap B i (g i)) A).rows = A.rows ∧
    (forUp 0 A.rows (fun i B => rowMap B i (g i)) A).cols = A.cols ∧
    ∀ r c, (forUp 0 A.rows (fun i B => rowMap B i (g i)) A).get r c =
      if r < A.rows ∧ c < A.cols then g r c (A.get r c) else A.get r c := by
  refine forUp_induct
    (fun cnt B => B.rows = A.rows ∧ B.cols = A.cols ∧
      ∀ r c, B.get r c = if r < cnt ∧ c < A.cols then g r c (A.get r c) else A.get r c)
    0 A.rows _ A
    ⟨rfl, rfl, fun r c => by
      have : ¬ (r < 0 ∧ c < A.cols) := by omega
      rw [if_neg this]⟩ ?_
  intro cnt B _ ⟨h1, h2, h3⟩
  refine ⟨h1, h2, fun r c => ?_⟩
  show (if r = 0 + cnt ∧ c < B.cols then g (0 + cnt) c (B.get r c) else B.get r c) = _
  rw [h2, h3, Nat.zero_add]
  by_cases hc : c < A.cols
  · by_cases hr : r = cnt
    · have a0 : ¬ (r < cnt ∧ c < A.cols) := by omega
      have a1 : r < cnt + 1 ∧ c < A.cols := by omega
      rw [if_pos ⟨hr, hc⟩, if_pos a1, if_neg a0, hr]
    · have a1 : ¬ (r = cnt ∧ c < A.cols) := fun h => hr h.1
      have a2 : (r < cnt + 1 ∧ c < A.cols) ↔ (r < cnt ∧ c < A.cols) := by omega
      rw [if_neg a1]
      simp only [a2]
  · have a1 : ¬ (r = cnt ∧ c < A.cols) := fun h => hc h.2
    have a2 : ¬ (r < cnt ∧ c < A.cols) := fun h => hc h.2
    have a3 : ¬ (r < cnt + 1 ∧ c < A.cols) := fun h => hc h.2
    rw [if_neg a1, if_neg a2, if_neg a3]

theorem addAssign_spec (A Y : DenseMatrix) :
    (addAssign A Y).rows = A.rows ∧ (addAssign A Y).cols = A.cols ∧
    ∀ r c, (addAssign A Y).get r c =
      if r < A.rows ∧ c < A.cols then A.get r c + Y.get r c else A.get r c :=
  rowsLoop_spec A (fun i j a => a + Y.get i j)

theorem subAssign_spec (A Y : DenseMatrix) :
    (subAssign A Y).rows = A.rows ∧ (subAssign A Y).cols = A.cols ∧
    ∀ r c, (subAssign A Y).get r c =
      if r < A.rows ∧ c < A.cols then A.get r c - Y.get r c else A.get r c :=
  rowsLoop_spec A (fun i j a => a - Y.get i j)

theorem mulAssign_spec (A : DenseMatrix) (k : ℚ) :
    (mulAssign A k).rows = A.rows ∧ (mulAssign A k).cols = A.cols ∧
    ∀ r c, (mulAssign A k).get r c =
      if r < A.rows ∧ c < A.cols then A.get r c * k else A.get r c :=
  rowsLoop_spec A (fun _ _ a => a * k)

theorem divAssign_spec (A : DenseMatrix) (k : ℚ) :
    (divAssign A k).rows = A.rows ∧ (divAssign A k).cols = A.cols ∧
    ∀ r c, (divAssign A k).get r c =
      if r < A.rows ∧ c < A.cols then A.get r c / k else A.get r c :=
  rowsLoop_spec A (fun _ _ a => a / k)

theorem axpy_spec (A : DenseMatrix) (k : ℚ) (Y : DenseMatrix) :
    (axpy A k Y).rows = A.rows ∧ (axpy A k Y).cols = A.cols ∧
    ∀ r c, (axpy A k Y).get r c =
      if r < A.rows ∧ c < A.cols then A.get r c + k * Y.get r c else A.get r c :=
  rowsLoop_spec A (fun i j a => a + k * Y.get i j)

/-- C21: element-wise storage arithmetic.  For every matrix `A`, every `Y` and
scalars `f`, `k`: scalar assignment, `+=`, `-=`, `*=`, `/=` and `axpy` keep the
shape of `A` and leave, at every `i < rows()`, `j < cols()`, the entries `f`,
`A[i][j] + Y[i][j]`, `A[i][j] - Y[i][j]`, `A[i][j] * k`, `A[i][j] / k` and
`A[i][j] + k * Y[i][j]`; `axpy(1, Y)` equals `+= Y`, `axpy(-1, Y)` equals
`-= Y`, and `+= Y` followed by `-= Y` restores `A`. -/
theorem storage_arithmetic (A Y : DenseMatrix) (f k : ℚ) :
    ((assignScalar A f).rows = A.rows ∧ (assignScalar A f).cols = A.cols ∧
      ∀ i j, i < A.rows → j < A.cols → (assignScalar A f).get i j = f) ∧
    ((addAssign A Y).rows = A.rows ∧ (addAssign A Y).cols = A.cols ∧
      ∀ i j, i < A.rows → j < A.cols → (addAssign A Y).get i j = A.get i j + Y.get i j) ∧
    ((subAssign A Y).rows = A.rows ∧ (subAssign A Y).cols = A.cols ∧
      ∀ i j, i < A.rows → j < A.cols → (subAssign A Y).get i j = A.get i j - Y.get i j) ∧
    ((mulAssign A k).rows = A.rows ∧ (mulAssign A k).cols = A.cols ∧
      ∀ i j, i < A.rows → j < A.cols → (mulAssign A k).get i j = A.get i j * k) ∧
    ((divAssign A k).rows = A.rows ∧ (divAssign A k).cols = A.cols ∧
      ∀ i j, i < A.rows → j < A.cols → (divAssign A k).get i j = A.get i j / k) ∧
    ((axpy A k Y).rows = A.rows ∧ (axpy A k Y).cols = A.cols ∧
      ∀ i j, i < A.rows → j < A.cols → (axpy A k Y).get i j = A.get i j + k * Y.get i j) ∧
    axpy A 1 Y = addAssign A Y ∧
    axpy A (-1) Y = subAssign A Y ∧
    subAssign (addAssign A Y) Y = A := by
  obtain ⟨s1, s2, s3⟩ := assignScalar_spec A f
  obtain ⟨a1, a2, a3⟩ := addAssign_spec A Y
  obtain ⟨b1, b2, b3⟩ := subAssign_spec A Y
  obtain ⟨m1, m2, m3⟩ := mulAssign_spec A k
  obtain ⟨d1, d2, d3⟩ := divAssign_spec A k
  obtain ⟨x1, x2, x3⟩ := axpy_spec A k Y
  refine ⟨⟨s1, s2, fun i j hi hj => by rw [s3, if_pos ⟨hi, hj⟩]⟩,
    ⟨a1, a2, fun i j hi hj => by rw [a3, if_pos ⟨hi, hj⟩]⟩,
    ⟨b1, b2, fun i j hi hj => by rw [b3, if_pos ⟨hi, hj⟩]⟩,
    ⟨m1, m2, fun i j hi hj => by rw [m3, if_pos ⟨hi, hj⟩]⟩,
    ⟨d1, d2, fun i j hi hj => by rw [d3, if_pos ⟨hi, hj⟩]⟩,
    ⟨x1, x2, fun i j hi hj => by rw [x3, if_pos ⟨hi, hj⟩]⟩, ?_, ?_, ?_⟩
  · obtain ⟨y1, y2, y3⟩ := axpy_spec A 1 Y
    refine DenseMatrix.ext_get (y1.trans a1.symm) (y2.trans a2.symm) fun r c => ?_
    rw [y3, a3, one_mul]
  · obtain ⟨y1, y2, y3⟩ := axpy_spec A (-1) Y
    refine DenseMatrix.ext_get (y1.trans b1.symm) (y2.trans b2.symm) fun r c => ?_
    rw [y3, b3]
    by_cases h : r < A.rows ∧ c < A.cols
    · rw [if_pos h, if_pos h]; ring
    · rw [if_neg h, if_neg h]
  · obtain ⟨y1, y2, y3⟩ := subAssign_spec (addAssign A Y) Y
    refine DenseMatrix.ext_get (y1.trans a1) (y2.trans a2) fun r c => ?_
    rw [y3, a1, a2, a3]
    by_cases h : r < A.rows ∧ c < A.cols
    · rw [if_pos h, if_pos h]; ring
    · rw [if_neg h, if_neg h]

/-- Instance of C21 on the 2 x 3 matrix `A = [[1, 3, 5], [2, 4, 6]]` with `Y = A`,
`f = 5` and `k = 2`, at the entry `(1, 2)`. -/
theorem storage_arithmetic_witness :
    (assignScalar sampleWide 5).get 1 2 = 5 ∧
    (addAssign sampleWide sampleWide).get 1 2 = 12 ∧
    (subAssign sampleWide sampleWide).get 1 2 = 0 ∧
    (mulAssign sampleWide 2).get 1 2 = 12 ∧
    (divAssign sampleWide 2).get 1 2 = 3 ∧
    (axpy sampleWide 2 sampleWide).get 1 2 = 18 ∧
    subAssign (addAssign sampleWide sampleWide) sampleWide = sampleWide :=
  have h := storage_arithmetic sampleWide sampleWide 5 2
  ⟨h.1.2.2 1 2 (by decide) (by decide),
    (h.2.1.2.2 1 2 (by decide) (by decide)).trans (by decide!),
    (h.2.2.1.2.2 1 2 (by decide) (by decide)).trans (by decide!),
    (h.2.2.2.1.2.2 1 2 (by decide) (by decide)).trans (by decide!),
    (h.2.2.2.2.1.2.2 1 2 (by decide) (by decide)).trans (by decide!),
    (h.2.2.2.2.2.1.2.2 1 2 (by decide) (by decide)).trans (by decide!),
    h.2.2.2.2.2.2.2.2⟩

theorem anyUp_spec (lo cnt : Nat) (p : Nat → Bool) :
    anyUp lo cnt p = true ↔ ∃ k, lo ≤ k ∧ k < lo + cnt ∧ p k = true := by
  induction cnt generalizing lo with
  | zero =>
    constructor
    · intro h
      exact absurd h (by simp [anyUp])
    · rintro ⟨k, h1, h2, _⟩
      omega
  | succ n ih =>
    unfold anyUp
    by_cases hp : p lo = true
    · rw [if_pos hp]
      exact ⟨fun _ => ⟨lo, le_rfl, by omega, hp⟩, fun _ => rfl⟩
    · rw [if_neg hp, ih]
      constructor
      · rintro ⟨k, h1, h2, h3⟩
        exact ⟨k, by omega, by omega, h3⟩
      · rintro ⟨k, h1, h2, h3⟩
        have hk : k ≠ lo := fun h => hp (h ▸ h3)
        exact ⟨k, by omega, by omega, h3⟩

theorem operator_eq_iff (A B : DenseMatrix) :
    operator_eq A B = true ↔ ∀ i j, i < A.rows → j < A.cols → A.get i j = B.get i j := by
  unfold operator_eq
  constructor
  · intro h i j hi hj
    by_contra hne
    have hrow : rowNe A B i = true := by
      unfold rowNe
      rw [anyUp_spec]
      exact ⟨j, Nat.zero_le _, by omega, decide_eq_true hne⟩
    have hany : anyUp 0 A.rows (fun i => rowNe A B i) = true := by
      rw [anyUp_spec]
      exact ⟨i, Nat.zero_le _, by omega, hrow⟩
    rw [if_pos hany] at h
    exact absurd h (by decide)
  · intro h
    have hany : ¬ anyUp 0 A.rows (fun i => rowNe A B i) = true := by
      rw [anyUp_spec]
      rintro ⟨i, _, hi, hrow⟩
      unfold rowNe at hrow
      rw [anyUp_spec] at hrow
      obtain ⟨j, _, hj, hne⟩ := hrow
      exact of_decide_eq_true hne (h i j (by omega) (by omega))
    rw [if_neg hany]

/-- Equality over an exact field.  For matrices `A` and `B` of rationals of the
same shape, `A == B` holds if and only if `A[i][j] = B[i][j]` for every
`i < rows()`, `j < cols()`, with no tolerance; `A != B` is the negation of
`A == B`; and `==` is reflexive, symmetric and, with any third matrix `C`,
transitive. -/
theorem equality_exact (A B C : DenseMatrix)
    (hB : B.rows = A.rows ∧ B.cols = A.cols) :
    (operator_eq A B = true ↔
      ∀ i j, i < A.rows → j < A.cols → A.get i j = B.get i j) ∧
    operator_ne A B = !(operator_eq A B) ∧
    operator_eq A A = true ∧
    operator_eq A B = operator_eq B A ∧
    (operator_eq A B = true → operator_eq B C = true → operator_eq A C = true) := by
  refine ⟨operator_eq_iff A B, rfl, (operator_eq_iff A A).mpr fun _ _ _ _ => rfl, ?_, ?_⟩
  · have h : operator_eq A B = true ↔ operator_eq B A = true := by
      rw [operator_eq_iff, operator_eq_iff, hB.1, hB.2]
      exact ⟨fun h i j hi hj => (h i j hi hj).symm, fun h i j hi hj => (h i j hi hj).symm⟩
    exact Bool.eq_iff_iff.mpr h
  · intro h1 h2
    rw [operator_eq_iff] at h1 h2 ⊢
    rw [hB.1, hB.2] at h2
    exact fun i j hi hj => (h1 i j hi hj).trans (h2 i j hi hj)

/-- Equality over an exact field on an instance: the 2 x 3 matrix
`[[1, 3, 5], [2, 4, 6]]` equals itself and differs from its double, which has
the same shape. -/
theorem equality_exact_witness :
    (mulAssign sampleWide 2).rows = sampleWide.rows ∧
    (mulAssign sampleWide 2).cols = sampleWide.cols ∧
    operator_eq sampleWide sampleWide = true ∧
    operator_eq sampleWide (mulAssign sampleWide 2) = false ∧
    operator_ne sampleWide (mulAssign sampleWide 2) = true ∧
    operator_eq (mulAssign sampleWide 2) sampleWide = false :=
  have h := equality_exact sampleWide (mulAssign sampleWide 2) sampleWide
    ⟨by decide, by decide⟩
  have hf : operator_eq sampleWide (mulAssign sampleWide 2) = false := by decide!
  ⟨by decide, by decide, h.2.2.1, hf, by rw [h.2.1, hf]; rfl, by rw [← h.2.2.2.1, hf]⟩

theorem run_append (p : FMatrixPrecision) (cs ds : List Call) :
    run p (cs ++ ds) = run (run p cs) ds := by
  unfold run
  rw [List.foldl_append]

theorem run_pivoting (cs : List Call) (p : FMatrixPrecision)
    (h : ∀ c, c ∈ cs → c.setsPivoting = false) :
    (run p cs).pivoting_limit = p.pivoting_limit := by
  induction cs generalizing p with
  | nil => rfl
  | cons c cs ih =>
    show (run (Call.exec p c) cs).pivoting_limit = _
    rw [ih _ fun d hd => h d (List.mem_cons_of_mem c hd)]
    have hc := h c (List.mem_cons_self c cs)
    cases c <;> first | rfl | exact absurd hc (fun h => Bool.noConfusion h)

theorem run_singular (cs : List Call) (p : FMatrixPrecision)
    (h : ∀ c, c ∈ cs → c.setsSingular = false) :
    (run p cs).singular_limit = p.singular_limit := by
  induction cs generalizing p with
  | nil => rfl
  | cons c cs ih =>
    show (run (Call.exec p c) cs).singular_limit = _
    rw [ih _ fun d hd => h d (List.mem_cons_of_mem c hd)]
    have hc := h c (List.mem_cons_self c cs)
    cases c <;> first | rfl | exact absurd hc (fun h => Bool.noConfusion h)

theorem run_absolute (cs : List Call) (p : FMatrixPrecision)
    (h : ∀ c, c ∈ cs → c.setsAbsolute = false) :
    (run p cs).absolute_limit = p.absolute_limit := by
  induction cs generalizing p with
  | nil => rfl
  | cons c cs ih =>
    show (run (Call.exec p c) cs).absolute_limit = _
    rw [ih _ fun d hd => h d (List.mem_cons_of_mem c hd)]
    have hc := h c (List.mem_cons_self c cs)
    cases c <;> first | rfl | exact absurd hc (fun h => Bool.noConfusion h)

/-- C23: the precision thresholds are persistent state.  Initially the limits
are 1e-8, 1e-14 and 1e-80.  In every state `p`, each setter changes its own
threshold to the value given and leaves the other two.  Along every sequence of
calls (setters, `solve`, `invert`, `determinant`, `luDecomposition`), each
getter returns the value of the last call of its setter, whatever was called
since, and the value it had before the sequence if its setter is not called;
a call of `solve`, `invert`, `determinant` or `luDecomposition` leaves all
three thresholds as they are. -/
theorem thresholds_persistent (p : FMatrixPrecision) (v : ℚ) (before after : List Call) :
    (FMatrixPrecision.initial.pivoting_limit = 1 / 10 ^ 8 ∧
      FMatrixPrecision.initial.singular_limit = 1 / 10 ^ 14 ∧
      FMatrixPrecision.initial.absolute_limit = 1 / 10 ^ 80) ∧
    ((p.set_pivoting_limit v).pivoting_limit = v ∧
      (p.set_pivoting_limit v).singular_limit = p.singular_limit ∧
      (p.set_pivoting_limit v).absolute_limit = p.absolute_limit) ∧
    ((p.set_singular_limit v).singular_limit = v ∧
      (p.set_singular_limit v).pivoting_limit = p.pivoting_limit ∧
      (p.set_singular_limit v).absolute_limit = p.absolute_limit) ∧
    ((p.set_absolute_limit v).absolute_limit = v ∧
      (p.set_absolute_limit v).pivoting_limit = p.pivoting_limit ∧
      (p.set_absolute_limit v).singular_limit = p.singular_limit) ∧
    ((∀ c, c ∈ after → c.setsPivoting = false) →
      (run p (before ++ Call.set_pivoting_limit v :: after)).pivoting_limit = v ∧
      (run p after).pivoting_limit = p.pivoting_limit) ∧
    ((∀ c, c ∈ after → c.setsSingular = false) →
      (run p (before ++ Call.set_singular_limit v :: after)).singular_limit = v ∧
      (run p after).singular_limit = p.singular_limit) ∧
    ((∀ c, c ∈ after → c.setsAbsolute = false) →
      (run p (before ++ Call.set_absolute_limit v :: after)).absolute_limit = v ∧
      (run p after).absolute_limit = p.absolute_limit) ∧
    (∀ checking A x b, Call.exec p (Call.solve checking A x b) = p) ∧
    (∀ checking A, Call.exec p (Call.invert checking A) = p) ∧
    (∀ A, Call.exec p (Call.determinant A) = p) ∧
    (∀ A rhs, Call.exec p (Call.luDecomposition A rhs) = p) := by
  refine ⟨⟨rfl, rfl, rfl⟩, ⟨rfl, rfl, rfl⟩, ⟨rfl, rfl, rfl⟩, ⟨rfl, rfl, rfl⟩,
    fun h => ⟨?_, run_pivoting after p h⟩, fun h => ⟨?_, run_singular after p h⟩,
    fun h => ⟨?_, run_absolute after p h⟩, fun _ _ _ _ => rfl, fun _ _ => rfl, fun _ => rfl,
    fun _ _ => rfl⟩
  · rw [run_append]
    show (run (Call.exec _ _) after).pivoting_limit = v
    rw [run_pivoting after _ h]
    rfl
  · rw [run_append]
    show (run (Call.exec _ _) after).singular_limit = v
    rw [run_singular after _ h]
    rfl
  · rw [run_append]
    show (run (Call.exec _ _) after).absolute_limit = v
    rw [run_absolute after _ h]
    rfl

/-- Instance of C23: from the initial state, `set_pivoting_limit(1/4)` after a
`determinant`, followed by `set_singular_limit(1/2)`, a `solve` and an
`invert`, leaves the pivoting limit at 1/4. -/
theorem thresholds_persistent_witness :
    (run FMatrixPrecision.initial
      ([Call.determinant sampleRegular] ++ Call.set_pivoting_limit (1 / 4) ::
        [Call.set_singular_limit (1 / 2), Call.solve false sampleRegular sampleRhs sampleRhs,
          Call.invert false sampleRegular])).pivoting_limit = 1 / 4 :=
  ((thresholds_persistent FMatrixPrecision.initial (1 / 4) [Call.determinant sampleRegular]
    [Call.set_singular_limit (1 / 2), Call.solve false sampleRegular sampleRhs sampleRhs,
      Call.invert false sampleRegular]).2.2.2.2.1 (by
        intro c hc
        simp only [List.mem_cons, List.mem_singleton, List.not_mem_nil, or_false] at hc
        rcases hc with h | h | h <;> rw [h] <;> rfl)).1

/-- C25, on the 2 x 2 matrix `[[2, 1], [1, 1]]`: `rbegin()` of the mutable
matrix is positioned at -1, before the first row, where `beforeBegin()` is, and
not at the last row 1, where `beforeEnd()` is; `rbegin() const` equals
`beforeEnd() const`, at position 1, and both `rend()` equal `beforeBegin()`. -/
theorem rbegin_mutable_position :
    (DenseMatrix.rbegin ⟨2, 2, sampleTwo⟩).position = -1 ∧
    (DenseMatrix.beforeEnd ⟨2, 2, sampleTwo⟩).position = 1 ∧
    DenseMatrix.rbegin ⟨2, 2, sampleTwo⟩ ≠ DenseMatrix.beforeEnd ⟨2, 2, sampleTwo⟩ ∧
    DenseMatrix.rbegin ⟨2, 2, sampleTwo⟩ = DenseMatrix.beforeBegin ⟨2, 2, sampleTwo⟩ ∧
    DenseMatrix.rbegin_const ⟨2, 2, sampleTwo⟩
      = DenseMatrix.beforeEnd_const ⟨2, 2, sampleTwo⟩ ∧
    (DenseMatrix.rbegin_const ⟨2, 2, sampleTwo⟩).position = 1 ∧
    DenseMatrix.rend ⟨2, 2, sampleTwo⟩ = DenseMatrix.beforeBegin ⟨2, 2, sampleTwo⟩ ∧
    DenseMatrix.rend_const ⟨2, 2, sampleTwo⟩
      = DenseMatrix.beforeBegin_const ⟨2, 2, sampleTwo⟩ :=
  ⟨rfl, by decide, fun h => absurd (congrArg DenseIterator.position h) (by decide), rfl, rfl,
    by decide, rfl, rfl⟩

theorem IsMatch_ne (bfaces : Nat → BoundaryFaceInfo) (face j : Nat)
    (h : IsMatch bfaces face j) : j ≠ face := by
  intro hj
  have h1 := h.1
  rw [hj] at h1
  split at h1 <;> omega

theorem matchBody_eq (bfaces : Nat → BoundaryFaceInfo) (face j : Nat)
    [Decidable (IsMatch bfaces face j)] :
    matchBody face
      (if (bfaces face).canon_pos % 2 = 0 then (bfaces face).canon_pos + 1
       else (bfaces face).canon_pos - 1)
      (bfaces face).centroid j (false, bfaces) =
        if IsMatch bfaces face j then (true, linked bfaces face j) else (false, bfaces) := by
  unfold matchBody
  simp only [Bool.false_eq_true, if_false]
  by_cases h1 : (bfaces j).canon_pos =
      (if (bfaces face).canon_pos % 2 = 0 then (bfaces face).canon_pos + 1
       else (bfaces face).canon_pos - 1)
  · by_cases h2 : |(bfaces face).area - (bfaces j).area| ≤ 1 / 10 ^ 6
    · by_cases h3 : ((bfaces j).centroid 0 - (bfaces face).centroid 0) ^ 2 +
          ((bfaces j).centroid 1 - (bfaces face).centroid 1) ^ 2 +
          ((bfaces j).centroid 2 - (bfaces face).centroid 2) ^ 2 ≤ (1 / 10 ^ 6 : ℚ) ^ 2
      · have hm : IsMatch bfaces face j := ⟨h1, h2, h3⟩
        have hne := IsMatch_ne bfaces face j hm
        have h3b : two_norm_le (fun d => (bfaces j).centroid d - (bfaces face).centroid d)
            (1 / 10 ^ 6) = true := decide_eq_true h3
        rw [if_pos h1, if_pos h2, if_pos h3b, if_pos hm]
        congr 1
        funext k
        unfold linked setFace
        by_cases hk : k = j
        · simp only [hk, if_true, if_neg hne]
        · simp only [if_neg hk]
      · have hm : ¬ IsMatch bfaces face j := fun h => h3 h.2.2
        have h3b : ¬ two_norm_le (fun d => (bfaces j).centroid d - (bfaces face).centroid d)
            (1 / 10 ^ 6) = true := fun h => h3 (of_decide_eq_true h)
        rw [if_pos h1, if_pos h2, if_neg h3b, if_neg hm]
    · have hm : ¬ IsMatch bfaces face j := fun h => h2 h.2.1
      rw [if_pos h1, if_neg h2, if_neg hm]
  · have hm : ¬ IsMatch bfaces face j := fun h => h1 h.1
    rw [if_neg h1, if_neg hm]

theorem matchBody_done (face : Nat) (target_cp : Int) (cent_this : Fin 3 → ℚ) (j : Nat)
    (b : Nat → BoundaryFaceInfo) :
    matchBody face target_cp cent_this j (true, b) = (true, b) := by
  unfold matchBody
  simp only [if_true]

/-- The loop of `match`: either no index met so far is a match and nothing has
changed, or the loop has stopped at the first match `j` and linked it. -/
theorem matchLoop_spec (bfaces : Nat → BoundaryFaceInfo) (face lower cnt : Nat) :
    ((forUp lower cnt (fun j s => matchBody face
        (if (bfaces face).canon_pos % 2 = 0 then (bfaces face).canon_pos + 1
         else (bfaces face).canon_pos - 1)
        (bfaces face).centroid j s) (false, bfaces)) = (false, bfaces) ∧
      ∀ k, lower ≤ k → k < lower + cnt → ¬ IsMatch bfaces face k) ∨
    ∃ j, lower ≤ j ∧ j < lower + cnt ∧ IsMatch bfaces face j ∧
      (∀ k, lower ≤ k → k < j → ¬ IsMatch bfaces face k) ∧
      (forUp lower cnt (fun j s => matchBody face
        (if (bfaces face).canon_pos % 2 = 0 then (bfaces face).canon_pos + 1
         else (bfaces face).canon_pos - 1)
        (bfaces face).centroid j s) (false, bfaces)) = (true, linked bfaces face j) := by
  classical
  induction cnt with
  | zero => exact Or.inl ⟨rfl, fun k h1 h2 => absurd h2 (by omega)⟩
  | succ n ih =>
    simp only [forUp]
    rcases ih with ⟨h1, h2⟩ | ⟨j, h1, h2, h3, h4, h5⟩
    · rw [h1, matchBody_eq]
      by_cases hm : IsMatch bfaces face (lower + n)
      · rw [if_pos hm]
        exact Or.inr ⟨lower + n, by omega, by omega, hm, fun k a b => h2 k a b, rfl⟩
      · rw [if_neg hm]
        refine Or.inl ⟨rfl, fun k a b => ?_⟩
        by_cases hk : k = lower + n
        · rw [hk]; exact hm
        · exact h2 k a (by omega)
    · rw [h5, matchBody_done]
      exact Or.inr ⟨j, h1, by omega, h3, h4, rfl⟩

theorem matchFace_eq (bfaces : Nat → BoundaryFaceInfo) (face lower upper : Nat) :
    ((matchFace bfaces face lower upper = (decide ((bfaces face).partner_face_index ≠ -1),
        bfaces)) ∧
      ∀ k, lower ≤ k → k < upper → ¬ IsMatch bfaces face k) ∨
    ∃ j, lower ≤ j ∧ j < upper ∧ IsMatch bfaces face j ∧
      (∀ k, lower ≤ k → k < j → ¬ IsMatch bfaces face k) ∧
      matchFace bfaces face lower upper =
        (decide ((bfaces j).face_index ≠ -1), linked bfaces face j) := by
  unfold matchFace
  rcases matchLoop_spec bfaces face lower (upper - lower) with ⟨h1, h2⟩ | ⟨j, h1, h2, h3, h4, h5⟩
  · left
    simp only [h1]
    exact ⟨trivial, fun k a b => h2 k a (by omega)⟩
  · right
    refine ⟨j, h1, by omega, h3, h4, ?_⟩
    simp only [h5]
    have hne := IsMatch_ne bfaces face j h3
    have : (linked bfaces face j face).partner_face_index = (bfaces j).face_index := by
      unfold linked
      rw [if_neg (Ne.symm hne), if_pos rfl]
    rw [this]

/-- The partner search on a face without a partner:
`match(bfaces, face, lower, upper)` returns whether `face` has a partner after
the search.  The search links `face` with the first match
`j` in `[lower, upper)` symmetrically, each one's `partner_face_index` and
`partner_bid` becoming the other's `face_index` and `bid`, and modifies no other
entry; without a match it modifies nothing.  For a `face` that has no partner
on entry (`partner_face_index = -1`), the face indices in the interval being
different from -1, it returns true if and only if there is a match in
`[lower, upper)`. -/
theorem match_links (bfaces : Nat → BoundaryFaceInfo) (face lower upper : Nat) :
    ((matchFace bfaces face lower upper).1 = true ↔
      ((matchFace bfaces face lower upper).2 face).partner_face_index ≠ -1) ∧
    (∀ j, lower ≤ j → j < upper → IsMatch bfaces face j →
      (∀ k, lower ≤ k → k < j → ¬ IsMatch bfaces face k) →
      (matchFace bfaces face lower upper).2 = linked bfaces face j ∧ j ≠ face ∧
      (∀ k, k ≠ face → k ≠ j → (matchFace bfaces face lower upper).2 k = bfaces k) ∧
      (matchFace bfaces face lower upper).2 face =
        { bfaces face with partner_face_index := (bfaces j).face_index,
                           partner_bid := (bfaces j).bid } ∧
      (matchFace bfaces face lower upper).2 j =
        { bfaces j with partner_face_index := (bfaces face).face_index,
                        partner_bid := (bfaces face).bid }) ∧
    ((∀ j, lower ≤ j → j < upper → ¬ IsMatch bfaces face j) →
      (matchFace bfaces face lower upper).2 = bfaces) ∧
    ((bfaces face).partner_face_index = -1 →
      (∀ j, lower ≤ j → j < upper → (bfaces j).face_index ≠ -1) →
      ((matchFace bfaces face lower upper).1 = true ↔
        ∃ j, lower ≤ j ∧ j < upper ∧ IsMatch bfaces face j)) := by
  refine ⟨?_, ?_, ?_, ?_⟩
  · unfold matchFace
    simp only [decide_eq_true_eq]
  · intro j hj1 hj2 hm hfirst
    have hne := IsMatch_ne bfaces face j hm
    have hr : (matchFace bfaces face lower upper).2 = linked bfaces face j := by
      rcases matchFace_eq bfaces face lower upper with ⟨_, h2⟩ | ⟨i, h1, h2, h3, h4, h5⟩
      · exact absurd hm (h2 j hj1 hj2)
      · have hij : i = j := by
          rcases Nat.lt_trichotomy i j with h | h | h
          · exact absurd h3 (hfirst i h1 h)
          · exact h
          · exact absurd hm (h4 j hj1 h)
        rw [h5, hij]
    rw [hr]
    refine ⟨rfl, hne, fun k hk1 hk2 => ?_, ?_, ?_⟩
    · unfold linked
      rw [if_neg hk2, if_neg hk1]
    · unfold linked
      rw [if_neg (Ne.symm hne), if_pos rfl]
    · unfold linked
      rw [if_pos rfl]
  · intro hno
    rcases matchFace_eq bfaces face lower upper with ⟨h1, _⟩ | ⟨i, h1, h2, h3, _, _⟩
    · rw [h1]
    · exact absurd h3 (hno i h1 h2)
  · intro hpart hidx
    rcases matchFace_eq bfaces face lower upper with ⟨h1, h2⟩ | ⟨i, h1, h2, h3, _, h5⟩
    · rw [h1]
      constructor
      · intro h
        have := of_decide_eq_true h
        exact absurd hpart this
      · rintro ⟨j, a, b, c⟩
        exact absurd c (h2 j a b)
    · rw [h5]
      exact ⟨fun _ => ⟨i, h1, h2, h3⟩, fun _ => decide_eq_true (hidx i h1 h2)⟩

/-- The partner search on an instance: in `sampleFaces` the first match for
face 0 in `[0, 3)` is face 2; `match` returns true and links the two. -/
theorem match_links_witness :
    (matchFace sampleFaces 0 0 3).1 = true ∧
    ((matchFace sampleFaces 0 0 3).2 0).partner_face_index = 2 ∧
    ((matchFace sampleFaces 0 0 3).2 0).partner_bid = 3 ∧
    ((matchFace sampleFaces 0 0 3).2 2).partner_face_index = 0 ∧
    ((matchFace sampleFaces 0 0 3).2 2).partner_bid = 1 ∧
    (matchFace sampleFaces 0 0 3).2 1 = sampleFaces 1 :=
  have hm : IsMatch sampleFaces 0 2 := ⟨by decide, by decide!, by decide!⟩
  have hfirst : ∀ k, 0 ≤ k → k < 2 → ¬ IsMatch sampleFaces 0 k := by
    intro k _ hk h
    have h1 := h.1
    interval_cases k
    · exact absurd h1 (by decide)
    · exact absurd h1 (by decide)
  have h := match_links sampleFaces 0 0 3
  have hl := h.2.1 2 (by decide) (by decide) hm hfirst
  have ht : (matchFace sampleFaces 0 0 3).1 = true :=
    (h.2.2.2 rfl (fun j _ _ => by
      show (j : Int) ≠ -1
      omega)).mpr ⟨2, by decide, by decide, hm⟩
  ⟨ht, by rw [hl.2.2.2.1]; rfl, by rw [hl.2.2.2.1]; rfl, by rw [hl.2.2.2.2]; rfl,
    by rw [hl.2.2.2.2]; rfl, hl.2.2.1 1 (by decide) (by decide)⟩

theorem permRows_perm (pivot : Nat → Nat) (n : Nat) (f : Nat → Nat → ℚ) (i : Nat)
    (hi : i ≤ n) (hpiv : ∀ k, k < n → pivot k < n) :
    ∃ π : Equiv.Perm Nat, (∀ k, k < n → π k < n) ∧
      ∀ k j, permRows pivot i f k j = f (π k) j := by
  induction i with
  | zero => exact ⟨1, fun k hk => hk, fun k j => rfl⟩
  | succ m ih =>
    obtain ⟨π, h1, h2⟩ := ih (by omega)
    refine ⟨π * Equiv.swap m (pivot m), fun k hk => ?_, fun k j => ?_⟩
    · show π (Equiv.swap m (pivot m) k) < n
      apply h1
      rw [Equiv.swap_apply_def]
      split
      · exact hpiv m (by omega)
      · split
        · omega
        · exact hk
    · show permRows pivot m f (swapIdx m (pivot m) k) j = f (π (Equiv.swap m (pivot m) k)) j
      rw [h2]
      congr 2

theorem lu_factors {σ : Type} (p : FMatrixPrecision) (hp : 0 < p.absolute_limit)
    (A : DenseMatrix) (F : Func σ) (func : σ) (p0 : Nat → Nat)
    (hok : (luDecomposition p A.rows A F func).1 = none) :
    toMatrix A.rows (lowerU (luDecomposition p A.rows A F func).2.1) *
        toMatrix A.rows (eff A.rows (luDecomposition p A.rows A F func).2.1) =
      toMatrix A.rows (permRows
        (luDecomposition p A.rows A ElimPivot (ElimPivot.init A.rows p0)).2.2
        A.rows A.get) ∧
    (∀ k, k < A.rows →
      k ≤ (luDecomposition p A.rows A ElimPivot (ElimPivot.init A.rows p0)).2.2 k ∧
      (luDecomposition p A.rows A ElimPivot (ElimPivot.init A.rows p0)).2.2 k < A.rows) := by
  obtain ⟨o1, o2⟩ := luDecomposition_observer p A.rows A F func ElimPivot
    (ElimPivot.init A.rows p0)
  obtain ⟨h1, _, h3⟩ := luDecomposition_pivot p hp A p0 (o1 ▸ hok)
  refine ⟨?_, h3⟩
  rw [← luSum_eq_mul, o2]
  ext k j
  exact (h1 k j k.2 j.2).symm

/-- C28: the LU invariant of the factorization engine.  Whenever
`luDecomposition` throws nothing on a working copy of `A`, with whatever
observer, the result `W` holds the combined factors: with `L` the unit lower
triangular matrix whose part below the diagonal is that of `W`, `U` the upper
triangle of `W` with the diagonal, and the rows of `A` exchanged as the swaps
`(i, imax)` notified to `ElimPivot` say, in order, `L * U` is the permuted `A`;
every notified `imax` lies in `[i, rows())` and the exchanges amount to a
permutation of the rows.  The absolute limit is positive, as it is initially. -/
theorem lu_invariant {σ : Type} (p : FMatrixPrecision) (hp : 0 < p.absolute_limit)
    (A : DenseMatrix) (F : Func σ) (func : σ)
    (hok : (luDecomposition p A.rows A F func).1 = none) :
    toMatrix A.rows (lowerU (luDecomposition p A.rows A F func).2.1) *
        toMatrix A.rows (eff A.rows (luDecomposition p A.rows A F func).2.1) =
      toMatrix A.rows (permRows
        (luDecomposition p A.rows A ElimPivot (ElimPivot.init A.rows fun _ => 0)).2.2
        A.rows A.get) ∧
    (∀ k m, k < A.rows → m < A.rows →
      lowerU (luDecomposition p A.rows A F func).2.1 k m =
        if m < k then (luDecomposition p A.rows A F func).2.1.get k m
        else if m = k then 1 else 0) ∧
    (∀ k j, k < A.rows → j < A.rows →
      eff A.rows (luDecomposition p A.rows A F func).2.1 k j =
        if j < k then 0 else (luDecomposition p A.rows A F func).2.1.get k j) ∧
    (∀ k, k < A.rows →
      k ≤ (luDecomposition p A.rows A ElimPivot (ElimPivot.init A.rows fun _ => 0)).2.2 k ∧
      (luDecomposition p A.rows A ElimPivot (ElimPivot.init A.rows fun _ => 0)).2.2 k
        < A.rows) ∧
    (∃ π : Equiv.Perm Nat, (∀ k, k < A.rows → π k < A.rows) ∧
      ∀ k j, permRows
        (luDecomposition p A.rows A ElimPivot (ElimPivot.init A.rows fun _ => 0)).2.2
        A.rows A.get k j = A.get (π k) j) := by
  obtain ⟨h1, h2⟩ := lu_factors p hp A F func (fun _ => 0) hok
  refine ⟨h1, fun k m _ _ => rfl, fun k j _ hj => ?_, h2,
    permRows_perm _ A.rows A.get A.rows le_rfl fun k hk => (h2 k hk).2⟩
  unfold eff
  by_cases h : j < k
  · rw [if_pos ⟨hj, h⟩, if_pos h]
  · rw [if_neg (fun a => h a.2), if_neg h]

/-- Instance of C28: the regular 4 x 4 sample matrix, whose entry `(0, 0)` is
zero, under the initial thresholds with the observer `Elim`. -/
theorem lu_invariant_witness :
    (luDecomposition FMatrixPrecision.initial 4 sampleRegular Elim sampleRhs).1 = none ∧
    toMatrix 4 (lowerU
        (luDecomposition FMatrixPrecision.initial 4 sampleRegular Elim sampleRhs).2.1) *
      toMatrix 4 (eff 4
        (luDecomposition FMatrixPrecision.initial 4 sampleRegular Elim sampleRhs).2.1) =
      toMatrix 4 (permRows
        (luDecomposition FMatrixPrecision.initial 4 sampleRegular ElimPivot
          (ElimPivot.init 4 fun _ => 0)).2.2 4 sampleRegular.get) :=
  ⟨by decide!,
    (lu_invariant FMatrixPrecision.initial (by decide!) sampleRegular Elim sampleRhs
      (by decide!)).1⟩

theorem pivotSearch_max (rows : Nat) (W : DenseMatrix) (i : Nat) :
    ∀ k, i ≤ k → k < rows →
      absreal (W.get k i) ≤ (pivotSearch rows W i (absreal (W.get i i))).1 := by
  unfold pivotSearch
  have key := forUp_induct
    (fun cnt (s : ℚ × Nat) => absreal (W.get i i) ≤ s.1 ∧
      ∀ k, i + 1 ≤ k → k < i + 1 + cnt → absreal (W.get k i) ≤ s.1)
    (i + 1) (rows - (i + 1))
    (fun k s => if absreal (W.get k i) > s.1 then (absreal (W.get k i), k) else s)
    (absreal (W.get i i), i)
    ⟨le_rfl, fun k h1 h2 => absurd h2 (by omega)⟩ ?_
  · intro k h1 h2
    rcases Nat.eq_or_lt_of_le h1 with h | h
    · rw [← h]
      exact key.1
    · exact key.2 k h (by omega)
  · intro cnt s _ ⟨h1, h2⟩
    by_cases hgt : absreal (W.get (i + 1 + cnt) i) > s.1
    · simp only [if_pos hgt]
      refine ⟨le_trans h1 (le_of_lt hgt), fun k a b => ?_⟩
      by_cases hk : k = i + 1 + cnt
      · rw [hk]
      · exact le_trans (h2 k a (by omega)) (le_of_lt hgt)
    · simp only [if_neg hgt]
      refine ⟨h1, fun k a b => ?_⟩
      by_cases hk : k = i + 1 + cnt
      · rw [hk]
        exact not_lt.mp hgt
      · exact h2 k a (by omega)

theorem pivmax_eq (rows : Nat) (pivthres : ℚ) (W : DenseMatrix) (i : Nat) :
    absreal ((swapStep rows i (pivotRow rows pivthres W i) W).get i i)
      = pivmax rows pivthres W i := by
  unfold pivmax pivotRow
  by_cases hp : absreal (W.get i i) < pivthres
  · rw [if_pos hp, if_pos hp]
    obtain ⟨h1, h2⟩ := pivotSearch_spec rows W i
    rw [h1]
    rcases h2 with h | h
    · rw [h, swapStep_self]
    · rw [swapStep_get, if_pos (by omega), if_pos rfl]
  · rw [if_neg hp, if_neg hp, swapStep_self]

theorem luBody_pivmax {σ : Type} (rows : Nat) (pivthres singthres : ℚ) (F : Func σ) (i : Nat)
    (W : DenseMatrix) (st : σ) :
    luBody rows pivthres singthres F i (W, st) =
      if pivmax rows pivthres W i < singthres then
        (some FMatrixError.singular,
          (swapStep rows i (pivotRow rows pivthres W i) W,
            if pivotRow rows pivthres W i = i then st
            else F.swap i (pivotRow rows pivthres W i) st))
      else
        (none,
          (elimStep rows i (swapStep rows i (pivotRow rows pivthres W i) W),
            elimCalls rows F i (swapStep rows i (pivotRow rows pivthres W i) W)
              (if pivotRow rows pivthres W i = i then st
               else F.swap i (pivotRow rows pivthres W i) st))) := by
  rw [luBody_spec, pivmax_eq]

theorem luLoop_step {σ : Type} (p : FMatrixPrecision) (rows : Nat) (A : DenseMatrix)
    (F : Func σ) (func : σ) (n : Nat) (hn : (luLoop p rows A F func n).1 = none) :
    luLoop p rows A F func (n + 1) =
      luBody rows (pivThreshold p A) (singThreshold p A) F n
        ((luLoop p rows A F func n).2.1, (luLoop p rows A F func n).2.2) := by
  rw [luLoop_succ, hn]

theorem luLoop_stuck {σ : Type} (p : FMatrixPrecision) (rows : Nat) (A : DenseMatrix)
    (F : Func σ) (func : σ) (n : Nat) (e : FMatrixError)
    (hn : (luLoop p rows A F func n).1 = some e) (m : Nat) :
    luLoop p rows A F func (n + m) = luLoop p rows A F func n := by
  induction m with
  | zero => rfl
  | succ k ih =>
    rw [← Nat.add_assoc, luLoop_succ, ih, hn]

theorem luLoop_reached {σ : Type} (p : FMatrixPrecision) (rows : Nat) (A : DenseMatrix)
    (F : Func σ) (func : σ) (n : Nat) (hn : (luLoop p rows A F func n).1 = none) :
    ∀ k, k < n → (luLoop p rows A F func k).1 = none ∧
      ¬ pivmax rows (pivThreshold p A) (luLoop p rows A F func k).2.1 k
        < singThreshold p A := by
  induction n with
  | zero => intro k hk; exact absurd hk (by omega)
  | succ m ih =>
    have hm : (luLoop p rows A F func m).1 = none := by
      cases hprev : (luLoop p rows A F func m).1 with
      | none => rfl
      | some e =>
        have := luLoop_stuck p rows A F func m e hprev 1
        rw [this, hprev] at hn
        exact absurd hn (by simp)
    intro k hk
    rcases Nat.eq_or_lt_of_le (Nat.lt_succ_iff.mp hk) with h | h
    · rw [h]
      refine ⟨hm, fun hlt => ?_⟩
      rw [luLoop_step p rows A F func m hm, luBody_pivmax, if_pos hlt] at hn
      exact absurd hn (by simp)
    · exact ih hm k h

theorem luLoop_fails {σ : Type} (p : FMatrixPrecision) (rows : Nat) (A : DenseMatrix)
    (F : Func σ) (func : σ) (n : Nat)
    (hn : (luLoop p rows A F func n).1 = some FMatrixError.singular) :
    ∃ i, i < n ∧ (luLoop p rows A F func i).1 = none ∧
      pivmax rows (pivThreshold p A) (luLoop p rows A F func i).2.1 i
        < singThreshold p A := by
  induction n with
  | zero => exact absurd hn (by simp [luLoop, forUp])
  | succ m ih =>
    cases hprev : (luLoop p rows A F func m).1 with
    | some e =>
      have := luLoop_stuck p rows A F func m e hprev 1
      rw [this] at hn
      obtain ⟨i, h1, h2, h3⟩ := ih hn
      exact ⟨i, by omega, h2, h3⟩
    | none =>
      refine ⟨m, by omega, hprev, ?_⟩
      by_contra hlt
      rw [luLoop_step p rows A F func m hprev, luBody_pivmax, if_neg hlt] at hn
      exact absurd hn (by simp)

/-- C29: singularity detection in the engine.  `luDecomposition` throws
"matrix is singular", its only exception, if and only if at some step `i` that
it reaches the pivot magnitude `pivmax` is strictly below `singthres`.  At such
a step no earlier step had its `pivmax` below `singthres`, and the
decomposition ends there with the rows exchanged (and the observer notified, if
the pivot search chose another row) and no elimination of step `i` done.
`pivmax` is `absreal(W[i][i])` when no pivot search ran, and otherwise the
maximum of `absreal(W[k][i])` over `k = i..rows()-1`. -/
theorem singularity_detection {σ : Type} (p : FMatrixPrecision) (rows : Nat)
    (A : DenseMatrix) (F : Func σ) (func : σ) :
    ((luDecomposition p rows A F func).1 = some FMatrixError.singular ↔
      ∃ i, i < rows ∧ (luLoop p rows A F func i).1 = none ∧
        pivmax rows (pivThreshold p A) (luLoop p rows A F func i).2.1 i
          < singThreshold p A) ∧
    ((luDecomposition p rows A F func).1 = none ∨
      (luDecomposition p rows A F func).1 = some FMatrixError.singular) ∧
    (∀ i, i < rows → (luLoop p rows A F func i).1 = none →
      pivmax rows (pivThreshold p A) (luLoop p rows A F func i).2.1 i < singThreshold p A →
      (∀ k, k < i →
        ¬ pivmax rows (pivThreshold p A) (luLoop p rows A F func k).2.1 k
          < singThreshold p A) ∧
      luDecomposition p rows A F func =
        (some FMatrixError.singular,
          (swapStep rows i
              (pivotRow rows (pivThreshold p A) (luLoop p rows A F func i).2.1 i)
              (luLoop p rows A F func i).2.1,
            if pivotRow rows (pivThreshold p A) (luLoop p rows A F func i).2.1 i = i then
              (luLoop p rows A F func i).2.2
            else F.swap i (pivotRow rows (pivThreshold p A) (luLoop p rows A F func i).2.1 i)
              (luLoop p rows A F func i).2.2))) ∧
    (∀ (W : DenseMatrix) i, i < rows →
      (¬ absreal (W.get i i) < pivThreshold p A →
        pivmax rows (pivThreshold p A) W i = absreal (W.get i i)) ∧
      (absreal (W.get i i) < pivThreshold p A →
        (∀ k, i ≤ k → k < rows →
          absreal (W.get k i) ≤ pivmax rows (pivThreshold p A) W i) ∧
        ∃ m, i ≤ m ∧ m < rows ∧ pivmax rows (pivThreshold p A) W i = absreal (W.get m i))) := by
  have hfail : ∀ i, i < rows → (luLoop p rows A F func i).1 = none →
      pivmax rows (pivThreshold p A) (luLoop p rows A F func i).2.1 i < singThreshold p A →
      luDecomposition p rows A F func =
        (some FMatrixError.singular,
          (swapStep rows i
              (pivotRow rows (pivThreshold p A) (luLoop p rows A F func i).2.1 i)
              (luLoop p rows A F func i).2.1,
            if pivotRow rows (pivThreshold p A) (luLoop p rows A F func i).2.1 i = i then
              (luLoop p rows A F func i).2.2
            else F.swap i (pivotRow rows (pivThreshold p A) (luLoop p rows A F func i).2.1 i)
              (luLoop p rows A F func i).2.2)) := by
    intro i hi hr hlt
    have hs : luLoop p rows A F func (i + 1) = _ :=
      (luLoop_step p rows A F func i hr).trans
        ((luBody_pivmax rows _ _ F i _ _).trans (if_pos hlt))
    have hstuck := luLoop_stuck p rows A F func (i + 1) FMatrixError.singular
      (by rw [hs]) (rows - (i + 1))
    rw [luDecomposition_eq]
    have e : i + 1 + (rows - (i + 1)) = rows := by omega
    rw [e] at hstuck
    rw [hstuck, hs]
  refine ⟨⟨fun h => luLoop_fails p rows A F func rows h, ?_⟩,
    luLoop_error p rows A F func rows, fun i hi hr hlt =>
      ⟨fun k hk => (luLoop_reached p rows A F func i hr k hk).2, hfail i hi hr hlt⟩,
    fun W i hi => ⟨fun h => ?_, fun h => ⟨?_, ?_⟩⟩⟩
  · rintro ⟨i, hi, hr, hlt⟩
    rw [hfail i hi hr hlt]
  · unfold pivmax
    rw [if_neg h]
  · unfold pivmax
    rw [if_pos h]
    exact pivotSearch_max rows W i
  · unfold pivmax
    rw [if_pos h]
    obtain ⟨h1, h2⟩ := pivotSearch_spec rows W i
    refine ⟨(pivotSearch rows W i (absreal (W.get i i))).2, ?_, ?_, h1⟩
    · rcases h2 with h | h <;> omega
    · rcases h2 with h | h <;> omega

/-- Instance of C29: the 4 x 4 sample matrix with a zero row under the initial
thresholds; the decomposition throws, and some step has its pivot magnitude
below the singularity threshold. -/
theorem singularity_detection_witness :
    (luDecomposition FMatrixPrecision.initial 4 sampleZeroRow Elim sampleRhs).1
      = some FMatrixError.singular ∧
    ∃ i, i < 4 ∧ (luLoop FMatrixPrecision.initial 4 sampleZeroRow Elim sampleRhs i).1 = none ∧
      pivmax 4 (pivThreshold FMatrixPrecision.initial sampleZeroRow)
        (luLoop FMatrixPrecision.initial 4 sampleZeroRow Elim sampleRhs i).2.1 i
        < singThreshold FMatrixPrecision.initial sampleZeroRow :=
  have h : (luDecomposition FMatrixPrecision.initial 4 sampleZeroRow Elim sampleRhs).1
      = some FMatrixError.singular := by decide!
  ⟨h, (singularity_detection FMatrixPrecision.initial 4 sampleZeroRow Elim sampleRhs).1.mp h⟩

theorem luBody_noswap {σ : Type} (rows : Nat) (pivthres singthres : ℚ) (F : Func σ) (i : Nat)
    (W : DenseMatrix) (st : σ) (h : ¬ absreal (W.get i i) < pivthres) :
    luBody rows pivthres singthres F i (W, st) =
      if absreal (W.get i i) < singthres then (some FMatrixError.singular, (W, st))
      else (none, (elimStep rows i W, elimCalls rows F i W st)) := by
  have hrow : pivotRow rows pivthres W i = i := by
    unfold pivotRow
    rw [if_neg h]
  rw [luBody_spec, hrow, swapStep_self, if_pos rfl]

theorem luLoop_noswap {σ τ : Type} (p : FMatrixPrecision) (rows : Nat) (A : DenseMatrix)
    (F : Func σ) (func : σ)
    (h : ∀ i, i < rows →
      ¬ absreal ((luLoop p rows A F func i).2.1.get i i) < pivThreshold p A)
    (G : Func τ) (gunc : τ) (sw : Nat → Nat → τ → τ) (cnt : Nat) (hcnt : cnt ≤ rows) :
    luLoop p rows A G gunc cnt = luLoop p rows A ⟨sw, G.call⟩ gunc cnt := by
  induction cnt with
  | zero => rfl
  | succ n ih =>
    have ihn := ih (by omega)
    rw [luLoop_succ, luLoop_succ, ← ihn]
    cases hG : (luLoop p rows A G gunc n).1 with
    | some e => rfl
    | none =>
      simp only
      have hW : ¬ absreal ((luLoop p rows A G gunc n).2.1.get n n) < pivThreshold p A := by
        rw [← (luLoop_observer p rows A F func G gunc n).2]
        exact h n (by omega)
      have e1 := luBody_noswap rows (pivThreshold p A) (singThreshold p A) G n
        (luLoop p rows A G gunc n).2.1 (luLoop p rows A G gunc n).2.2 hW
      have e2 := luBody_noswap rows (pivThreshold p A) (singThreshold p A) ⟨sw, G.call⟩ n
        (luLoop p rows A G gunc n).2.1 (luLoop p rows A G gunc n).2.2 hW
      rw [Prod.mk.eta] at e1 e2
      rw [e1, e2]
      rfl

theorem luLoop_silent {σ τ : Type} (p : FMatrixPrecision) (rows : Nat) (A : DenseMatrix)
    (F : Func σ) (func : σ)
    (h : ∀ i, i < rows →
      ¬ absreal ((luLoop p rows A F func i).2.1.get i i) < pivThreshold p A)
    (G : Func τ) (gunc : τ) (hcall : ∀ f k i s, G.call f k i s = s)
    (cnt : Nat) (hcnt : cnt ≤ rows) :
    (luLoop p rows A G gunc cnt).2.2 = gunc := by
  induction cnt with
  | zero => rfl
  | succ n ih =>
    have ihn := ih (by omega)
    rw [luLoop_succ]
    cases hG : (luLoop p rows A G gunc n).1 with
    | some e => exact ihn
    | none =>
      simp only
      have hW : ¬ absreal ((luLoop p rows A G gunc n).2.1.get n n) < pivThreshold p A := by
        rw [← (luLoop_observer p rows A F func G gunc n).2]
        exact h n (by omega)
      have e1 := luBody_noswap rows (pivThreshold p A) (singThreshold p A) G n
        (luLoop p rows A G gunc n).2.1 (luLoop p rows A G gunc n).2.2 hW
      rw [Prod.mk.eta] at e1
      rw [e1]
      have hcalls : ∀ W, elimCalls rows G n W gunc = gunc := by
        intro W
        unfold elimCalls
        exact forUp_induct (fun _ s => s = gunc) _ _ _ _ rfl
          fun c t _ ht => by rw [ht, hcall]
      split
      · exact ihn
      · show elimCalls rows G n _ (luLoop p rows A G gunc n).2.2 = gunc
        rw [ihn]
        exact hcalls _

theorem permRows_id (pivot : Nat → Nat) (i : Nat) (f : Nat → Nat → ℚ)
    (h : ∀ k, k < i → pivot k = k) : permRows pivot i f = f := by
  induction i with
  | zero => rfl
  | succ n ih =>
    funext k j
    simp only [permRows]
    rw [ih fun k hk => h k (Nat.lt_succ_of_lt hk), h n (Nat.lt_succ_self n), swapIdx_self]

/-- C30: no unnecessary pivoting.  At a step `i` at which `absreal(W[i][i])` is
not below `pivthres`, the body of the loop exchanges no rows and calls no
`swap` of the observer: it throws on `W` as it is, or eliminates in `W` as it
is, calling only `operator()`.  For a matrix whose successive pivots all reach
`pivthres`, the whole decomposition is the same whatever `swap` of the observer
does, the pivot vector of `ElimPivot` stays the identity it was initialised
with, the sign of `ElimDet` stays 1, and, when nothing is thrown and the
absolute limit is positive, `L * U` is `A` itself. -/
theorem no_unnecessary_pivoting {σ : Type} (p : FMatrixPrecision) (A : DenseMatrix)
    (F : Func σ) (func : σ) :
    (∀ (pivthres singthres : ℚ) (i : Nat) (W : DenseMatrix) (st : σ),
      ¬ absreal (W.get i i) < pivthres →
      luBody A.rows pivthres singthres F i (W, st) =
        if absreal (W.get i i) < singthres then (some FMatrixError.singular, (W, st))
        else (none, (elimStep A.rows i W, elimCalls A.rows F i W st))) ∧
    ((∀ i, i < A.rows →
        ¬ absreal ((luLoop p A.rows A F func i).2.1.get i i) < pivThreshold p A) →
      (∀ sw : Nat → Nat → σ → σ,
        luDecomposition p A.rows A F func = luDecomposition p A.rows A ⟨sw, F.call⟩ func) ∧
      (∀ k, (luDecomposition p A.rows A ElimPivot
        (ElimPivot.init A.rows fun _ => 0)).2.2 k = if k < A.rows then k else 0) ∧
      (luDecomposition p A.rows A ElimDet (ElimDet.init 0)).2.2 = 1 ∧
      (0 < p.absolute_limit → (luDecomposition p A.rows A F func).1 = none →
        toMatrix A.rows (lowerU (luDecomposition p A.rows A F func).2.1) *
          toMatrix A.rows (eff A.rows (luDecomposition p A.rows A F func).2.1) =
        toMatrix A.rows A.get)) := by
  refine ⟨fun pivthres singthres i W st h => luBody_noswap A.rows pivthres singthres F i W st h,
    fun h => ?_⟩
  have hpiv : (luDecomposition p A.rows A ElimPivot (ElimPivot.init A.rows fun _ => 0)).2.2
      = ElimPivot.init A.rows fun _ => 0 :=
    luLoop_silent p A.rows A F func h ElimPivot _ (fun _ _ _ _ => rfl) A.rows le_rfl
  refine ⟨fun sw => luLoop_noswap p A.rows A F func h F func sw A.rows le_rfl,
    fun k => ?_,
    luLoop_silent p A.rows A F func h ElimDet _ (fun _ _ _ _ => rfl) A.rows le_rfl,
    fun hp hok => ?_⟩
  · rw [hpiv, ElimPivot_init_apply]
  · rw [(lu_factors p hp A F func (fun _ => 0) hok).1, hpiv,
      permRows_id _ A.rows A.get fun k hk => by rw [ElimPivot_init_apply, if_pos hk]]

/-- Instance of C30: for the identity matrix of size 4 under the initial
thresholds every pivot reaches the pivoting threshold; the decomposition with
an observer whose `swap` overwrites the right hand side is the one with `Elim`. -/
theorem no_unnecessary_pivoting_witness :
    (∀ i, i < 4 →
      ¬ absreal ((luLoop FMatrixPrecision.initial 4 (identity 4) Elim sampleRhs i).2.1.get i i)
        < pivThreshold FMatrixPrecision.initial (identity 4)) ∧
    luDecomposition FMatrixPrecision.initial 4 (identity 4) Elim sampleRhs =
      luDecomposition FMatrixPrecision.initial 4 (identity 4)
        ⟨fun _ _ _ => fun _ => 0, Elim.call⟩ sampleRhs :=
  have hpiv : ∀ i, i < 4 →
      ¬ absreal ((luLoop FMatrixPrecision.initial 4 (identity 4) Elim sampleRhs i).2.1.get i i)
        < pivThreshold FMatrixPrecision.initial (identity 4) := by
    intro i hi
    interval_cases i <;> decide!
  ⟨hpiv, ((no_unnecessary_pivoting FMatrixPrecision.initial (identity 4) Elim sampleRhs).2
    hpiv).1 (fun _ _ _ => fun _ => 0)⟩

theorem forUp_first {σ : Type} (lo cnt : Nat) (body : Nat → σ → σ) (s : σ) :
    forUp lo (cnt + 1) body s = forUp (lo + 1) cnt body (body lo s) := by
  induction cnt with
  | zero => rfl
  | succ c ih =>
    show body (lo + (c + 1)) (forUp lo (c + 1) body s) =
      body (lo + 1 + c) (forUp (lo + 1) c body (body lo s))
    rw [ih, Nat.add_right_comm lo 1 c, Nat.add_assoc]

theorem solve_outcome (checking : Bool) (p : FMatrixPrecision) (A : DenseMatrix) (x b : Vec) :
    (solve checking p A x b).1 = none ∨
    (solve checking p A x b).1 = some FMatrixError.notSquare ∨
    (solve checking p A x b).1 = some FMatrixError.singular := by
  by_cases hsq : A.rows = A.cols
  · have hr : A.rows = 0 ∨ A.rows = 1 ∨ A.rows = 2 ∨ A.rows = 3 ∨ 4 ≤ A.rows := by omega
    rcases hr with h | h | h | h | h
    · obtain ⟨r, c, a⟩ := A
      simp only [DenseMatrix.rows, DenseMatrix.cols] at hsq h
      subst hsq; subst h
      exact Or.inl rfl
    · obtain ⟨r, c, a⟩ := A
      simp only [DenseMatrix.rows, DenseMatrix.cols] at hsq h
      subst hsq; subst h
      rw [solve_one_eq]
      split
      · exact Or.inr (Or.inr rfl)
      · exact Or.inl rfl
    · obtain ⟨r, c, a⟩ := A
      simp only [DenseMatrix.rows, DenseMatrix.cols] at hsq h
      subst hsq; subst h
      rw [solve_two_eq]
      split
      · exact Or.inr (Or.inr rfl)
      · exact Or.inl rfl
    · obtain ⟨r, c, a⟩ := A
      simp only [DenseMatrix.rows, DenseMatrix.cols] at hsq h
      subst hsq; subst h
      rw [solve_three_eq]
      split
      · exact Or.inr (Or.inr rfl)
      · exact Or.inl rfl
    · rcases luLoop_error p A.rows A Elim b A.rows with hlu | hlu
      · rw [solve_general_ok checking p A hsq h x b hlu]
        exact Or.inl rfl
      · rw [solve_general_err checking p A hsq h x b _ hlu]
        exact Or.inr (Or.inr rfl)
  · unfold solve
    rw [if_pos hsq]
    exact Or.inr (Or.inl rfl)

theorem invert_outcome (checking : Bool) (p : FMatrixPrecision) (A : DenseMatrix) :
    (invert checking p A).1 = none ∨
    (invert checking p A).1 = some FMatrixError.notSquare ∨
    (invert checking p A).1 = some FMatrixError.singular := by
  by_cases hsq : A.rows = A.cols
  · have hr : A.rows = 0 ∨ A.rows = 1 ∨ A.rows = 2 ∨ 3 ≤ A.rows := by omega
    rcases hr with h | h | h | h
    · obtain ⟨r, c, a⟩ := A
      simp only [DenseMatrix.rows, DenseMatrix.cols] at hsq h
      subst hsq; subst h
      exact Or.inl rfl
    · obtain ⟨r, c, a⟩ := A
      simp only [DenseMatrix.rows, DenseMatrix.cols] at hsq h
      subst hsq; subst h
      rw [invert_one_eq]
      split
      · exact Or.inr (Or.inr rfl)
      · exact Or.inl rfl
    · obtain ⟨r, c, a⟩ := A
      simp only [DenseMatrix.rows, DenseMatrix.cols] at hsq h
      subst hsq; subst h
      rw [invert_two_eq]
      split
      · exact Or.inr (Or.inr rfl)
      · exact Or.inl rfl
    · rcases luLoop_error p A.rows A ElimPivot (ElimPivot.init A.rows fun _ => 0) A.rows
        with hlu | hlu
      · rw [invert_general_ok checking p A hsq h hlu]
        exact Or.inl rfl
      · rw [invert_general_err checking p A hsq h _ hlu]
        exact Or.inr (Or.inr rfl)
  · unfold invert
    rw [if_pos hsq]
    exact Or.inr (Or.inl rfl)

theorem determinant_outcome (p : FMatrixPrecision) (A : DenseMatrix) :
    (∃ d, determinant p A = Except.ok d) ∨
    determinant p A = Except.error FMatrixError.notSquare := by
  by_cases hsq : A.rows = A.cols
  · left
    have hr : A.rows = 0 ∨ (1 ≤ A.rows ∧ A.rows ≤ 3) ∨ 4 ≤ A.rows := by omega
    rcases hr with h | h | h
    · obtain ⟨r, c, a⟩ := A
      simp only [DenseMatrix.rows, DenseMatrix.cols] at hsq h
      subst hsq; subst h
      exact ⟨1, rfl⟩
    · exact ⟨_, determinant_small_det p A hsq h.1 h.2⟩
    · rcases luLoop_error p A.rows A ElimDet (ElimDet.init 0) A.rows with hlu | hlu
      · exact ⟨_, determinant_general_ok p A hsq h hlu⟩
      · exact ⟨_, determinant_general_err p A hsq h _ hlu⟩
  · right
    unfold determinant
    rw [if_pos hsq]

/-! ## Pivot selection, thresholds, observers and the agreement of solve and invert -/

theorem pivotSearch_first (rows : Nat) (W : DenseMatrix) (i : Nat) :
    ∀ k, i ≤ k → k < (pivotSearch rows W i (absreal (W.get i i))).2 →
      absreal (W.get k i) < (pivotSearch rows W i (absreal (W.get i i))).1 := by
  unfold pivotSearch
  have key := forUp_induct
    (fun cnt (s : ℚ × Nat) => s.2 < i + 1 + cnt ∧
      (∀ k, i ≤ k → k < i + 1 + cnt → absreal (W.get k i) ≤ s.1) ∧
      ∀ k, i ≤ k → k < s.2 → absreal (W.get k i) < s.1)
    (i + 1) (rows - (i + 1))
    (fun k s => if absreal (W.get k i) > s.1 then (absreal (W.get k i), k) else s)
    (absreal (W.get i i), i)
    ⟨by omega, fun k h1 h2 => by
        have : k = i := by omega
        rw [this], fun k h1 h2 => absurd h2 (by omega)⟩ ?_
  · exact key.2.2
  · intro cnt s _ ⟨h1, h2, h3⟩
    by_cases hgt : absreal (W.get (i + 1 + cnt) i) > s.1
    · simp only [if_pos hgt]
      refine ⟨by omega, fun k a b => ?_, fun k a b => ?_⟩
      · by_cases hk : k = i + 1 + cnt
        · rw [hk]
        · exact le_trans (h2 k a (by omega)) (le_of_lt hgt)
      · exact lt_of_le_of_lt (h2 k a b) hgt
    · simp only [if_neg hgt]
      refine ⟨by omega, fun k a b => ?_, h3⟩
      by_cases hk : k = i + 1 + cnt
      · rw [hk]
        exact not_lt.mp hgt
      · exact h2 k a (by omega)

/-- C31: pivot selection.  At a step `i < rows()` at which `absreal(W[i][i])` is
below `pivthres`, the pivot search selects `imax` in `[i, rows())` with
`absreal(W[imax][i])` the maximum of `absreal(W[k][i])` over `k = i..rows()-1`
and every row `k` in `[i, imax)` strictly smaller, so the earliest row attaining
the maximum.  The body then goes on with the rows `i` and `imax` exchanged in
all columns below `rows()`, the stored factors included, and the observer
notified by one `swap(i, imax)`, when `imax != i`; with `W` and the observer as
they are when `imax = i`. -/
theorem pivot_selection {σ : Type} (rows : Nat) (pivthres singthres : ℚ) (F : Func σ)
    (i : Nat) (W : DenseMatrix) (st : σ) (hi : i < rows)
    (hlt : absreal (W.get i i) < pivthres) :
    (i ≤ (pivotSearch rows W i (absreal (W.get i i))).2 ∧
      (pivotSearch rows W i (absreal (W.get i i))).2 < rows) ∧
    (∀ k, i ≤ k → k < rows → absreal (W.get k i) ≤
      absreal (W.get (pivotSearch rows W i (absreal (W.get i i))).2 i)) ∧
    (∀ k, i ≤ k → k < (pivotSearch rows W i (absreal (W.get i i))).2 →
      absreal (W.get k i) <
        absreal (W.get (pivotSearch rows W i (absreal (W.get i i))).2 i)) ∧
    luBody rows pivthres singthres F i (W, st) =
      (if absreal (W.get (pivotSearch rows W i (absreal (W.get i i))).2 i) < singthres then
        (some FMatrixError.singular,
          (swapStep rows i (pivotSearch rows W i (absreal (W.get i i))).2 W,
            if (pivotSearch rows W i (absreal (W.get i i))).2 = i then st
            else F.swap i (pivotSearch rows W i (absreal (W.get i i))).2 st))
      else
        (none,
          (elimStep rows i (swapStep rows i (pivotSearch rows W i (absreal (W.get i i))).2 W),
            elimCalls rows F i
              (swapStep rows i (pivotSearch rows W i (absreal (W.get i i))).2 W)
              (if (pivotSearch rows W i (absreal (W.get i i))).2 = i then st
               else F.swap i (pivotSearch rows W i (absreal (W.get i i))).2 st)))) ∧
    (∀ r c, (swapStep rows i (pivotSearch rows W i (absreal (W.get i i))).2 W).get r c =
      if c < rows then
        (if r = i then W.get (pivotSearch rows W i (absreal (W.get i i))).2 c
         else if r = (pivotSearch rows W i (absreal (W.get i i))).2 then W.get i c
         else W.get r c)
      else W.get r c) ∧
    ((pivotSearch rows W i (absreal (W.get i i))).2 = i →
      swapStep rows i (pivotSearch rows W i (absreal (W.get i i))).2 W = W) := by
  obtain ⟨h1, h2⟩ := pivotSearch_spec rows W i
  have hrow : pivotRow rows pivthres W i = (pivotSearch rows W i (absreal (W.get i i))).2 := by
    unfold pivotRow
    rw [if_pos hlt]
  have hpm := pivmax_eq rows pivthres W i
  rw [hrow] at hpm
  have hpv : pivmax rows pivthres W i =
      absreal (W.get (pivotSearch rows W i (absreal (W.get i i))).2 i) := by
    unfold pivmax
    rw [if_pos hlt, h1]
  refine ⟨?_, fun k a b => ?_, fun k a b => ?_, ?_, fun r c => rfl, fun h => ?_⟩
  · rcases h2 with h | h
    · rw [h]; exact ⟨le_rfl, hi⟩
    · exact ⟨by omega, h.2⟩
  · rw [← h1]
    exact pivotSearch_max rows W i k a b
  · rw [← h1]
    exact pivotSearch_first rows W i k a b
  · rw [luBody_pivmax, hrow, hpv]
  · rw [h, swapStep_self]

/-- Instance of C31: in the first column of the regular 4 x 4 sample matrix,
`(0, 1, 4, 1)`, the first step selects row 2. -/
theorem pivot_selection_witness :
    (pivotSearch 4 sampleRegular 0 (absreal (sampleRegular.get 0 0))).2 = 2 ∧
    (luBody 4 (1 / 2) (1 / 4) Elim 0 (sampleRegular, sampleRhs)).1 = none ∧
    (luBody 4 (1 / 2) (1 / 4) Elim 0 (sampleRegular, sampleRhs)).2.2 0 = sampleRhs 2 :=
  have h := pivot_selection 4 (1 / 2) (1 / 4) Elim 0 sampleRegular sampleRhs (by decide)
    (by decide!)
  have hm : (pivotSearch 4 sampleRegular 0 (absreal (sampleRegular.get 0 0))).2 = 2 := by
    decide!
  ⟨hm, by rw [h.2.2.2.1]; decide!, by rw [h.2.2.2.1]; decide!⟩

theorem one_norm_real_eq (A : DenseMatrix) (i : Nat) :
    one_norm_real A i = ∑ j in Finset.range A.cols, absreal (A.get i j) := by
  unfold one_norm_real
  rw [sumLoop_eq, zero_add]

theorem maxLoop_spec (n : Nat) (g : Nat → ℚ) :
    0 ≤ forUp 0 n (fun i m => max m (g i)) 0 ∧
    (∀ i, i < n → g i ≤ forUp 0 n (fun i m => max m (g i)) 0) ∧
    (forUp 0 n (fun i m => max m (g i)) 0 = 0 ∨
      ∃ i, i < n ∧ forUp 0 n (fun i m => max m (g i)) 0 = g i) := by
  induction n with
  | zero => exact ⟨le_rfl, fun i hi => absurd hi (by omega), Or.inl rfl⟩
  | succ k ih =>
    obtain ⟨h1, h2, h3⟩ := ih
    simp only [forUp, Nat.zero_add]
    refine ⟨le_max_of_le_left h1, fun i hi => ?_, ?_⟩
    · rcases Nat.eq_or_lt_of_le (Nat.lt_succ_iff.mp hi) with h | h
      · rw [h]
        exact le_max_right _ _
      · exact le_max_of_le_left (h2 i h)
    · rcases max_choice (forUp 0 k (fun i m => max m (g i)) 0) (g k) with h | h
      · rw [h]
        rcases h3 with h0 | ⟨i, hi, he⟩
        · exact Or.inl h0
        · exact Or.inr ⟨i, by omega, he⟩
      · rw [h]
        exact Or.inr ⟨k, by omega, rfl⟩

/-- C32: threshold derivation.  `luDecomposition` is the loop over the steps
`i < rows()` run on the thresholds
`pivthres = max(absolute_limit, norm * pivoting_limit)` and
`singthres = max(absolute_limit, norm * singular_limit)`, where `norm` is
`infinity_norm_real()` of the matrix as it is passed in: every step that is
reached runs the body of the loop with these two values, whatever the working
matrix and the observer have become.  The norm is the maximum over the rows of
the sums of the magnitudes of the entries, and 0 for a matrix without rows. -/
theorem threshold_derivation {σ : Type} (p : FMatrixPrecision) (rows : Nat)
    (A : DenseMatrix) (F : Func σ) (func : σ) :
    luDecomposition p rows A F func = luLoop p rows A F func rows ∧
    luLoop p rows A F func 0 = (none, (A, func)) ∧
    (∀ i, (luLoop p rows A F func i).1 = none →
      luLoop p rows A F func (i + 1) =
        luBody rows (max p.absolute_limit (infinity_norm_real A * p.pivoting_limit))
          (max p.absolute_limit (infinity_norm_real A * p.singular_limit)) F i
          (luLoop p rows A F func i).2) ∧
    (∀ i e, (luLoop p rows A F func i).1 = some e →
      luLoop p rows A F func (i + 1) = luLoop p rows A F func i) ∧
    0 ≤ infinity_norm_real A ∧
    (∀ i, i < A.rows →
      ∑ j in Finset.range A.cols, absreal (A.get i j) ≤ infinity_norm_real A) ∧
    (infinity_norm_real A = 0 ∨
      ∃ i, i < A.rows ∧
        infinity_norm_real A = ∑ j in Finset.range A.cols, absreal (A.get i j)) := by
  obtain ⟨h1, h2, h3⟩ := maxLoop_spec A.rows (fun i => one_norm_real A i)
  refine ⟨rfl, rfl, fun i hi => ?_, fun i e hi => luLoop_stuck p rows A F func i e hi 1, h1,
    fun i hi => ?_, ?_⟩
  · rw [luLoop_step p rows A F func i hi]
    rfl
  · rw [← one_norm_real_eq]
    exact h2 i hi
  · rcases h3 with h | ⟨i, hi, he⟩
    · exact Or.inl h
    · refine Or.inr ⟨i, hi, ?_⟩
      rw [← one_norm_real_eq]
      exact he

/-- Instance of C32: for the regular 4 x 4 sample matrix under the initial
thresholds the norm is 7, and the third step runs on the thresholds derived
from it although the working matrix then has the norm 41/4. -/
theorem threshold_derivation_witness :
    infinity_norm_real sampleRegular = 7 ∧
    infinity_norm_real
      (luLoop FMatrixPrecision.initial 4 sampleRegular Elim sampleRhs 2).2.1 = 41 / 4 ∧
    luLoop FMatrixPrecision.initial 4 sampleRegular Elim sampleRhs 3 =
      luBody 4 (max (1 / 10 ^ 80) (7 * (1 / 10 ^ 8))) (max (1 / 10 ^ 80) (7 * (1 / 10 ^ 14)))
        Elim 2 (luLoop FMatrixPrecision.initial 4 sampleRegular Elim sampleRhs 2).2 :=
  have hn : infinity_norm_real sampleRegular = 7 := by decide!
  have h := (threshold_derivation FMatrixPrecision.initial 4 sampleRegular Elim
    sampleRhs).2.2.1 2 (by decide!)
  ⟨hn, by decide!, by rw [h, hn]; rfl⟩

theorem elimCalls_rel {σ τ : Type} (rows : Nat) (F : Func σ) (G : Func τ)
    (R : σ → τ → Prop)
    (hcall : ∀ f k i s t, R s t → R (F.call f k i s) (G.call f k i t))
    (i : Nat) (W : DenseMatrix) (s : σ) (t : τ) (h : R s t) :
    R (elimCalls rows F i W s) (elimCalls rows G i W t) := by
  unfold elimCalls
  generalize rows - (i + 1) = cnt
  induction cnt with
  | zero => exact h
  | succ n ih => exact hcall _ _ _ _ _ ih

theorem luLoop_rel {σ τ : Type} (p : FMatrixPrecision) (rows : Nat) (A : DenseMatrix)
    (F : Func σ) (func : σ) (G : Func τ) (gunc : τ) (R : σ → τ → Prop) (h0 : R func gunc)
    (hswap : ∀ i j s t, R s t → R (F.swap i j s) (G.swap i j t))
    (hcall : ∀ f k i s t, R s t → R (F.call f k i s) (G.call f k i t)) (cnt : Nat) :
    R (luLoop p rows A F func cnt).2.2 (luLoop p rows A G gunc cnt).2.2 := by
  induction cnt with
  | zero => exact h0
  | succ n ih =>
    obtain ⟨o1, o2⟩ := luLoop_observer p rows A F func G gunc n
    rw [luLoop_succ, luLoop_succ]
    cases hF : (luLoop p rows A F func n).1 with
    | some e =>
      rw [hF] at o1
      rw [← o1]
      exact ih
    | none =>
      rw [hF] at o1
      rw [← o1]
      simp only
      have hb := luBody_spec rows (pivThreshold p A) (singThreshold p A) F n
        (luLoop p rows A F func n).2.1 (luLoop p rows A F func n).2.2
      have hc := luBody_spec rows (pivThreshold p A) (singThreshold p A) G n
        (luLoop p rows A G gunc n).2.1 (luLoop p rows A G gunc n).2.2
      rw [Prod.mk.eta] at hb hc
      rw [hb, hc, ← o2]
      have hst : R
          (if pivotRow rows (pivThreshold p A) (luLoop p rows A F func n).2.1 n = n then
            (luLoop p rows A F func n).2.2
           else F.swap n (pivotRow rows (pivThreshold p A) (luLoop p rows A F func n).2.1 n)
            (luLoop p rows A F func n).2.2)
          (if pivotRow rows (pivThreshold p A) (luLoop p rows A F func n).2.1 n = n then
            (luLoop p rows A G gunc n).2.2
           else G.swap n (pivotRow rows (pivThreshold p A) (luLoop p rows A F func n).2.1 n)
            (luLoop p rows A G gunc n).2.2) := by
        split
        · exact ih
        · exact hswap _ _ _ _ ih
      split
      · exact hst
      · exact elimCalls_rel rows F G R hcall n _ _ _ hst

theorem luLoop_pivot (p : FMatrixPrecision) (rows : Nat) (A : DenseMatrix) (p0 : Nat → Nat)
    (cnt : Nat) (hcnt : cnt ≤ rows)
    (hok : (luLoop p rows A ElimPivot (ElimPivot.init rows p0) cnt).1 = none) :
    ∀ k, (luLoop p rows A ElimPivot (ElimPivot.init rows p0) cnt).2.2 k =
      if k < cnt then
        pivotRow rows (pivThreshold p A)
          (luLoop p rows A ElimPivot (ElimPivot.init rows p0) k).2.1 k
      else ElimPivot.init rows p0 k := by
  induction cnt with
  | zero =>
    intro k
    rw [if_neg (by omega)]
    rfl
  | succ n ih =>
    have hn : (luLoop p rows A ElimPivot (ElimPivot.init rows p0) n).1 = none := by
      cases hprev : (luLoop p rows A ElimPivot (ElimPivot.init rows p0) n).1 with
      | none => rfl
      | some e =>
        have := luLoop_stuck p rows A ElimPivot (ElimPivot.init rows p0) n e hprev 1
        rw [this, hprev] at hok
        exact absurd hok (by simp)
    have ihn := ih (by omega) hn
    have hs := luLoop_step p rows A ElimPivot (ElimPivot.init rows p0) n hn
    rw [luBody_spec] at hs
    split at hs
    · rw [hs] at hok
      exact absurd hok (by simp)
    · intro k
      rw [hs]
      show elimCalls rows ElimPivot n _ _ k = _
      rw [elimCalls_ElimPivot]
      by_cases hm : pivotRow rows (pivThreshold p A)
          (luLoop p rows A ElimPivot (ElimPivot.init rows p0) n).2.1 n = n
      · rw [if_pos hm, ihn k]
        rcases Nat.lt_trichotomy k n with h | h | h
        · rw [if_pos h, if_pos (by omega)]
        · rw [if_neg (by omega), if_pos (by omega), ElimPivot_init_apply,
            if_pos (by omega), h, hm]
        · rw [if_neg (by omega), if_neg (by omega)]
      · rw [if_neg hm]
        show (if k = n then _ else _) = _
        by_cases hk : k = n
        · rw [if_pos hk, if_pos (by omega), hk]
        · rw [if_neg hk, ihn k]
          by_cases hlt : k < n
          · rw [if_pos hlt, if_pos (by omega)]
          · rw [if_neg hlt, if_neg (by omega)]

theorem luLoop_ok_of_le {σ : Type} (p : FMatrixPrecision) (rows : Nat) (A : DenseMatrix)
    (F : Func σ) (func : σ) (n : Nat) (hn : (luLoop p rows A F func n).1 = none)
    (k : Nat) (hk : k ≤ n) : (luLoop p rows A F func k).1 = none := by
  rcases Nat.eq_or_lt_of_le hk with h | h
  · rw [h]; exact hn
  · exact (luLoop_reached p rows A F func n hn k h).1

/-- C35: the pivot record.  The constructor of `ElimPivot` sets `pivot[i] = i`
for every `i` below the size.  After a decomposition that throws nothing,
`pivot[i]` is, for every `i < rows()`, the row that step `i` took its pivot
from: `i` itself when the step exchanged no rows, and otherwise `imax`, the row
exchanged into position `i`; so `i <= pivot[i] < rows()`.  Entry `i` still is
`i` before step `i` and has its final value after it: it is written at most
once, by step `i`. -/
theorem pivot_record (p : FMatrixPrecision) (rows : Nat) (A : DenseMatrix) (p0 : Nat → Nat)
    (hok : (luDecomposition p rows A ElimPivot (ElimPivot.init rows p0)).1 = none) :
    (∀ k, ElimPivot.init rows p0 k = if k < rows then k else p0 k) ∧
    (∀ i, i < rows →
      (luDecomposition p rows A ElimPivot (ElimPivot.init rows p0)).2.2 i =
        pivotRow rows (pivThreshold p A)
          (luLoop p rows A ElimPivot (ElimPivot.init rows p0) i).2.1 i) ∧
    (∀ i, i < rows →
      i ≤ (luDecomposition p rows A ElimPivot (ElimPivot.init rows p0)).2.2 i ∧
      (luDecomposition p rows A ElimPivot (ElimPivot.init rows p0)).2.2 i < rows) ∧
    (∀ i j, i < rows → j ≤ i →
      (luLoop p rows A ElimPivot (ElimPivot.init rows p0) j).2.2 i = i) ∧
    (∀ i j, i < j → j ≤ rows →
      (luLoop p rows A ElimPivot (ElimPivot.init rows p0) j).2.2 i =
        (luDecomposition p rows A ElimPivot (ElimPivot.init rows p0)).2.2 i) := by
  have hfin := luLoop_pivot p rows A p0 rows le_rfl hok
  have hrow : ∀ i, i < rows →
      (luDecomposition p rows A ElimPivot (ElimPivot.init rows p0)).2.2 i =
        pivotRow rows (pivThreshold p A)
          (luLoop p rows A ElimPivot (ElimPivot.init rows p0) i).2.1 i := by
    intro i hi
    rw [luDecomposition_eq, hfin i, if_pos hi]
  refine ⟨ElimPivot_init_apply rows p0, hrow, fun i hi => ?_, fun i j hi hj => ?_,
    fun i j hij hj => ?_⟩
  · rw [hrow i hi]
    rcases pivotRow_range rows (pivThreshold p A)
      (luLoop p rows A ElimPivot (ElimPivot.init rows p0) i).2.1 i with h | h
    · rw [h]; exact ⟨le_rfl, hi⟩
    · exact ⟨by omega, h.2⟩
  · rw [luLoop_pivot p rows A p0 j (by omega)
      (luLoop_ok_of_le p rows A ElimPivot _ rows hok j (by omega)) i, if_neg (by omega),
      ElimPivot_init_apply, if_pos hi]
  · rw [luLoop_pivot p rows A p0 j hj
      (luLoop_ok_of_le p rows A ElimPivot _ rows hok j hj) i, if_pos hij,
      hrow i (by omega)]

/-- Instance of C35: the regular 4 x 4 sample matrix under the initial
thresholds; the first step exchanges rows 0 and 2. -/
theorem pivot_record_witness :
    (luDecomposition FMatrixPrecision.initial 4 sampleRegular ElimPivot
      (ElimPivot.init 4 fun _ => 0)).1 = none ∧
    (luDecomposition FMatrixPrecision.initial 4 sampleRegular ElimPivot
      (ElimPivot.init 4 fun _ => 0)).2.2 0 = 2 ∧
    (luLoop FMatrixPrecision.initial 4 sampleRegular ElimPivot
      (ElimPivot.init 4 fun _ => 0) 1).2.2 0 = 2 :=
  have hok : (luDecomposition FMatrixPrecision.initial 4 sampleRegular ElimPivot
      (ElimPivot.init 4 fun _ => 0)).1 = none := by decide!
  have h := pivot_record FMatrixPrecision.initial 4 sampleRegular (fun _ => 0) hok
  ⟨hok, (h.2.1 0 (by decide)).trans (by decide!),
    (h.2.2.2.2 0 1 (by decide) (by decide)).trans ((h.2.1 0 (by decide)).trans (by decide!))⟩

/-- C36: the determinant on the general path.  For a square matrix with
`rows() >= 4` whose decomposition throws nothing, `determinant()` returns
`sign * W[0][0] * ... * W[N-1][N-1]`, with `W` the factored working matrix and
`sign` the value the observer `ElimDet` leaves: it starts at 1, is multiplied by
-1 at every `swap`, and so is `(-1)^s` for `s` the number of `swap`
notifications of the decomposition. -/
theorem determinant_formula (p : FMatrixPrecision) (A : DenseMatrix)
    (hsq : A.rows = A.cols) (hn : 4 ≤ A.rows)
    (hlu : (luDecomposition p A.rows A ElimDet (ElimDet.init 0)).1 = none) :
    determinant p A = Except.ok
      ((luDecomposition p A.rows A ElimDet (ElimDet.init 0)).2.2 *
        ∏ k in Finset.range A.rows,
          (luDecomposition p A.rows A ElimDet (ElimDet.init 0)).2.1.get k k) ∧
    (luDecomposition p A.rows A ElimDet (ElimDet.init 0)).2.2 =
      (-1) ^ (luDecomposition p A.rows A SwapCount 0).2.2 ∧
    (∀ s, ElimDet.init s = 1) ∧
    (∀ i j s, ElimDet.swap i j s = s * (-1)) ∧
    (∀ f k i s, ElimDet.call f k i s = s) := by
  refine ⟨determinant_general_ok p A hsq hn hlu, ?_, fun _ => rfl, fun _ _ _ => rfl,
    fun _ _ _ _ => rfl⟩
  exact luLoop_rel p A.rows A ElimDet (ElimDet.init 0) SwapCount 0
    (fun (s : ℚ) (n : Nat) => s = (-1) ^ n) (by simp [ElimDet.init])
    (fun i j s t h => by
      show s * (-1) = (-1) ^ (t + 1)
      rw [h, pow_succ])
    (fun f k i s t h => h) A.rows

/-- Instance of C36: the regular 4 x 4 sample matrix under the initial
thresholds, decomposed with one row exchange; its determinant is 34. -/
theorem determinant_formula_witness :
    (luDecomposition FMatrixPrecision.initial 4 sampleRegular SwapCount 0).2.2 = 1 ∧
    (luDecomposition FMatrixPrecision.initial 4 sampleRegular ElimDet (ElimDet.init 0)).2.2
      = -1 ∧
    determinant FMatrixPrecision.initial sampleRegular = Except.ok 34 :=
  have h := determinant_formula FMatrixPrecision.initial sampleRegular rfl (by decide)
    (by decide!)
  have hc : (luDecomposition FMatrixPrecision.initial 4 sampleRegular SwapCount 0).2.2 = 1 := by
    decide!
  ⟨hc, h.2.1.trans (by rw [show sampleRegular.rows = 4 from rfl, hc]; norm_num),
    by decide!⟩

theorem invert_atomic_aux (checking : Bool) (p : FMatrixPrecision) (A : DenseMatrix)
    (hsq : A.rows = A.cols) (hn : 3 ≤ A.rows) :
    (invert checking p A).1 = some FMatrixError.singular ↔
      (luDecomposition p A.rows A ElimPivot (ElimPivot.init A.rows fun _ => 0)).1
        = some FMatrixError.singular := by
  rcases luLoop_error p A.rows A ElimPivot (ElimPivot.init A.rows fun _ => 0) A.rows
    with hlu | hlu
  · have h2 : (luDecomposition p A.rows A ElimPivot (ElimPivot.init A.rows fun _ => 0)).1
        = none := hlu
    rw [invert_general_ok checking p A hsq hn hlu, h2]
  · have h2 : (luDecomposition p A.rows A ElimPivot (ElimPivot.init A.rows fun _ => 0)).1
        = some FMatrixError.singular := hlu
    rw [invert_general_err checking p A hsq hn _ hlu, h2]

/-- C38: `invert()` is atomic on the general path.  For a square matrix with
`rows() >= 3`, `invert()` throws exactly when the decomposition of the working
copy throws, and whenever it throws the matrix is left as it was before the
call. -/
theorem invert_atomic (checking : Bool) (p : FMatrixPrecision) (A : DenseMatrix)
    (hsq : A.rows = A.cols) (hn : 3 ≤ A.rows) :
    ((invert checking p A).1 = some FMatrixError.singular ↔
      (luDecomposition p A.rows A ElimPivot (ElimPivot.init A.rows fun _ => 0)).1
        = some FMatrixError.singular) ∧
    ((invert checking p A).1 = some FMatrixError.singular → (invert checking p A).2 = A) ∧
    (∀ e, (invert checking p A).1 = some e → (invert checking p A).2 = A) := by
  rcases luLoop_error p A.rows A ElimPivot (ElimPivot.init A.rows fun _ => 0) A.rows
    with hlu | hlu
  · have hinv := invert_general_ok checking p A hsq hn hlu
    have h1 : (invert checking p A).1 = none := by rw [hinv]
    have h2 : (luDecomposition p A.rows A ElimPivot (ElimPivot.init A.rows fun _ => 0)).1
        = none := hlu
    refine ⟨?_, fun h => ?_, fun e h => ?_⟩
    · rw [h1, h2]
    · rw [h1] at h; exact absurd h (by simp)
    · rw [h1] at h; exact absurd h (by simp)
  · have hinv := invert_general_err checking p A hsq hn _ hlu
    have h2 : (luDecomposition p A.rows A ElimPivot (ElimPivot.init A.rows fun _ => 0)).1
        = some FMatrixError.singular := hlu
    refine ⟨?_, fun _ => ?_, fun e _ => ?_⟩
    · rw [hinv, h2]
    · rw [hinv]
    · rw [hinv]

/-- Instance of C38: the 4 x 4 sample matrix with a zero row, under the initial
thresholds. -/
theorem invert_atomic_witness :
    (invert false FMatrixPrecision.initial sampleZeroRow).1 = some FMatrixError.singular ∧
    (invert false FMatrixPrecision.initial sampleZeroRow).2 = sampleZeroRow :=
  have h := invert_atomic false FMatrixPrecision.initial sampleZeroRow rfl (by decide)
  have hs : (invert false FMatrixPrecision.initial sampleZeroRow).1
      = some FMatrixError.singular := h.1.mpr (by decide!)
  ⟨hs, h.2.1 hs⟩

theorem luDecomposition_log {σ τ : Type} (p : FMatrixPrecision) (rows : Nat)
    (A : DenseMatrix) (F : Func σ) (func : σ) (G : Func τ) (gunc : τ) :
    (luDecomposition p rows A (withLog F) (func, [])).2.2.2 =
      (luDecomposition p rows A (withLog G) (gunc, [])).2.2.2 ∧
    (luDecomposition p rows A (withLog F) (func, [])).2.2.1 =
      (luDecomposition p rows A F func).2.2 :=
  ⟨luLoop_rel p rows A (withLog F) (func, []) (withLog G) (gunc, [])
      (fun s t => s.2 = t.2) rfl
      (fun i j s t h => by
        show s.2 ++ [(i, j)] = t.2 ++ [(i, j)]
        rw [h])
      (fun f k i s t h => h) rows,
    luLoop_rel p rows A (withLog F) (func, []) F func
      (fun s t => s.1 = t) rfl
      (fun i j s t h => by
        show F.swap i j s.1 = F.swap i j t
        rw [h])
      (fun f k i s t h => by
        show F.call f k i s.1 = F.call f k i t
        rw [h]) rows⟩

/-- C39: observer independence.  The exception thrown (or not) and the factored
working matrix of `luDecomposition` are the same for any two observers and any
two objects they refer to, and so is the sequence of `swap` notifications
(recorded next to the observer, which the record does not disturb).  Hence for
a square matrix with `rows() >= 4`: `solve(x, b)` throws "matrix is singular"
for one `b` if and only if it does for every other, if and only if `invert()`
throws it, if and only if the decomposition in `determinant()` throws and
`determinant()` takes its `return 0`. -/
theorem observer_independence {σ τ : Type} (checking : Bool) (p : FMatrixPrecision)
    (A : DenseMatrix) (F : Func σ) (func : σ) (G : Func τ) (gunc : τ) :
    (luDecomposition p A.rows A F func).1 = (luDecomposition p A.rows A G gunc).1 ∧
    (luDecomposition p A.rows A F func).2.1 = (luDecomposition p A.rows A G gunc).2.1 ∧
    (luDecomposition p A.rows A (withLog F) (func, [])).2.2.2 =
      (luDecomposition p A.rows A (withLog G) (gunc, [])).2.2.2 ∧
    (luDecomposition p A.rows A (withLog F) (func, [])).2.2.1 =
      (luDecomposition p A.rows A F func).2.2 ∧
    (A.rows = A.cols → 4 ≤ A.rows →
      (∀ x b x2 b2, (solve checking p A x b).1 = some FMatrixError.singular ↔
        (solve checking p A x2 b2).1 = some FMatrixError.singular) ∧
      (∀ x b, (solve checking p A x b).1 = some FMatrixError.singular ↔
        (invert checking p A).1 = some FMatrixError.singular) ∧
      (∀ x b, (solve checking p A x b).1 = some FMatrixError.singular ↔
        (luDecomposition p A.rows A ElimDet (ElimDet.init 0)).1
          = some FMatrixError.singular) ∧
      ((luDecomposition p A.rows A ElimDet (ElimDet.init 0)).1 = some FMatrixError.singular →
        determinant p A = Except.ok 0)) := by
  obtain ⟨o1, o2⟩ := luDecomposition_observer p A.rows A F func G gunc
  obtain ⟨l1, l2⟩ := luDecomposition_log p A.rows A F func G gunc
  refine ⟨o1, o2, l1, l2, fun hsq hn => ?_⟩
  have hsolve : ∀ x b, (solve checking p A x b).1 = some FMatrixError.singular ↔
      (luDecomposition p A.rows A ElimDet (ElimDet.init 0)).1
        = some FMatrixError.singular := by
    intro x b
    have ho := (luDecomposition_observer p A.rows A Elim b ElimDet (ElimDet.init 0)).1
    rw [← ho]
    rcases luLoop_error p A.rows A Elim b A.rows with hlu | hlu
    · have h2 : (luDecomposition p A.rows A Elim b).1 = none := hlu
      rw [solve_general_ok checking p A hsq hn x b hlu, h2]
    · have h2 : (luDecomposition p A.rows A Elim b).1 = some FMatrixError.singular := hlu
      rw [solve_general_err checking p A hsq hn x b _ hlu, h2]
  have hinv : (invert checking p A).1 = some FMatrixError.singular ↔
      (luDecomposition p A.rows A ElimDet (ElimDet.init 0)).1
        = some FMatrixError.singular := by
    have ho := (luDecomposition_observer p A.rows A ElimPivot (ElimPivot.init A.rows fun _ => 0)
      ElimDet (ElimDet.init 0)).1
    rw [← ho]
    exact (invert_atomic_aux checking p A hsq (by omega))
  exact ⟨fun x b x2 b2 => (hsolve x b).trans (hsolve x2 b2).symm,
    fun x b => (hsolve x b).trans hinv.symm, hsolve,
    fun h => determinant_general_err p A hsq hn _ h⟩

/-- Instance of C39: the 4 x 4 sample matrix with a zero row under the initial
thresholds; `solve` and `invert` throw and `determinant` returns 0. -/
theorem observer_independence_witness :
    (solve false FMatrixPrecision.initial sampleZeroRow sampleRhs sampleRhs).1
      = some FMatrixError.singular ∧
    (invert false FMatrixPrecision.initial sampleZeroRow).1 = some FMatrixError.singular ∧
    determinant FMatrixPrecision.initial sampleZeroRow = Except.ok 0 :=
  have h := (observer_independence false FMatrixPrecision.initial sampleZeroRow Elim sampleRhs
    ElimDet (ElimDet.init 0)).2.2.2.2 rfl (by decide)
  have hd : (luDecomposition FMatrixPrecision.initial sampleZeroRow.rows sampleZeroRow ElimDet
      (ElimDet.init 0)).1 = some FMatrixError.singular := by decide!
  have hs := (h.2.2.1 sampleRhs sampleRhs).mpr hd
  ⟨hs, (h.2.1 sampleRhs sampleRhs).mp hs, h.2.2.2 hd⟩

theorem solves_of_inverse (n : Nat) (f g : Nat → Nat → ℚ) (b x : Vec)
    (hs : Solves n f b x) (hinv : toMatrix n g * toMatrix n f = 1) :
    ∀ i, i < n → ∑ j in Finset.range n, g i j * b j = x i := by
  intro i hi
  have hb : ∀ j, j ∈ Finset.range n → g i j * b j =
      ∑ l in Finset.range n, g i j * f j l * x l := by
    intro j hj
    rw [← hs j (Finset.mem_range.mp hj), Finset.mul_sum]
    exact Finset.sum_congr rfl fun l _ => by ring
  rw [Finset.sum_congr rfl hb, Finset.sum_comm]
  have hl : ∀ l, l ∈ Finset.range n →
      ∑ j in Finset.range n, g i j * f j l * x l = (if i = l then x l else 0) := by
    intro l hl
    have hln := Finset.mem_range.mp hl
    have h1 := congrFun (congrFun hinv ⟨i, hi⟩) ⟨l, hln⟩
    rw [toMatrix_mul_apply, Matrix.one_apply] at h1
    rw [← Finset.sum_mul, h1]
    by_cases h : i = l
    · rw [if_pos h, if_pos (Fin.ext h), one_mul]
    · rw [if_neg h, if_neg (fun h2 => h (congrArg Fin.val h2)), zero_mul]
  rw [Finset.sum_congr rfl hl, Finset.sum_ite_eq, if_pos (Finset.mem_range.mpr hi)]

theorem mv_square (checking : Bool) (M : DenseMatrix) (n : Nat) (hr : M.rows = n)
    (hc : M.cols = n) (b y0 : Vec) :
    (mv checking M ⟨n, b⟩ ⟨n, y0⟩).1 = none ∧
    ∀ i, i < n → (mv checking M ⟨n, b⟩ ⟨n, y0⟩).2.v i =
      ∑ j in Finset.range n, M.get i j * b j := by
  have h1 : ¬ (checking = true ∧ (⟨n, b⟩ : DenseVector).N ≠ M.cols) := fun h => h.2 hc.symm
  have h2 : ¬ (checking = true ∧ (⟨n, y0⟩ : DenseVector).N ≠ M.rows) := fun h => h.2 hr.symm
  rw [mv_eq, if_neg h1, if_neg h2]
  refine ⟨rfl, fun i hi => ?_⟩
  show (if i < M.rows then _ else _) = _
  rw [if_pos (by omega), hc]

/-- C40, amended: `solve` agrees with `invert`.  For every square matrix `A`
with `rows() >= 1` over an exact field and every `b` for which `solve(x, b)`
and `invert()` both throw nothing, the determinant of `A` being different from
0 when `rows()` is 1 or 2 (the closed forms of `invert()` divide by it), `mv`
of the inverted matrix applied to `b` throws nothing and yields, entry by
entry, the `x` that `solve` returns, on the closed forms and on the LU path
alike.  The absolute limit is positive, as it is initially. -/
theorem solve_agrees_with_invert (checking : Bool) (p : FMatrixPrecision)
    (hp : 0 < p.absolute_limit) (A : DenseMatrix) (hsq : A.rows = A.cols)
    (hN : 1 ≤ A.rows) (hdet : A.rows ≤ 2 → (toMatrix A.rows A.get).det ≠ 0)
    (x b y0 : Vec) (hs : (solve checking p A x b).1 = none)
    (hi : (invert checking p A).1 = none) :
    (mv checking (invert checking p A).2 ⟨A.rows, b⟩ ⟨A.rows, y0⟩).1 = none ∧
    ∀ i, i < A.rows → (solve checking p A x b).2 i =
      (mv checking (invert checking p A).2 ⟨A.rows, b⟩ ⟨A.rows, y0⟩).2.v i := by
  obtain ⟨i1, i2, i3⟩ := invert_inverse checking p hp A hsq hN hdet hi
  obtain ⟨m1, m2⟩ := mv_square checking (invert checking p A).2 A.rows i1 (i2.trans hsq.symm)
    b y0
  refine ⟨m1, fun i hin => ?_⟩
  rw [m2 i hin]
  have hsol : Solves A.rows A.get b (solve checking p A x b).2 := by
    by_cases h3 : A.rows ≤ 3
    · have hne : (toMatrix A.rows A.get).det ≠ 0 :=
        (Matrix.isUnit_det_of_left_inverse i3).ne_zero
      exact solve_fast_solves checking p A hsq hN h3 hne x b hs
    · exact solve_general_solves checking p hp A hsq (by omega) x b hs
  exact (solves_of_inverse A.rows A.get (invert checking p A).2.get b _ hsol i3 i hin).symm

/-- Instance of the amended C40: the regular 4 x 4 sample matrix with the right
hand side `(1, 2, 3, 4)` under the initial thresholds. -/
theorem solve_agrees_with_invert_witness :
    (solve false FMatrixPrecision.initial sampleRegular (fun _ => 0) sampleRhs).1 = none ∧
    (invert false FMatrixPrecision.initial sampleRegular).1 = none ∧
    ∀ i, i < 4 →
      (solve false FMatrixPrecision.initial sampleRegular (fun _ => 0) sampleRhs).2 i =
        (mv false (invert false FMatrixPrecision.initial sampleRegular).2 ⟨4, sampleRhs⟩
          ⟨4, fun _ => 0⟩).2.v i :=
  have hs : (solve false FMatrixPrecision.initial sampleRegular (fun _ => 0) sampleRhs).1
      = none := by decide!
  have hi : (invert false FMatrixPrecision.initial sampleRegular).1 = none := by decide!
  ⟨hs, hi, (solve_agrees_with_invert false FMatrixPrecision.initial (by decide!) sampleRegular
    rfl (by decide) (fun h => absurd h (by decide)) (fun _ => 0) sampleRhs (fun _ => 0)
    hs hi).2⟩

theorem sampleEps_norm (eps : ℚ) :
    infinity_norm_real ⟨2, 2, sampleEps eps⟩ = max (max 0 (|eps| + 1)) 2 := by
  simp [infinity_norm_real, one_norm_real, forUp, absreal, DenseMatrix.get, DenseMatrix.rows,
    DenseMatrix.cols, sampleEps]
  norm_num

theorem sampleEps_small (eps : ℚ)
    (heps : absreal eps < pivThreshold FMatrixPrecision.initial ⟨2, 2, sampleEps eps⟩) :
    |eps| < 1 / 10 ∧ pivThreshold FMatrixPrecision.initial ⟨2, 2, sampleEps eps⟩ = 2 / 10 ^ 8 ∧
    singThreshold FMatrixPrecision.initial ⟨2, 2, sampleEps eps⟩ = 2 / 10 ^ 14 := by
  have hnorm := sampleEps_norm eps
  have habs : (0 : ℚ) ≤ |eps| := abs_nonneg eps
  unfold pivThreshold at heps
  rw [hnorm] at heps
  have hle : max (max 0 (|eps| + 1)) 2 ≤ |eps| + 2 := by
    apply max_le
    · apply max_le <;> linarith
    · linarith
  have hsmall : |eps| < 1 / 10 := by
    have h1 : absreal eps < max (FMatrixPrecision.initial.absolute_limit)
        ((|eps| + 2) * FMatrixPrecision.initial.pivoting_limit) := by
      refine lt_of_lt_of_le heps (max_le_max le_rfl ?_)
      exact mul_le_mul_of_nonneg_right hle (by decide!)
    have e1 : FMatrixPrecision.initial.absolute_limit = 1 / 10 ^ 80 := rfl
    have e2 : FMatrixPrecision.initial.pivoting_limit = 1 / 10 ^ 8 := rfl
    rw [e1, e2] at h1
    unfold absreal at h1
    rcases lt_max_iff.mp h1 with h | h
    · have : (1 : ℚ) / 10 ^ 80 < 1 / 10 := by norm_num
      linarith
    · have : (|eps| + 2) * (1 / 10 ^ 8) ≤ (|eps| + 2) * (1 / 10) := by
        apply mul_le_mul_of_nonneg_left _ (by linarith)
        norm_num
      nlinarith
  have hn2 : infinity_norm_real ⟨2, 2, sampleEps eps⟩ = 2 := by
    rw [hnorm]
    have : max 0 (|eps| + 1) ≤ 2 := max_le (by norm_num) (by linarith)
    exact max_eq_right this
  refine ⟨hsmall, ?_, ?_⟩
  · unfold pivThreshold
    rw [hn2]
    have e1 : FMatrixPrecision.initial.absolute_limit = 1 / 10 ^ 80 := rfl
    have e2 : FMatrixPrecision.initial.pivoting_limit = 1 / 10 ^ 8 := rfl
    rw [e1, e2]
    norm_num
  · unfold singThreshold
    rw [hn2]
    have e1 : FMatrixPrecision.initial.absolute_limit = 1 / 10 ^ 80 := rfl
    have e2 : FMatrixPrecision.initial.singular_limit = 1 / 10 ^ 14 := rfl
    rw [e1, e2]
    norm_num

theorem sampleEps_row (eps : ℚ)
    (heps : absreal eps < pivThreshold FMatrixPrecision.initial ⟨2, 2, sampleEps eps⟩) :
    pivotRow 2 (pivThreshold FMatrixPrecision.initial ⟨2, 2, sampleEps eps⟩)
      ⟨2, 2, sampleEps eps⟩ 0 = 1 := by
  obtain ⟨hsmall, _, _⟩ := sampleEps_small eps heps
  unfold pivotRow
  have heps2 : absreal ((⟨2, 2, sampleEps eps⟩ : DenseMatrix).get 0 0) <
      pivThreshold FMatrixPrecision.initial ⟨2, 2, sampleEps eps⟩ := heps
  rw [if_pos heps2]
  have h1 : absreal ((⟨2, 2, sampleEps eps⟩ : DenseMatrix).get 1 0) >
      absreal ((⟨2, 2, sampleEps eps⟩ : DenseMatrix).get 0 0) := by
    show |(1 : ℚ)| > |eps|
    rw [abs_one]
    linarith
  show (if absreal ((⟨2, 2, sampleEps eps⟩ : DenseMatrix).get 1 0) >
      absreal ((⟨2, 2, sampleEps eps⟩ : DenseMatrix).get 0 0) then
        (absreal ((⟨2, 2, sampleEps eps⟩ : DenseMatrix).get 1 0), 1)
      else (absreal ((⟨2, 2, sampleEps eps⟩ : DenseMatrix).get 0 0), 0)).2 = 1
  rw [if_pos h1]

theorem sampleEps_first {σ : Type} (eps : ℚ) (F : Func σ) (func : σ)
    (heps : absreal eps < pivThreshold FMatrixPrecision.initial ⟨2, 2, sampleEps eps⟩) :
    luLoop FMatrixPrecision.initial 2 ⟨2, 2, sampleEps eps⟩ F func 1 =
      (none, (elimStep 2 0 (swapStep 2 0 1 ⟨2, 2, sampleEps eps⟩),
        F.call eps 1 0 (F.swap 0 1 func))) := by
  obtain ⟨hsmall, hpt, hst⟩ := sampleEps_small eps heps
  have hrow := sampleEps_row eps heps
  have hs := luLoop_step FMatrixPrecision.initial 2 ⟨2, 2, sampleEps eps⟩ F func 0 rfl
  rw [hs]
  show luBody 2 _ _ F 0 (⟨2, 2, sampleEps eps⟩, func) = _
  rw [luBody_spec, hrow, hst]
  have hpiv : ¬ absreal ((swapStep 2 0 1 ⟨2, 2, sampleEps eps⟩).get 0 0) < 2 / 10 ^ 14 := by
    show ¬ |(1 : ℚ)| < 2 / 10 ^ 14
    rw [abs_one]
    norm_num
  rw [if_neg hpiv, if_neg (by decide)]
  congr 2
  show F.call ((swapStep 2 0 1 ⟨2, 2, sampleEps eps⟩).get 1 0 /
    (swapStep 2 0 1 ⟨2, 2, sampleEps eps⟩).get 0 0) 1 0 (F.swap 0 1 func) = _
  have e1 : (swapStep 2 0 1 ⟨2, 2, sampleEps eps⟩).get 1 0 = eps := rfl
  have e2 : (swapStep 2 0 1 ⟨2, 2, sampleEps eps⟩).get 0 0 = 1 := rfl
  rw [e1, e2, div_one]

theorem sampleEps_entries (eps : ℚ) :
    (elimStep 2 0 (swapStep 2 0 1 ⟨2, 2, sampleEps eps⟩)).get 0 0 = 1 ∧
    (elimStep 2 0 (swapStep 2 0 1 ⟨2, 2, sampleEps eps⟩)).get 0 1 = 1 ∧
    (elimStep 2 0 (swapStep 2 0 1 ⟨2, 2, sampleEps eps⟩)).get 1 0 = eps ∧
    (elimStep 2 0 (swapStep 2 0 1 ⟨2, 2, sampleEps eps⟩)).get 1 1 = 1 - eps := by
  refine ⟨rfl, rfl, ?_, ?_⟩
  · show eps / 1 = eps
    rw [div_one]
  · show (1 : ℚ) - eps / 1 * 1 = 1 - eps
    rw [div_one, mul_one]

theorem sampleEps_second {σ : Type} (eps : ℚ) (F : Func σ) (func : σ)
    (heps : absreal eps < pivThreshold FMatrixPrecision.initial ⟨2, 2, sampleEps eps⟩) :
    luDecomposition FMatrixPrecision.initial 2 ⟨2, 2, sampleEps eps⟩ F func =
      (none, (elimStep 2 1 (elimStep 2 0 (swapStep 2 0 1 ⟨2, 2, sampleEps eps⟩)),
        F.call eps 1 0 (F.swap 0 1 func))) := by
  obtain ⟨hsmall, hpt, hst⟩ := sampleEps_small eps heps
  obtain ⟨_, _, _, e11⟩ := sampleEps_entries eps
  have h1 := sampleEps_first eps F func heps
  have hbig : (9 : ℚ) / 10 < |1 - eps| := by
    have := abs_sub_abs_le_abs_sub (1 : ℚ) eps
    rw [abs_one] at this
    linarith
  have hs := luLoop_step FMatrixPrecision.initial 2 ⟨2, 2, sampleEps eps⟩ F func 1
    (by rw [h1])
  rw [luDecomposition_eq, hs, h1]
  have hnp : ¬ absreal ((elimStep 2 0 (swapStep 2 0 1 ⟨2, 2, sampleEps eps⟩)).get 1 1) <
      pivThreshold FMatrixPrecision.initial ⟨2, 2, sampleEps eps⟩ := by
    rw [e11, hpt]
    unfold absreal
    have : (2 : ℚ) / 10 ^ 8 < 9 / 10 := by norm_num
    linarith
  rw [luBody_noswap 2 _ _ F 1 _ _ hnp, e11, hst]
  have hns : ¬ absreal (1 - eps) < 2 / 10 ^ 14 := by
    unfold absreal
    have : (2 : ℚ) / 10 ^ 14 < 9 / 10 := by norm_num
    linarith
  rw [if_neg hns]
  rfl

/-- C34: the partial pivoting example.  For `A = [[eps, 1], [1, 1]]` with
`absreal(eps)` below the pivoting threshold that the initial limits give for
`A`, `luDecomposition` throws nothing, exchanges rows 0 and 1 in its first step
and notifies the observer with `swap(0, 1)`, then eliminates with the factor
`eps`: the factored matrix is `[[1, 1], [eps, 1 - eps]]`.  `solve(x, b)`, which
takes the 2 x 2 closed form, throws nothing and returns the exact solution of
`A x = b`, for every `b`, with or without checking. -/
theorem partial_pivoting_example {σ : Type} (checking : Bool) (eps : ℚ) (F : Func σ)
    (func : σ) (x b : Vec)
    (heps : absreal eps < pivThreshold FMatrixPrecision.initial ⟨2, 2, sampleEps eps⟩) :
    pivotRow 2 (pivThreshold FMatrixPrecision.initial ⟨2, 2, sampleEps eps⟩)
      ⟨2, 2, sampleEps eps⟩ 0 = 1 ∧
    (luDecomposition FMatrixPrecision.initial 2 ⟨2, 2, sampleEps eps⟩ F func).1 = none ∧
    (luDecomposition FMatrixPrecision.initial 2 ⟨2, 2, sampleEps eps⟩ F func).2.2 =
      F.call eps 1 0 (F.swap 0 1 func) ∧
    (luDecomposition FMatrixPrecision.initial 2 ⟨2, 2, sampleEps eps⟩ F func).2.1.get 0 0
      = 1 ∧
    (luDecomposition FMatrixPrecision.initial 2 ⟨2, 2, sampleEps eps⟩ F func).2.1.get 0 1
      = 1 ∧
    (luDecomposition FMatrixPrecision.initial 2 ⟨2, 2, sampleEps eps⟩ F func).2.1.get 1 0
      = eps ∧
    (luDecomposition FMatrixPrecision.initial 2 ⟨2, 2, sampleEps eps⟩ F func).2.1.get 1 1
      = 1 - eps ∧
    (solve checking FMatrixPrecision.initial ⟨2, 2, sampleEps eps⟩ x b).1 = none ∧
    eps * (solve checking FMatrixPrecision.initial ⟨2, 2, sampleEps eps⟩ x b).2 0 +
      (solve checking FMatrixPrecision.initial ⟨2, 2, sampleEps eps⟩ x b).2 1 = b 0 ∧
    (solve checking FMatrixPrecision.initial ⟨2, 2, sampleEps eps⟩ x b).2 0 +
      (solve checking FMatrixPrecision.initial ⟨2, 2, sampleEps eps⟩ x b).2 1 = b 1 := by
  obtain ⟨hsmall, hpt, hst⟩ := sampleEps_small eps heps
  obtain ⟨e00, e01, e10, e11⟩ := sampleEps_entries eps
  have hlu := sampleEps_second eps F func heps
  have hrow := sampleEps_row eps heps
  have hbig : (9 : ℚ) / 10 < |eps - 1| := by
    have := abs_sub_abs_le_abs_sub (1 : ℚ) eps
    rw [abs_one, abs_sub_comm] at this
    linarith
  have hdet : eps - 1 ≠ 0 := by
    intro h
    rw [h, abs_zero] at hbig
    linarith
  have hd : sampleEps eps 0 0 * sampleEps eps 1 1 - sampleEps eps 0 1 * sampleEps eps 1 0
      = eps - 1 := by
    show eps * 1 - 1 * 1 = eps - 1
    ring
  have hc : ¬ (checking = true ∧ absreal (eps - 1) < FMatrixPrecision.initial.absolute_limit) := by
    intro h
    have e1 : FMatrixPrecision.initial.absolute_limit = 1 / 10 ^ 80 := rfl
    have h2 := h.2
    rw [e1] at h2
    unfold absreal at h2
    have : (1 : ℚ) / 10 ^ 80 < 9 / 10 := by norm_num
    linarith
  have hsolve := solve_two_eq checking FMatrixPrecision.initial (sampleEps eps) x b
  rw [hd, if_neg hc] at hsolve
  have a00 : sampleEps eps 0 0 = eps := rfl
  have a01 : sampleEps eps 0 1 = 1 := rfl
  have a10 : sampleEps eps 1 0 = 1 := rfl
  have a11 : sampleEps eps 1 1 = 1 := rfl
  rw [a00, a01, a10, a11] at hsolve
  refine ⟨hrow, by rw [hlu], by rw [hlu], ?_, ?_, ?_, ?_, by rw [hsolve], ?_, ?_⟩
  · rw [hlu]; exact e00
  · rw [hlu]; exact e01
  · rw [hlu]
    show (elimStep 2 1 _).get 1 0 = eps
    rw [elimStep_get, if_neg (by omega)]
    exact e10
  · rw [hlu]
    show (elimStep 2 1 _).get 1 1 = 1 - eps
    rw [elimStep_get, if_neg (by omega)]
    exact e11
  · rw [hsolve]
    simp only [Vec.set]
    simp
    field_simp
    ring
  · rw [hsolve]
    simp only [Vec.set]
    simp
    field_simp
    ring

/-- Instance of C34: `eps = 1e-9`; the pivot vector of `ElimPivot` records the
exchange, and `solve` throws nothing. -/
theorem partial_pivoting_example_witness :
    absreal (1 / 10 ^ 9) <
      pivThreshold FMatrixPrecision.initial ⟨2, 2, sampleEps (1 / 10 ^ 9)⟩ ∧
    (luDecomposition FMatrixPrecision.initial 2 ⟨2, 2, sampleEps (1 / 10 ^ 9)⟩ ElimPivot
      (ElimPivot.init 2 fun _ => 0)).2.2 0 = 1 ∧
    (solve false FMatrixPrecision.initial ⟨2, 2, sampleEps (1 / 10 ^ 9)⟩ (fun _ => 0)
      sampleRhsTwo).1 = none :=
  have h := partial_pivoting_example false (1 / 10 ^ 9) ElimPivot
    (ElimPivot.init 2 fun _ => 0) (fun _ => 0) sampleRhsTwo (by decide!)
  ⟨by decide!, by rw [h.2.2.1]; rfl, h.2.2.2.2.2.2.2.1⟩

theorem maxLoop_scale (n : Nat) (c : ℚ) (hc : 0 ≤ c) (g h : Nat → ℚ)
    (hg : ∀ i, i < n → h i = c * g i) :
    forUp 0 n (fun i m => max m (h i)) 0 = c * forUp 0 n (fun i m => max m (g i)) 0 := by
  induction n with
  | zero => simp [forUp]
  | succ k ih =>
    simp only [forUp, Nat.zero_add]
    rw [ih fun i hi => hg i (by omega), hg k (by omega), mul_max_of_nonneg _ _ hc]

theorem infinity_norm_real_scale (A : DenseMatrix) (c : ℚ) (hc : 0 ≤ c) :
    infinity_norm_real (mulAssign A c) = c * infinity_norm_real A := by
  obtain ⟨m1, m2, m3⟩ := mulAssign_spec A c
  unfold infinity_norm_real
  rw [m1]
  apply maxLoop_scale A.rows c hc (fun i => one_norm_real A i)
  intro i hi
  rw [one_norm_real_eq, one_norm_real_eq, m2, Finset.mul_sum]
  apply Finset.sum_congr rfl
  intro j hj
  rw [m3, if_pos ⟨hi, Finset.mem_range.mp hj⟩]
  unfold absreal
  rw [abs_mul, abs_of_nonneg hc, mul_comm]

theorem thresholds_scale (p : FMatrixPrecision) (A : DenseMatrix) (c : ℚ) (hc : 0 < c) :
    pivThreshold p (mulAssign A c) =
      max p.absolute_limit (c * (infinity_norm_real A * p.pivoting_limit)) ∧
    singThreshold p (mulAssign A c) =
      max p.absolute_limit (c * (infinity_norm_real A * p.singular_limit)) ∧
    (p.absolute_limit ≤ infinity_norm_real A * p.pivoting_limit →
      p.absolute_limit ≤ c * (infinity_norm_real A * p.pivoting_limit) →
      pivThreshold p (mulAssign A c) = c * pivThreshold p A) ∧
    (p.absolute_limit ≤ infinity_norm_real A * p.singular_limit →
      p.absolute_limit ≤ c * (infinity_norm_real A * p.singular_limit) →
      singThreshold p (mulAssign A c) = c * singThreshold p A) := by
  have hn := infinity_norm_real_scale A c (le_of_lt hc)
  have e1 : pivThreshold p (mulAssign A c) =
      max p.absolute_limit (c * (infinity_norm_real A * p.pivoting_limit)) := by
    unfold pivThreshold
    rw [hn, mul_assoc]
  have e2 : singThreshold p (mulAssign A c) =
      max p.absolute_limit (c * (infinity_norm_real A * p.singular_limit)) := by
    unfold singThreshold
    rw [hn, mul_assoc]
  refine ⟨e1, e2, fun h1 h2 => ?_, fun h1 h2 => ?_⟩
  · rw [e1, max_eq_right h2]
    unfold pivThreshold
    rw [max_eq_right h1]
  · rw [e2, max_eq_right h2]
    unfold singThreshold
    rw [max_eq_right h1]

theorem pivotSearch_scale (n : Nat) (c : ℚ) (hc : 0 < c) (W V : DenseMatrix) (i : Nat)
    (h : ∀ k, i ≤ k → k < n → V.get k i = c * W.get k i) (v : ℚ) (cnt : Nat)
    (hcnt : i + 1 + cnt ≤ n) :
    forUp (i + 1) cnt
        (fun k s => if absreal (V.get k i) > s.1 then (absreal (V.get k i), k) else s)
        (c * v, i) =
      (c * (forUp (i + 1) cnt
        (fun k s => if absreal (W.get k i) > s.1 then (absreal (W.get k i), k) else s)
        (v, i)).1,
       (forUp (i + 1) cnt
        (fun k s => if absreal (W.get k i) > s.1 then (absreal (W.get k i), k) else s)
        (v, i)).2) := by
  induction cnt with
  | zero => rfl
  | succ m ih =>
    simp only [forUp]
    rw [ih (by omega), h (i + 1 + m) (by omega) (by omega)]
    have habs : absreal (c * W.get (i + 1 + m) i) = c * absreal (W.get (i + 1 + m) i) := by
      unfold absreal
      rw [abs_mul, abs_of_pos hc]
    rw [habs]
    simp only
    by_cases hgt : absreal (W.get (i + 1 + m) i) > (forUp (i + 1) m
        (fun k s => if absreal (W.get k i) > s.1 then (absreal (W.get k i), k) else s)
        (v, i)).1
    · have hgt2 : c * absreal (W.get (i + 1 + m) i) > c * (forUp (i + 1) m
          (fun k s => if absreal (W.get k i) > s.1 then (absreal (W.get k i), k) else s)
          (v, i)).1 := mul_lt_mul_of_pos_left hgt hc
      rw [if_pos hgt, if_pos hgt2]
    · have hgt2 : ¬ c * absreal (W.get (i + 1 + m) i) > c * (forUp (i + 1) m
          (fun k s => if absreal (W.get k i) > s.1 then (absreal (W.get k i), k) else s)
          (v, i)).1 := fun h2 => hgt (lt_of_mul_lt_mul_left h2 (le_of_lt hc))
      rw [if_neg hgt, if_neg hgt2]

theorem pivotRow_scale (n : Nat) (c : ℚ) (hc : 0 < c) (pt : ℚ) (W V : DenseMatrix) (i : Nat)
    (hi : i < n) (h : Scaled c n i W V) :
    pivotRow n (c * pt) V i = pivotRow n pt W i := by
  have hcol : ∀ k, i ≤ k → k < n → V.get k i = c * W.get k i := by
    intro k h1 h2
    rw [h k i h2 hi, if_neg (by omega)]
  have habs : absreal (V.get i i) = c * absreal (W.get i i) := by
    rw [hcol i le_rfl hi]
    unfold absreal
    rw [abs_mul, abs_of_pos hc]
  unfold pivotRow
  rw [habs]
  by_cases hlt : absreal (W.get i i) < pt
  · rw [if_pos hlt, if_pos (mul_lt_mul_of_pos_left hlt hc)]
    unfold pivotSearch
    rw [pivotSearch_scale n c hc W V i hcol _ _ (by omega)]
  · rw [if_neg hlt, if_neg (fun h2 => hlt (lt_of_mul_lt_mul_left h2 (le_of_lt hc)))]

theorem Scaled_swap (c : ℚ) (n i m : Nat) (W V : DenseMatrix) (hi : i < n)
    (hm : m = i ∨ (i < m ∧ m < n)) (h : Scaled c n i W V) :
    Scaled c n i (swapStep n i m W) (swapStep n i m V) := by
  intro k j hk hj
  have hmn : m < n := by omega
  rw [swapStep_get, swapStep_get, if_pos hj, if_pos hj]
  by_cases hki : k = i
  · rw [if_pos hki, if_pos hki, h m j hmn hj]
    by_cases hji : j < i
    · rw [if_pos ⟨hji, by omega⟩, if_pos ⟨hji, by omega⟩]
    · rw [if_neg (fun a => hji a.1), if_neg (fun a => hji a.1)]
  · rw [if_neg hki, if_neg hki]
    by_cases hkm : k = m
    · rw [if_pos hkm, if_pos hkm, h i j hi hj]
      by_cases hji : j < i
      · rw [if_pos ⟨hji, hji⟩, if_pos ⟨hji, by omega⟩]
      · rw [if_neg (fun a => hji a.1), if_neg (fun a => hji a.1)]
    · rw [if_neg hkm, if_neg hkm, h k j hk hj]

theorem Scaled_elim (c : ℚ) (hc : 0 < c) (n i : Nat) (W V : DenseMatrix) (hi : i < n)
    (h : Scaled c n i W V) :
    Scaled c n (i + 1) (elimStep n i W) (elimStep n i V) := by
  have hc0 : c ≠ 0 := ne_of_gt hc
  have hii : V.get i i = c * W.get i i := by
    rw [h i i hi hi, if_neg (by omega)]
  intro k j hk hj
  by_cases hik : i < k
  · have hki : V.get k i = c * W.get k i := by
      rw [h k i hk hi, if_neg (by omega)]
    have c1 : i < k ∧ k < n := ⟨hik, hk⟩
    by_cases hji : j = i
    · have eV : (elimStep n i V).get k j = V.get k i / V.get i i := by
        rw [elimStep_get, if_pos c1, if_pos hji]
      have eW : (elimStep n i W).get k j = W.get k i / W.get i i := by
        rw [elimStep_get, if_pos c1, if_pos hji]
      have c2 : j < i + 1 ∧ j < k := by omega
      rw [eV, eW, if_pos c2, hki, hii, mul_div_mul_left _ _ hc0]
    · by_cases hij : i < j
      · have c3 : i < j ∧ j < n := ⟨hij, hj⟩
        have eV : (elimStep n i V).get k j =
            V.get k j - V.get k i / V.get i i * V.get i j := by
          rw [elimStep_get, if_pos c1, if_neg hji, if_pos c3]
        have eW : (elimStep n i W).get k j =
            W.get k j - W.get k i / W.get i i * W.get i j := by
          rw [elimStep_get, if_pos c1, if_neg hji, if_pos c3]
        have hkj : V.get k j = c * W.get k j := by
          rw [h k j hk hj, if_neg (by omega)]
        have hij2 : V.get i j = c * W.get i j := by
          rw [h i j hi hj, if_neg (by omega)]
        have c2 : ¬ (j < i + 1 ∧ j < k) := by omega
        rw [eV, eW, if_neg c2, hkj, hki, hii, hij2, mul_div_mul_left _ _ hc0]
        ring
      · have c3 : ¬ (i < j ∧ j < n) := fun a => hij a.1
        have eV : (elimStep n i V).get k j = V.get k j := by
          rw [elimStep_get, if_pos c1, if_neg hji, if_neg c3]
        have eW : (elimStep n i W).get k j = W.get k j := by
          rw [elimStep_get, if_pos c1, if_neg hji, if_neg c3]
        have c2 : j < i + 1 ∧ j < k := by omega
        have c4 : j < i ∧ j < k := by omega
        rw [eV, eW, if_pos c2, h k j hk hj, if_pos c4]
  · have c1 : ¬ (i < k ∧ k < n) := fun a => hik a.1
    have eV : (elimStep n i V).get k j = V.get k j := by
      rw [elimStep_get, if_neg c1]
    have eW : (elimStep n i W).get k j = W.get k j := by
      rw [elimStep_get, if_neg c1]
    rw [eV, eW, h k j hk hj]
    by_cases hjk : j < k
    · have c2 : j < i + 1 ∧ j < k := by omega
      have c4 : j < i ∧ j < k := by omega
      rw [if_pos c2, if_pos c4]
    · have c2 : ¬ (j < i + 1 ∧ j < k) := fun a => hjk a.2
      have c4 : ¬ (j < i ∧ j < k) := fun a => hjk a.2
      rw [if_neg c2, if_neg c4]

theorem elimCalls_scale {σ : Type} (c : ℚ) (hc : 0 < c) (n i : Nat) (F : Func σ)
    (W V : DenseMatrix) (hi : i < n) (h : Scaled c n i W V) (st : σ) :
    elimCalls n F i V st = elimCalls n F i W st := by
  have hc0 : c ≠ 0 := ne_of_gt hc
  have hii : V.get i i = c * W.get i i := by
    rw [h i i hi hi, if_neg (by omega)]
  unfold elimCalls
  have key : ∀ cnt, i + 1 + cnt ≤ n →
      forUp (i + 1) cnt (fun k st => F.call (V.get k i / V.get i i) k i st) st =
        forUp (i + 1) cnt (fun k st => F.call (W.get k i / W.get i i) k i st) st := by
    intro cnt
    induction cnt with
    | zero => intro _; rfl
    | succ m ih =>
      intro hm
      simp only [forUp]
      rw [ih (by omega), h (i + 1 + m) i (by omega) hi, if_neg (by omega), hii,
        mul_div_mul_left _ _ hc0]
  exact key _ (by omega)

theorem luLoop_scale {σ : Type} (p : FMatrixPrecision) (A : DenseMatrix) (c : ℚ) (hc : 0 < c)
    (hsq : A.rows = A.cols) (F : Func σ) (func : σ)
    (hpt : pivThreshold p (mulAssign A c) = c * pivThreshold p A)
    (hst : singThreshold p (mulAssign A c) = c * singThreshold p A)
    (cnt : Nat) (hcnt : cnt ≤ A.rows) :
    (luLoop p A.rows (mulAssign A c) F func cnt).1 = (luLoop p A.rows A F func cnt).1 ∧
    (luLoop p A.rows (mulAssign A c) F func cnt).2.2 = (luLoop p A.rows A F func cnt).2.2 ∧
    ((luLoop p A.rows A F func cnt).1 = none →
      Scaled c A.rows cnt (luLoop p A.rows A F func cnt).2.1
        (luLoop p A.rows (mulAssign A c) F func cnt).2.1) := by
  induction cnt with
  | zero =>
    refine ⟨rfl, rfl, fun _ k j hk hj => ?_⟩
    show (mulAssign A c).get k j = _
    rw [(mulAssign_spec A c).2.2, if_pos ⟨hk, hsq ▸ hj⟩, if_neg (by omega), mul_comm]
    rfl
  | succ n ih =>
    obtain ⟨h1, h2, h3⟩ := ih (by omega)
    have hn : n < A.rows := by omega
    rw [luLoop_succ, luLoop_succ, h1]
    cases hA : (luLoop p A.rows A F func n).1 with
    | some e =>
      simp only
      refine ⟨h1, h2, fun h => ?_⟩
      rw [hA] at h
      exact absurd h (by simp)
    | none =>
      simp only
      have hsc := h3 hA
      have hb := luBody_spec A.rows (pivThreshold p A) (singThreshold p A) F n
        (luLoop p A.rows A F func n).2.1 (luLoop p A.rows A F func n).2.2
      have hc2 := luBody_spec A.rows (pivThreshold p (mulAssign A c))
        (singThreshold p (mulAssign A c)) F n
        (luLoop p A.rows (mulAssign A c) F func n).2.1
        (luLoop p A.rows (mulAssign A c) F func n).2.2
      rw [Prod.mk.eta] at hb hc2
      rw [hb, hc2, hpt, hst, pivotRow_scale A.rows c hc _ _ _ n hn hsc, h2]
      have hm := pivotRow_range A.rows (pivThreshold p A) (luLoop p A.rows A F func n).2.1 n
      have hsw := Scaled_swap c A.rows n _ _ _ hn hm hsc
      have hpiv : absreal ((swapStep A.rows n
            (pivotRow A.rows (pivThreshold p A) (luLoop p A.rows A F func n).2.1 n)
            (luLoop p A.rows (mulAssign A c) F func n).2.1).get n n) =
          c * absreal ((swapStep A.rows n
            (pivotRow A.rows (pivThreshold p A) (luLoop p A.rows A F func n).2.1 n)
            (luLoop p A.rows A F func n).2.1).get n n) := by
        rw [hsw n n hn hn, if_neg (by omega)]
        unfold absreal
        rw [abs_mul, abs_of_pos hc]
      rw [hpiv]
      by_cases hlt : absreal ((swapStep A.rows n
            (pivotRow A.rows (pivThreshold p A) (luLoop p A.rows A F func n).2.1 n)
            (luLoop p A.rows A F func n).2.1).get n n) < singThreshold p A
      · rw [if_pos hlt, if_pos (mul_lt_mul_of_pos_left hlt hc)]
        exact ⟨rfl, rfl, fun h => absurd h (by simp)⟩
      · rw [if_neg hlt, if_neg (fun a => hlt (lt_of_mul_lt_mul_left a (le_of_lt hc)))]
        exact ⟨rfl, elimCalls_scale c hc A.rows n F _ _ hn hsw _,
          fun _ => Scaled_elim c hc A.rows n _ _ hn hsw⟩

/-- C33, the claim as stated fails: under the initial limits the thresholds of
`diag(1e-81, ..)` and of its 100-fold are both the absolute limit 1e-80, not
100 times each other, and the decomposition throws "matrix is singular" on the
first and nothing on the second. -/
theorem thresholds_not_scaled :
    pivThreshold FMatrixPrecision.initial (mulAssign sampleTiny 100) ≠
      100 * pivThreshold FMatrixPrecision.initial sampleTiny ∧
    singThreshold FMatrixPrecision.initial (mulAssign sampleTiny 100) ≠
      100 * singThreshold FMatrixPrecision.initial sampleTiny ∧
    (luDecomposition FMatrixPrecision.initial 4 sampleTiny Elim sampleRhs).1
      = some FMatrixError.singular ∧
    (luDecomposition FMatrixPrecision.initial 4 (mulAssign sampleTiny 100) Elim sampleRhs).1
      = none := by
  refine ⟨by decide!, by decide!, by decide!, by decide!⟩

/-- C33, amended: for every square matrix `A` and every `c > 0`, the
thresholds that the engine computes for `c * A` are
`max(absolute_limit, c * norm * pivoting_limit)` and
`max(absolute_limit, c * norm * singular_limit)`, with `norm` the norm of `A`;
they are `c` times those of `A` when the absolute limit exceeds neither relative
term, for `A` and for `c * A`.  Whenever the two thresholds of `c * A` are `c`
times those of `A`, the decomposition of `c * A` throws exactly when that of `A`
does, every step reached takes its pivot from the same row, the observer ends in
the same state, and the factored matrix of `c * A` has the factors of `A` below
the diagonal and `c` times the entries of `A` on and above it. -/
theorem thresholds_scaling {σ : Type} (p : FMatrixPrecision) (A : DenseMatrix) (c : ℚ)
    (hc : 0 < c) (hsq : A.rows = A.cols) (F : Func σ) (func : σ) :
    pivThreshold p (mulAssign A c) =
      max p.absolute_limit (c * (infinity_norm_real A * p.pivoting_limit)) ∧
    singThreshold p (mulAssign A c) =
      max p.absolute_limit (c * (infinity_norm_real A * p.singular_limit)) ∧
    (p.absolute_limit ≤ infinity_norm_real A * p.pivoting_limit →
      p.absolute_limit ≤ c * (infinity_norm_real A * p.pivoting_limit) →
      pivThreshold p (mulAssign A c) = c * pivThreshold p A) ∧
    (p.absolute_limit ≤ infinity_norm_real A * p.singular_limit →
      p.absolute_limit ≤ c * (infinity_norm_real A * p.singular_limit) →
      singThreshold p (mulAssign A c) = c * singThreshold p A) ∧
    (pivThreshold p (mulAssign A c) = c * pivThreshold p A →
      singThreshold p (mulAssign A c) = c * singThreshold p A →
      (luDecomposition p A.rows (mulAssign A c) F func).1 =
        (luDecomposition p A.rows A F func).1 ∧
      (luDecomposition p A.rows (mulAssign A c) F func).2.2 =
        (luDecomposition p A.rows A F func).2.2 ∧
      (∀ i, i < A.rows → (luLoop p A.rows A F func i).1 = none →
        pivotRow A.rows (pivThreshold p (mulAssign A c))
            (luLoop p A.rows (mulAssign A c) F func i).2.1 i =
          pivotRow A.rows (pivThreshold p A) (luLoop p A.rows A F func i).2.1 i) ∧
      ((luDecomposition p A.rows A F func).1 = none →
        ∀ k j, k < A.rows → j < A.rows →
          (luDecomposition p A.rows (mulAssign A c) F func).2.1.get k j =
            if j < k then (luDecomposition p A.rows A F func).2.1.get k j
            else c * (luDecomposition p A.rows A F func).2.1.get k j)) := by
  obtain ⟨t1, t2, t3, t4⟩ := thresholds_scale p A c hc
  refine ⟨t1, t2, t3, t4, fun hpt hst => ?_⟩
  obtain ⟨h1, h2, h3⟩ := luLoop_scale p A c hc hsq F func hpt hst A.rows le_rfl
  refine ⟨h1, h2, fun i hi hok => ?_, fun hok k j hk hj => ?_⟩
  · rw [hpt]
    exact pivotRow_scale A.rows c hc _ _ _ i hi
      ((luLoop_scale p A c hc hsq F func hpt hst i (by omega)).2.2 hok)
  · have := h3 hok k j hk hj
    rw [luDecomposition_eq, luDecomposition_eq, this]
    by_cases hjk : j < k
    · rw [if_pos ⟨hj, hjk⟩, if_pos hjk]
    · rw [if_neg (fun a => hjk a.2), if_neg hjk]

/-- Instance of the amended C33: the regular 4 x 4 sample matrix and `c = 2`
under the initial thresholds. -/
theorem thresholds_scaling_witness :
    pivThreshold FMatrixPrecision.initial (mulAssign sampleRegular 2) =
      2 * pivThreshold FMatrixPrecision.initial sampleRegular ∧
    (luDecomposition FMatrixPrecision.initial 4 (mulAssign sampleRegular 2) ElimPivot
      (ElimPivot.init 4 fun _ => 0)).1 = none ∧
    (luDecomposition FMatrixPrecision.initial 4 (mulAssign sampleRegular 2) ElimPivot
      (ElimPivot.init 4 fun _ => 0)).2.2 =
      (luDecomposition FMatrixPrecision.initial 4 sampleRegular ElimPivot
        (ElimPivot.init 4 fun _ => 0)).2.2 :=
  have h := thresholds_scaling FMatrixPrecision.initial sampleRegular 2 (by norm_num) rfl
    ElimPivot (ElimPivot.init 4 fun _ => 0)
  have hpt := h.2.2.1 (by decide!) (by decide!)
  have hst := h.2.2.2.1 (by decide!) (by decide!)
  have hr := h.2.2.2.2 hpt hst
  ⟨hpt, hr.1.trans (by decide!), hr.2.1⟩

/-! ## Termination: the loops with their counters -/

theorem forUp_stay {σ : Type} (c : σ → Bool) (G : Nat → σ → σ)
    (hG : ∀ k t, c t = false → G k t = t) (lo : Nat) (s : σ) (hs : c s = false) :
    ∀ cnt, forUp lo cnt G s = s := by
  intro cnt
  induction cnt with
  | zero => rfl
  | succ n ih =>
    show G (lo + n) (forUp lo n G s) = s
    rw [ih, hG _ _ hs]

theorem whileLoop_up {σ : Type} (n : Nat) (c : σ → Bool) (f : Nat → σ → Option σ)
    (G : Nat → σ → σ) (hG : ∀ k t, c t = false → G k t = t) :
    ∀ (cnt lo fuel : Nat) (s : σ), (lo + cnt = n ∨ (cnt = 0 ∧ n ≤ lo)) → cnt ≤ fuel →
      (∀ k t, lo ≤ k → k < n → c t = true → f k t = some (G k t)) →
      (whileLoop (fun st : Nat × σ => c st.2 && decide (st.1 < n))
        (fun st => (f st.1 st.2).map (fun t => (st.1 + 1, t))) fuel (lo, s)).map Prod.snd
        = some (forUp lo cnt G s) := by
  intro cnt
  induction cnt with
  | zero =>
    intro lo fuel s hn _ _
    have hc : ¬ ((c s && decide (lo < n)) = true) := by
      have : ¬ lo < n := by omega
      simp [this]
    cases fuel with
    | zero =>
      show (if (c s && decide (lo < n)) = true then none else some (lo, s)).map Prod.snd = _
      rw [if_neg hc]
      rfl
    | succ m =>
      show (if (c s && decide (lo < n)) = true then _ else some (lo, s)).map Prod.snd = _
      rw [if_neg hc]
      rfl
  | succ d ih =>
    intro lo fuel s hn hfuel hf
    have hlt : lo < n := by omega
    cases fuel with
    | zero => omega
    | succ m =>
      by_cases hcs : c s = true
      · have hc : (c s && decide (lo < n)) = true := by simp [hcs, hlt]
        show (if (c s && decide (lo < n)) = true then
          ((f lo s).map (fun t => (lo + 1, t))).bind (whileLoop _ _ m) else some (lo, s)).map
            Prod.snd = _
        rw [if_pos hc, hf lo s le_rfl hlt hcs]
        show (whileLoop _ _ m (lo + 1, G lo s)).map Prod.snd = _
        rw [ih (lo + 1) m (G lo s) (by omega) (by omega)
          (fun k t h1 h2 h3 => hf k t (by omega) h2 h3), forUp_first]
      · have hcf : c s = false := by simpa using hcs
        have hc : ¬ ((c s && decide (lo < n)) = true) := by simp [hcf]
        show (if (c s && decide (lo < n)) = true then _ else some (lo, s)).map Prod.snd = _
        rw [if_neg hc, forUp_stay c G hG lo s hcf]
        rfl

namespace Stepwise

theorem forUpTo_eq {σ : Type} (fuel lo n : Nat) (f : Nat → σ → Option σ) (g : Nat → σ → σ)
    (s : σ) (hfuel : n - lo ≤ fuel) (hf : ∀ k t, lo ≤ k → k < n → f k t = some (g k t)) :
    forUpTo fuel lo n f s = some (forUp lo (n - lo) g s) :=
  whileLoop_up n (fun _ => true) f g (fun _ _ h => Bool.noConfusion h) (n - lo) lo fuel s
    (by omega) hfuel (fun k t h1 h2 _ => hf k t h1 h2)

theorem forDownFrom_eq {σ : Type} (f : Nat → σ → Option σ) (g : Nat → σ → σ) :
    ∀ (n fuel : Nat) (s : σ), n ≤ fuel → (∀ k t, k < n → f k t = some (g k t)) →
      forDownFrom fuel n f s = some (forDown n g s) := by
  intro n
  induction n with
  | zero =>
    intro fuel s _ _
    cases fuel <;> rfl
  | succ d ih =>
    intro fuel s hfuel hf
    cases fuel with
    | zero => omega
    | succ m =>
      have hc : decide (0 < d + 1) = true := by
        rw [decide_eq_true_eq]
        omega
      show (if decide (0 < d + 1) = true then
        ((f d s).map (fun t => (d, t))).bind (whileLoop _ _ m)
        else some (d + 1, s)).map Prod.snd = _
      rw [if_pos hc, hf d s (by omega)]
      exact ih m (g d s) (by omega) (fun k t hk => hf k t (by omega))

theorem forDownInt_eq {σ : Type} (f : Int → σ → Option σ) (g : Nat → σ → σ) :
    ∀ (n fuel : Nat) (s : σ), n ≤ fuel → (∀ (k : Nat) t, k < n → f k t = some (g k t)) →
      forDownInt fuel n f s = some (forDown n g s) := by
  intro n
  induction n with
  | zero =>
    intro fuel s _ _
    cases fuel <;> rfl
  | succ d ih =>
    intro fuel s hfuel hf
    cases fuel with
    | zero => omega
    | succ m =>
      have e : ((d + 1 : Nat) : Int) - 1 = (d : Int) := by omega
      unfold forDownInt
      rw [e]
      have hc : decide ((0 : Int) ≤ (d : Int)) = true := by
        rw [decide_eq_true_eq]
        omega
      show (if decide ((0 : Int) ≤ (d : Int)) = true then
        ((f d s).map (fun t => ((d : Int) - 1, t))).bind (whileLoop _ _ m)
        else some ((d : Int), s)).map Prod.snd = _
      rw [if_pos hc, hf d s (by omega)]
      exact ih m (g d s) (by omega) (fun k t hk => hf k t (by omega))

theorem infinity_norm_real_returns (fuel : Nat) (A : DenseMatrix) (h : A.rows ≤ fuel) :
    infinity_norm_real fuel A = some (Opm.infinity_norm_real A) := by
  unfold infinity_norm_real Opm.infinity_norm_real
  exact forUpTo_eq fuel 0 A.rows _ _ 0 (by omega) (fun _ _ _ _ => rfl)

theorem init_returns (fuel size : Nat) (pivot : Nat → Nat) (h : size ≤ fuel) :
    ElimPivot.init fuel size pivot = some (Opm.ElimPivot.init size pivot) := by
  unfold ElimPivot.init Opm.ElimPivot.init
  exact forUpTo_eq fuel 0 size _ _ pivot (by omega) (fun _ _ _ _ => rfl)

theorem pivotSearch_returns (fuel rows : Nat) (A : DenseMatrix) (i : Nat) (pivmax : ℚ)
    (h : rows ≤ fuel) :
    pivotSearch fuel rows A i pivmax = some (Opm.pivotSearch rows A i pivmax) := by
  unfold pivotSearch Opm.pivotSearch
  exact forUpTo_eq fuel (i + 1) rows _ _ (pivmax, i) (by omega) (fun _ _ _ _ => rfl)

theorem swapRows_returns (fuel rows : Nat) (A : DenseMatrix) (i imax : Nat)
    (h : rows ≤ fuel) :
    swapRows fuel rows A i imax = some (Opm.swapRows rows A i imax) := by
  unfold swapRows Opm.swapRows
  exact forUpTo_eq fuel 0 rows _ _ A (by omega) (fun _ _ _ _ => rfl)

theorem eliminateRow_returns {σ : Type} (fuel rows : Nat) (F : Func σ) (i k : Nat)
    (s : DenseMatrix × σ) (h : rows ≤ fuel) :
    eliminateRow fuel rows F i k s = some (Opm.eliminateRow rows F i k s) := by
  unfold eliminateRow Opm.eliminateRow
  have hl := forUpTo_eq fuel (i + 1) rows
    (fun j B => some (B.set k j (B.get k j - s.1.get k i / s.1.get i i * B.get i j)))
    (fun j B => B.set k j (B.get k j - s.1.get k i / s.1.get i i * B.get i j))
    (s.1.set k i (s.1.get k i / s.1.get i i)) (by omega) (fun _ _ _ _ => rfl)
  show Option.map _ (forUpTo fuel (i + 1) rows _ _) = _
  rw [hl]
  rfl

theorem luBody_returns {σ : Type} (fuel rows : Nat) (pivthres singthres : ℚ) (F : Func σ)
    (i : Nat) (s : DenseMatrix × σ) (h : rows ≤ fuel) :
    luBody fuel rows pivthres singthres F i s
      = some (Opm.luBody rows pivthres singthres F i s) := by
  have hel : ∀ u : DenseMatrix × σ,
      forUpTo fuel (i + 1) rows (fun k u => eliminateRow fuel rows F i k u) u
        = some (forUp (i + 1) (rows - (i + 1)) (fun k u => Opm.eliminateRow rows F i k u) u) :=
    fun u => forUpTo_eq fuel (i + 1) rows _ _ u (by omega)
      (fun k t _ _ => eliminateRow_returns fuel rows F i k t h)
  unfold luBody Opm.luBody
  simp only [pivotSearch_returns fuel rows _ _ _ h, swapRows_returns fuel rows _ _ _ h,
    Option.some_bind, Option.map_some', hel]
  by_cases h1 : absreal (s.1.get i i) < pivthres
  · simp only [if_pos h1]
    by_cases h2 : (Opm.pivotSearch rows s.1 i (absreal (s.1.get i i))).2 ≠ i
    · simp only [if_pos h2, Option.some_bind]
      split_ifs <;> rfl
    · simp only [if_neg h2, Option.some_bind]
      split_ifs <;> rfl
  · simp only [if_neg h1, Option.some_bind]
    split_ifs <;> rfl

theorem luDecomposition_returns {σ : Type} (fuel : Nat) (p : FMatrixPrecision) (rows : Nat)
    (A : DenseMatrix) (F : Func σ) (func : σ) (hA : A.rows ≤ fuel) (h : rows ≤ fuel) :
    luDecomposition fuel p rows A F func = some (Opm.luDecomposition p rows A F func) := by
  unfold luDecomposition
  rw [infinity_norm_real_returns fuel A hA]
  exact whileLoop_up rows (fun r : Option FMatrixError × (DenseMatrix × σ) => r.1.isNone)
    (fun i r => luBody fuel rows _ _ F i r.2)
    (fun i r => match r.1 with
      | some _ => r
      | none => Opm.luBody rows _ _ F i r.2)
    (fun k t ht => by
      obtain ⟨e, u⟩ := t
      cases e with
      | none => exact Bool.noConfusion ht
      | some e => rfl)
    rows 0 fuel (none, (A, func)) (by omega) h
    (fun k t _ _ ht => by
      obtain ⟨e, u⟩ := t
      cases e with
      | none => exact luBody_returns fuel rows _ _ F k u h
      | some e => exact Bool.noConfusion ht)

theorem determinant_returns (fuel : Nat) (p : FMatrixPrecision) (A : DenseMatrix)
    (h : A.rows ≤ fuel) :
    determinant fuel p A = some (Opm.determinant p A) := by
  unfold determinant Opm.determinant
  by_cases h0 : A.rows ≠ A.cols
  · rw [if_pos h0, if_pos h0]
  · rw [if_neg h0, if_neg h0]
    by_cases h1 : A.rows = 1
    · rw [if_pos h1, if_pos h1]
    · rw [if_neg h1, if_neg h1]
      by_cases h2 : A.rows = 2
      · rw [if_pos h2, if_pos h2]
      · rw [if_neg h2, if_neg h2]
        by_cases h3 : A.rows = 3
        · rw [if_pos h3, if_pos h3]
        · rw [if_neg h3, if_neg h3, luDecomposition_returns fuel p A.rows A _ _ h h]
          simp only [Option.some_bind]
          generalize Opm.luDecomposition p A.rows A ElimDet (ElimDet.init 0) = r
          obtain ⟨e, W, d⟩ := r
          cases e with
          | some e => rfl
          | none =>
            show (forUpTo fuel 0 A.rows (fun i det => some (det * W.get i i)) d).map
              Except.ok = _
            rw [forUpTo_eq fuel 0 A.rows _ (fun i det => det * W.get i i) d (by omega)
              (fun _ _ _ _ => rfl)]
            rfl

theorem backsolve_returns (fuel rows : Nat) (A : DenseMatrix) (x : Vec) (h : rows ≤ fuel) :
    backsolve fuel rows A x = some (Opm.backsolve rows A x) := by
  unfold backsolve Opm.backsolve
  refine forDownInt_eq _ _ rows fuel x h (fun k t _ => ?_)
  have e : ((k : Nat) : Int).toNat = k := Int.toNat_ofNat k
  simp only [e]
  rw [forUpTo_eq fuel (k + 1) rows _ (fun j (x : Vec) => x.set k (x k - A.get k j * x j)) t
    (by omega) (fun _ _ _ _ => rfl)]
  rfl

theorem solve_returns (fuel : Nat) (checking : Bool) (p : FMatrixPrecision) (A : DenseMatrix)
    (x b : Vec) (h : A.rows ≤ fuel) :
    solve fuel checking p A x b = some (Opm.solve checking p A x b) := by
  unfold solve Opm.solve
  by_cases h0 : A.rows ≠ A.cols
  · rw [if_pos h0, if_pos h0]
  · rw [if_neg h0, if_neg h0]
    by_cases h1 : A.rows = 1
    · rw [if_pos h1, if_pos h1]
      split_ifs <;> rfl
    · rw [if_neg h1, if_neg h1]
      by_cases h2 : A.rows = 2
      · rw [if_pos h2, if_pos h2]
        simp only []
        split_ifs <;> rfl
      · rw [if_neg h2, if_neg h2]
        by_cases h3 : A.rows = 3
        · rw [if_pos h3, if_pos h3, determinant_returns fuel p A h]
          simp only [Option.some_bind]
          cases Opm.determinant p A with
          | error e => rfl
          | ok d =>
            simp only []
            split_ifs <;> rfl
        · rw [if_neg h3, if_neg h3, luDecomposition_returns fuel p A.rows A _ _ h h]
          simp only [Option.some_bind]
          generalize Opm.luDecomposition p A.rows A Elim b = r
          obtain ⟨e, W, d⟩ := r
          cases e with
          | some e => rfl
          | none =>
            show (backsolve fuel A.rows W d).map _ = _
            rw [backsolve_returns fuel A.rows W d h]
            rfl

theorem assignScalar_returns (fuel : Nat) (A : DenseMatrix) (f : ℚ) (h : A.rows ≤ fuel) :
    assignScalar fuel A f = some (Opm.assignScalar A f) := by
  unfold assignScalar Opm.assignScalar
  exact forUpTo_eq fuel 0 A.rows _ _ A (by omega) (fun _ _ _ _ => rfl)

theorem invertForward_returns (fuel rows : Nat) (L M : DenseMatrix) (h : rows ≤ fuel) :
    invertForward fuel rows L M = some (Opm.invertForward rows L M) := by
  unfold invertForward Opm.invertForward
  refine forUpTo_eq fuel 0 rows _ _ M (by omega) (fun i M1 _ hi => ?_)
  refine forUpTo_eq fuel 0 i _ _ M1 (by omega) (fun j M2 _ _ => ?_)
  exact forUpTo_eq fuel 0 rows _ _ M2 (by omega) (fun _ _ _ _ => rfl)

theorem invertBackward_returns (fuel rows : Nat) (U M : DenseMatrix) (h : rows ≤ fuel) :
    invertBackward fuel rows U M = some (Opm.invertBackward rows U M) := by
  unfold invertBackward Opm.invertBackward
  refine forDownFrom_eq _ _ rows fuel M h (fun i M1 _ => ?_)
  refine forUpTo_eq fuel 0 rows _ _ M1 (by omega) (fun k M2 _ _ => ?_)
  show (forUpTo fuel (i + 1) rows _ M2).map _ = _
  rw [forUpTo_eq fuel (i + 1) rows _
    (fun j M => M.set i k (M.get i k - U.get i j * M.get j k)) M2 (by omega)
    (fun _ _ _ _ => rfl)]
  rfl

theorem invertUnpivot_returns (fuel rows : Nat) (pivot : Nat → Nat) (M : DenseMatrix)
    (h : rows ≤ fuel) :
    invertUnpivot fuel rows pivot M = some (Opm.invertUnpivot rows pivot M) := by
  unfold invertUnpivot Opm.invertUnpivot
  refine forDownFrom_eq _ _ rows fuel M h (fun i M1 _ => ?_)
  by_cases hp : i ≠ pivot i
  · simp only [if_pos hp]
    exact forUpTo_eq fuel 0 rows _ _ M1 (by omega) (fun _ _ _ _ => rfl)
  · simp only [if_neg hp]

theorem invert_returns (fuel : Nat) (checking : Bool) (p : FMatrixPrecision)
    (A : DenseMatrix) (h : A.rows ≤ fuel) :
    invert fuel checking p A = some (Opm.invert checking p A) := by
  unfold invert Opm.invert
  by_cases h0 : A.rows ≠ A.cols
  · rw [if_pos h0, if_pos h0]
  · rw [if_neg h0, if_neg h0]
    by_cases h1 : A.rows = 1
    · rw [if_pos h1, if_pos h1]
      split_ifs <;> rfl
    · rw [if_neg h1, if_neg h1]
      by_cases h2 : A.rows = 2
      · rw [if_pos h2, if_pos h2]
        simp only []
        split_ifs <;> rfl
      · rw [if_neg h2, if_neg h2, init_returns fuel A.rows _ h]
        simp only [Option.some_bind]
        rw [luDecomposition_returns fuel p A.rows A _ _ h h]
        simp only [Option.some_bind]
        generalize Opm.luDecomposition p A.rows A ElimPivot
          (Opm.ElimPivot.init A.rows fun _ => 0) = r
        obtain ⟨e, W, d⟩ := r
        cases e with
        | some e => rfl
        | none =>
          simp only [assignScalar_returns fuel A 0 h, Option.some_bind]
          rw [forUpTo_eq fuel 0 A.rows _ (fun i (M : DenseMatrix) => M.set i i 1) _ (by omega)
            (fun _ _ _ _ => rfl)]
          simp only [Option.some_bind, invertForward_returns fuel A.rows _ _ h,
            invertBackward_returns fuel A.rows _ _ h, invertUnpivot_returns fuel A.rows _ _ h,
            Option.map_some']
          rfl

end Stepwise

theorem whileLoop_diverges {σ : Type} (body : σ → σ) (fuel : Nat) :
    ∀ s : σ, whileLoop (fun _ => true) (fun t => some (body t)) fuel s = none := by
  induction fuel with
  | zero => intro s; rfl
  | succ m ih => intro s; exact ih (body s)

/-- C24: termination.  The methods are taken with their loops as `while` loops
on the counters, each run for at most `fuel` iterations; a loop that is not left
within the bound has no result.  For every matrix, of whatever dimension
`rows() >= 0`, and every input, a bound of `rows()` iterations per loop is
enough: `luDecomposition`, `solve`, `invert` and `determinant` return, with the
results of the embedding by structural loops.  `luDecomposition` throws nothing
or "matrix is singular", `solve` and `invert` in addition the exception of the
dimension check, `determinant` returns a value or throws the exception of the
dimension check.  Each of the three loop headers is left after `n - lo` resp.
`n` iterations whatever its body computes: the upward loops
`for (i = lo; i < n; i++)`, the back substitution loop of `solve`,
`for (int i = n-1; i >= 0; i--)`, and the countdown loops of `invert`,
`for (i = n; i > 0; ) { --i; ... }`.  On a 0 x 0 matrix no loop body runs:
`solve` returns `x = b`, `invert` the matrix, `determinant` 1. -/
theorem termination {σ τ : Type} (checking : Bool) (p : FMatrixPrecision) (A : DenseMatrix)
    (x b : Vec) (F : Func σ) (func : σ) (fuel : Nat) (hfuel : A.rows ≤ fuel)
    (body : Nat → τ → τ) (s : τ) (a : Nat → Nat → ℚ) :
    (Stepwise.luDecomposition fuel p A.rows A F func
        = some (luDecomposition p A.rows A F func) ∧
      ((luDecomposition p A.rows A F func).1 = none ∨
        (luDecomposition p A.rows A F func).1 = some FMatrixError.singular)) ∧
    (Stepwise.solve fuel checking p A x b = some (solve checking p A x b) ∧
      ((solve checking p A x b).1 = none ∨
        (solve checking p A x b).1 = some FMatrixError.notSquare ∨
        (solve checking p A x b).1 = some FMatrixError.singular)) ∧
    (Stepwise.invert fuel checking p A = some (invert checking p A) ∧
      ((invert checking p A).1 = none ∨
        (invert checking p A).1 = some FMatrixError.notSquare ∨
        (invert checking p A).1 = some FMatrixError.singular)) ∧
    (Stepwise.determinant fuel p A = some (determinant p A) ∧
      ((∃ d, determinant p A = Except.ok d) ∨
        determinant p A = Except.error FMatrixError.notSquare)) ∧
    (∀ lo n, n - lo ≤ fuel →
      Stepwise.forUpTo fuel lo n (fun k t => some (body k t)) s
        = some (forUp lo (n - lo) body s)) ∧
    (∀ n, n ≤ fuel →
      Stepwise.forDownInt fuel n (fun k t => some (body k.toNat t)) s
        = some (forDown n body s)) ∧
    (∀ n, n ≤ fuel →
      Stepwise.forDownFrom fuel n (fun k t => some (body k t)) s
        = some (forDown n body s)) ∧
    Stepwise.luDecomposition 0 p 0 ⟨0, 0, a⟩ F func = some (none, (⟨0, 0, a⟩, func)) ∧
    Stepwise.solve 0 checking p ⟨0, 0, a⟩ x b = some (none, b) ∧
    Stepwise.invert 0 checking p ⟨0, 0, a⟩ = some (none, ⟨0, 0, a⟩) ∧
    Stepwise.determinant 0 p ⟨0, 0, a⟩ = some (Except.ok 1) :=
  ⟨⟨Stepwise.luDecomposition_returns fuel p A.rows A F func hfuel hfuel,
      luLoop_error p A.rows A F func A.rows⟩,
    ⟨Stepwise.solve_returns fuel checking p A x b hfuel, solve_outcome checking p A x b⟩,
    ⟨Stepwise.invert_returns fuel checking p A hfuel, invert_outcome checking p A⟩,
    ⟨Stepwise.determinant_returns fuel p A hfuel, determinant_outcome p A⟩,
    fun lo n h => Stepwise.forUpTo_eq fuel lo n _ body s h (fun _ _ _ _ => rfl),
    fun n h => Stepwise.forDownInt_eq _ body n fuel s h
      (fun k t _ => by rw [Int.toNat_ofNat]),
    fun n h => Stepwise.forDownFrom_eq _ body n fuel s h (fun _ _ _ => rfl),
    Stepwise.luDecomposition_returns 0 p 0 ⟨0, 0, a⟩ F func (Nat.le_refl 0) (Nat.le_refl 0),
    Stepwise.solve_returns 0 checking p ⟨0, 0, a⟩ x b (Nat.le_refl 0),
    Stepwise.invert_returns 0 checking p ⟨0, 0, a⟩ (Nat.le_refl 0),
    Stepwise.determinant_returns 0 p ⟨0, 0, a⟩ (Nat.le_refl 0)⟩

/-- Instance of C24: on the regular 4 x 4 sample matrix with the right hand side
`(1, 2, 3, 4)`, four iterations per loop are enough for `solve`, `invert` and
`determinant`, which return the solution `(33/34, 29/34, -21/17, 3/17)`, an
inverse and the determinant 34; with three iterations per loop none of them
returns; and a loop whose condition never fails has no result, whatever the
bound. -/
theorem termination_witness :
    sampleRegular.rows ≤ 4 ∧
    (Stepwise.solve 4 false FMatrixPrecision.initial sampleRegular (fun _ => 0) sampleRhs).map
      (fun r => (r.1, r.2 0, r.2 1, r.2 2, r.2 3))
      = some (none, 33 / 34, 29 / 34, -21 / 17, 3 / 17) ∧
    (Stepwise.invert 4 false FMatrixPrecision.initial sampleRegular).map (fun r => r.1)
      = some none ∧
    Stepwise.determinant 4 FMatrixPrecision.initial sampleRegular = some (Except.ok 34) ∧
    (Stepwise.solve 3 false FMatrixPrecision.initial sampleRegular (fun _ => 0)
      sampleRhs).isSome = false ∧
    (Stepwise.invert 3 false FMatrixPrecision.initial sampleRegular).isSome = false ∧
    (Stepwise.determinant 3 FMatrixPrecision.initial sampleRegular).isSome = false ∧
    (∀ fuel, whileLoop (fun _ => true) (fun t : Nat => some (t + 1)) fuel 0 = none) :=
  have h := termination false FMatrixPrecision.initial sampleRegular (fun _ => 0) sampleRhs
    Elim sampleRhs 4 (by decide) (fun k (t : Nat) => t + k) 0 sampleTwo
  ⟨by decide,
    (congrArg (Option.map fun r => (r.1, r.2 0, r.2 1, r.2 2, r.2 3)) h.2.1.1).trans
      (by decide!),
    (congrArg (Option.map fun r => r.1) h.2.2.1.1).trans (by decide!),
    h.2.2.2.1.1.trans (by decide!),
    by decide!, by decide!, by decide!,
    fun fuel => whileLoop_diverges (fun t => t + 1) fuel 0⟩

/-! ## Rounding, infinities and NaN: the kernel over `double` -/

namespace Ieee

theorem Double.eq_symmetric (a b : Double) : Double.eq a b = Double.eq b a := by
  cases a <;> cases b <;>
    first
    | rfl
    | exact decide_eq_decide.mpr ⟨Eq.symm, Eq.symm⟩

theorem Double.eq_transitive (a b c : Double) (h1 : Double.eq a b = true)
    (h2 : Double.eq b c = true) : Double.eq a c = true := by
  cases a <;> cases b <;> cases c <;> simp_all [Double.eq]

theorem Double.eq_reflexive (a : Double) : Double.eq a a = !a.isNaN := by
  cases a <;> simp [Double.eq, Double.isNaN]

theorem operator_eq_elementwise (A B : DenseMatrix) :
    operator_eq A B = true ↔
      ∀ i j, i < A.rows → j < A.cols → Double.eq (A.get i j) (B.get i j) = true := by
  unfold operator_eq
  constructor
  · intro h i j hi hj
    by_contra hne
    have hrow : rowNe A B i = true := by
      unfold rowNe
      rw [anyUp_spec]
      refine ⟨j, Nat.zero_le _, by omega, ?_⟩
      unfold Double.ne
      rw [Bool.not_eq_true] at hne
      rw [hne]
      rfl
    have hany : anyUp 0 A.rows (fun i => rowNe A B i) = true := by
      rw [anyUp_spec]
      exact ⟨i, Nat.zero_le _, by omega, hrow⟩
    rw [if_pos hany] at h
    exact absurd h (by decide)
  · intro h
    have hany : ¬ anyUp 0 A.rows (fun i => rowNe A B i) = true := by
      rw [anyUp_spec]
      rintro ⟨i, _, hi, hrow⟩
      unfold rowNe at hrow
      rw [anyUp_spec] at hrow
      obtain ⟨j, _, hj, hne⟩ := hrow
      unfold Double.ne at hne
      rw [h i j (by omega) (by omega)] at hne
      exact absurd hne (by decide)
    rw [if_neg hany]

/-- C11, the claim as stated fails for the scalar type `double`.  The entries of
the 3 x 3 matrix `[[1, 1, 0], [0, 3, 1+e], [1, 4, 1+e]]`, `e = 2^-52`, are
doubles and its last row is the sum of the other two, but the closed formula
returns `2^-52`: the product `3 * (1+e)` is rounded to `3 + 4e`.  The entries of
the 4 x 4 matrix `[[3, 1, 0, 0], [d, 0, 0, 1], [0, 0, 1, 0], [3+d, 1, 0, 1]]`,
`d = 2^-20`, are doubles and its last row is the sum of the first two, but
`luDecomposition` throws nothing and `determinant()` returns `-2^-52`: the
rounding error of the first elimination step is divided by the pivot `-d/3` of
the second. -/
theorem determinant_rounding :
    (∀ i, i < 3 → ∀ j, j < 3 →
      sampleRounding.get i j = Double.ofRat (sampleRounding.get i j).toRat) ∧
    (∀ j, j < 3 → (sampleRounding.get 2 j).toRat =
      (sampleRounding.get 0 j).toRat + (sampleRounding.get 1 j).toRat) ∧
    determinant FMatrixPrecision.initial sampleRounding
      = Except.ok (Double.fin false (1 / 2 ^ 52)) ∧
    (∀ i, i < 4 → ∀ j, j < 4 →
      sampleGrowth.get i j = Double.ofRat (sampleGrowth.get i j).toRat) ∧
    (∀ j, j < 4 → (sampleGrowth.get 3 j).toRat =
      (sampleGrowth.get 0 j).toRat + (sampleGrowth.get 1 j).toRat) ∧
    (luDecomposition FMatrixPrecision.initial 4 sampleGrowth ElimDet (ElimDet.init 0)).1
      = none ∧
    determinant FMatrixPrecision.initial sampleGrowth
      = Except.ok (Double.fin true (1 / 2 ^ 52)) := by
  refine ⟨by decide!, by decide!, by decide!, by decide!, by decide!, by decide!, by decide!⟩

/-- C22, the claim as stated fails for the scalar type `double`: `==` is not
reflexive.  Without checking, `invert()` turns the 1 x 1 matrix `[[0]]` into
`[[inf]]`, `leftmultiply` by `[[0]]` turns that into `[[NaN]]`, and on this
matrix `A == A` is false and `A != A` is true. -/
theorem equality_not_reflexive :
    (invert false FMatrixPrecision.initial sampleNull).1 = none ∧
    (invert false FMatrixPrecision.initial sampleNull).2.get 0 0 = Double.inf false ∧
    (leftmultiply (invert false FMatrixPrecision.initial sampleNull).2 sampleNull).map
      (fun A => (A.rows, A.cols, A.get 0 0, operator_eq A A, operator_ne A A))
      = some (1, 1, Double.nan, false, true) := by
  refine ⟨by decide!, by decide!, by decide!⟩

/-- C22, amended: equality is the element-wise comparison of the scalar type,
with no tolerance.  For matrices `A` and `B` of doubles of the same shape,
`A == B` holds if and only if `A[i][j] == B[i][j]` for every `i < rows()`,
`j < cols()`; `A != B` is the negation of `A == B`; `==` is symmetric and, with
any third matrix `C`, transitive; and `A == A` holds if and only if no entry of
`A` is a NaN. -/
theorem equality_elementwise (A B C : DenseMatrix)
    (hB : B.rows = A.rows ∧ B.cols = A.cols) :
    (operator_eq A B = true ↔
      ∀ i j, i < A.rows → j < A.cols → Double.eq (A.get i j) (B.get i j) = true) ∧
    operator_ne A B = !(operator_eq A B) ∧
    (operator_eq A A = true ↔
      ∀ i j, i < A.rows → j < A.cols → (A.get i j).isNaN = false) ∧
    operator_eq A B = operator_eq B A ∧
    (operator_eq A B = true → operator_eq B C = true → operator_eq A C = true) := by
  refine ⟨operator_eq_elementwise A B, rfl, ?_, ?_, ?_⟩
  · rw [operator_eq_elementwise]
    constructor
    · intro h i j hi hj
      have := h i j hi hj
      rw [Double.eq_reflexive] at this
      simpa using this
    · intro h i j hi hj
      rw [Double.eq_reflexive, h i j hi hj]
      rfl
  · have h : operator_eq A B = true ↔ operator_eq B A = true := by
      rw [operator_eq_elementwise, operator_eq_elementwise, hB.1, hB.2]
      exact ⟨fun h i j hi hj => (Double.eq_symmetric _ _).trans (h i j hi hj),
        fun h i j hi hj => (Double.eq_symmetric _ _).trans (h i j hi hj)⟩
    exact Bool.eq_iff_iff.mpr h
  · intro h1 h2
    rw [operator_eq_elementwise] at h1 h2 ⊢
    rw [hB.1, hB.2] at h2
    exact fun i j hi hj => Double.eq_transitive _ _ _ (h1 i j hi hj) (h2 i j hi hj)

/-- Instance of the amended C22: the 2 x 2 matrix of ones equals itself and
differs from the matrix `invert()` makes of it without checking, whose entries
are infinities; that one equals itself too. -/
theorem equality_elementwise_witness :
    (invert false FMatrixPrecision.initial sampleOnes).2.rows = sampleOnes.rows ∧
    (invert false FMatrixPrecision.initial sampleOnes).2.cols = sampleOnes.cols ∧
    operator_eq sampleOnes sampleOnes = true ∧
    operator_eq sampleOnes (invert false FMatrixPrecision.initial sampleOnes).2 = false ∧
    operator_ne sampleOnes (invert false FMatrixPrecision.initial sampleOnes).2 = true ∧
    operator_eq (invert false FMatrixPrecision.initial sampleOnes).2 sampleOnes = false :=
  have h := equality_elementwise sampleOnes
    (invert false FMatrixPrecision.initial sampleOnes).2 sampleOnes ⟨by decide!, by decide!⟩
  have hf : operator_eq sampleOnes (invert false FMatrixPrecision.initial sampleOnes).2
      = false := by decide!
  ⟨by decide!, by decide!, h.2.2.1.mpr (fun _ _ _ _ => (by decide! : (1 : Double).isNaN = false)), hf, by rw [h.2.1, hf]; rfl,
    by rw [← h.2.2.2.1, hf]⟩

/-- C40, the claim as stated fails: on `[[1, 1], [1, 1]]` and `b = (3, 2)`,
without checking, `solve`, `invert()` and `mv` all return without an exception;
`solve` gives `x = (inf, -inf)`, the inverted matrix is
`[[inf, -inf], [-inf, inf]]` and applying it to `b` gives `(NaN, NaN)`.  No
operation rounds: the entries are small integers and the only operation outside
the field operations is the division `1.0 / 0`. -/
theorem solve_invert_disagree :
    (solve false FMatrixPrecision.initial sampleOnes (fun _ => 0) sampleRhs).1 = none ∧
    (invert false FMatrixPrecision.initial sampleOnes).1 = none ∧
    (mv false (invert false FMatrixPrecision.initial sampleOnes).2 ⟨2, sampleRhs⟩
      ⟨2, fun _ => 0⟩).1 = none ∧
    (solve false FMatrixPrecision.initial sampleOnes (fun _ => 0) sampleRhs).2 0
      = Double.inf false ∧
    (solve false FMatrixPrecision.initial sampleOnes (fun _ => 0) sampleRhs).2 1
      = Double.inf true ∧
    (mv false (invert false FMatrixPrecision.initial sampleOnes).2 ⟨2, sampleRhs⟩
      ⟨2, fun _ => 0⟩).2.v 0 = Double.nan ∧
    (mv false (invert false FMatrixPrecision.initial sampleOnes).2 ⟨2, sampleRhs⟩
      ⟨2, fun _ => 0⟩).2.v 1 = Double.nan := by
  refine ⟨by decide!, by decide!, by decide!, by decide!, by decide!, by decide!, by decide!⟩

end Ieee

end Opm
